import Mathlib

/-!
# opencc: lexer, parser and code generator

A shallow embedding of the C sources (`token.c`, `lexer.c`, `ast.c`, `parser.c`,
`codegen.c`) together with the properties of the specification that are checked
against them.

Conventions of the embedding.

* A C string is a `List Char` / `String` without its terminating NUL; reading the
  byte at index `length` yields `NUL`.
* `int` counters (`position`, `line`, `column`, `label_count`) are natural numbers;
  they never reach `2^31` on inputs that fit in memory.
* Every `while` loop and every recursive descent takes a fuel argument and is
  structurally recursive in it; running out of fuel is a distinguished outcome
  (`none`, respectively `ParseError.out_of_fuel`) that is never confused with a
  result of the program.
* Memory allocation is assumed to succeed (`malloc`, `realloc`, `strdup` never
  return `NULL`).
-/

namespace OpenCC

/-! ## Tokens (`include/token.h`, `src/token.c`) -/

/-- The enumeration `TokenType` of `token.h`, in declaration order. -/
inductive TokenType where
  | TOKEN_INT | TOKEN_RETURN | TOKEN_IF | TOKEN_ELSE | TOKEN_WHILE | TOKEN_FOR | TOKEN_VOID
  | TOKEN_IDENTIFIER | TOKEN_NUMBER | TOKEN_STRING | TOKEN_CHAR
  | TOKEN_PLUS | TOKEN_MINUS | TOKEN_MULTIPLY | TOKEN_DIVIDE | TOKEN_MODULO | TOKEN_ASSIGN
  | TOKEN_EQ | TOKEN_NEQ | TOKEN_LT | TOKEN_GT | TOKEN_LEQ | TOKEN_GEQ
  | TOKEN_AND | TOKEN_OR | TOKEN_NOT
  | TOKEN_LPAREN | TOKEN_RPAREN | TOKEN_LBRACE | TOKEN_RBRACE
  | TOKEN_LBRACKET | TOKEN_RBRACKET | TOKEN_SEMICOLON | TOKEN_COMMA | TOKEN_DOT
  | TOKEN_EOF | TOKEN_ERROR
  deriving DecidableEq, Repr

open TokenType

/-- The struct `Token`: `value` is `none` for a `NULL` lexeme. -/
structure Token where
  type : TokenType
  value : Option String
  line : Nat
  column : Nat
  deriving DecidableEq, Repr

/-- The function `token_create`: copies its arguments into a fresh token. -/
def token_create (type : TokenType) (value : Option String) (line column : Nat) : Token :=
  { type := type, value := value, line := line, column := column }

/-! ## Lexer (`include/lexer.h`, `src/lexer.c`) -/

/-- The terminating byte of a C string. -/
def NUL : Char := Char.ofNat 0

/-- The struct `Lexer`. `source` holds the characters before the terminating NUL.
The members `position`, `line` and `column`, of type `int` in `lexer.h`, are kept
as natural numbers: a state of the C lexer is a state here as long as they are
at most `INT_MAX`, which they are on every source shorter than `INT_MAX`
characters (`lexer_next_token_checked_ok`). -/
structure Lexer where
  source : List Char
  position : Nat
  line : Nat
  column : Nat
  current_char : Char
  deriving DecidableEq, Repr

/-- The byte `source[i]` of the NUL-terminated buffer. -/
def Lexer.char_at (l : Lexer) (i : Nat) : Char := l.source.getD i NUL

/-- The function `lexer_create`: `strdup` keeps the characters before the first NUL. -/
def lexer_create (source : List Char) : Lexer :=
  let src := source.takeWhile (fun c => c != NUL)
  { source := src, position := 0, line := 1, column := 1, current_char := src.getD 0 NUL }

/-- The function `lexer_advance`. The increments are those of the C function
while the counters stay within `int`; where one would leave `int`,
`lexer_advance_checked` stops. -/
def lexer_advance (l : Lexer) : Lexer :=
  { source := l.source
    position := l.position + 1
    line := if l.current_char = '\n' then l.line + 1 else l.line
    column := if l.current_char = '\n' then 1 else l.column + 1
    current_char := l.char_at (l.position + 1) }

/-- The function `lexer_peek`. -/
def lexer_peek (l : Lexer) : Char := l.char_at (l.position + 1)

/-- The predicate `isspace` of `<ctype.h>` in the C locale. -/
def isspace (c : Char) : Bool :=
  c = ' ' || c = '\t' || c = '\n' || c = '\x0b' || c = '\x0c' || c = '\r'

/-- The predicate `isdigit` of `<ctype.h>`. -/
def isdigit (c : Char) : Bool := 48 ≤ c.toNat && c.toNat ≤ 57

/-- The predicate `isalpha` of `<ctype.h>` in the C locale. -/
def isalpha (c : Char) : Bool :=
  (65 ≤ c.toNat && c.toNat ≤ 90) || (97 ≤ c.toNat && c.toNat ≤ 122)

/-- The predicate `isalnum` of `<ctype.h>` in the C locale. -/
def isalnum (c : Char) : Bool := isalpha c || isdigit c

/-- Fuel that suffices for any loop of the lexer started in state `l`: every
iteration advances the cursor, and the cursor stops at the terminating NUL. -/
def lexer_fuel (l : Lexer) : Nat := l.source.length - l.position + 2

/-- The loop of `lexer_skip_whitespace`. -/
def lexer_skip_whitespace_loop : Nat → Lexer → Option Lexer
  | 0, _ => none
  | fuel + 1, l =>
    if l.current_char ≠ NUL ∧ isspace l.current_char = true then
      lexer_skip_whitespace_loop fuel (lexer_advance l)
    else some l

/-- The function `lexer_skip_whitespace`. -/
def lexer_skip_whitespace (l : Lexer) : Option Lexer :=
  lexer_skip_whitespace_loop (lexer_fuel l) l

/-- The loop of the `//` branch of `lexer_skip_comment`. -/
def lexer_skip_line_comment_loop : Nat → Lexer → Option Lexer
  | 0, _ => none
  | fuel + 1, l =>
    if l.current_char ≠ NUL ∧ l.current_char ≠ '\n' then
      lexer_skip_line_comment_loop fuel (lexer_advance l)
    else some l

/-- The loop of the `/*` branch of `lexer_skip_comment`. -/
def lexer_skip_block_comment_loop : Nat → Lexer → Option Lexer
  | 0, _ => none
  | fuel + 1, l =>
    if l.current_char = NUL then some l
    else if l.current_char = '*' ∧ lexer_peek l = '/' then
      some (lexer_advance (lexer_advance l))
    else lexer_skip_block_comment_loop fuel (lexer_advance l)

/-- The function `lexer_skip_comment`. -/
def lexer_skip_comment (l : Lexer) : Option Lexer :=
  if l.current_char = '/' ∧ lexer_peek l = '/' then
    lexer_skip_line_comment_loop (lexer_fuel l) l
  else if l.current_char = '/' ∧ lexer_peek l = '*' then
    lexer_skip_block_comment_loop (lexer_fuel l) (lexer_advance (lexer_advance l))
  else some l

/-- The loop of `lexer_make_number`; `buffer` holds the `i` characters stored so far. -/
def lexer_make_number_loop : Nat → List Char → Lexer → Option (List Char × Lexer)
  | 0, _, _ => none
  | fuel + 1, buffer, l =>
    if l.current_char ≠ NUL ∧ isdigit l.current_char = true then
      lexer_make_number_loop fuel
        (if buffer.length < 255 then buffer ++ [l.current_char] else buffer) (lexer_advance l)
    else some (buffer, l)

/-- The function `lexer_make_number`. -/
def lexer_make_number (l : Lexer) : Option (Token × Lexer) :=
  (lexer_make_number_loop (lexer_fuel l) [] l).map fun r =>
    (token_create TOKEN_NUMBER (some (String.mk r.1)) l.line l.column, r.2)

/-- The loop of `lexer_make_identifier`. -/
def lexer_make_identifier_loop : Nat → List Char → Lexer → Option (List Char × Lexer)
  | 0, _, _ => none
  | fuel + 1, buffer, l =>
    if l.current_char ≠ NUL ∧ (isalnum l.current_char = true ∨ l.current_char = '_') then
      lexer_make_identifier_loop fuel
        (if buffer.length < 255 then buffer ++ [l.current_char] else buffer) (lexer_advance l)
    else some (buffer, l)

/-- The keyword test at the end of `lexer_make_identifier`. -/
def keyword_type (buffer : String) : TokenType :=
  if buffer = "int" then TOKEN_INT
  else if buffer = "return" then TOKEN_RETURN
  else if buffer = "if" then TOKEN_IF
  else if buffer = "else" then TOKEN_ELSE
  else if buffer = "while" then TOKEN_WHILE
  else if buffer = "for" then TOKEN_FOR
  else if buffer = "void" then TOKEN_VOID
  else TOKEN_IDENTIFIER

/-- The function `lexer_make_identifier`. -/
def lexer_make_identifier (l : Lexer) : Option (Token × Lexer) :=
  (lexer_make_identifier_loop (lexer_fuel l) [] l).map fun r =>
    (token_create (keyword_type (String.mk r.1)) (some (String.mk r.1)) l.line l.column, r.2)

/-- The `switch (current)` of `lexer_next_token`, entered after the cursor has
moved past `current`; `l` is the lexer after that `lexer_advance`. -/
def lexer_operator (current : Char) (line column : Nat) (l : Lexer) : Token × Lexer :=
  if current = '+' then (token_create TOKEN_PLUS (some "+") line column, l)
  else if current = '-' then (token_create TOKEN_MINUS (some "-") line column, l)
  else if current = '*' then (token_create TOKEN_MULTIPLY (some "*") line column, l)
  else if current = '/' then (token_create TOKEN_DIVIDE (some "/") line column, l)
  else if current = '%' then (token_create TOKEN_MODULO (some "%") line column, l)
  else if current = '(' then (token_create TOKEN_LPAREN (some "(") line column, l)
  else if current = ')' then (token_create TOKEN_RPAREN (some ")") line column, l)
  else if current = '\x7b' then (token_create TOKEN_LBRACE (some "\x7b") line column, l)
  else if current = '\x7d' then (token_create TOKEN_RBRACE (some "\x7d") line column, l)
  else if current = '[' then (token_create TOKEN_LBRACKET (some "[") line column, l)
  else if current = ']' then (token_create TOKEN_RBRACKET (some "]") line column, l)
  else if current = ';' then (token_create TOKEN_SEMICOLON (some ";") line column, l)
  else if current = ',' then (token_create TOKEN_COMMA (some ",") line column, l)
  else if current = '.' then (token_create TOKEN_DOT (some ".") line column, l)
  else if current = '=' then
    if l.current_char = '=' then (token_create TOKEN_EQ (some "==") line column, lexer_advance l)
    else (token_create TOKEN_ASSIGN (some "=") line column, l)
  else if current = '!' then
    if l.current_char = '=' then (token_create TOKEN_NEQ (some "!=") line column, lexer_advance l)
    else (token_create TOKEN_NOT (some "!") line column, l)
  else if current = '<' then
    if l.current_char = '=' then (token_create TOKEN_LEQ (some "<=") line column, lexer_advance l)
    else (token_create TOKEN_LT (some "<") line column, l)
  else if current = '>' then
    if l.current_char = '=' then (token_create TOKEN_GEQ (some ">=") line column, lexer_advance l)
    else (token_create TOKEN_GT (some ">") line column, l)
  else if current = '&' ∧ l.current_char = '&' then
    (token_create TOKEN_AND (some "&&") line column, lexer_advance l)
  else if current = '|' ∧ l.current_char = '|' then
    (token_create TOKEN_OR (some "||") line column, lexer_advance l)
  else (token_create TOKEN_ERROR (some (String.mk [current])) line column, l)

/-- The `while (lexer->current_char)` loop of `lexer_next_token`, followed by the
end-of-file return. -/
def lexer_next_token_loop : Nat → Lexer → Option (Token × Lexer)
  | 0, _ => none
  | fuel + 1, l =>
    if l.current_char = NUL then
      some (token_create TOKEN_EOF none l.line l.column, l)
    else if isspace l.current_char = true then
      (lexer_skip_whitespace l).bind (lexer_next_token_loop fuel)
    else if l.current_char = '/' ∧ (lexer_peek l = '/' ∨ lexer_peek l = '*') then
      (lexer_skip_comment l).bind (lexer_next_token_loop fuel)
    else if isdigit l.current_char = true then lexer_make_number l
    else if isalpha l.current_char = true ∨ l.current_char = '_' then lexer_make_identifier l
    else some (lexer_operator l.current_char l.line l.column (lexer_advance l))

/-- The function `lexer_next_token`. -/
def lexer_next_token (l : Lexer) : Option (Token × Lexer) :=
  lexer_next_token_loop (lexer_fuel l) l

/-! ## Abstract syntax tree (`include/ast.h`, `src/ast.c`)

One constructor per `NodeType`, carrying the member of the union that belongs to
it. A child pointer is a subtree; the only pointer the parser ever leaves `NULL`
is `if_stmt.else_branch`, which is an `Option`. `NODE_FUNCTION` nodes always have
a body (a `NULL` body belongs to `NODE_EXTERN_FUNCTION`). -/

/-- The tagged union `ASTNode`. -/
inductive ASTNode where
  | program (functions : List ASTNode)
  | function (name : String) (params : List String) (body : ASTNode)
  | extern_function (name : String) (params : List String)
  | block (statements : List ASTNode)
  | return_stmt (expression : ASTNode)
  | if_stmt (condition then_branch : ASTNode) (else_branch : Option ASTNode)
  | while_stmt (condition body : ASTNode)
  | for_stmt
  | binary_op (operator : Char) (left right : ASTNode)
  | unary_op (operator : Char) (operand : ASTNode)
  | variable (name : String)
  | number (value : Int)
  | string (value : String)
  | char_literal (value : Char)
  | call (name : String) (args : List ASTNode)
  | assignment
  deriving Repr

mutual

/-- Boolean equality of trees. -/
def ASTNode.beq : ASTNode → ASTNode → Bool
  | .program f1, b => match b with
    | .program f2 => ASTNode.beq_list f1 f2
    | _ => false
  | .function n1 p1 b1, b => match b with
    | .function n2 p2 b2 => n1 == n2 && p1 == p2 && ASTNode.beq b1 b2
    | _ => false
  | .extern_function n1 p1, b => match b with
    | .extern_function n2 p2 => n1 == n2 && p1 == p2
    | _ => false
  | .block s1, b => match b with
    | .block s2 => ASTNode.beq_list s1 s2
    | _ => false
  | .return_stmt e1, b => match b with
    | .return_stmt e2 => ASTNode.beq e1 e2
    | _ => false
  | .if_stmt c1 t1 e1, b => match b with
    | .if_stmt c2 t2 e2 => ASTNode.beq c1 c2 && ASTNode.beq t1 t2 && ASTNode.beq_option e1 e2
    | _ => false
  | .while_stmt c1 b1, b => match b with
    | .while_stmt c2 b2 => ASTNode.beq c1 c2 && ASTNode.beq b1 b2
    | _ => false
  | .for_stmt, b => match b with
    | .for_stmt => true
    | _ => false
  | .binary_op o1 l1 r1, b => match b with
    | .binary_op o2 l2 r2 => o1 == o2 && ASTNode.beq l1 l2 && ASTNode.beq r1 r2
    | _ => false
  | .unary_op o1 a1, b => match b with
    | .unary_op o2 a2 => o1 == o2 && ASTNode.beq a1 a2
    | _ => false
  | .variable n1, b => match b with
    | .variable n2 => n1 == n2
    | _ => false
  | .number v1, b => match b with
    | .number v2 => v1 == v2
    | _ => false
  | .string v1, b => match b with
    | .string v2 => v1 == v2
    | _ => false
  | .char_literal v1, b => match b with
    | .char_literal v2 => v1 == v2
    | _ => false
  | .call n1 a1, b => match b with
    | .call n2 a2 => n1 == n2 && ASTNode.beq_list a1 a2
    | _ => false
  | .assignment, b => match b with
    | .assignment => true
    | _ => false

/-- Boolean equality of lists of trees. -/
def ASTNode.beq_list : List ASTNode → List ASTNode → Bool
  | [], b => match b with
    | [] => true
    | _ :: _ => false
  | a :: as, b => match b with
    | [] => false
    | b :: bs => ASTNode.beq a b && ASTNode.beq_list as bs

/-- Boolean equality of optional trees. -/
def ASTNode.beq_option : Option ASTNode → Option ASTNode → Bool
  | none, b => match b with
    | none => true
    | some _ => false
  | some a, b => match b with
    | none => false
    | some b => ASTNode.beq a b

end


/-- The function `ast_create_function`. -/
abbrev ast_create_function (name : String) (params : List String) (body : ASTNode) : ASTNode :=
  .function name params body

/-- The function `ast_create_return`. -/
abbrev ast_create_return (expression : ASTNode) : ASTNode := .return_stmt expression

/-- The function `ast_create_if`. -/
abbrev ast_create_if (condition then_branch : ASTNode) (else_branch : Option ASTNode) : ASTNode :=
  .if_stmt condition then_branch else_branch

/-- The function `ast_create_while`. -/
abbrev ast_create_while (condition body : ASTNode) : ASTNode := .while_stmt condition body

/-- The function `ast_create_binary_op`. -/
abbrev ast_create_binary_op (operator : Char) (left right : ASTNode) : ASTNode :=
  .binary_op operator left right

/-- The function `ast_create_number`. -/
abbrev ast_create_number (value : Int) : ASTNode := .number value

/-- The function `ast_create_variable`. -/
abbrev ast_create_variable (name : String) : ASTNode := .variable name

/-! ## Parser (`include/parser.h`, `src/parser.c`) -/

/-- The struct `Parser`. -/
structure Parser where
  lexer : Lexer
  current_token : Token
  peek_token : Token
  deriving DecidableEq, Repr

/-- The two ways a parse does not produce a tree: `parser_error` printed
`Error at line .., column ..: message` and called `exit(1)`, or the embedding
ran out of fuel. -/
inductive ParseError where
  | fatal (line column : Nat) (message : String)
  | out_of_fuel
  deriving DecidableEq, Repr

/-- Results of the parsing functions. -/
abbrev ParseM := Except ParseError

/-- The function `parser_error`: reports the position of the current token and exits. -/
def parser_error {α : Type} (p : Parser) (message : String) : ParseM α :=
  .error (.fatal p.current_token.line p.current_token.column message)

/-- A token pulled from the lexer inside the parser. -/
def parser_next_token (l : Lexer) : ParseM (Token × Lexer) :=
  match lexer_next_token l with
  | some r => .ok r
  | none => .error .out_of_fuel

/-- The function `parser_create`. -/
def parser_create (lexer : Lexer) : ParseM Parser := do
  let (t1, l1) ← parser_next_token lexer
  let (t2, l2) ← parser_next_token l1
  pure { lexer := l2, current_token := t1, peek_token := t2 }

/-- The function `parser_advance`. -/
def parser_advance (p : Parser) : ParseM Parser := do
  let (t, l) ← parser_next_token p.lexer
  pure { lexer := l, current_token := p.peek_token, peek_token := t }

/-- The function `parser_expect`. -/
def parser_expect (p : Parser) (type : TokenType) : ParseM (Bool × Parser) :=
  if p.current_token.type = type then do
    let p1 ← parser_advance p
    pure (true, p1)
  else pure (false, p)

/-- The lexeme of the current token (`parser->current_token->value`). -/
def Parser.lexeme (p : Parser) : String := p.current_token.value.getD ""

/-- Value of a list of decimal digit characters, most significant first. -/
def digits_value (cs : List Char) : Nat := cs.foldl (fun acc c => 10 * acc + (c.toNat - 48)) 0

/-- Reduction of an integer to the range of a C `int`, as a conversion to `int`
on the targets of the compiler does. -/
def wrap32 (x : Int) : Int := (x + 2 ^ 31) % 2 ^ 32 - 2 ^ 31

/-- The function `atoi` on a lexeme of decimal digits, whose result the parser
stores in an `int`: the value of the leading run of digits while it is in `int`
range. Beyond, the C standard leaves the result open; this is the `atoi` of
glibc, `(int) strtol(s, NULL, 10)`, where `strtol` stops at `LONG_MAX` and the
conversion keeps the low 32 bits. The parser calls it on `TOKEN_NUMBER` lexemes
only. -/
def atoi (s : String) : Int :=
  wrap32 ((min (digits_value (s.data.takeWhile isdigit)) (2 ^ 63 - 1) : Nat) : Int)

/-- The test of `parser_parse_expression` for a comparison operator. -/
def is_comparison (t : TokenType) : Bool :=
  t = TOKEN_GT || t = TOKEN_LT || t = TOKEN_GEQ || t = TOKEN_LEQ || t = TOKEN_EQ || t = TOKEN_NEQ

/-- The `switch (op_type)` of `parser_parse_expression`. -/
def comparison_operator (op_type : TokenType) : Char :=
  if op_type = TOKEN_GT then '>'
  else if op_type = TOKEN_LT then '<'
  else if op_type = TOKEN_GEQ then 'G'
  else if op_type = TOKEN_LEQ then 'L'
  else if op_type = TOKEN_EQ then 'E'
  else if op_type = TOKEN_NEQ then 'N'
  else '?'

mutual

/-- The function `parser_parse_expression`. -/
def parser_parse_expression : Nat → Parser → ParseM (ASTNode × Parser)
  | 0, _ => .error .out_of_fuel
  | fuel + 1, p => do
    let (left, p1) ← parser_parse_arithmetic fuel p
    if is_comparison p1.current_token.type = true then
      let op_type := p1.current_token.type
      let p2 ← parser_advance p1
      let (right, p3) ← parser_parse_arithmetic fuel p2
      pure (ast_create_binary_op (comparison_operator op_type) left right, p3)
    else pure (left, p1)

/-- The function `parser_parse_arithmetic`. -/
def parser_parse_arithmetic : Nat → Parser → ParseM (ASTNode × Parser)
  | 0, _ => .error .out_of_fuel
  | fuel + 1, p => do
    let (left, p1) ← parser_parse_term fuel p
    parser_parse_arithmetic_loop fuel left p1

/-- The `while` loop of `parser_parse_arithmetic`. -/
def parser_parse_arithmetic_loop : Nat → ASTNode → Parser → ParseM (ASTNode × Parser)
  | 0, _, _ => .error .out_of_fuel
  | fuel + 1, left, p =>
    if p.current_token.type = TOKEN_PLUS ∨ p.current_token.type = TOKEN_MINUS then do
      let op := if p.current_token.type = TOKEN_PLUS then '+' else '-'
      let p1 ← parser_advance p
      let (right, p2) ← parser_parse_term fuel p1
      parser_parse_arithmetic_loop fuel (ast_create_binary_op op left right) p2
    else pure (left, p)

/-- The function `parser_parse_term`. -/
def parser_parse_term : Nat → Parser → ParseM (ASTNode × Parser)
  | 0, _ => .error .out_of_fuel
  | fuel + 1, p => do
    let (left, p1) ← parser_parse_factor fuel p
    parser_parse_term_loop fuel left p1

/-- The `while` loop of `parser_parse_term`. -/
def parser_parse_term_loop : Nat → ASTNode → Parser → ParseM (ASTNode × Parser)
  | 0, _, _ => .error .out_of_fuel
  | fuel + 1, left, p =>
    if p.current_token.type = TOKEN_MULTIPLY ∨ p.current_token.type = TOKEN_DIVIDE then do
      let op := if p.current_token.type = TOKEN_MULTIPLY then '*' else '/'
      let p1 ← parser_advance p
      let (right, p2) ← parser_parse_factor fuel p1
      parser_parse_term_loop fuel (ast_create_binary_op op left right) p2
    else pure (left, p)

/-- The function `parser_parse_factor`. -/
def parser_parse_factor : Nat → Parser → ParseM (ASTNode × Parser)
  | 0, _ => .error .out_of_fuel
  | fuel + 1, p =>
    if p.current_token.type = TOKEN_NUMBER then do
      let value := atoi p.lexeme
      let p1 ← parser_advance p
      pure (ast_create_number value, p1)
    else if p.current_token.type = TOKEN_IDENTIFIER then do
      let name := p.lexeme
      let p1 ← parser_advance p
      pure (ast_create_variable name, p1)
    else if p.current_token.type = TOKEN_LPAREN then do
      let p1 ← parser_advance p
      let (expr, p2) ← parser_parse_expression fuel p1
      let (ok, p3) ← parser_expect p2 TOKEN_RPAREN
      if ok = false then parser_error p3 "Expected ')'"
      else pure (expr, p3)
    else if p.current_token.type = TOKEN_MINUS then do
      let p1 ← parser_advance p
      let (factor, p2) ← parser_parse_factor fuel p1
      pure (ast_create_binary_op '-' (ast_create_number 0) factor, p2)
    else parser_error p "Expected number, identifier, or '('"

end

/-- The function `parser_parse_return_statement`. -/
def parser_parse_return_statement (fuel : Nat) (p : Parser) : ParseM (ASTNode × Parser) := do
  let (ok, p1) ← parser_expect p TOKEN_RETURN
  if ok = false then parser_error p1 "Expected 'return'"
  else
    let (expr, p2) ← parser_parse_expression fuel p1
    let (ok2, p3) ← parser_expect p2 TOKEN_SEMICOLON
    if ok2 = false then parser_error p3 "Expected ';' after return statement"
    else pure (ast_create_return expr, p3)

/-- The function `parser_parse_variable_declaration`. -/
def parser_parse_variable_declaration (fuel : Nat) (p : Parser) : ParseM (ASTNode × Parser) := do
  let p1 ← parser_advance p
  if p1.current_token.type ≠ TOKEN_IDENTIFIER then parser_error p1 "Expected variable name"
  else
    let name := p1.lexeme
    let p2 ← parser_advance p1
    let (init_expr, p3) ←
      (if p2.current_token.type = TOKEN_ASSIGN then do
        let p21 ← parser_advance p2
        let (e, p22) ← parser_parse_expression fuel p21
        pure (some e, p22)
      else pure (none, p2) : ParseM (Option ASTNode × Parser))
    let (ok, p4) ← parser_expect p3 TOKEN_SEMICOLON
    if ok = false then parser_error p4 "Expected ';' after variable declaration"
    else
      let var_node := ast_create_variable name
      match init_expr with
      | some e => pure (ast_create_binary_op '=' var_node e, p4)
      | none => pure (var_node, p4)

/-- The function `parser_parse_assignment`. -/
def parser_parse_assignment (fuel : Nat) (p : Parser) : ParseM (ASTNode × Parser) :=
  if p.current_token.type ≠ TOKEN_IDENTIFIER then parser_error p "Expected identifier"
  else do
    let name := p.lexeme
    let p1 ← parser_advance p
    let (ok, p2) ← parser_expect p1 TOKEN_ASSIGN
    if ok = false then parser_error p2 "Expected '=' after identifier"
    else
      let (expr, p3) ← parser_parse_expression fuel p2
      let (ok2, p4) ← parser_expect p3 TOKEN_SEMICOLON
      if ok2 = false then parser_error p4 "Expected ';' after assignment"
      else pure (ast_create_binary_op '=' (ast_create_variable name) expr, p4)

mutual

/-- The function `parser_parse_block`. -/
def parser_parse_block : Nat → Parser → ParseM (ASTNode × Parser)
  | 0, _ => .error .out_of_fuel
  | fuel + 1, p => do
    let (ok, p1) ← parser_expect p TOKEN_LBRACE
    if ok = false then parser_error p1 "Expected '\x7b' at start of block"
    else
      let (statements, p2) ← parser_parse_block_loop fuel [] p1
      let (_, p3) ← parser_expect p2 TOKEN_RBRACE
      pure (ASTNode.block statements, p3)

/-- The `while` loop of `parser_parse_block`; `statements` is the array built so far. -/
def parser_parse_block_loop : Nat → List ASTNode → Parser → ParseM (List ASTNode × Parser)
  | 0, _, _ => .error .out_of_fuel
  | fuel + 1, statements, p =>
    if p.current_token.type ≠ TOKEN_RBRACE then do
      let (statement, p1) ← parser_parse_statement fuel p
      parser_parse_block_loop fuel (statements ++ [statement]) p1
    else pure (statements, p)

/-- The function `parser_parse_statement`. -/
def parser_parse_statement : Nat → Parser → ParseM (ASTNode × Parser)
  | 0, _ => .error .out_of_fuel
  | fuel + 1, p =>
    if p.current_token.type = TOKEN_RETURN then parser_parse_return_statement fuel p
    else if p.current_token.type = TOKEN_IF then parser_parse_if_statement fuel p
    else if p.current_token.type = TOKEN_WHILE then parser_parse_while_statement fuel p
    else if p.current_token.type = TOKEN_INT then parser_parse_variable_declaration fuel p
    else if p.current_token.type = TOKEN_IDENTIFIER then parser_parse_assignment fuel p
    else parser_error p "Expected statement"

/-- The function `parser_parse_if_statement`. -/
def parser_parse_if_statement : Nat → Parser → ParseM (ASTNode × Parser)
  | 0, _ => .error .out_of_fuel
  | fuel + 1, p => do
    let (ok, p1) ← parser_expect p TOKEN_IF
    if ok = false then parser_error p1 "Expected 'if'"
    else
      let (ok2, p2) ← parser_expect p1 TOKEN_LPAREN
      if ok2 = false then parser_error p2 "Expected '(' after 'if'"
      else
        let (condition, p3) ← parser_parse_expression fuel p2
        let (ok3, p4) ← parser_expect p3 TOKEN_RPAREN
        if ok3 = false then parser_error p4 "Expected ')' after if condition"
        else
          let (then_branch, p5) ← parser_parse_block fuel p4
          if p5.current_token.type = TOKEN_ELSE then
            let p6 ← parser_advance p5
            let (else_branch, p7) ← parser_parse_block fuel p6
            pure (ast_create_if condition then_branch (some else_branch), p7)
          else pure (ast_create_if condition then_branch none, p5)

/-- The function `parser_parse_while_statement`. -/
def parser_parse_while_statement : Nat → Parser → ParseM (ASTNode × Parser)
  | 0, _ => .error .out_of_fuel
  | fuel + 1, p => do
    let (ok, p1) ← parser_expect p TOKEN_WHILE
    if ok = false then parser_error p1 "Expected 'while'"
    else
      let (ok2, p2) ← parser_expect p1 TOKEN_LPAREN
      if ok2 = false then parser_error p2 "Expected '(' after 'while'"
      else
        let (condition, p3) ← parser_parse_expression fuel p2
        let (ok3, p4) ← parser_expect p3 TOKEN_RPAREN
        if ok3 = false then parser_error p4 "Expected ')' after while condition"
        else
          let (body, p5) ← parser_parse_block fuel p4
          pure (ast_create_while condition body, p5)

end

/-- The parameter loop of `parser_parse_function`; `params` is the array built so far. -/
def parser_parse_params_loop : Nat → List String → Parser → ParseM (List String × Parser)
  | 0, _, _ => .error .out_of_fuel
  | fuel + 1, params, p =>
    if p.current_token.type ≠ TOKEN_RPAREN then do
      let (ok, p1) ←
        (if params.length > 0 then parser_expect p TOKEN_COMMA else pure (true, p) :
          ParseM (Bool × Parser))
      if ok = false then parser_error p1 "Expected ',' between parameters"
      else
        let (ok2, p2) ← parser_expect p1 TOKEN_INT
        if ok2 = false then parser_error p2 "Expected parameter type"
        else if p2.current_token.type ≠ TOKEN_IDENTIFIER then
          parser_error p2 "Expected parameter name"
        else
          let name := p2.lexeme
          let p3 ← parser_advance p2
          parser_parse_params_loop fuel (params ++ [name]) p3
    else pure (params, p)

/-- The function `parser_parse_function`. -/
def parser_parse_function (fuel : Nat) (p : Parser) : ParseM (ASTNode × Parser) := do
  let (ok, p1) ← parser_expect p TOKEN_INT
  let (ok1, p2) ← (if ok = true then pure (true, p1) else parser_expect p1 TOKEN_VOID :
    ParseM (Bool × Parser))
  if ok1 = false then parser_error p2 "Expected function return type"
  else if p2.current_token.type ≠ TOKEN_IDENTIFIER then parser_error p2 "Expected function name"
  else
    let name := p2.lexeme
    let p3 ← parser_advance p2
    let (ok2, p4) ← parser_expect p3 TOKEN_LPAREN
    if ok2 = false then parser_error p4 "Expected '(' after function name"
    else
      let (params, p5) ← parser_parse_params_loop fuel [] p4
      let (_, p6) ← parser_expect p5 TOKEN_RPAREN
      let (body, p7) ← parser_parse_block fuel p6
      pure (ast_create_function name params body, p7)

/-- The `while` loop of `parser_parse_program`; `functions` is the array built so far. -/
def parser_parse_program_loop : Nat → List ASTNode → Parser → ParseM (List ASTNode × Parser)
  | 0, _, _ => .error .out_of_fuel
  | fuel + 1, functions, p =>
    if p.current_token.type ≠ TOKEN_EOF then do
      let (function, p1) ← parser_parse_function fuel p
      parser_parse_program_loop fuel (functions ++ [function]) p1
    else pure (functions, p)

/-- Fuel that suffices for a parse started in state `p`: every token is at least
one character of the source, and a chain of calls that consumes no token is
shorter than eight. -/
def parser_fuel (p : Parser) : Nat := 8 * (p.lexer.source.length + 4)

/-- The function `parser_parse_program`. -/
def parser_parse_program (p : Parser) : ParseM ASTNode := do
  let (functions, _) ← parser_parse_program_loop (parser_fuel p) [] p
  pure (ASTNode.program functions)

/-! ## Assembly listing

`codegen_emit` writes one line of text per call. The embedding keeps every line
as a value of `Line`, one constructor per instruction or directive that
`codegen.c` prints, and `Line.text` is the text that `vfprintf` produces for it
(without the newline that `codegen_emit` appends). -/

/-- Registers named in the format strings of `codegen.c`. -/
inductive Reg where
  | rax | rcx | rdx | rbx | rsp | rbp | rsi | rdi | r8 | r9 | r12 | r13 | r14 | r15
  deriving DecidableEq, Repr

/-- The AT&T spelling of a register. -/
def Reg.text : Reg → String
  | .rax => "%rax" | .rcx => "%rcx" | .rdx => "%rdx" | .rbx => "%rbx"
  | .rsp => "%rsp" | .rbp => "%rbp" | .rsi => "%rsi" | .rdi => "%rdi"
  | .r8 => "%r8" | .r9 => "%r9" | .r12 => "%r12" | .r13 => "%r13"
  | .r14 => "%r14" | .r15 => "%r15"

/-- One emitted line. -/
inductive Line where
  | section_directive (name : String)
  | global_directive (name : String)
  | type_directive (name : String)
  | align_directive (n : Nat)
  | size_directive (name : String)
  | label (name : String)
  | comment (text : String)
  | pushq (r : Reg)
  | popq (r : Reg)
  | movq_imm (value : Int) (dst : Reg)
  | movq_reg (src dst : Reg)
  | movq_store (src : Reg) (offset : Int) (base : Reg)
  | addq (src dst : Reg)
  | subq (src dst : Reg)
  | subq_imm (value : Int) (dst : Reg)
  | andq_imm (value : Int) (dst : Reg)
  | imulq (src dst : Reg)
  | cqo
  | idivq (r : Reg)
  | cmpq (src dst : Reg)
  | cmpq_imm (value : Int) (dst : Reg)
  | setg_al
  | setl_al
  | movzbq_al_rax
  | jmp (target : String)
  | je (target : String)
  | call (target : String)
  | ret
  | syscall
  deriving DecidableEq, Repr

/-- The text written for a line. -/
def Line.text : Line → String
  | .section_directive name => "\t.section " ++ name
  | .global_directive name => "\t.global " ++ name
  | .type_directive name => "\t.type " ++ name ++ ", @function"
  | .align_directive n => "\t.align " ++ toString n
  | .size_directive name => "\t.size " ++ name ++ ", .-" ++ name
  | .label name => name ++ ":"
  | .comment text => "\t# " ++ text
  | .pushq r => "\tpushq " ++ r.text
  | .popq r => "\tpopq " ++ r.text
  | .movq_imm value dst => "\tmovq $" ++ toString value ++ ", " ++ dst.text
  | .movq_reg src dst => "\tmovq " ++ src.text ++ ", " ++ dst.text
  | .movq_store src offset base =>
    "\tmovq " ++ src.text ++ ", " ++ toString offset ++ "(" ++ base.text ++ ")"
  | .addq src dst => "\taddq " ++ src.text ++ ", " ++ dst.text
  | .subq src dst => "\tsubq " ++ src.text ++ ", " ++ dst.text
  | .subq_imm value dst => "\tsubq $" ++ toString value ++ ", " ++ dst.text
  | .andq_imm value dst => "\tandq $" ++ toString value ++ ", " ++ dst.text
  | .imulq src dst => "\timulq " ++ src.text ++ ", " ++ dst.text
  | .cqo => "\tcqo"
  | .idivq r => "\tidivq " ++ r.text
  | .cmpq src dst => "\tcmpq " ++ src.text ++ ", " ++ dst.text
  | .cmpq_imm value dst => "\tcmpq $" ++ toString value ++ ", " ++ dst.text
  | .setg_al => "\tsetg %al"
  | .setl_al => "\tsetl %al"
  | .movzbq_al_rax => "\tmovzbq %al, %rax"
  | .jmp target => "\tjmp " ++ target
  | .je target => "\tje " ++ target
  | .call target => "\tcall " ++ target
  | .ret => "\tret"
  | .syscall => "\tsyscall"

/-! ## Code generator (`include/codegen.h`, `src/codegen.c`) -/

/-- The struct `CodeGenerator`; `output` is the list of lines written to the
output file so far. -/
structure CodeGenerator where
  output : List Line
  label_count : Nat
  deriving DecidableEq, Repr

/-- The table `arg_registers`. -/
def arg_registers : List Reg := [.rdi, .rsi, .rdx, .rcx, .r8, .r9]

/-- The constant `MAX_ARGS_IN_REGISTERS`. -/
def MAX_ARGS_IN_REGISTERS : Nat := 6

/-- The function `codegen_create`: the output file is opened empty. -/
def codegen_create : CodeGenerator := { output := [], label_count := 0 }

/-- The function `codegen_emit`. -/
def codegen_emit (gen : CodeGenerator) (line : Line) : CodeGenerator :=
  { gen with output := gen.output ++ [line] }

/-- The function `codegen_new_label`. -/
def codegen_new_label (gen : CodeGenerator) : String × CodeGenerator :=
  (".L" ++ toString gen.label_count, { gen with label_count := gen.label_count + 1 })

/-- The inner `switch (node->data.binary_op.operator)` of `codegen_expression`. -/
def codegen_binary_operator (gen : CodeGenerator) (operator : Char) : CodeGenerator :=
  if operator = '+' then codegen_emit gen (.addq .rcx .rax)
  else if operator = '-' then codegen_emit gen (.subq .rcx .rax)
  else if operator = '*' then codegen_emit gen (.imulq .rcx .rax)
  else if operator = '/' then codegen_emit (codegen_emit gen .cqo) (.idivq .rcx)
  else if operator = '>' then
    codegen_emit (codegen_emit (codegen_emit gen (.cmpq .rcx .rax)) .setg_al) .movzbq_al_rax
  else if operator = '<' then
    codegen_emit (codegen_emit (codegen_emit gen (.cmpq .rcx .rax)) .setl_al) .movzbq_al_rax
  else gen

/-- The function `codegen_expression`. -/
def codegen_expression (gen : CodeGenerator) : ASTNode → CodeGenerator
  | .number value => codegen_emit gen (.movq_imm value .rax)
  | .binary_op operator left right =>
    let gen1 := codegen_expression gen right
    let gen2 := codegen_emit gen1 (.pushq .rax)
    let gen3 := codegen_expression gen2 left
    let gen4 := codegen_emit gen3 (.popq .rcx)
    codegen_binary_operator gen4 operator
  | .variable _ => gen
  | _ => gen

mutual

/-- The function `codegen_statement`. -/
def codegen_statement (gen : CodeGenerator) : ASTNode → CodeGenerator
  | .return_stmt expression =>
    let gen1 := codegen_expression gen expression
    codegen_emit gen1 (.jmp ("." ++ "main" ++ "_return"))
  | .if_stmt condition then_branch else_branch =>
    let (else_label, gen1) := codegen_new_label gen
    let (end_label, gen2) := codegen_new_label gen1
    let gen3 := codegen_expression gen2 condition
    let gen4 := codegen_emit gen3 (.cmpq_imm 0 .rax)
    let gen5 := codegen_emit gen4 (.je else_label)
    let gen6 := codegen_block gen5 then_branch
    let gen7 := codegen_emit gen6 (.jmp end_label)
    let gen8 := codegen_emit gen7 (.label else_label)
    let gen9 := codegen_else gen8 else_branch
    codegen_emit gen9 (.label end_label)
  | .while_stmt condition body =>
    let (start_label, gen1) := codegen_new_label gen
    let (end_label, gen2) := codegen_new_label gen1
    let gen3 := codegen_emit gen2 (.label start_label)
    let gen4 := codegen_expression gen3 condition
    let gen5 := codegen_emit gen4 (.cmpq_imm 0 .rax)
    let gen6 := codegen_emit gen5 (.je end_label)
    let gen7 := codegen_block gen6 body
    let gen8 := codegen_emit gen7 (.jmp start_label)
    codegen_emit gen8 (.label end_label)
  | node => codegen_expression gen node

/-- The guarded call `if (node->data.if_stmt.else_branch) codegen_block(...)`. -/
def codegen_else (gen : CodeGenerator) : Option ASTNode → CodeGenerator
  | some else_branch => codegen_block gen else_branch
  | none => gen

/-- The function `codegen_block`. -/
def codegen_block (gen : CodeGenerator) : ASTNode → CodeGenerator
  | .block statements => codegen_block_loop gen statements
  | _ => gen

/-- The `for` loop of `codegen_block`. -/
def codegen_block_loop (gen : CodeGenerator) : List ASTNode → CodeGenerator
  | [] => gen
  | statement :: rest => codegen_block_loop (codegen_statement gen statement) rest

end

/-- The `int` expression `(param_count * 8 + 15) & ~15` of `codegen_function`:
the 32-bit pattern of the result, computed on the patterns of the operands (the
pattern of `~15` is `0xFFFFFFF0`), read as a two's-complement number. While
`param_count * 8 + 15` is in `int` range this is its value rounded down to a
multiple of 16; beyond, the sum wraps as the x86-64 code of the compiler does,
and from `param_count = 268435455` on the result can be negative or zero. -/
def stack_size (param_count : Nat) : Int :=
  let pattern := (param_count * 8 + 15) &&& 0xFFFFFFF0
  if pattern < 2 ^ 31 then (pattern : Int) else (pattern : Int) - 2 ^ 32

/-- The parameter loop of `codegen_function`, for `i` from `i` upwards over the
remaining entries of `arg_registers`. -/
def codegen_params_loop (gen : CodeGenerator) (param_count : Nat) :
    Nat → List Reg → CodeGenerator
  | _, [] => gen
  | i, r :: rest =>
    if i < param_count ∧ i < MAX_ARGS_IN_REGISTERS then
      codegen_params_loop (codegen_emit gen (.movq_store r (-(((i : Int) + 1) * 8)) .rbp))
        param_count (i + 1) rest
    else gen

/-- The function `codegen_function`. -/
def codegen_function (gen : CodeGenerator) : ASTNode → CodeGenerator
  | .function name params body =>
    let gen := codegen_emit gen (.align_directive 16)
    let gen := codegen_emit gen (.label name)
    let gen := codegen_emit gen (.pushq .rbp)
    let gen := codegen_emit gen (.movq_reg .rsp .rbp)
    let gen := if stack_size params.length > 0 then
      codegen_emit gen (.subq_imm (stack_size params.length) .rsp) else gen
    let gen := codegen_emit gen (.pushq .rbx)
    let gen := codegen_emit gen (.pushq .r12)
    let gen := codegen_emit gen (.pushq .r13)
    let gen := codegen_emit gen (.pushq .r14)
    let gen := codegen_emit gen (.pushq .r15)
    let gen := codegen_params_loop gen params.length 0 arg_registers
    let gen := codegen_block gen body
    let gen := codegen_emit gen (.label ("." ++ name ++ "_return"))
    let gen := codegen_emit gen (.popq .r15)
    let gen := codegen_emit gen (.popq .r14)
    let gen := codegen_emit gen (.popq .r13)
    let gen := codegen_emit gen (.popq .r12)
    let gen := codegen_emit gen (.popq .rbx)
    let gen := codegen_emit gen (.movq_reg .rbp .rsp)
    let gen := codegen_emit gen (.popq .rbp)
    let gen := codegen_emit gen .ret
    codegen_emit gen (.size_directive name)
  | _ => gen

/-- The member `data.function.name` of a child of the program node; it is
populated for function and extern-function nodes only. -/
def ASTNode.function_name : ASTNode → Option String
  | .function name _ _ => some name
  | .extern_function name _ => some name
  | _ => none

/-- The first `for` loop of `codegen_generate`. -/
def codegen_declarations (gen : CodeGenerator) : List String → CodeGenerator
  | [] => gen
  | name :: rest =>
    codegen_declarations
      (codegen_emit (codegen_emit gen (.global_directive name)) (.type_directive name)) rest

/-- The second `for` loop of `codegen_generate`. -/
def codegen_functions (gen : CodeGenerator) : List ASTNode → CodeGenerator
  | [] => gen
  | function :: rest => codegen_functions (codegen_function gen function) rest

/-- The lines of the entry point that `codegen_generate` emits last. -/
def codegen_entry_point (gen : CodeGenerator) : CodeGenerator :=
  let gen := codegen_emit gen (.global_directive "_start")
  let gen := codegen_emit gen (.type_directive "_start")
  let gen := codegen_emit gen (.label "_start")
  let gen := codegen_emit gen (.comment "Set up stack frame")
  let gen := codegen_emit gen (.movq_reg .rsp .rbp)
  let gen := codegen_emit gen (.comment "Align stack to 16 bytes")
  let gen := codegen_emit gen (.andq_imm (-16) .rsp)
  let gen := codegen_emit gen (.call "main")
  let gen := codegen_emit gen (.comment "Exit syscall")
  let gen := codegen_emit gen (.movq_reg .rax .rdi)
  let gen := codegen_emit gen (.movq_imm 60 .rax)
  let gen := codegen_emit gen .syscall
  codegen_emit gen (.size_directive "_start")

/-- The function `codegen_generate`. It reads the program member of `ast` and the
function member of every child; the result is `none` when one of these members
is not the populated one. -/
def codegen_generate (gen : CodeGenerator) : ASTNode → Option CodeGenerator
  | .program functions =>
    (functions.mapM ASTNode.function_name).map fun names =>
      let gen := codegen_emit gen (.section_directive ".data")
      let gen := codegen_emit gen (.section_directive ".bss")
      let gen := codegen_emit gen (.section_directive ".text")
      let gen := codegen_declarations gen names
      let gen := codegen_functions gen functions
      codegen_entry_point gen
  | _ => none

/-! ### Lines emitted by one call

The lines that a call of a generator function appends to the output, and the
label counter it leaves, as functions of the label counter at the call. -/

/-- Lines appended by `codegen_expression`. -/
def expression_code (e : ASTNode) : List Line := (codegen_expression codegen_create e).output

/-- Lines appended by `codegen_statement` when the label counter is `k`. -/
def statement_code (k : Nat) (n : ASTNode) : List Line :=
  (codegen_statement { output := [], label_count := k } n).output

/-- Label counter after `codegen_statement` called with label counter `k`. -/
def statement_labels (k : Nat) (n : ASTNode) : Nat :=
  (codegen_statement { output := [], label_count := k } n).label_count

/-- Lines appended by `codegen_block` when the label counter is `k`. -/
def block_code (k : Nat) (n : ASTNode) : List Line :=
  (codegen_block { output := [], label_count := k } n).output

/-- Label counter after `codegen_block` called with label counter `k`. -/
def block_labels (k : Nat) (n : ASTNode) : Nat :=
  (codegen_block { output := [], label_count := k } n).label_count

/-- Lines appended by the guarded `codegen_block` call for the else branch. -/
def else_code (k : Nat) (n : Option ASTNode) : List Line :=
  (codegen_else { output := [], label_count := k } n).output

/-- Label counter after the guarded `codegen_block` call for the else branch. -/
def else_labels (k : Nat) (n : Option ASTNode) : Nat :=
  (codegen_else { output := [], label_count := k } n).label_count

/-- Lines appended by the statement loop of `codegen_block`. -/
def block_loop_code (k : Nat) (ns : List ASTNode) : List Line :=
  (codegen_block_loop { output := [], label_count := k } ns).output

/-- Label counter after the statement loop of `codegen_block`. -/
def block_loop_labels (k : Nat) (ns : List ASTNode) : Nat :=
  (codegen_block_loop { output := [], label_count := k } ns).label_count

/-- Lines appended by the parameter loop of `codegen_function`. -/
def params_code (param_count i : Nat) (regs : List Reg) : List Line :=
  (codegen_params_loop { output := [], label_count := 0 } param_count i regs).output

/-- Lines of the stack reservation of `codegen_function`. -/
def reserve_code (param_count : Nat) : List Line :=
  if stack_size param_count > 0 then [Line.subq_imm (stack_size param_count) Reg.rsp]
  else []

/-- Lines appended by the declaration loop of `codegen_generate`. -/
def declarations_code (names : List String) : List Line :=
  (codegen_declarations { output := [], label_count := 0 } names).output

/-- Lines appended by the function loop of `codegen_generate`. -/
def functions_code (k : Nat) (fs : List ASTNode) : List Line :=
  (codegen_functions { output := [], label_count := k } fs).output

/-- Label counter after the function loop of `codegen_generate`. -/
def functions_labels (k : Nat) (fs : List ASTNode) : Nat :=
  (codegen_functions { output := [], label_count := k } fs).label_count

/-- Lines of the entry point emitted by `codegen_generate`. -/
def entry_point_code : List Line :=
  (codegen_entry_point { output := [], label_count := 0 }).output

/-- Lines appended by `codegen_function` when the label counter is `k`. -/
def function_code (k : Nat) (n : ASTNode) : List Line :=
  (codegen_function { output := [], label_count := k } n).output

/-- Label counter after `codegen_function` called with label counter `k`. -/
def function_labels (k : Nat) (n : ASTNode) : Nat :=
  (codegen_function { output := [], label_count := k } n).label_count

/-- The pipeline of `main` in `main.c` from the source text to the lines written
to the output file. -/
def compile (source : List Char) : ParseM (Option CodeGenerator) := do
  let parser ← parser_create (lexer_create source)
  let ast ← parser_parse_program parser
  pure (codegen_generate codegen_create ast)

/-! ## Abstract x86-64 machine

The machine on which the emitted listing is run. Registers hold 64-bit
two's-complement values, represented by the integer in `[-2^63, 2^63)`.
Memory is a map from addresses to quadwords; the listings only access the
stack, at addresses that differ by multiples of eight. The stack is unbounded:
`pushq`, `popq`, `call` and `ret` move `%rsp` by eight without wrapping. Of the
flags only the outcome of the last `cmpq` is kept (`zf`: operands equal, `lt`:
destination less than source as signed numbers, that is `SF ≠ OF`), which is
all that `setg`, `setl` and `je` read. -/

/-- Reduction of an integer to the 64-bit two's-complement range. -/
def wrap64 (x : Int) : Int := (x + 2 ^ 63) % 2 ^ 64 - 2 ^ 63

/-- State of the machine apart from the program counter. -/
structure Machine where
  regs : Reg → Int
  mem : Int → Int
  zf : Bool
  lt : Bool

/-- Write a register. -/
def Machine.set (m : Machine) (r : Reg) (v : Int) : Machine :=
  { m with regs := fun r1 => if r1 = r then v else m.regs r1 }

/-- Write a quadword to memory. -/
def Machine.store (m : Machine) (a v : Int) : Machine :=
  { m with mem := fun a1 => if a1 = a then v else m.mem a1 }

/-- Push a quadword. -/
def Machine.push (m : Machine) (v : Int) : Machine :=
  (m.set .rsp (m.regs .rsp - 8)).store (m.regs .rsp - 8) v

/-- The value of a comparison of destination `a` with source `b`. -/
def Machine.compare (m : Machine) (a b : Int) : Machine :=
  { m with zf := decide (a = b), lt := decide (a < b) }

/-- Bitwise and of two 64-bit two's-complement values, computed on their
unsigned patterns. -/
def and64 (a b : Int) : Int := wrap64 (((a % 2 ^ 64).toNat &&& (b % 2 ^ 64).toNat : Nat) : Int)

/-- The register `%rax` with its low byte `%al` replaced by `b`. -/
def set_low_byte (rax : Int) (b : Bool) : Int := rax - rax % 256 + (if b then 1 else 0)

/-- Effect of a line that is not a transfer of control; `none` is a fault
(`#DE` of `idivq`). Directives, labels and comments have no effect. -/
def exec_line : Line → Machine → Option Machine
  | .pushq r, m => some (m.push (m.regs r))
  | .popq r, m => some ((m.set .rsp (m.regs .rsp + 8)).set r (m.mem (m.regs .rsp)))
  | .movq_imm value dst, m => some (m.set dst (wrap64 value))
  | .movq_reg src dst, m => some (m.set dst (m.regs src))
  | .movq_store src offset base, m => some (m.store (m.regs base + offset) (m.regs src))
  | .addq src dst, m => some (m.set dst (wrap64 (m.regs dst + m.regs src)))
  | .subq src dst, m => some (m.set dst (wrap64 (m.regs dst - m.regs src)))
  | .subq_imm value dst, m => some (m.set dst (wrap64 (m.regs dst - value)))
  | .andq_imm value dst, m => some (m.set dst (and64 (m.regs dst) value))
  | .imulq src dst, m => some (m.set dst (wrap64 (m.regs dst * m.regs src)))
  | .cqo, m => some (m.set .rdx (if m.regs .rax < 0 then -1 else 0))
  | .idivq r, m =>
    let dividend := m.regs .rdx * 2 ^ 64 + m.regs .rax % 2 ^ 64
    let divisor := m.regs r
    if divisor = 0 then none
    else if Int.tdiv dividend divisor < -(2 ^ 63) ∨ 2 ^ 63 ≤ Int.tdiv dividend divisor then none
    else some ((m.set .rax (Int.tdiv dividend divisor)).set .rdx (Int.tmod dividend divisor))
  | .cmpq src dst, m => some (m.compare (m.regs dst) (m.regs src))
  | .cmpq_imm value dst, m => some (m.compare (m.regs dst) value)
  | .setg_al, m => some (m.set .rax (set_low_byte (m.regs .rax) (!m.zf && !m.lt)))
  | .setl_al, m => some (m.set .rax (set_low_byte (m.regs .rax) m.lt))
  | .movzbq_al_rax, m => some (m.set .rax (m.regs .rax % 256))
  | _, m => some m

/-- Run a straight-line list of lines from top to bottom. -/
def exec_lines : List Line → Machine → Option Machine
  | [], m => some m
  | line :: rest, m => (exec_line line m).bind (exec_lines rest)

/-- Index of the line that defines a label. -/
def find_label (listing : List Line) (name : String) : Option Nat :=
  let i := listing.indexOf (Line.label name)
  if i < listing.length then some i else none

/-- What one step of the machine leads to. -/
inductive Outcome where
  | running (m : Machine) (pc : Nat)
  | exited (status : Int)
  | fault

/-- One step of the machine at line `pc` of the listing. `syscall` is the exit
system call when `%rax` is 60, and the exit status is `%rdi` modulo 256. -/
def step (listing : List Line) (m : Machine) (pc : Nat) : Outcome :=
  match listing.get? pc with
  | none => .fault
  | some (.jmp target) =>
    match find_label listing target with
    | some i => .running m i
    | none => .fault
  | some (.je target) =>
    if m.zf = true then
      match find_label listing target with
      | some i => .running m i
      | none => .fault
    else .running m (pc + 1)
  | some (.call target) =>
    match find_label listing target with
    | some i => .running (m.push (pc + 1)) i
    | none => .fault
  | some .ret =>
    .running (m.set .rsp (m.regs .rsp + 8)) (m.mem (m.regs .rsp)).toNat
  | some .syscall =>
    if m.regs .rax = 60 then .exited (m.regs .rdi % 256) else .fault
  | some line =>
    match exec_line line m with
    | some m1 => .running m1 (pc + 1)
    | none => .fault

/-- Run the machine for at most `fuel` steps; the result is the exit status if
the program exits within these steps. -/
def run (listing : List Line) : Nat → Machine → Nat → Option Int
  | 0, _, _ => none
  | fuel + 1, m, pc =>
    match step listing m pc with
    | .running m1 pc1 => run listing fuel m1 pc1
    | .exited status => some status
    | .fault => none

/-- Run a listing from its `_start` label. -/
def run_from_start (listing : List Line) (fuel : Nat) (m : Machine) : Option Int :=
  match find_label listing "_start" with
  | some i => run listing fuel m i
  | none => none

/-- A machine state with every register and every memory cell zero. -/
def Machine.zero : Machine :=
  { regs := fun _ => 0, mem := fun _ => 0, zf := false, lt := false }

/-- The tree that `parser_parse_expression` builds for a source text. -/
def parse_expression_text (source : String) : ParseM ASTNode := do
  let parser ← parser_create (lexer_create source.data)
  let (e, _) ← parser_parse_expression (parser_fuel parser) parser
  pure e

/-- The value left in `%rax` by the code of the expression parsed from a source
text, run on the zero machine. -/
def run_expression_text (source : String) : ParseM (Option Int) := do
  let e ← parse_expression_text source
  pure ((exec_lines (expression_code e) Machine.zero).map fun m => m.regs Reg.rax)

/-! ## Arithmetic expressions and their value -/

/-- Expressions built only from number literals and binary nodes with one of the
operators `+`, `-`, `*`, `/`. -/
def is_arithmetic : ASTNode → Bool
  | .number _ => true
  | .binary_op operator left right =>
    (operator = '+' || operator = '-' || operator = '*' || operator = '/') &&
      is_arithmetic left && is_arithmetic right
  | _ => false

/-- The value of an arithmetic expression: left operand, operator, right
operand, with division truncating toward zero and every result reduced to the
64-bit two's-complement range. -/
def eval_arithmetic : ASTNode → Int
  | .number value => wrap64 value
  | .binary_op operator left right =>
    if operator = '+' then wrap64 (eval_arithmetic left + eval_arithmetic right)
    else if operator = '-' then wrap64 (eval_arithmetic left - eval_arithmetic right)
    else if operator = '*' then wrap64 (eval_arithmetic left * eval_arithmetic right)
    else if operator = '/' then wrap64 (Int.tdiv (eval_arithmetic left) (eval_arithmetic right))
    else 0
  | _ => 0

/-- No division in the expression divides by zero or divides the least 64-bit
integer by -1. -/
def division_defined : ASTNode → Prop
  | .binary_op operator left right =>
    division_defined left ∧ division_defined right ∧
      (operator = '/' → eval_arithmetic right ≠ 0 ∧
        ¬ (eval_arithmetic left = -(2 ^ 63) ∧ eval_arithmetic right = -1))
  | _ => True

/-! ## Shape of a program (data model of the specification, section 3)

A program node holds function nodes, a function body and the branches of `if`
and `while` are blocks, a block holds statements, and conditions, return values
and the operands of operators are expressions. -/

mutual

/-- Expression nodes: literals, variables, operators over expressions, calls. -/
def is_expression : ASTNode → Bool
  | .number _ => true
  | .variable _ => true
  | .string _ => true
  | .char_literal _ => true
  | .binary_op _ left right => is_expression left && is_expression right
  | .unary_op _ operand => is_expression operand
  | .call _ args => all_expressions args
  | _ => false

/-- Every node of the list is an expression. -/
def all_expressions : List ASTNode → Bool
  | [] => true
  | e :: rest => is_expression e && all_expressions rest

end

mutual

/-- Statement nodes: return, if, while, or an expression. -/
def is_statement : ASTNode → Bool
  | .return_stmt expression => is_expression expression
  | .if_stmt condition then_branch else_branch =>
    is_expression condition && is_block then_branch && is_optional_block else_branch
  | .while_stmt condition body => is_expression condition && is_block body
  | .number _ => true
  | .variable _ => true
  | .string _ => true
  | .char_literal _ => true
  | .binary_op _ left right => is_expression left && is_expression right
  | .unary_op _ operand => is_expression operand
  | .call _ args => all_expressions args
  | _ => false

/-- An absent else branch, or a block. -/
def is_optional_block : Option ASTNode → Bool
  | none => true
  | some b => is_block b

/-- Block nodes whose children are statements. -/
def is_block : ASTNode → Bool
  | .block statements => all_statements statements
  | _ => false

/-- Every node of the list is a statement. -/
def all_statements : List ASTNode → Bool
  | [] => true
  | s :: rest => is_statement s && all_statements rest

end

/-- Identifiers as the lexer recognises them: a letter or underscore followed by
letters, digits and underscores. -/
def is_identifier (name : String) : Bool :=
  match name.data with
  | [] => false
  | c :: rest => (isalpha c || c = '_') && rest.all fun d => isalnum d || d = '_'

/-- Function nodes named by an identifier whose body is a block. -/
def is_function : ASTNode → Bool
  | .function name _ body => is_identifier name && is_block body
  | _ => false

/-- Program nodes whose children are function nodes. -/
def is_program : ASTNode → Bool
  | .program functions => functions.all is_function
  | _ => false

mutual

/-- Number of `if` and `while` nodes in a tree. -/
def count_if_while : ASTNode → Nat
  | .program functions => count_if_while_list functions
  | .function _ _ body => count_if_while body
  | .block statements => count_if_while_list statements
  | .return_stmt expression => count_if_while expression
  | .if_stmt condition then_branch else_branch =>
    1 + count_if_while condition + count_if_while then_branch +
      count_if_while_option else_branch
  | .while_stmt condition body => 1 + count_if_while condition + count_if_while body
  | .binary_op _ left right => count_if_while left + count_if_while right
  | .unary_op _ operand => count_if_while operand
  | .call _ args => count_if_while_list args
  | _ => 0

/-- Number of `if` and `while` nodes in a list of trees. -/
def count_if_while_list : List ASTNode → Nat
  | [] => 0
  | n :: rest => count_if_while n + count_if_while_list rest

/-- Number of `if` and `while` nodes in an optional tree. -/
def count_if_while_option : Option ASTNode → Nat
  | none => 0
  | some n => count_if_while n

end

/-- The label `.L<n>` that `codegen_new_label` returns when the counter is `n`. -/
def synthesized_label (n : Nat) : String := ".L" ++ toString n

/-! ## Fuel and results of the parser -/

/-- The result `y` is the result `x` unless `x` ran out of fuel. -/
def Settles {α : Type} (x y : ParseM α) : Prop := x ≠ .error .out_of_fuel → y = x

/-- The operator character that the loop of `parser_parse_arithmetic` takes from a
token, if it continues at that token. -/
def additive_operator (t : TokenType) : Option Char :=
  if t = TOKEN_PLUS then some '+' else if t = TOKEN_MINUS then some '-' else none

/-- The operator character that the loop of `parser_parse_term` takes from a
token, if it continues at that token. -/
def multiplicative_operator (t : TokenType) : Option Char :=
  if t = TOKEN_MULTIPLY then some '*' else if t = TOKEN_DIVIDE then some '/' else none

/-- The tree `BinaryOp(opn, ... BinaryOp(op1, first, T1) ..., Tn)`. -/
def left_nested (first : ASTNode) (rest : List (Char × ASTNode)) : ASTNode :=
  rest.foldl (fun acc x => ASTNode.binary_op x.1 acc x.2) first

/-- The parsing function `f`, started in state `p` with enough fuel, returns the
tree `t` and the state `q`. -/
def Parses (f : Nat → Parser → ParseM (ASTNode × Parser)) (p : Parser) (t : ASTNode)
    (q : Parser) : Prop :=
  ∃ n0, ∀ n, n0 ≤ n → f n p = .ok (t, q)

/-- From state `q` the tokens are `op1 x1 ... opn xn`: each `opi` is an operator
token for `oper`, each `xi` is parsed by `sub` into the tree `Ti`, and the token
after `xn`, current in `q1`, is not an operator token for `oper`. -/
inductive OperandChain (sub : Parser → ASTNode → Parser → Prop)
    (oper : TokenType → Option Char) : Parser → List (Char × ASTNode) → Parser → Prop where
  | done (q : Parser) (h : oper q.current_token.type = none) : OperandChain sub oper q [] q
  | more (q p1 q1 q2 : Parser) (op : Char) (t : ASTNode) (rest : List (Char × ASTNode))
      (h1 : oper q.current_token.type = some op) (h2 : parser_advance q = .ok p1)
      (h3 : sub p1 t q1) (h4 : OperandChain sub oper q1 rest q2) :
      OperandChain sub oper q ((op, t) :: rest) q2

/-- The function `parser_advance` applied `k` times. -/
def parser_advance_times : Nat → Parser → ParseM Parser
  | 0, p => pure p
  | k + 1, p => parser_advance p >>= parser_advance_times k

/-- The parser state for a source text after `parser_create` and `k` calls of
`parser_advance` (the state at the start of the empty source if lexing fails). -/
def parser_after (source : String) (k : Nat) : Parser :=
  match parser_create (lexer_create source.data) >>= parser_advance_times k with
  | .ok p => p
  | .error _ =>
    { lexer := lexer_create [], current_token := token_create TOKEN_EOF none 1 1,
      peek_token := token_create TOKEN_EOF none 1 1 }

/-- The cursor invariant: the cached character is the one under the cursor, and
the cursor is not beyond the terminating NUL. -/
def Lexer.cursor_ok (l : Lexer) : Prop :=
  l.current_char = l.char_at l.position ∧ l.position ≤ l.source.length


/-- The tokens before the end-of-file token that successive calls of
`lexer_next_token` return from state `l`. -/
inductive LexesTo : Lexer → List Token → Prop where
  | eof (l : Lexer) (t : Token) (l1 : Lexer) (h1 : lexer_next_token l = some (t, l1))
      (h2 : t.type = TOKEN_EOF) : LexesTo l []
  | token (l : Lexer) (t : Token) (l1 : Lexer) (ts : List Token)
      (h1 : lexer_next_token l = some (t, l1)) (h2 : t.type ≠ TOKEN_EOF)
      (h3 : LexesTo l1 ts) : LexesTo l (t :: ts)

/-- The tokens before the end-of-file token, collected by at most `n` calls of
`lexer_next_token`. -/
def lexer_tokens : Nat → Lexer → List Token
  | 0, _ => []
  | n + 1, l =>
    match lexer_next_token l with
    | none => []
    | some (t, l1) => if t.type = TOKEN_EOF then [] else t :: lexer_tokens n l1

/-- The token stream of a source text: the tokens that the parser pulls from a
fresh lexer, up to end-of-input. -/
def token_stream (source : List Char) : List Token :=
  lexer_tokens (source.length + 1) (lexer_create source)

/-- The parser state `p` has the tokens `ts` left before end-of-input: the
current token, the peek token, and what the lexer still yields. -/
def Parser.reads (p : Parser) (ts : List Token) : Prop :=
  p.lexer.cursor_ok ∧
  match ts with
  | [] => p.current_token.type = TOKEN_EOF ∧ p.peek_token.type = TOKEN_EOF ∧
      p.lexer.current_char = NUL
  | [t] => p.current_token = t ∧ t.type ≠ TOKEN_EOF ∧ p.peek_token.type = TOKEN_EOF ∧
      p.lexer.current_char = NUL
  | t :: u :: rest => p.current_token = t ∧ t.type ≠ TOKEN_EOF ∧ p.peek_token = u ∧
      u.type ≠ TOKEN_EOF ∧ LexesTo p.lexer rest

/-- The listing that `codegen_generate` writes for `int main() { return N; }`. -/
def return_listing (value : Int) : List Line :=
  [.section_directive ".data", .section_directive ".bss", .section_directive ".text",
   .global_directive "main", .type_directive "main",
   .align_directive 16, .label "main", .pushq .rbp, .movq_reg .rsp .rbp,
   .pushq .rbx, .pushq .r12, .pushq .r13, .pushq .r14, .pushq .r15,
   .movq_imm value .rax, .jmp ".main_return", .label ".main_return",
   .popq .r15, .popq .r14, .popq .r13, .popq .r12, .popq .rbx,
   .movq_reg .rbp .rsp, .popq .rbp, .ret, .size_directive "main",
   .global_directive "_start", .type_directive "_start", .label "_start",
   .comment "Set up stack frame", .movq_reg .rsp .rbp, .comment "Align stack to 16 bytes",
   .andq_imm (-16) .rsp, .call "main", .comment "Exit syscall", .movq_reg .rax .rdi,
   .movq_imm 60 .rax, .syscall, .size_directive "_start"]

/-- The lexer state with the characters `pre` behind the cursor and the characters
`suf` from the cursor on. -/
def lexer_at (pre suf : List Char) (line column : Nat) : Lexer :=
  { source := pre ++ suf, position := pre.length, line := line, column := column,
    current_char := suf.headD NUL }

/-- The source text `int main() { return N; }` with the digits `ds` for `N`. -/
def return_source (ds : List Char) : List Char :=
  "int main() \x7b return ".data ++ (ds ++ "; \x7d".data)

/-- The tokens of `return_source ds`. -/
def return_tokens (ds : List Char) : List Token :=
  [token_create TOKEN_INT (some "int") 1 1,
   token_create TOKEN_IDENTIFIER (some "main") 1 5,
   token_create TOKEN_LPAREN (some "(") 1 9,
   token_create TOKEN_RPAREN (some ")") 1 10,
   token_create TOKEN_LBRACE (some "\x7b") 1 12,
   token_create TOKEN_RETURN (some "return") 1 14,
   token_create TOKEN_NUMBER (some (String.mk ds)) 1 21,
   token_create TOKEN_SEMICOLON (some ";") 1 (21 + ds.length),
   token_create TOKEN_RBRACE (some "\x7d") 1 (21 + ds.length + 1 + 1)]

/-! ## Grammar of the specification, section 4.2

The grammar is written over token kinds. A starred or optional group of the
grammar is a nonterminal of its own: `optParams` is `paramList?`, `paramTail` is
`("," "int" IDENTIFIER)*`, `statements` is `statement*`, `arithmeticTail` is
`(("+"|"-") term)*` and `termTail` is `(("*"|"/") factor)*`. -/

/-- The nonterminals of the grammar. -/
inductive Nonterminal where
  | program | function | optParams | paramList | paramTail | block | statements | statement
  | returnStmt | ifStmt | whileStmt | varDecl | assignment
  | expression | arithmetic | arithmeticTail | term | termTail | factor
  deriving DecidableEq, Repr

/-- The relational operators `relOp`: `>`, `<`, `>=`, `<=`, `==`, `!=`. -/
def is_relOp (t : TokenType) : Prop :=
  t = TOKEN_GT ∨ t = TOKEN_LT ∨ t = TOKEN_GEQ ∨ t = TOKEN_LEQ ∨ t = TOKEN_EQ ∨ t = TOKEN_NEQ

/-- The sequence of token kinds `w` is derivable from a nonterminal, production
by production as the grammar lists them. -/
inductive Derives : Nonterminal → List TokenType → Prop where
  | program_nil : Derives .program []
  | program_cons (f fs : List TokenType) (h1 : Derives .function f) (h2 : Derives .program fs) :
      Derives .program (f ++ fs)
  | function (ret : TokenType) (params body : List TokenType)
      (h0 : ret = TOKEN_INT ∨ ret = TOKEN_VOID) (h1 : Derives .optParams params)
      (h2 : Derives .block body) :
      Derives .function
        (ret :: TOKEN_IDENTIFIER :: TOKEN_LPAREN :: (params ++ TOKEN_RPAREN :: body))
  | optParams_none : Derives .optParams []
  | optParams_some (w : List TokenType) (h : Derives .paramList w) : Derives .optParams w
  | paramList (tail : List TokenType) (h : Derives .paramTail tail) :
      Derives .paramList (TOKEN_INT :: TOKEN_IDENTIFIER :: tail)
  | paramTail_nil : Derives .paramTail []
  | paramTail_cons (tail : List TokenType) (h : Derives .paramTail tail) :
      Derives .paramTail (TOKEN_COMMA :: TOKEN_INT :: TOKEN_IDENTIFIER :: tail)
  | block (ss : List TokenType) (h : Derives .statements ss) :
      Derives .block (TOKEN_LBRACE :: (ss ++ [TOKEN_RBRACE]))
  | statements_nil : Derives .statements []
  | statements_cons (s ss : List TokenType) (h1 : Derives .statement s)
      (h2 : Derives .statements ss) : Derives .statements (s ++ ss)
  | statement_return (w : List TokenType) (h : Derives .returnStmt w) : Derives .statement w
  | statement_if (w : List TokenType) (h : Derives .ifStmt w) : Derives .statement w
  | statement_while (w : List TokenType) (h : Derives .whileStmt w) : Derives .statement w
  | statement_varDecl (w : List TokenType) (h : Derives .varDecl w) : Derives .statement w
  | statement_assignment (w : List TokenType) (h : Derives .assignment w) :
      Derives .statement w
  | returnStmt (e : List TokenType) (h : Derives .expression e) :
      Derives .returnStmt (TOKEN_RETURN :: (e ++ [TOKEN_SEMICOLON]))
  | ifStmt (c b : List TokenType) (h1 : Derives .expression c) (h2 : Derives .block b) :
      Derives .ifStmt (TOKEN_IF :: TOKEN_LPAREN :: (c ++ TOKEN_RPAREN :: b))
  | ifStmt_else (c b e : List TokenType) (h1 : Derives .expression c) (h2 : Derives .block b)
      (h3 : Derives .block e) :
      Derives .ifStmt (TOKEN_IF :: TOKEN_LPAREN :: (c ++ TOKEN_RPAREN :: (b ++ TOKEN_ELSE :: e)))
  | whileStmt (c b : List TokenType) (h1 : Derives .expression c) (h2 : Derives .block b) :
      Derives .whileStmt (TOKEN_WHILE :: TOKEN_LPAREN :: (c ++ TOKEN_RPAREN :: b))
  | varDecl : Derives .varDecl [TOKEN_INT, TOKEN_IDENTIFIER, TOKEN_SEMICOLON]
  | varDecl_init (e : List TokenType) (h : Derives .expression e) :
      Derives .varDecl (TOKEN_INT :: TOKEN_IDENTIFIER :: TOKEN_ASSIGN :: (e ++ [TOKEN_SEMICOLON]))
  | assignment (e : List TokenType) (h : Derives .expression e) :
      Derives .assignment (TOKEN_IDENTIFIER :: TOKEN_ASSIGN :: (e ++ [TOKEN_SEMICOLON]))
  | expression (a : List TokenType) (h : Derives .arithmetic a) : Derives .expression a
  | expression_rel (a : List TokenType) (op : TokenType) (b : List TokenType)
      (h1 : Derives .arithmetic a) (h0 : is_relOp op) (h2 : Derives .arithmetic b) :
      Derives .expression (a ++ op :: b)
  | arithmetic (t tail : List TokenType) (h1 : Derives .term t)
      (h2 : Derives .arithmeticTail tail) : Derives .arithmetic (t ++ tail)
  | arithmeticTail_nil : Derives .arithmeticTail []
  | arithmeticTail_cons (op : TokenType) (t tail : List TokenType)
      (h0 : op = TOKEN_PLUS ∨ op = TOKEN_MINUS) (h1 : Derives .term t)
      (h2 : Derives .arithmeticTail tail) : Derives .arithmeticTail (op :: (t ++ tail))
  | term (f tail : List TokenType) (h1 : Derives .factor f) (h2 : Derives .termTail tail) :
      Derives .term (f ++ tail)
  | termTail_nil : Derives .termTail []
  | termTail_cons (op : TokenType) (f tail : List TokenType)
      (h0 : op = TOKEN_MULTIPLY ∨ op = TOKEN_DIVIDE) (h1 : Derives .factor f)
      (h2 : Derives .termTail tail) : Derives .termTail (op :: (f ++ tail))
  | factor_number : Derives .factor [TOKEN_NUMBER]
  | factor_identifier : Derives .factor [TOKEN_IDENTIFIER]
  | factor_paren (e : List TokenType) (h : Derives .expression e) :
      Derives .factor (TOKEN_LPAREN :: (e ++ [TOKEN_RPAREN]))
  | factor_minus (f : List TokenType) (h : Derives .factor f) :
      Derives .factor (TOKEN_MINUS :: f)

/-- What a parsing function started with the tokens `ts` left is allowed to
return: a result whose state has a suffix `rest` of `ts` left, with `post` true
of the result and the tokens `w` consumed; running out of fuel only if `low`;
or a fatal error. -/
def Spec {α : Type} (ts : List Token) (low : Prop) (post : α → Parser → List Token → Prop)
    (x : ParseM (α × Parser)) : Prop :=
  match x with
  | .ok (a, q) => ∃ w rest, ts = w ++ rest ∧ q.reads rest ∧ post a q w
  | .error .out_of_fuel => low
  | .error (.fatal _ _ _) => True

/-- A parsing function either ran out of fuel or returned in a state that has
the tokens `rest` left. -/
def Accepts {α : Type} (rest : List Token) (x : ParseM (α × Parser)) : Prop :=
  x = .error .out_of_fuel ∨ ∃ a q, x = .ok (a, q) ∧ q.reads rest

/-- The kind of the first token of `ts`, end-of-input if there is none. -/
def next_kind (ts : List Token) : TokenType := (ts.head?.map Token.type).getD TOKEN_EOF

/-- What the derivation of `w` from a nonterminal means for the parsing function
of that nonterminal: started in a state that has tokens of kinds `w` and then
`rest` left, it consumes the tokens of `w`, if the token after them cannot
continue the nonterminal. -/
def Complete : Nonterminal → List TokenType → Prop
  | .program, w => ∀ n functions p ws, ws.map Token.type = w → p.reads ws →
      Accepts [] (parser_parse_program_loop n functions p)
  | .function, w => ∀ n p ws rest, ws.map Token.type = w → p.reads (ws ++ rest) →
      Accepts rest (parser_parse_function n p)
  | .optParams, w => ∀ n p ws rest, ws.map Token.type = w → p.reads (ws ++ rest) →
      next_kind rest = TOKEN_RPAREN → Accepts rest (parser_parse_params_loop n [] p)
  | .paramList, w => ∀ n p ws rest, ws.map Token.type = w → p.reads (ws ++ rest) →
      next_kind rest = TOKEN_RPAREN → Accepts rest (parser_parse_params_loop n [] p)
  | .paramTail, w => ∀ n params p ws rest, 0 < params.length → ws.map Token.type = w →
      p.reads (ws ++ rest) → next_kind rest = TOKEN_RPAREN →
      Accepts rest (parser_parse_params_loop n params p)
  | .block, w => ∀ n p ws rest, ws.map Token.type = w → p.reads (ws ++ rest) →
      Accepts rest (parser_parse_block n p)
  | .statements, w => ∀ n statements p ws rest, ws.map Token.type = w → p.reads (ws ++ rest) →
      next_kind rest = TOKEN_RBRACE → Accepts rest (parser_parse_block_loop n statements p)
  | .statement, w => ∀ n p ws rest, ws.map Token.type = w → p.reads (ws ++ rest) →
      next_kind rest ≠ TOKEN_ELSE → Accepts rest (parser_parse_statement n p)
  | .returnStmt, w => ∀ n p ws rest, ws.map Token.type = w → p.reads (ws ++ rest) →
      Accepts rest (parser_parse_return_statement n p)
  | .ifStmt, w => ∀ n p ws rest, ws.map Token.type = w → p.reads (ws ++ rest) →
      next_kind rest ≠ TOKEN_ELSE → Accepts rest (parser_parse_if_statement n p)
  | .whileStmt, w => ∀ n p ws rest, ws.map Token.type = w → p.reads (ws ++ rest) →
      Accepts rest (parser_parse_while_statement n p)
  | .varDecl, w => ∀ n p ws rest, ws.map Token.type = w → p.reads (ws ++ rest) →
      Accepts rest (parser_parse_variable_declaration n p)
  | .assignment, w => ∀ n p ws rest, ws.map Token.type = w → p.reads (ws ++ rest) →
      Accepts rest (parser_parse_assignment n p)
  | .expression, w => ∀ n p ws rest, ws.map Token.type = w → p.reads (ws ++ rest) →
      additive_operator (next_kind rest) = none →
      multiplicative_operator (next_kind rest) = none →
      is_comparison (next_kind rest) = false → Accepts rest (parser_parse_expression n p)
  | .arithmetic, w => ∀ n p ws rest, ws.map Token.type = w → p.reads (ws ++ rest) →
      additive_operator (next_kind rest) = none →
      multiplicative_operator (next_kind rest) = none →
      Accepts rest (parser_parse_arithmetic n p)
  | .arithmeticTail, w => ∀ n left p ws rest, ws.map Token.type = w → p.reads (ws ++ rest) →
      additive_operator (next_kind rest) = none →
      multiplicative_operator (next_kind rest) = none →
      Accepts rest (parser_parse_arithmetic_loop n left p)
  | .term, w => ∀ n p ws rest, ws.map Token.type = w → p.reads (ws ++ rest) →
      multiplicative_operator (next_kind rest) = none → Accepts rest (parser_parse_term n p)
  | .termTail, w => ∀ n left p ws rest, ws.map Token.type = w → p.reads (ws ++ rest) →
      multiplicative_operator (next_kind rest) = none →
      Accepts rest (parser_parse_term_loop n left p)
  | .factor, w => ∀ n p ws rest, ws.map Token.type = w → p.reads (ws ++ rest) →
      Accepts rest (parser_parse_factor n p)

/-- `n` further calls of `lexer_next_token` after a first result. -/
def lexer_next_token_again (n : Nat) (r : Option (Token × Lexer)) : Option (Token × Lexer) :=
  Nat.iterate (fun r => r.bind fun tl => lexer_next_token tl.2) n r

/-- What a loop or a call of the lexer keeps: the source and the cursor
invariant, and the cursor does not move back. -/
def Lexer.follows (l1 l : Lexer) : Prop :=
  l1.cursor_ok ∧ l1.source = l.source ∧ l.position ≤ l1.position

/-- The line and column that `lexer_advance` reaches from `(line, column)` by
moving over the characters `cs`. -/
def position_after (line column : Nat) : List Char → Nat × Nat
  | [] => (line, column)
  | c :: cs =>
    if c = '\n' then position_after (line + 1) 1 cs else position_after line (column + 1) cs

/-- The lexer state `lexer_at pre _ line column` after the cursor has moved over
the characters `k`, with `suf` from the cursor on. -/
def lexer_moved (pre : List Char) (line column : Nat) (k suf : List Char) : Lexer :=
  lexer_at (pre ++ k) suf (position_after line column k).1 (position_after line column k).2

/-- What the operator switch returns for the character `c`, seen from outside:
a token at the position given, not EOF, whose lexeme is `c` alone, with the
state unchanged, or `c` and the character after it, with the cursor moved by
one more; and the switch returns the same kind and lexeme in every state with
the same character after `c`, and when it reads the lexeme again, followed by a
blank or the end of the text. -/
def OperatorShape (c : Char) (line column : Nat) (l : Lexer) (r : Token × Lexer) : Prop :=
  ∃ body, r.1 = token_create r.1.type (some (String.mk body)) line column ∧
    r.1.type ≠ TOKEN_EOF ∧
    ((body = [c] ∧ r.2 = l ∧
        ∀ line1 column1 l1, (l1.current_char = ' ' ∨ l1.current_char = NUL ∨
            l1.current_char = l.current_char) →
          lexer_operator c line1 column1 l1 =
            (token_create r.1.type (some (String.mk body)) line1 column1, l1)) ∨
     (body = [c, l.current_char] ∧ r.2 = lexer_advance l ∧
        ∀ line1 column1 l1, l1.current_char = l.current_char →
          lexer_operator c line1 column1 l1 =
            (token_create r.1.type (some (String.mk body)) line1 column1, lexer_advance l1)))

/-- The characters that the operator switch of `lexer_next_token` has a case for. -/
def operator_chars : List Char :=
  ['+', '-', '*', '/', '%', '(', ')', '\x7b', '\x7d', '[', ']', ';', ',', '.', '=', '!', '<', '>',
   '&', '|']

/-- The lexeme `lexeme`, read again where a blank or the end of the text follows
it, is one token of kind `ty` with that lexeme. -/
def Relexes (ty : TokenType) (lexeme : List Char) : Prop :=
  ∀ pre line column k suf, (suf.headD NUL = ' ' ∨ suf.headD NUL = NUL) →
    lexer_next_token (lexer_moved pre line column k (lexeme ++ suf)) =
      some (token_create ty (some (String.mk lexeme)) (position_after line column k).1
          (position_after line column k).2,
        lexer_moved pre line column (k ++ lexeme) suf)

/-- One call of `lexer_next_token` with the text `suf` from the cursor on: it
moves over `skipped` (white space and comments) and `body` (the characters of
the token), returns the token of kind `ty` with lexeme `value` at the position
of the first character of `body`, and leaves `rest` from the cursor on. -/
def Finds (suf skipped body rest : List Char) (ty : TokenType) (value : Option String) : Prop :=
  suf = skipped ++ (body ++ rest) ∧
  ∀ pre line column k, lexer_next_token (lexer_moved pre line column k suf) =
    some (token_create ty value (position_after line column (k ++ skipped)).1
        (position_after line column (k ++ skipped)).2,
      lexer_moved pre line column (k ++ (skipped ++ body)) rest)

/-- The token found and its characters: end-of-input has no characters and
nothing after it; any other token has a lexeme that is the first 255 of its
characters, does not start with white space, and is read again as the same token. -/
def TokenText (body rest : List Char) (ty : TokenType) (value : Option String) : Prop :=
  (ty = TOKEN_EOF ∧ value = none ∧ body = [] ∧ rest = []) ∨
  (ty ≠ TOKEN_EOF ∧ body ≠ [] ∧ value = some (String.mk (body.take 255)) ∧
    isspace (body.headD NUL) = false ∧ Relexes ty (body.take 255))

/-- Kind and lexeme of a token, without its position. -/
def Token.content (t : Token) : TokenType × Option String := (t.type, t.value)

/-- The lexemes of a token list, with one space between consecutive lexemes. -/
def join_lexemes : List Token → List Char
  | [] => []
  | [t] => (t.value.getD "").data
  | t :: u :: ts => (t.value.getD "").data ++ ' ' :: join_lexemes (u :: ts)

/-- A token that is found again, with the same kind and lexeme, where its
lexeme stands before a space or the end of the text. -/
def Token.Relexable (t : Token) : Prop :=
  ∃ lexeme, t.value = some (String.mk lexeme) ∧ t.type ≠ TOKEN_EOF ∧ lexeme ≠ [] ∧
    isspace (lexeme.headD NUL) = false ∧ (∀ x ∈ lexeme, x ≠ NUL) ∧ Relexes t.type lexeme

/-- Token `t`, returned with cursor state `l1`, stands at offset `off` of the
text `src`: its line and column are those the cursor has after the first `off`
characters, and its characters are those from `off` to the cursor. -/
def Token.StandsAt (src : List Char) (t : Token) (l1 : Lexer) (off : Nat) : Prop :=
  l1.source = src ∧ off ≤ src.length ∧
  t.line = (position_after 1 1 (src.take off)).1 ∧
  t.column = (position_after 1 1 (src.take off)).2 ∧
  (t.type = TOKEN_EOF → off = src.length) ∧
  (t.type ≠ TOKEN_EOF → ∃ body, body ≠ [] ∧ body <+: src.drop off ∧
    t.value = some (String.mk (body.take 255)) ∧ isspace (body.headD NUL) = false ∧
    l1.position = off + body.length)

mutual

/-- Whether a tree contains a `NODE_UNARY_OP` node. -/
def ASTNode.has_unary_op : ASTNode → Bool
  | .program functions => ASTNode.has_unary_op_list functions
  | .function _ _ body => ASTNode.has_unary_op body
  | .extern_function _ _ => false
  | .block statements => ASTNode.has_unary_op_list statements
  | .return_stmt e => ASTNode.has_unary_op e
  | .if_stmt c t e =>
    ASTNode.has_unary_op c || ASTNode.has_unary_op t || ASTNode.has_unary_op_option e
  | .while_stmt c b => ASTNode.has_unary_op c || ASTNode.has_unary_op b
  | .for_stmt => false
  | .binary_op _ l r => ASTNode.has_unary_op l || ASTNode.has_unary_op r
  | .unary_op _ _ => true
  | .variable _ => false
  | .number _ => false
  | .string _ => false
  | .char_literal _ => false
  | .call _ args => ASTNode.has_unary_op_list args
  | .assignment => false

/-- Whether a tree of a list contains a `NODE_UNARY_OP` node. -/
def ASTNode.has_unary_op_list : List ASTNode → Bool
  | [] => false
  | a :: as => ASTNode.has_unary_op a || ASTNode.has_unary_op_list as

/-- Whether an optional tree contains a `NODE_UNARY_OP` node. -/
def ASTNode.has_unary_op_option : Option ASTNode → Bool
  | none => false
  | some a => ASTNode.has_unary_op a

end

/-- Every result that `x` returns satisfies `P`. -/
def Yields {α : Type} (P : α → Prop) (x : ParseM α) : Prop := ∀ a, x = .ok a → P a

/-- The tree of a result has no `NODE_UNARY_OP` node. -/
def Plain (r : ASTNode × Parser) : Prop := r.1.has_unary_op = false

/-- No tree of a list of a result has a `NODE_UNARY_OP` node. -/
def PlainList (r : List ASTNode × Parser) : Prop := ASTNode.has_unary_op_list r.1 = false

/-- Lines that the operator `switch` of `codegen_expression` emits for a
binary node with operator `op`. -/
def operator_code (op : Char) : List Line :=
  (codegen_binary_operator { output := [], label_count := 0 } op).output

mutual

/-- Every node of the tree satisfies `q`. -/
def ASTNode.all_nodes (q : ASTNode → Bool) : ASTNode → Bool
  | .program functions => q (.program functions) && ASTNode.all_nodes_list q functions
  | .function name params body => q (.function name params body) && ASTNode.all_nodes q body
  | .extern_function name params => q (.extern_function name params)
  | .block statements => q (.block statements) && ASTNode.all_nodes_list q statements
  | .return_stmt e => q (.return_stmt e) && ASTNode.all_nodes q e
  | .if_stmt c t e =>
    q (.if_stmt c t e) && ASTNode.all_nodes q c && ASTNode.all_nodes q t &&
      ASTNode.all_nodes_option q e
  | .while_stmt c b => q (.while_stmt c b) && ASTNode.all_nodes q c && ASTNode.all_nodes q b
  | .for_stmt => q .for_stmt
  | .binary_op op l r =>
    q (.binary_op op l r) && ASTNode.all_nodes q l && ASTNode.all_nodes q r
  | .unary_op op a => q (.unary_op op a) && ASTNode.all_nodes q a
  | .variable name => q (.variable name)
  | .number value => q (.number value)
  | .string value => q (.string value)
  | .char_literal value => q (.char_literal value)
  | .call name args => q (.call name args) && ASTNode.all_nodes_list q args
  | .assignment => q .assignment

/-- Every node of every tree of the list satisfies `q`. -/
def ASTNode.all_nodes_list (q : ASTNode → Bool) : List ASTNode → Bool
  | [] => true
  | a :: as => ASTNode.all_nodes q a && ASTNode.all_nodes_list q as

/-- Every node of the tree, when there is one, satisfies `q`. -/
def ASTNode.all_nodes_option (q : ASTNode → Bool) : Option ASTNode → Bool
  | none => true
  | some a => ASTNode.all_nodes q a

end

/-- Block nodes. -/
def ASTNode.is_block_node : ASTNode → Bool
  | .block _ => true
  | _ => false

/-- Function nodes whose body is a block node. -/
def ASTNode.is_function_node : ASTNode → Bool
  | .function _ _ body => body.is_block_node
  | _ => false

/-- A property of nodes that holds of every node the parser builds: of number,
variable, operator and return nodes whatever their children, of `if` and `while`
nodes whose branches are blocks, of blocks, of functions whose body is a block
and of programs whose children are such functions. -/
structure ParserNodes (q : ASTNode → Bool) : Prop where
  of_number : ∀ v, q (.number v) = true
  of_variable : ∀ x, q (.variable x) = true
  of_binary_op : ∀ op l r, q (.binary_op op l r) = true
  of_return_stmt : ∀ e, q (.return_stmt e) = true
  of_if_stmt : ∀ c t, t.is_block_node = true → q (.if_stmt c t none) = true
  of_if_else : ∀ c t e, t.is_block_node = true → e.is_block_node = true →
    q (.if_stmt c t (some e)) = true
  of_while_stmt : ∀ c b, b.is_block_node = true → q (.while_stmt c b) = true
  of_block : ∀ ss, q (.block ss) = true
  of_function : ∀ n ps b, b.is_block_node = true → q (.function n ps b) = true
  of_program : ∀ fs : List ASTNode, fs.all ASTNode.is_function_node = true →
    q (.program fs) = true

/-- The arity rules of the data model for one node: the children of a program
are function nodes with a block body, the body of a function, the then-branch
of an `if` and the body of a `while` are blocks, and an else-branch is absent or
a block. The condition of an `if` or `while`, the expression of a return and
both operands of an operator are members of type `ASTNode`, hence present. -/
def ASTNode.arity_ok : ASTNode → Bool
  | .program functions => functions.all ASTNode.is_function_node
  | .function _ _ body => body.is_block_node
  | .if_stmt _ t none => t.is_block_node
  | .if_stmt _ t (some e) => t.is_block_node && e.is_block_node
  | .while_stmt _ b => b.is_block_node
  | _ => true

/-- The terminals of the grammar of section 4.2. -/
def grammar_terminals : List TokenType :=
  [TOKEN_INT, TOKEN_VOID, TOKEN_IDENTIFIER, TOKEN_NUMBER, TOKEN_RETURN, TOKEN_IF, TOKEN_ELSE,
    TOKEN_WHILE, TOKEN_LPAREN, TOKEN_RPAREN, TOKEN_LBRACE, TOKEN_RBRACE, TOKEN_SEMICOLON,
    TOKEN_COMMA, TOKEN_ASSIGN, TOKEN_PLUS, TOKEN_MINUS, TOKEN_MULTIPLY, TOKEN_DIVIDE,
    TOKEN_GT, TOKEN_LT, TOKEN_GEQ, TOKEN_LEQ, TOKEN_EQ, TOKEN_NEQ]

/-- The token kinds a factor starts with. -/
def factor_starts : List TokenType := [TOKEN_NUMBER, TOKEN_IDENTIFIER, TOKEN_LPAREN, TOKEN_MINUS]

/-- In the sequence `prev :: w` every `return` is followed by a token that
starts a factor. -/
def returns_ok (prev : TokenType) : List TokenType → Bool
  | [] => prev != TOKEN_RETURN
  | k :: rest => (prev != TOKEN_RETURN || factor_starts.contains k) && returns_ok k rest

/-- After any token other than `return`, every `return` of `w` is followed by
a token that starts a factor. -/
def ReturnsOk (w : List TokenType) : Prop :=
  ∀ prev, prev ≠ TOKEN_RETURN → returns_ok prev w = true

/-- Nodes other than call nodes. -/
def ASTNode.not_call : ASTNode → Bool
  | .call _ _ => false
  | _ => true

/-- The double quote character. -/
def DQUOTE : Char := Char.ofNat 34

/-- The single quote character. -/
def SQUOTE : Char := Char.ofNat 39

/-- Lines `pushq <reg>`. -/
def Line.is_push : Line → Bool
  | .pushq _ => true
  | _ => false

/-- Lines `popq <reg>`. -/
def Line.is_pop : Line → Bool
  | .popq _ => true
  | _ => false

/-- Instructions that are neither push nor pop and do not write `%rsp`. -/
def Line.keeps_rsp : Line → Bool
  | .movq_imm _ dst => dst != Reg.rsp
  | .addq _ dst => dst != Reg.rsp
  | .subq _ dst => dst != Reg.rsp
  | .imulq _ dst => dst != Reg.rsp
  | .cqo => true
  | .idivq _ => true
  | .cmpq _ _ => true
  | .setg_al => true
  | .setl_al => true
  | .movzbq_al_rax => true
  | _ => false

/-- Number of binary nodes that `codegen_expression` lowers: those reached from
the root through binary nodes only. -/
def lowered_operators : ASTNode → Nat
  | .binary_op _ l r => 1 + lowered_operators l + lowered_operators r
  | _ => 0

mutual

/-- Number of binary nodes of a tree. -/
def count_binary_op : ASTNode → Nat
  | .program functions => count_binary_op_list functions
  | .function _ _ body => count_binary_op body
  | .block statements => count_binary_op_list statements
  | .return_stmt e => count_binary_op e
  | .if_stmt c t e => count_binary_op c + count_binary_op t + count_binary_op_option e
  | .while_stmt c b => count_binary_op c + count_binary_op b
  | .binary_op _ l r => 1 + count_binary_op l + count_binary_op r
  | .unary_op _ a => count_binary_op a
  | .call _ args => count_binary_op_list args
  | _ => 0

/-- Number of binary nodes of the trees of a list. -/
def count_binary_op_list : List ASTNode → Nat
  | [] => 0
  | n :: rest => count_binary_op n + count_binary_op_list rest

/-- Number of binary nodes of an optional tree. -/
def count_binary_op_option : Option ASTNode → Nat
  | none => 0
  | some n => count_binary_op n

end

/-- Expressions built from numbers, variables and binary nodes: those the
parser builds. -/
def operators_only : ASTNode → Bool
  | .number _ => true
  | .variable _ => true
  | .binary_op _ l r => operators_only l && operators_only r
  | _ => false

/-- In every prefix of the lines, the pops are at most `d` more than the
pushes. -/
def PrefixOk (d : Nat) (lines : List Line) : Prop :=
  ∀ k, (lines.take k).countP Line.is_pop ≤ d + (lines.take k).countP Line.is_push

/-- What the lines of an expression are: `n` pushes, `n` pops, no prefix with
more pops than pushes, and every line a push, `popq %rcx`, or an instruction
that does not write `%rsp`. -/
def ExprLines (n : Nat) (lines : List Line) : Prop :=
  lines.countP Line.is_push = n ∧ lines.countP Line.is_pop = n ∧ PrefixOk 0 lines ∧
    ∀ l ∈ lines, l.is_push = true ∨ l = Line.popq Reg.rcx ∨ l.keeps_rsp = true

/-- The label that a `jmp` or `je` line names. -/
def Line.jump_target : Line → Option String
  | .jmp target => some target
  | .je target => some target
  | _ => none

/-- The targets of the `jmp` and `je` lines of a listing, in order. -/
def jump_targets (lines : List Line) : List String := lines.filterMap Line.jump_target

/-- The labels that the lines define are synthesized labels numbered from `k`
up to `k1`, and their jumps go to such labels or to `.main_return`. -/
def LabelsWithin (k k1 : Nat) (lines : List Line) : Prop :=
  ∀ line ∈ lines,
    (∀ x, line = Line.label x → ∃ m, k ≤ m ∧ m < k1 ∧ x = synthesized_label m) ∧
    (∀ t, line.jump_target = some t →
      t = ".main_return" ∨ ∃ m, k ≤ m ∧ m < k1 ∧ t = synthesized_label m)

/-! ## Lexer with checked accesses and counters

`Lexer` keeps the `int` members `position`, `line` and `column` of `lexer.h` as
natural numbers, and `lexer_advance` increments them without bound: the
functions above are the functions of `lexer.c` as long as no counter exceeds
`INT_MAX`. Here are the functions of `lexer.c` once more, with every call of
`lexer_advance` and `lexer_peek` replaced by a checked one that stops with a
`LexFault` where the C code leaves defined behaviour. The buffer that `strdup`
allocates has `source.length + 1` bytes, the last one the terminating NUL, so an
index is inside it when it is at most `source.length`. The C operator `&&`
evaluates its right operand only when the left one holds, and the checked
functions read in that order. -/

/-- The largest value of a C `int` on the targets of the compiler. -/
def INT_MAX : Nat := 2147483647

/-- Why a checked lexer function stops without a result. -/
inductive LexFault where
  | out_of_fuel
  | advance_at_nul
  | counter_overflow
  | position_overflow
  | index_out_of_bounds
  deriving DecidableEq, Repr

/-- `lexer_advance`, checked in the order of its statements: it is not called at
the terminating NUL, `line++` or `column++` stays within `int`, `position++`
stays within `int`, and the index of `source[position]` is inside the buffer. -/
def lexer_advance_checked (l : Lexer) : Except LexFault Lexer :=
  if l.current_char = NUL then .error .advance_at_nul
  else if INT_MAX < (if l.current_char = '\n' then l.line else l.column) + 1 then
    .error .counter_overflow
  else if INT_MAX < l.position + 1 then .error .position_overflow
  else if l.source.length < l.position + 1 then .error .index_out_of_bounds
  else .ok (lexer_advance l)

/-- `lexer_peek`, checked: `position + 1` stays within `int` and is an index
inside the buffer. -/
def lexer_peek_checked (l : Lexer) : Except LexFault Char :=
  if INT_MAX < l.position + 1 then .error .position_overflow
  else if l.source.length < l.position + 1 then .error .index_out_of_bounds
  else .ok (lexer_peek l)

/-- The loop of `lexer_skip_whitespace`, checked. -/
def lexer_skip_whitespace_loop_checked : Nat → Lexer → Except LexFault Lexer
  | 0, _ => .error .out_of_fuel
  | fuel + 1, l =>
    if l.current_char ≠ NUL ∧ isspace l.current_char = true then
      (lexer_advance_checked l).bind (lexer_skip_whitespace_loop_checked fuel)
    else .ok l

/-- The function `lexer_skip_whitespace`, checked. -/
def lexer_skip_whitespace_checked (l : Lexer) : Except LexFault Lexer :=
  lexer_skip_whitespace_loop_checked (lexer_fuel l) l

/-- The loop of the `//` branch of `lexer_skip_comment`, checked. -/
def lexer_skip_line_comment_loop_checked : Nat → Lexer → Except LexFault Lexer
  | 0, _ => .error .out_of_fuel
  | fuel + 1, l =>
    if l.current_char ≠ NUL ∧ l.current_char ≠ '\n' then
      (lexer_advance_checked l).bind (lexer_skip_line_comment_loop_checked fuel)
    else .ok l

/-- The loop of the `/*` branch of `lexer_skip_comment`, checked. -/
def lexer_skip_block_comment_loop_checked : Nat → Lexer → Except LexFault Lexer
  | 0, _ => .error .out_of_fuel
  | fuel + 1, l =>
    if l.current_char = NUL then .ok l
    else if l.current_char = '*' then
      (lexer_peek_checked l).bind fun c =>
        if c = '/' then (lexer_advance_checked l).bind lexer_advance_checked
        else (lexer_advance_checked l).bind (lexer_skip_block_comment_loop_checked fuel)
    else (lexer_advance_checked l).bind (lexer_skip_block_comment_loop_checked fuel)

/-- The function `lexer_skip_comment`, checked. -/
def lexer_skip_comment_checked (l : Lexer) : Except LexFault Lexer :=
  if l.current_char = '/' then
    (lexer_peek_checked l).bind fun c =>
      if c = '/' then lexer_skip_line_comment_loop_checked (lexer_fuel l) l
      else
        (lexer_peek_checked l).bind fun c1 =>
          if c1 = '*' then
            (lexer_advance_checked l).bind fun l1 =>
              (lexer_advance_checked l1).bind
                (lexer_skip_block_comment_loop_checked (lexer_fuel l))
          else .ok l
  else .ok l

/-- The loop of `lexer_make_number`, checked. -/
def lexer_make_number_loop_checked :
    Nat → List Char → Lexer → Except LexFault (List Char × Lexer)
  | 0, _, _ => .error .out_of_fuel
  | fuel + 1, buffer, l =>
    if l.current_char ≠ NUL ∧ isdigit l.current_char = true then
      (lexer_advance_checked l).bind
        (lexer_make_number_loop_checked fuel
          (if buffer.length < 255 then buffer ++ [l.current_char] else buffer))
    else .ok (buffer, l)

/-- The function `lexer_make_number`, checked. -/
def lexer_make_number_checked (l : Lexer) : Except LexFault (Token × Lexer) :=
  (lexer_make_number_loop_checked (lexer_fuel l) [] l).map fun r =>
    (token_create TOKEN_NUMBER (some (String.mk r.1)) l.line l.column, r.2)

/-- The loop of `lexer_make_identifier`, checked. -/
def lexer_make_identifier_loop_checked :
    Nat → List Char → Lexer → Except LexFault (List Char × Lexer)
  | 0, _, _ => .error .out_of_fuel
  | fuel + 1, buffer, l =>
    if l.current_char ≠ NUL ∧ (isalnum l.current_char = true ∨ l.current_char = '_') then
      (lexer_advance_checked l).bind
        (lexer_make_identifier_loop_checked fuel
          (if buffer.length < 255 then buffer ++ [l.current_char] else buffer))
    else .ok (buffer, l)

/-- The function `lexer_make_identifier`, checked. -/
def lexer_make_identifier_checked (l : Lexer) : Except LexFault (Token × Lexer) :=
  (lexer_make_identifier_loop_checked (lexer_fuel l) [] l).map fun r =>
    (token_create (keyword_type (String.mk r.1)) (some (String.mk r.1)) l.line l.column, r.2)

/-- The `switch (current)` of `lexer_next_token`, checked; `l` is the lexer after
the first `lexer_advance`. -/
def lexer_operator_checked (current : Char) (line column : Nat) (l : Lexer) :
    Except LexFault (Token × Lexer) :=
  if current = '+' then .ok (token_create TOKEN_PLUS (some "+") line column, l)
  else if current = '-' then .ok (token_create TOKEN_MINUS (some "-") line column, l)
  else if current = '*' then .ok (token_create TOKEN_MULTIPLY (some "*") line column, l)
  else if current = '/' then .ok (token_create TOKEN_DIVIDE (some "/") line column, l)
  else if current = '%' then .ok (token_create TOKEN_MODULO (some "%") line column, l)
  else if current = '(' then .ok (token_create TOKEN_LPAREN (some "(") line column, l)
  else if current = ')' then .ok (token_create TOKEN_RPAREN (some ")") line column, l)
  else if current = '\x7b' then .ok (token_create TOKEN_LBRACE (some "\x7b") line column, l)
  else if current = '\x7d' then .ok (token_create TOKEN_RBRACE (some "\x7d") line column, l)
  else if current = '[' then .ok (token_create TOKEN_LBRACKET (some "[") line column, l)
  else if current = ']' then .ok (token_create TOKEN_RBRACKET (some "]") line column, l)
  else if current = ';' then .ok (token_create TOKEN_SEMICOLON (some ";") line column, l)
  else if current = ',' then .ok (token_create TOKEN_COMMA (some ",") line column, l)
  else if current = '.' then .ok (token_create TOKEN_DOT (some ".") line column, l)
  else if current = '=' then
    if l.current_char = '=' then
      (lexer_advance_checked l).map fun l1 => (token_create TOKEN_EQ (some "==") line column, l1)
    else .ok (token_create TOKEN_ASSIGN (some "=") line column, l)
  else if current = '!' then
    if l.current_char = '=' then
      (lexer_advance_checked l).map fun l1 => (token_create TOKEN_NEQ (some "!=") line column, l1)
    else .ok (token_create TOKEN_NOT (some "!") line column, l)
  else if current = '<' then
    if l.current_char = '=' then
      (lexer_advance_checked l).map fun l1 => (token_create TOKEN_LEQ (some "<=") line column, l1)
    else .ok (token_create TOKEN_LT (some "<") line column, l)
  else if current = '>' then
    if l.current_char = '=' then
      (lexer_advance_checked l).map fun l1 => (token_create TOKEN_GEQ (some ">=") line column, l1)
    else .ok (token_create TOKEN_GT (some ">") line column, l)
  else if current = '&' ∧ l.current_char = '&' then
    (lexer_advance_checked l).map fun l1 => (token_create TOKEN_AND (some "&&") line column, l1)
  else if current = '|' ∧ l.current_char = '|' then
    (lexer_advance_checked l).map fun l1 => (token_create TOKEN_OR (some "||") line column, l1)
  else .ok (token_create TOKEN_ERROR (some (String.mk [current])) line column, l)

/-- The test `current_char == '/' && (peek == '/' || peek == '*')` of
`lexer_next_token`, checked. -/
def lexer_at_comment_checked (l : Lexer) : Except LexFault Bool :=
  if l.current_char = '/' then
    (lexer_peek_checked l).bind fun c =>
      if c = '/' then .ok true
      else (lexer_peek_checked l).bind fun c1 => .ok (decide (c1 = '*'))
  else .ok false

/-- The loop of `lexer_next_token`, checked. -/
def lexer_next_token_loop_checked : Nat → Lexer → Except LexFault (Token × Lexer)
  | 0, _ => .error .out_of_fuel
  | fuel + 1, l =>
    if l.current_char = NUL then
      .ok (token_create TOKEN_EOF none l.line l.column, l)
    else if isspace l.current_char = true then
      (lexer_skip_whitespace_checked l).bind (lexer_next_token_loop_checked fuel)
    else
      (lexer_at_comment_checked l).bind fun at_comment =>
        if at_comment = true then
          (lexer_skip_comment_checked l).bind (lexer_next_token_loop_checked fuel)
        else if isdigit l.current_char = true then lexer_make_number_checked l
        else if isalpha l.current_char = true ∨ l.current_char = '_' then
          lexer_make_identifier_checked l
        else
          (lexer_advance_checked l).bind
            (lexer_operator_checked l.current_char l.line l.column)

/-- The function `lexer_next_token`, checked. -/
def lexer_next_token_checked (l : Lexer) : Except LexFault (Token × Lexer) :=
  lexer_next_token_loop_checked (lexer_fuel l) l

/-- The state after `k` calls of the checked `lexer_next_token`. -/
def lexer_next_token_checked_times : Nat → Lexer → Except LexFault Lexer
  | 0, l => .ok l
  | k + 1, l => (lexer_next_token_checked l).bind fun r => lexer_next_token_checked_times k r.2

/-- `n` further calls of the checked `lexer_next_token` after a first result. -/
def lexer_next_token_checked_again (n : Nat) (r : Except LexFault (Token × Lexer)) :
    Except LexFault (Token × Lexer) :=
  Nat.iterate (fun r => r.bind fun tl => lexer_next_token_checked tl.2) n r

/-- The tokens before the end-of-file token, collected by at most `n` calls of
the checked `lexer_next_token`. -/
def lexer_tokens_checked : Nat → Lexer → Except LexFault (List Token)
  | 0, _ => .error .out_of_fuel
  | n + 1, l =>
    (lexer_next_token_checked l).bind fun r =>
      if r.1.type = TOKEN_EOF then .ok [] else (lexer_tokens_checked n r.2).map (r.1 :: ·)

/-- The counters of a state have room for the rest of its source: no
increment that the lexer makes before the end of the source leaves `int`. -/
def Lexer.in_range (l : Lexer) : Prop :=
  l.source.length ≤ INT_MAX ∧ l.line + (l.source.length - l.position) ≤ INT_MAX ∧
    l.column + (l.source.length - l.position) ≤ INT_MAX

/-- The text of `n` characters that alternates the blank `a` with a newline. -/
def alternating (a : Char) (n : Nat) : List Char :=
  (List.range n).map fun i => if i % 2 = 0 then a else '\n'

/-! ## Decidable equality of trees -/

mutual
theorem ASTNode.beq_iff : ∀ (a b : ASTNode), ASTNode.beq a b = true ↔ a = b
  | .program f1, b => by
    cases b <;> simp [ASTNode.beq]
    exact ASTNode.beq_list_iff f1 _
  | .function n1 p1 b1, b => by
    cases b <;> simp [ASTNode.beq]
    rw [ASTNode.beq_iff b1, and_assoc]
  | .extern_function n1 p1, b => by
    cases b <;> simp [ASTNode.beq]
  | .block s1, b => by
    cases b <;> simp [ASTNode.beq]
    exact ASTNode.beq_list_iff s1 _
  | .return_stmt e1, b => by
    cases b <;> simp [ASTNode.beq]
    exact ASTNode.beq_iff e1 _
  | .if_stmt c1 t1 e1, b => by
    cases b <;> simp [ASTNode.beq]
    rw [ASTNode.beq_iff c1, ASTNode.beq_iff t1, ASTNode.beq_option_iff e1, and_assoc]
  | .while_stmt c1 b1, b => by
    cases b <;> simp [ASTNode.beq]
    rw [ASTNode.beq_iff c1, ASTNode.beq_iff b1]
  | .for_stmt, b => by cases b <;> simp [ASTNode.beq]
  | .binary_op o1 l1 r1, b => by
    cases b <;> simp [ASTNode.beq]
    rw [ASTNode.beq_iff l1, ASTNode.beq_iff r1, and_assoc]
  | .unary_op o1 a1, b => by
    cases b <;> simp [ASTNode.beq]
    rw [ASTNode.beq_iff a1]
    exact fun _ => Iff.rfl
  | .variable n1, b => by cases b <;> simp [ASTNode.beq]
  | .number v1, b => by cases b <;> simp [ASTNode.beq]
  | .string v1, b => by cases b <;> simp [ASTNode.beq]
  | .char_literal v1, b => by cases b <;> simp [ASTNode.beq]
  | .call n1 a1, b => by
    cases b <;> simp [ASTNode.beq]
    rw [ASTNode.beq_list_iff a1]
    exact fun _ => Iff.rfl
  | .assignment, b => by cases b <;> simp [ASTNode.beq]
theorem ASTNode.beq_list_iff : ∀ (a b : List ASTNode), ASTNode.beq_list a b = true ↔ a = b
  | [], b => by cases b <;> simp [ASTNode.beq_list]
  | x :: xs, b => by
    cases b <;> simp [ASTNode.beq_list]
    rw [ASTNode.beq_iff x, ASTNode.beq_list_iff xs]
theorem ASTNode.beq_option_iff : ∀ (a b : Option ASTNode), ASTNode.beq_option a b = true ↔ a = b
  | none, b => by cases b <;> simp [ASTNode.beq_option]
  | some x, b => by
    cases b <;> simp [ASTNode.beq_option]
    exact ASTNode.beq_iff x _
end

/-- Equality of trees is decidable. -/
instance : DecidableEq ASTNode := fun a b =>
  decidable_of_iff (ASTNode.beq a b = true) (ASTNode.beq_iff a b)


deriving instance DecidableEq for Except

/-! ## Lexer: end of input and compound operators -/

/-- At the terminating NUL `lexer_next_token` returns the end-of-file token and
does not move. -/
theorem lexer_next_token_at_nul (l : Lexer) (h : l.current_char = NUL) :
    lexer_next_token l = some (token_create TOKEN_EOF none l.line l.column, l) := by
  simp [lexer_next_token, lexer_fuel, lexer_next_token_loop, h]

/-- C9: end-of-input is absorbing. In a state whose current character is the
terminating NUL, `lexer_next_token` returns an EOF token without lexeme at the
current line and column and leaves the lexer state unchanged, and so does every
later call. -/
theorem lexer_eof_absorbing (l : Lexer) (h : l.current_char = NUL) :
    lexer_next_token l = some (token_create TOKEN_EOF none l.line l.column, l) ∧
    (token_create TOKEN_EOF none l.line l.column).type = TOKEN_EOF ∧
    (token_create TOKEN_EOF none l.line l.column).value = none ∧
    ∀ n, lexer_next_token_again n (lexer_next_token l) =
      some (token_create TOKEN_EOF none l.line l.column, l) := by
  refine ⟨lexer_next_token_at_nul l h, rfl, rfl, ?_⟩
  intro n
  induction n with
  | zero => exact lexer_next_token_at_nul l h
  | succ n ih =>
    rw [lexer_next_token_again, Function.iterate_succ_apply']
    rw [lexer_next_token_again] at ih
    rw [ih]
    exact lexer_next_token_at_nul l h

/-- Witness of C9 on the empty source. -/
theorem lexer_eof_absorbing_witness :
    (lexer_create []).current_char = NUL ∧
    lexer_next_token_again 3 (lexer_next_token (lexer_create [])) =
      some (token_create TOKEN_EOF none 1 1, lexer_create []) :=
  ⟨by decide, (lexer_eof_absorbing (lexer_create []) (by decide)).2.2.2 3⟩

/-- The operator branch of `lexer_next_token`: a character that is not NUL, not
white space, not a digit, not a letter or underscore and not a slash is handed
to the operator switch after one `lexer_advance`. -/
theorem lexer_next_token_operator (l : Lexer) (h0 : l.current_char ≠ NUL)
    (h1 : isspace l.current_char = false) (h2 : l.current_char ≠ '/')
    (h3 : isdigit l.current_char = false) (h4 : isalpha l.current_char = false)
    (h5 : l.current_char ≠ '_') :
    lexer_next_token l =
      some (lexer_operator l.current_char l.line l.column (lexer_advance l)) := by
  simp [lexer_next_token, lexer_fuel, lexer_next_token_loop, h0, h1, h2, h3, h4, h5]

/-- C10: compound operator recognition. `==`, `!=`, `<=`, `>=`, `&&`, `||` give
one token of kind EQ, NEQ, LEQ, GEQ, AND, OR with the two-character lexeme and
move the cursor by two; `=`, `!`, `<`, `>` followed by anything else (the
terminating NUL included) give ASSIGN, NOT, LT, GT with the one-character lexeme
and move the cursor by one; a lone `&` or `|` gives an ERROR token whose lexeme
is that character and moves the cursor by one. -/
theorem lexer_compound_operators (l : Lexer) :
    (∀ c1 c2 ty lexeme, (c1, c2, ty, lexeme) ∈
        [('=', '=', TOKEN_EQ, "=="), ('!', '=', TOKEN_NEQ, "!="), ('<', '=', TOKEN_LEQ, "<="),
         ('>', '=', TOKEN_GEQ, ">="), ('&', '&', TOKEN_AND, "&&"), ('|', '|', TOKEN_OR, "||")] →
      l.current_char = c1 → lexer_peek l = c2 →
      lexer_next_token l =
        some (token_create ty (some lexeme) l.line l.column, lexer_advance (lexer_advance l)) ∧
      (lexer_advance (lexer_advance l)).position = l.position + 2) ∧
    (∀ c ty lexeme, (c, ty, lexeme) ∈
        [('=', TOKEN_ASSIGN, "="), ('!', TOKEN_NOT, "!"), ('<', TOKEN_LT, "<"),
         ('>', TOKEN_GT, ">")] →
      l.current_char = c → lexer_peek l ≠ '=' →
      lexer_next_token l = some (token_create ty (some lexeme) l.line l.column, lexer_advance l) ∧
      (lexer_advance l).position = l.position + 1) ∧
    (∀ c, c = '&' ∨ c = '|' → l.current_char = c → lexer_peek l ≠ c →
      lexer_next_token l =
        some (token_create TOKEN_ERROR (some (String.mk [c])) l.line l.column, lexer_advance l) ∧
      (lexer_advance l).position = l.position + 1) := by
  have hcur : (lexer_advance l).current_char = lexer_peek l := rfl
  refine ⟨?_, ?_, ?_⟩
  · intro c1 c2 ty lexeme hmem hc hp
    refine ⟨?_, rfl⟩
    simp only [List.mem_cons, Prod.mk.injEq, List.mem_singleton, List.not_mem_nil,
      or_false] at hmem
    rcases hmem with h | h | h | h | h | h <;> obtain ⟨rfl, rfl, rfl, rfl⟩ := h <;>
      rw [lexer_next_token_operator l (by rw [hc]; decide) (by rw [hc]; decide)
        (by rw [hc]; decide) (by rw [hc]; decide) (by rw [hc]; decide) (by rw [hc]; decide)] <;>
      simp [lexer_operator, hc, hcur, hp]
  · intro c ty lexeme hmem hc hp
    refine ⟨?_, rfl⟩
    simp only [List.mem_cons, Prod.mk.injEq, List.mem_singleton, List.not_mem_nil,
      or_false] at hmem
    rcases hmem with h | h | h | h <;> obtain ⟨rfl, rfl, rfl⟩ := h <;>
      rw [lexer_next_token_operator l (by rw [hc]; decide) (by rw [hc]; decide)
        (by rw [hc]; decide) (by rw [hc]; decide) (by rw [hc]; decide) (by rw [hc]; decide)] <;>
      simp [lexer_operator, hc, hcur, hp]
  · intro c hcases hc hp
    refine ⟨?_, rfl⟩
    rcases hcases with rfl | rfl <;>
      rw [lexer_next_token_operator l (by rw [hc]; decide) (by rw [hc]; decide)
        (by rw [hc]; decide) (by rw [hc]; decide) (by rw [hc]; decide) (by rw [hc]; decide)] <;>
      simp [lexer_operator, hc, hcur, hp]

/-- Witness of C10: `<=` at the start of `<=1`, `<` at the start of `<1`, and a
lone `&` at the start of `&1`. -/
theorem lexer_compound_operators_witness :
    lexer_next_token (lexer_create ['<', '=', '1']) =
      some (token_create TOKEN_LEQ (some "<=") 1 1,
        lexer_advance (lexer_advance (lexer_create ['<', '=', '1']))) ∧
    lexer_next_token (lexer_create ['<', '1']) =
      some (token_create TOKEN_LT (some "<") 1 1, lexer_advance (lexer_create ['<', '1'])) ∧
    lexer_next_token (lexer_create ['&', '1']) =
      some (token_create TOKEN_ERROR (some "&") 1 1, lexer_advance (lexer_create ['&', '1'])) :=
  ⟨((lexer_compound_operators (lexer_create ['<', '=', '1'])).1 '<' '=' TOKEN_LEQ "<="
      (by decide) (by decide) (by decide)).1,
   ((lexer_compound_operators (lexer_create ['<', '1'])).2.1 '<' TOKEN_LT "<"
      (by decide) (by decide) (by decide)).1,
   ((lexer_compound_operators (lexer_create ['&', '1'])).2.2 '&'
      (Or.inl rfl) (by decide) (by decide)).1⟩

/-! ## Code generator: every call appends to the output -/

@[simp] theorem codegen_emit_output (g : CodeGenerator) (line : Line) :
    (codegen_emit g line).output = g.output ++ [line] := rfl

@[simp] theorem codegen_emit_label_count (g : CodeGenerator) (line : Line) :
    (codegen_emit g line).label_count = g.label_count := rfl

theorem codegen_emit_mk (out : List Line) (k : Nat) (line : Line) :
    codegen_emit { output := out, label_count := k } line =
      { output := out ++ [line], label_count := k } := rfl

theorem codegen_binary_operator_frame (g : CodeGenerator) (op : Char) :
    codegen_binary_operator g op =
      { output := g.output ++
          (codegen_binary_operator { output := [], label_count := 0 } op).output,
        label_count := g.label_count } := by
  unfold codegen_binary_operator
  split_ifs <;> simp [codegen_emit]

/-- `codegen_expression` appends `expression_code e` and keeps the label counter. -/
theorem codegen_expression_frame : ∀ (e : ASTNode) (g : CodeGenerator),
    codegen_expression g e =
      { output := g.output ++ expression_code e, label_count := g.label_count }
  | .number v, g => by simp [codegen_expression, expression_code, codegen_emit, codegen_create]
  | .binary_op op l r, g => by
    have hr := codegen_expression_frame r
    have hl := codegen_expression_frame l
    simp only [codegen_expression, expression_code, codegen_create]
    rw [hr g, hr { output := [], label_count := 0 }]
    simp only [codegen_emit_mk]
    rw [hl, hl { output := [] ++ expression_code r ++ [Line.pushq Reg.rax], label_count := 0 }]
    simp only [codegen_emit_mk]
    rw [codegen_binary_operator_frame,
      codegen_binary_operator_frame { output := _ ++ [Line.popq Reg.rcx], label_count := 0 }]
    simp [List.append_assoc]
  | .variable _, g => by simp [codegen_expression, expression_code, codegen_create]
  | .program _, g => by simp [codegen_expression, expression_code, codegen_create]
  | .function _ _ _, g => by simp [codegen_expression, expression_code, codegen_create]
  | .extern_function _ _, g => by simp [codegen_expression, expression_code, codegen_create]
  | .block _, g => by simp [codegen_expression, expression_code, codegen_create]
  | .return_stmt _, g => by simp [codegen_expression, expression_code, codegen_create]
  | .if_stmt _ _ _, g => by simp [codegen_expression, expression_code, codegen_create]
  | .while_stmt _ _, g => by simp [codegen_expression, expression_code, codegen_create]
  | .for_stmt, g => by simp [codegen_expression, expression_code, codegen_create]
  | .unary_op _ _, g => by simp [codegen_expression, expression_code, codegen_create]
  | .string _, g => by simp [codegen_expression, expression_code, codegen_create]
  | .char_literal _, g => by simp [codegen_expression, expression_code, codegen_create]
  | .call _ _, g => by simp [codegen_expression, expression_code, codegen_create]
  | .assignment, g => by simp [codegen_expression, expression_code, codegen_create]

mutual

/-- `codegen_statement` appends `statement_code` and moves the label counter to
`statement_labels`. -/
theorem codegen_statement_frame : ∀ (n : ASTNode) (g : CodeGenerator),
    codegen_statement g n =
      { output := g.output ++ statement_code g.label_count n,
        label_count := statement_labels g.label_count n }
  | .return_stmt e, g => by
    simp only [statement_code, statement_labels, codegen_statement]
    simp only [codegen_expression_frame, codegen_emit_mk]
    simp [List.append_assoc]
  | .if_stmt c t e, g => by
    have ht := codegen_block_frame t
    have he := codegen_else_frame e
    simp only [statement_code, statement_labels, codegen_statement, codegen_new_label]
    simp only [codegen_expression_frame, codegen_emit_mk, ht, he]
    simp [List.append_assoc]
  | .while_stmt c b, g => by
    have hb := codegen_block_frame b
    simp only [statement_code, statement_labels, codegen_statement, codegen_new_label]
    simp only [codegen_expression_frame, codegen_emit_mk, hb]
    simp [List.append_assoc]
  | .number v, g => by
    simp only [statement_code, statement_labels, codegen_statement]
    simp only [codegen_expression_frame]
    simp
  | .binary_op op l r, g => by
    simp only [statement_code, statement_labels, codegen_statement]
    simp only [codegen_expression_frame]
    simp
  | .variable _, g => by
    simp [statement_code, statement_labels, codegen_statement, codegen_expression]
  | .program _, g => by
    simp [statement_code, statement_labels, codegen_statement, codegen_expression]
  | .function _ _ _, g => by
    simp [statement_code, statement_labels, codegen_statement, codegen_expression]
  | .extern_function _ _, g => by
    simp [statement_code, statement_labels, codegen_statement, codegen_expression]
  | .block _, g => by
    simp [statement_code, statement_labels, codegen_statement, codegen_expression]
  | .for_stmt, g => by
    simp [statement_code, statement_labels, codegen_statement, codegen_expression]
  | .unary_op _ _, g => by
    simp [statement_code, statement_labels, codegen_statement, codegen_expression]
  | .string _, g => by
    simp [statement_code, statement_labels, codegen_statement, codegen_expression]
  | .char_literal _, g => by
    simp [statement_code, statement_labels, codegen_statement, codegen_expression]
  | .call _ _, g => by
    simp [statement_code, statement_labels, codegen_statement, codegen_expression]
  | .assignment, g => by
    simp [statement_code, statement_labels, codegen_statement, codegen_expression]

/-- The guarded else-branch call appends `else_code`. -/
theorem codegen_else_frame : ∀ (n : Option ASTNode) (g : CodeGenerator),
    codegen_else g n =
      { output := g.output ++ else_code g.label_count n,
        label_count := else_labels g.label_count n }
  | none, g => by simp [else_code, else_labels, codegen_else]
  | some b, g => by
    have hb := codegen_block_frame b
    simp only [else_code, else_labels, codegen_else]
    simp only [hb]
    simp

/-- `codegen_block` appends `block_code`. -/
theorem codegen_block_frame : ∀ (n : ASTNode) (g : CodeGenerator),
    codegen_block g n =
      { output := g.output ++ block_code g.label_count n,
        label_count := block_labels g.label_count n }
  | .block ss, g => by
    have hs := codegen_block_loop_frame ss
    simp only [block_code, block_labels, codegen_block]
    simp only [hs]
    simp
  | .return_stmt _, g => by simp [block_code, block_labels, codegen_block]
  | .if_stmt _ _ _, g => by simp [block_code, block_labels, codegen_block]
  | .while_stmt _ _, g => by simp [block_code, block_labels, codegen_block]
  | .number _, g => by simp [block_code, block_labels, codegen_block]
  | .binary_op _ _ _, g => by simp [block_code, block_labels, codegen_block]
  | .variable _, g => by simp [block_code, block_labels, codegen_block]
  | .program _, g => by simp [block_code, block_labels, codegen_block]
  | .function _ _ _, g => by simp [block_code, block_labels, codegen_block]
  | .extern_function _ _, g => by simp [block_code, block_labels, codegen_block]
  | .for_stmt, g => by simp [block_code, block_labels, codegen_block]
  | .unary_op _ _, g => by simp [block_code, block_labels, codegen_block]
  | .string _, g => by simp [block_code, block_labels, codegen_block]
  | .char_literal _, g => by simp [block_code, block_labels, codegen_block]
  | .call _ _, g => by simp [block_code, block_labels, codegen_block]
  | .assignment, g => by simp [block_code, block_labels, codegen_block]

/-- The statement loop of `codegen_block` appends `block_loop_code`. -/
theorem codegen_block_loop_frame : ∀ (ns : List ASTNode) (g : CodeGenerator),
    codegen_block_loop g ns =
      { output := g.output ++ block_loop_code g.label_count ns,
        label_count := block_loop_labels g.label_count ns }
  | [], g => by simp [block_loop_code, block_loop_labels, codegen_block_loop]
  | n :: rest, g => by
    have hn := codegen_statement_frame n
    have hr := codegen_block_loop_frame rest
    simp only [block_loop_code, block_loop_labels, codegen_block_loop]
    rw [hn g, hn { output := [], label_count := g.label_count }, hr, hr { output := [] ++ _, label_count := _ }]
    simp [List.append_assoc]

end

theorem codegen_params_loop_frame (param_count : Nat) : ∀ (regs : List Reg) (i : Nat)
    (g : CodeGenerator),
    codegen_params_loop g param_count i regs =
      { output := g.output ++ params_code param_count i regs, label_count := g.label_count }
  | [], i, g => by simp [params_code, codegen_params_loop]
  | r :: rest, i, g => by
    have hr := codegen_params_loop_frame param_count rest (i + 1)
    simp only [params_code, codegen_params_loop]
    split_ifs
    · rw [hr, hr (codegen_emit _ _)]
      simp [codegen_emit, List.append_assoc]
    · simp

/-- The lines of one function: prologue, parameter copies, body, epilogue. -/
theorem function_code_eq (k : Nat) (name : String) (params : List String) (body : ASTNode) :
    function_code k (.function name params body) =
      [Line.align_directive 16, Line.label name, Line.pushq Reg.rbp,
        Line.movq_reg Reg.rsp Reg.rbp] ++ reserve_code params.length ++
      [Line.pushq Reg.rbx, Line.pushq Reg.r12, Line.pushq Reg.r13, Line.pushq Reg.r14,
        Line.pushq Reg.r15] ++ params_code params.length 0 arg_registers ++
      block_code k body ++
      [Line.label ("." ++ name ++ "_return"), Line.popq Reg.r15, Line.popq Reg.r14,
        Line.popq Reg.r13, Line.popq Reg.r12, Line.popq Reg.rbx, Line.movq_reg Reg.rbp Reg.rsp,
        Line.popq Reg.rbp, Line.ret, Line.size_directive name] := by
  simp only [function_code, codegen_function, reserve_code]
  split_ifs <;>
    simp only [codegen_emit_mk, codegen_params_loop_frame, codegen_block_frame] <;>
    simp [List.append_assoc]

theorem function_labels_eq (k : Nat) (name : String) (params : List String) (body : ASTNode) :
    function_labels k (.function name params body) = block_labels k body := by
  simp only [function_labels, codegen_function]
  split_ifs <;>
    simp only [codegen_emit_mk, codegen_params_loop_frame, codegen_block_frame]

/-- `codegen_function` appends `function_code`. -/
theorem codegen_function_frame (n : ASTNode) (g : CodeGenerator) :
    codegen_function g n =
      { output := g.output ++ function_code g.label_count n,
        label_count := function_labels g.label_count n } := by
  cases n with
  | function name params body =>
    rw [function_code_eq, function_labels_eq]
    simp only [codegen_function, reserve_code]
    split_ifs <;>
      simp only [codegen_emit_mk, codegen_params_loop_frame, codegen_block_frame] <;>
      simp [List.append_assoc]
  | _ => simp [function_code, function_labels, codegen_function]

theorem codegen_functions_frame : ∀ (fs : List ASTNode) (g : CodeGenerator),
    codegen_functions g fs =
      { output := g.output ++ functions_code g.label_count fs,
        label_count := functions_labels g.label_count fs }
  | [], g => by simp [functions_code, functions_labels, codegen_functions]
  | f :: rest, g => by
    have hr := codegen_functions_frame rest
    simp only [functions_code, functions_labels, codegen_functions]
    rw [codegen_function_frame f g, codegen_function_frame f { output := [], label_count := _ },
      hr, hr { output := [] ++ _, label_count := _ }]
    simp [List.append_assoc]

theorem functions_code_cons (k : Nat) (f : ASTNode) (rest : List ASTNode) :
    functions_code k (f :: rest) =
      function_code k f ++ functions_code (function_labels k f) rest := by
  simp only [functions_code, codegen_functions]
  rw [codegen_function_frame f { output := [], label_count := _ }, codegen_functions_frame]
  simp [functions_code]

theorem functions_labels_cons (k : Nat) (f : ASTNode) (rest : List ASTNode) :
    functions_labels k (f :: rest) = functions_labels (function_labels k f) rest := by
  simp only [functions_labels, codegen_functions]
  rw [codegen_function_frame f { output := [], label_count := _ }, codegen_functions_frame]
  simp [functions_labels]

theorem codegen_declarations_frame : ∀ (names : List String) (g : CodeGenerator),
    codegen_declarations g names =
      { output := g.output ++ declarations_code names, label_count := g.label_count }
  | [], g => by simp [declarations_code, codegen_declarations]
  | name :: rest, g => by
    have hr := codegen_declarations_frame rest
    simp only [declarations_code, codegen_declarations]
    rw [hr, hr (codegen_emit _ _)]
    simp [codegen_emit, List.append_assoc]

theorem declarations_code_cons (name : String) (rest : List String) :
    declarations_code (name :: rest) =
      [Line.global_directive name, Line.type_directive name] ++ declarations_code rest := by
  simp only [declarations_code, codegen_declarations]
  rw [codegen_declarations_frame]
  simp [codegen_emit, declarations_code]

theorem codegen_entry_point_frame (g : CodeGenerator) :
    codegen_entry_point g =
      { output := g.output ++ entry_point_code, label_count := g.label_count } := by
  simp [codegen_entry_point, entry_point_code, codegen_emit]

/-- The lines written by `codegen_generate` for a program whose children are
function nodes, in terms of the lines of the loops. -/
theorem codegen_generate_eq (g : CodeGenerator) (fs : List ASTNode) (names : List String)
    (h : fs.mapM ASTNode.function_name = some names) :
    codegen_generate g (.program fs) =
      some { output := g.output ++
               ([Line.section_directive ".data", Line.section_directive ".bss",
                 Line.section_directive ".text"] ++ declarations_code names ++
                functions_code g.label_count fs ++ entry_point_code),
             label_count := functions_labels g.label_count fs } := by
  simp only [codegen_generate, h, Option.map_some']
  simp only [codegen_entry_point_frame, codegen_functions_frame, codegen_declarations_frame,
    codegen_emit_output, codegen_emit_label_count]
  simp [List.append_assoc]

/-! ## C8: layout of the listing -/

theorem function_name_mapM (fs : List (String × List String × ASTNode)) :
    (fs.map fun f => ASTNode.function f.1 f.2.1 f.2.2).mapM ASTNode.function_name =
      some (fs.map fun f => f.1) := by
  induction fs with
  | nil => rfl
  | cons f rest ih =>
    simp only [List.map_cons, List.mapM_cons, ih, ASTNode.function_name]
    rfl

theorem declarations_code_text (fs : List (String × List String × ASTNode)) :
    (declarations_code (fs.map fun f => f.1)).map Line.text =
      fs.flatMap fun f => ["\t.global " ++ f.1, "\t.type " ++ f.1 ++ ", @function"] := by
  induction fs with
  | nil => rfl
  | cons f rest ih =>
    rw [List.map_cons, declarations_code_cons, List.map_append, ih, List.flatMap_cons]
    rfl

theorem entry_point_code_text :
    entry_point_code.map Line.text =
      ["\t.global _start", "\t.type _start, @function", "_start:", "\t# Set up stack frame",
       "\tmovq %rsp, %rbp", "\t# Align stack to 16 bytes", "\tandq $-16, %rsp", "\tcall main",
       "\t# Exit syscall", "\tmovq %rax, %rdi", "\tmovq $60, %rax", "\tsyscall",
       "\t.size _start, .-_start"] := by
  decide

theorem functions_code_text (fs : List (String × List String × ASTNode)) : ∀ k : Nat,
    ∃ bodies : List (List String), bodies.length = fs.length ∧
      (functions_code k (fs.map fun f => ASTNode.function f.1 f.2.1 f.2.2)).map Line.text =
        (List.zipWith (fun f body =>
          ["\t.align 16", f.1 ++ ":"] ++ body ++ ["\t.size " ++ f.1 ++ ", .-" ++ f.1])
          fs bodies).flatten := by
  induction fs with
  | nil => intro k; exact ⟨[], rfl, rfl⟩
  | cons f rest ih =>
    intro k
    obtain ⟨bodies, hlen, hrest⟩ :=
      ih (function_labels k (ASTNode.function f.1 f.2.1 f.2.2))
    refine ⟨(([Line.pushq Reg.rbp, Line.movq_reg Reg.rsp Reg.rbp] ++
        reserve_code f.2.1.length ++
        [Line.pushq Reg.rbx, Line.pushq Reg.r12, Line.pushq Reg.r13, Line.pushq Reg.r14,
          Line.pushq Reg.r15] ++ params_code f.2.1.length 0 arg_registers ++
        block_code k f.2.2 ++
        [Line.label ("." ++ f.1 ++ "_return"), Line.popq Reg.r15, Line.popq Reg.r14,
          Line.popq Reg.r13, Line.popq Reg.r12, Line.popq Reg.rbx,
          Line.movq_reg Reg.rbp Reg.rsp, Line.popq Reg.rbp, Line.ret]).map Line.text) :: bodies,
      by simp [hlen], ?_⟩
    rw [List.map_cons, functions_code_cons, List.map_append, hrest, function_code_eq,
      List.zipWith_cons_cons, List.flatten_cons]
    congr 1
    simp only [List.map_append, List.map_cons, List.map_nil, List.append_assoc,
      List.cons_append, List.nil_append]
    rfl

/-- C8: the listing written by `codegen_generate` for a program with functions
`f1 .. fn` is the three section headers, then `.global fi` and `.type fi,
@function` for each function in order, then the code of each function in order,
each starting with `.align 16` and `fi:` and ending with `.size fi, .-fi`, then
the fixed `_start` block, which contains `_start:`, `call main`,
`movq %rax, %rdi`, `movq $60, %rax`, `syscall` and `.size _start, .-_start` in
this order. -/
theorem codegen_generate_layout (fs : List (String × List String × ASTNode)) :
    ∃ bodies : List (List String), bodies.length = fs.length ∧
      (codegen_generate codegen_create
          (.program (fs.map fun f => ASTNode.function f.1 f.2.1 f.2.2))).map
        (fun g => g.output.map Line.text) =
      some (["\t.section .data", "\t.section .bss", "\t.section .text"] ++
        (fs.flatMap fun f => ["\t.global " ++ f.1, "\t.type " ++ f.1 ++ ", @function"]) ++
        (List.zipWith (fun f body =>
          ["\t.align 16", f.1 ++ ":"] ++ body ++ ["\t.size " ++ f.1 ++ ", .-" ++ f.1])
          fs bodies).flatten ++
        ["\t.global _start", "\t.type _start, @function", "_start:", "\t# Set up stack frame",
         "\tmovq %rsp, %rbp", "\t# Align stack to 16 bytes", "\tandq $-16, %rsp",
         "\tcall main", "\t# Exit syscall", "\tmovq %rax, %rdi", "\tmovq $60, %rax",
         "\tsyscall", "\t.size _start, .-_start"]) ∧
      List.Sublist
        ["_start:", "\tcall main", "\tmovq %rax, %rdi", "\tmovq $60, %rax", "\tsyscall",
         "\t.size _start, .-_start"]
        ["\t.global _start", "\t.type _start, @function", "_start:", "\t# Set up stack frame",
         "\tmovq %rsp, %rbp", "\t# Align stack to 16 bytes", "\tandq $-16, %rsp",
         "\tcall main", "\t# Exit syscall", "\tmovq %rax, %rdi", "\tmovq $60, %rax",
         "\tsyscall", "\t.size _start, .-_start"] := by
  obtain ⟨bodies, hlen, hcode⟩ := functions_code_text fs 0
  refine ⟨bodies, hlen, ?_, by decide⟩
  rw [codegen_generate_eq codegen_create _ _ (function_name_mapM fs)]
  simp only [Option.map_some', codegen_create, List.nil_append, List.map_append, hcode,
    declarations_code_text, entry_point_code_text]
  rfl

/-! ## C4 and C6: points where the generated code departs from the specification -/

/-- A return statement emits the code of its expression and then a jump to the
fixed label `.main_return`, whatever function it stands in. -/
theorem statement_code_return (k : Nat) (e : ASTNode) :
    statement_code k (.return_stmt e) = expression_code e ++ [Line.jmp ".main_return"] := by
  simp only [statement_code, codegen_statement, codegen_expression_frame, codegen_emit_mk]
  rfl

/-- C4 (code at the failing input): for `5 >= 3` the parser builds a binary
node with operator `G`, for which `codegen_expression` emits no compare, set or
zero-extend line, and the code leaves the left operand 5 in `%rax`, not 1.
The same happens for `<=`, `==` and `!=`: `3 <= 5` leaves 3, `2 == 2` leaves 2
and `1 != 1` leaves 1. -/
theorem relational_missing_cases :
    parse_expression_text "5 >= 3" = .ok (.binary_op 'G' (.number 5) (.number 3)) ∧
    (expression_code (.binary_op 'G' (.number 5) (.number 3))).map Line.text =
      ["\tmovq $3, %rax", "\tpushq %rax", "\tmovq $5, %rax", "\tpopq %rcx"] ∧
    run_expression_text "5 >= 3" = .ok (some 5) ∧
    run_expression_text "3 <= 5" = .ok (some 3) ∧
    run_expression_text "2 == 2" = .ok (some 2) ∧
    run_expression_text "1 != 1" = .ok (some 1) ∧
    run_expression_text "5 > 3" = .ok (some 1) ∧
    run_expression_text "5 < 3" = .ok (some 0) := by
  decide!

/-- C6 (code at the failing input): in a function named `f` the return statement
jumps to `.main_return`, while the label emitted at the start of the epilogue
of `f` is `.f_return`. -/
theorem return_label_fixed_to_main :
    (function_code 0 (.function "f" [] (.block [.return_stmt (.number 1)]))).map Line.text =
      ["\t.align 16", "f:", "\tpushq %rbp", "\tmovq %rsp, %rbp", "\tpushq %rbx",
       "\tpushq %r12", "\tpushq %r13", "\tpushq %r14", "\tpushq %r15", "\tmovq $1, %rax",
       "\tjmp .main_return", ".f_return:", "\tpopq %r15", "\tpopq %r14", "\tpopq %r13",
       "\tpopq %r12", "\tpopq %rbx", "\tmovq %rbp, %rsp", "\tpopq %rbp", "\tret",
       "\t.size f, .-f"] ∧
    Line.jmp ".f_return" ∉
      function_code 0 (.function "f" [] (.block [.return_stmt (.number 1)])) := by
  decide!

/-! ## C3: the code of an arithmetic expression computes its value -/

theorem exec_lines_append (a b : List Line) (m : Machine) :
    exec_lines (a ++ b) m = (exec_lines a m).bind (exec_lines b) := by
  induction a generalizing m with
  | nil => rfl
  | cons x rest ih =>
    simp only [List.cons_append, exec_lines]
    cases exec_line x m with
    | none => rfl
    | some m1 => simp [ih]

theorem wrap64_range (x : Int) : -(2 ^ 63) ≤ wrap64 x ∧ wrap64 x < 2 ^ 63 := by
  unfold wrap64
  omega

theorem wrap64_of_range (x : Int) (h1 : -(2 ^ 63) ≤ x) (h2 : x < 2 ^ 63) : wrap64 x = x := by
  unfold wrap64
  omega

theorem eval_arithmetic_range : ∀ e : ASTNode,
    -(2 ^ 63) ≤ eval_arithmetic e ∧ eval_arithmetic e < 2 ^ 63
  | .number v => by simp only [eval_arithmetic]; exact wrap64_range v
  | .binary_op op l r => by
    simp only [eval_arithmetic]
    split_ifs
    · exact wrap64_range _
    · exact wrap64_range _
    · exact wrap64_range _
    · exact wrap64_range _
    · omega
  | .variable _ => by simp [eval_arithmetic]
  | .program _ => by simp [eval_arithmetic]
  | .function _ _ _ => by simp [eval_arithmetic]
  | .extern_function _ _ => by simp [eval_arithmetic]
  | .block _ => by simp [eval_arithmetic]
  | .return_stmt _ => by simp [eval_arithmetic]
  | .if_stmt _ _ _ => by simp [eval_arithmetic]
  | .while_stmt _ _ => by simp [eval_arithmetic]
  | .for_stmt => by simp [eval_arithmetic]
  | .unary_op _ _ => by simp [eval_arithmetic]
  | .string _ => by simp [eval_arithmetic]
  | .char_literal _ => by simp [eval_arithmetic]
  | .call _ _ => by simp [eval_arithmetic]
  | .assignment => by simp [eval_arithmetic]

/-- The lines of a binary node: right operand, push, left operand, pop, then the
lines of the operator. -/
theorem expression_code_binary_op (op : Char) (l r : ASTNode) :
    expression_code (.binary_op op l r) =
      expression_code r ++ [Line.pushq Reg.rax] ++ expression_code l ++ [Line.popq Reg.rcx] ++
        (codegen_binary_operator { output := [], label_count := 0 } op).output := by
  rw [expression_code]
  simp only [codegen_expression, codegen_create]
  rw [codegen_binary_operator_frame]
  simp only [codegen_expression_frame, codegen_emit_mk]
  simp [List.append_assoc]

theorem expression_code_number (v : Int) :
    expression_code (.number v) = [Line.movq_imm v Reg.rax] := rfl

/-- After `cqo` the pair `%rdx:%rax` holds the value of `%rax`. -/
theorem sign_extended_dividend (x : Int) (h1 : -(2 ^ 63) ≤ x) (h2 : x < 2 ^ 63) :
    (if x < 0 then (-1 : Int) else 0) * 2 ^ 64 + x % 2 ^ 64 = x := by
  split_ifs <;> omega

/-- A truncating quotient of 64-bit values is a 64-bit value, except for the
least integer divided by -1. -/
theorem tdiv_range (a b : Int) (ha1 : -(2 ^ 63) ≤ a) (ha2 : a < 2 ^ 63)
    (h : ¬ (a = -(2 ^ 63) ∧ b = -1)) :
    -(2 ^ 63) ≤ Int.tdiv a b ∧ Int.tdiv a b < 2 ^ 63 := by
  have hq : (Int.tdiv a b).natAbs = a.natAbs / b.natAbs := Int.natAbs_tdiv a b
  have hle : a.natAbs / b.natAbs ≤ a.natAbs := Nat.div_le_self _ _
  have habs : a.natAbs ≤ 2 ^ 63 := by omega
  constructor
  · omega
  · by_contra hcon
    have hq63 : (Int.tdiv a b).natAbs = 2 ^ 63 := by omega
    have ha63 : a.natAbs = 2 ^ 63 := by omega
    have ha : a = -(2 ^ 63) := by omega
    have hb1 : b.natAbs = 1 := by
      by_contra hb
      rcases Nat.lt_or_gt_of_ne hb with hlt | hgt
      · have hb0 : b.natAbs = 0 := by omega
        rw [hb0, Nat.div_zero] at hq
        omega
      · have : a.natAbs / b.natAbs < a.natAbs :=
          Nat.div_lt_self (by omega) hgt
        omega
    have hb : b = 1 ∨ b = -1 := by omega
    rcases hb with hb | hb
    · rw [hb, Int.tdiv_one] at hcon
      omega
    · exact h ⟨ha, hb⟩

@[simp] theorem Machine.set_regs_same (m : Machine) (r : Reg) (v : Int) :
    (m.set r v).regs r = v := by
  simp [Machine.set]

theorem Machine.set_regs_ne (m : Machine) (r r1 : Reg) (v : Int) (h : r1 ≠ r) :
    (m.set r v).regs r1 = m.regs r1 := by
  simp [Machine.set, h]

@[simp] theorem Machine.set_mem (m : Machine) (r : Reg) (v : Int) :
    (m.set r v).mem = m.mem := rfl

/-- The machine after the operands of a binary node have been evaluated and the
right one popped into `%rcx`. -/
theorem exec_binary_operands (op : Char) (l r : ASTNode) (m m1 m3 : Machine)
    (e1 : exec_lines (expression_code r) m = some m1)
    (e3 : exec_lines (expression_code l) (m1.push (m1.regs Reg.rax)) = some m3) :
    exec_lines (expression_code (.binary_op op l r)) m =
      exec_lines (codegen_binary_operator { output := [], label_count := 0 } op).output
        ((m3.set Reg.rsp (m3.regs Reg.rsp + 8)).set Reg.rcx (m3.mem (m3.regs Reg.rsp))) := by
  rw [expression_code_binary_op]
  simp only [exec_lines_append, e1, Option.some_bind, exec_lines, exec_line, e3]

/-- Run of the code of an arithmetic expression from any machine state: it
does not fault, leaves the value in `%rax`, restores `%rsp` and leaves the
memory at and above `%rsp` as it was. -/
theorem exec_arithmetic : ∀ (e : ASTNode) (m : Machine),
    is_arithmetic e = true → division_defined e →
    ∃ m1, exec_lines (expression_code e) m = some m1 ∧
      m1.regs Reg.rax = eval_arithmetic e ∧ m1.regs Reg.rsp = m.regs Reg.rsp ∧
      ∀ a, m.regs Reg.rsp ≤ a → m1.mem a = m.mem a
  | .number v, m, _, _ =>
    ⟨m.set Reg.rax (wrap64 v), rfl, Machine.set_regs_same m Reg.rax (wrap64 v),
      Machine.set_regs_ne m Reg.rax Reg.rsp (wrap64 v) (by decide), fun _ _ => rfl⟩
  | .binary_op op l r, m, h1, h2 => by
    simp only [is_arithmetic, Bool.and_eq_true, Bool.or_eq_true, decide_eq_true_eq] at h1
    obtain ⟨⟨hop, hl⟩, hr⟩ := h1
    obtain ⟨hdl, hdr, hdiv⟩ := h2
    obtain ⟨m1, e1, a1, s1, k1⟩ := exec_arithmetic r m hr hdr
    obtain ⟨m3, e3, a3, s3, k3⟩ := exec_arithmetic l (m1.push (m1.regs Reg.rax)) hl hdl
    have hrl := eval_arithmetic_range l
    have hrr := eval_arithmetic_range r
    have hsp2 : (m1.push (m1.regs Reg.rax)).regs Reg.rsp = m.regs Reg.rsp - 8 := by
      simp [Machine.push, Machine.store, s1]
    have hmem2 : (m1.push (m1.regs Reg.rax)).mem (m.regs Reg.rsp - 8) = eval_arithmetic r := by
      simp [Machine.push, Machine.store, s1, a1]
    have hmem2' : ∀ a, m.regs Reg.rsp ≤ a →
        (m1.push (m1.regs Reg.rax)).mem a = m.mem a := by
      intro a ha
      have hne : a ≠ m.regs Reg.rsp - 8 := by omega
      simp [Machine.push, Machine.store, s1, hne, k1 a ha]
    rw [hsp2] at s3 k3
    have hpop : m3.mem (m3.regs Reg.rsp) = eval_arithmetic r := by
      rw [s3, k3 _ (le_refl _), hmem2]
    have hmem3 : ∀ a, m.regs Reg.rsp ≤ a → m3.mem a = m.mem a := by
      intro a ha
      rw [k3 a (by omega), hmem2' a ha]
    rw [exec_binary_operands op l r m m1 m3 e1 e3, hpop, s3]
    generalize hm4 : (m3.set Reg.rsp (m.regs Reg.rsp - 8 + 8)).set Reg.rcx (eval_arithmetic r)
      = m4
    have h4a : m4.regs Reg.rax = eval_arithmetic l := by
      rw [← hm4, Machine.set_regs_ne _ _ _ _ (by decide),
        Machine.set_regs_ne _ _ _ _ (by decide), a3]
    have h4c : m4.regs Reg.rcx = eval_arithmetic r := by
      rw [← hm4, Machine.set_regs_same]
    have h4s : m4.regs Reg.rsp = m.regs Reg.rsp := by
      rw [← hm4, Machine.set_regs_ne _ _ _ _ (by decide), Machine.set_regs_same]
      omega
    have h4m : m4.mem = m3.mem := by
      rw [← hm4]; rfl
    rcases hop with ((hop | hop) | hop) | hop <;> subst hop
    · refine ⟨m4.set Reg.rax (wrap64 (m4.regs Reg.rax + m4.regs Reg.rcx)), rfl, ?_, ?_, ?_⟩
      · rw [Machine.set_regs_same, h4a, h4c]; rfl
      · rw [Machine.set_regs_ne _ _ _ _ (by decide), h4s]
      · intro a ha
        rw [Machine.set_mem, h4m, hmem3 a ha]
    · refine ⟨m4.set Reg.rax (wrap64 (m4.regs Reg.rax - m4.regs Reg.rcx)), rfl, ?_, ?_, ?_⟩
      · rw [Machine.set_regs_same, h4a, h4c]; rfl
      · rw [Machine.set_regs_ne _ _ _ _ (by decide), h4s]
      · intro a ha
        rw [Machine.set_mem, h4m, hmem3 a ha]
    · refine ⟨m4.set Reg.rax (wrap64 (m4.regs Reg.rax * m4.regs Reg.rcx)), rfl, ?_, ?_, ?_⟩
      · rw [Machine.set_regs_same, h4a, h4c]; rfl
      · rw [Machine.set_regs_ne _ _ _ _ (by decide), h4s]
      · intro a ha
        rw [Machine.set_mem, h4m, hmem3 a ha]
    · obtain ⟨hnz, hmin⟩ := hdiv rfl
      have hq := tdiv_range (eval_arithmetic l) (eval_arithmetic r) hrl.1 hrl.2 hmin
      have hdvd := sign_extended_dividend (eval_arithmetic l) hrl.1 hrl.2
      have hcode : (codegen_binary_operator { output := [], label_count := 0 } '/').output =
          [Line.cqo, Line.idivq Reg.rcx] := by decide
      have hno : ¬ (Int.tdiv (eval_arithmetic l) (eval_arithmetic r) < -(2 ^ 63) ∨
          2 ^ 63 ≤ Int.tdiv (eval_arithmetic l) (eval_arithmetic r)) := by omega
      rw [hcode]
      simp only [exec_lines, exec_line, Option.some_bind, Option.bind]
      rw [Machine.set_regs_same, Machine.set_regs_ne _ _ _ _ (by decide : Reg.rax ≠ Reg.rdx),
        Machine.set_regs_ne _ _ _ _ (by decide : Reg.rcx ≠ Reg.rdx), h4a, h4c, hdvd,
        if_neg hnz, if_neg hno]
      refine ⟨_, rfl, ?_, ?_, ?_⟩
      · rw [Machine.set_regs_ne _ _ _ _ (by decide), Machine.set_regs_same]
        simp only [eval_arithmetic]
        exact (wrap64_of_range _ hq.1 hq.2).symm
      · rw [Machine.set_regs_ne _ _ _ _ (by decide), Machine.set_regs_ne _ _ _ _ (by decide),
          Machine.set_regs_ne _ _ _ _ (by decide), h4s]
      · intro a ha
        rw [Machine.set_mem, Machine.set_mem, Machine.set_mem, h4m, hmem3 a ha]
  | .variable _, _, h, _ => by simp [is_arithmetic] at h
  | .program _, _, h, _ => by simp [is_arithmetic] at h
  | .function _ _ _, _, h, _ => by simp [is_arithmetic] at h
  | .extern_function _ _, _, h, _ => by simp [is_arithmetic] at h
  | .block _, _, h, _ => by simp [is_arithmetic] at h
  | .return_stmt _, _, h, _ => by simp [is_arithmetic] at h
  | .if_stmt _ _ _, _, h, _ => by simp [is_arithmetic] at h
  | .while_stmt _ _, _, h, _ => by simp [is_arithmetic] at h
  | .for_stmt, _, h, _ => by simp [is_arithmetic] at h
  | .unary_op _ _, _, h, _ => by simp [is_arithmetic] at h
  | .string _, _, h, _ => by simp [is_arithmetic] at h
  | .char_literal _, _, h, _ => by simp [is_arithmetic] at h
  | .call _ _, _, h, _ => by simp [is_arithmetic] at h
  | .assignment, _, h, _ => by simp [is_arithmetic] at h

/-- C3: for every expression built only from number literals and binary nodes
with operators `+`, `-`, `*`, `/`, in which no division divides by zero or
divides the least 64-bit integer by -1, running the lines emitted by
`codegen_expression` on the abstract machine, from any state, leaves in `%rax`
the value of the expression (left operand, operator, right operand; division
truncating toward zero; results wrapping modulo `2^64`). Through the parser,
`2+3*4` gives 14, `(2+3)*4` gives 20, `10-2-3` gives 5 and `-5+3` gives -2. -/
theorem arithmetic_code_correct (e : ASTNode) (m : Machine)
    (h1 : is_arithmetic e = true) (h2 : division_defined e) :
    (exec_lines (codegen_expression codegen_create e).output m).map
        (fun m1 => m1.regs Reg.rax) = some (eval_arithmetic e) ∧
    run_expression_text "2+3*4" = .ok (some 14) ∧
    run_expression_text "(2+3)*4" = .ok (some 20) ∧
    run_expression_text "10-2-3" = .ok (some 5) ∧
    run_expression_text "-5+3" = .ok (some (-2)) := by
  obtain ⟨m1, hm1, hrax, _, _⟩ := exec_arithmetic e m h1 h2
  refine ⟨?_, by decide!, by decide!, by decide!, by decide!⟩
  show (exec_lines (expression_code e) m).map (fun m1 => m1.regs Reg.rax) = _
  rw [hm1, Option.map_some', hrax]

/-- Witness of C3: the tree of `(0 - 7) / 2 + 3 * 4`, run from the zero machine,
leaves `-3 + 12 = 9` in `%rax`. -/
theorem arithmetic_code_correct_witness :
    (exec_lines (codegen_expression codegen_create
        (.binary_op '+'
          (.binary_op '/' (.binary_op '-' (.number 0) (.number 7)) (.number 2))
          (.binary_op '*' (.number 3) (.number 4)))).output Machine.zero).map
      (fun m1 => m1.regs Reg.rax) = some 9 :=
  (arithmetic_code_correct
    (.binary_op '+'
      (.binary_op '/' (.binary_op '-' (.number 0) (.number 7)) (.number 2))
      (.binary_op '*' (.number 3) (.number 4)))
    Machine.zero (by decide)
    (by simp only [division_defined, eval_arithmetic]; decide)).1

/-! ## Lines of `if`, `while` and blocks -/

theorem statement_code_if (k : Nat) (c t : ASTNode) (e : Option ASTNode) :
    statement_code k (.if_stmt c t e) =
      expression_code c ++
        [Line.cmpq_imm 0 Reg.rax, Line.je (synthesized_label k)] ++
        block_code (k + 2) t ++
        [Line.jmp (synthesized_label (k + 1)), Line.label (synthesized_label k)] ++
        else_code (block_labels (k + 2) t) e ++
        [Line.label (synthesized_label (k + 1))] := by
  rw [statement_code]
  simp only [codegen_statement, codegen_new_label, codegen_expression_frame, codegen_emit_mk,
    codegen_block_frame, codegen_else_frame]
  simp [List.append_assoc, synthesized_label]

theorem statement_labels_if (k : Nat) (c t : ASTNode) (e : Option ASTNode) :
    statement_labels k (.if_stmt c t e) = else_labels (block_labels (k + 2) t) e := by
  rw [statement_labels]
  simp only [codegen_statement, codegen_new_label, codegen_expression_frame, codegen_emit_mk,
    codegen_block_frame, codegen_else_frame]

theorem statement_code_while (k : Nat) (c b : ASTNode) :
    statement_code k (.while_stmt c b) =
      [Line.label (synthesized_label k)] ++ expression_code c ++
        [Line.cmpq_imm 0 Reg.rax, Line.je (synthesized_label (k + 1))] ++
        block_code (k + 2) b ++
        [Line.jmp (synthesized_label k), Line.label (synthesized_label (k + 1))] := by
  rw [statement_code]
  simp only [codegen_statement, codegen_new_label, codegen_expression_frame, codegen_emit_mk,
    codegen_block_frame]
  simp [List.append_assoc, synthesized_label]

theorem statement_labels_while (k : Nat) (c b : ASTNode) :
    statement_labels k (.while_stmt c b) = block_labels (k + 2) b := by
  rw [statement_labels]
  simp only [codegen_statement, codegen_new_label, codegen_expression_frame, codegen_emit_mk,
    codegen_block_frame]

theorem statement_labels_return (k : Nat) (e : ASTNode) :
    statement_labels k (.return_stmt e) = k := by
  rw [statement_labels]
  simp only [codegen_statement, codegen_expression_frame, codegen_emit_mk]

theorem block_code_block (k : Nat) (ss : List ASTNode) :
    block_code k (.block ss) = block_loop_code k ss := rfl

theorem block_labels_block (k : Nat) (ss : List ASTNode) :
    block_labels k (.block ss) = block_loop_labels k ss := rfl

theorem block_loop_code_cons (k : Nat) (s : ASTNode) (rest : List ASTNode) :
    block_loop_code k (s :: rest) =
      statement_code k s ++ block_loop_code (statement_labels k s) rest := by
  rw [block_loop_code]
  simp only [codegen_block_loop]
  rw [codegen_statement_frame, codegen_block_loop_frame]
  simp

theorem block_loop_labels_cons (k : Nat) (s : ASTNode) (rest : List ASTNode) :
    block_loop_labels k (s :: rest) = block_loop_labels (statement_labels k s) rest := by
  rw [block_loop_labels]
  simp only [codegen_block_loop]
  rw [codegen_statement_frame, codegen_block_loop_frame]

theorem else_code_some (k : Nat) (b : ASTNode) : else_code k (some b) = block_code k b := rfl

theorem else_labels_some (k : Nat) (b : ASTNode) :
    else_labels k (some b) = block_labels k b := rfl

/-! ## Decimal rendering of label numbers -/

theorem digits_value_append_singleton (cs : List Char) (c : Char) :
    digits_value (cs ++ [c]) = 10 * digits_value cs + (c.toNat - 48) := by
  simp [digits_value, List.foldl_append]

theorem digitChar_value (d : Nat) (h : d < 10) : (Nat.digitChar d).toNat - 48 = d := by
  interval_cases d <;> rfl

theorem digitChar_isdigit (d : Nat) (h : d < 10) :
    48 ≤ (Nat.digitChar d).toNat ∧ (Nat.digitChar d).toNat ≤ 57 := by
  interval_cases d <;> decide

theorem toDigitsCore_append (fuel : Nat) : ∀ (n : Nat) (ds : List Char),
    Nat.toDigitsCore 10 fuel n ds = Nat.toDigitsCore 10 fuel n [] ++ ds := by
  induction fuel with
  | zero => intro n ds; simp [Nat.toDigitsCore]
  | succ fuel ih =>
    intro n ds
    simp only [Nat.toDigitsCore]
    split_ifs
    · simp
    · rw [ih (n / 10) (_ :: ds), ih (n / 10) [_]]
      simp

theorem toDigitsCore_value (fuel : Nat) : ∀ n : Nat, n < fuel →
    digits_value (Nat.toDigitsCore 10 fuel n []) = n := by
  induction fuel with
  | zero => intro n h; omega
  | succ fuel ih =>
    intro n h
    simp only [Nat.toDigitsCore]
    split_ifs with h0
    · simp only [digits_value, List.foldl_cons, List.foldl_nil]
      rw [digitChar_value _ (Nat.mod_lt _ (by decide))]
      omega
    · rw [toDigitsCore_append, digits_value_append_singleton,
        digitChar_value _ (Nat.mod_lt _ (by decide)), ih (n / 10) (by omega)]
      omega

theorem toDigitsCore_isdigit (fuel : Nat) : ∀ (n : Nat) (ds : List Char),
    (∀ c ∈ ds, 48 ≤ c.toNat ∧ c.toNat ≤ 57) →
    ∀ c ∈ Nat.toDigitsCore 10 fuel n ds, 48 ≤ c.toNat ∧ c.toNat ≤ 57 := by
  induction fuel with
  | zero => intro n ds h; simpa [Nat.toDigitsCore] using h
  | succ fuel ih =>
    intro n ds h
    have hd := digitChar_isdigit (n % 10) (Nat.mod_lt _ (by decide))
    simp only [Nat.toDigitsCore]
    split_ifs
    · intro c hc
      rcases List.mem_cons.1 hc with rfl | hc
      · exact hd
      · exact h c hc
    · apply ih
      intro c hc
      rcases List.mem_cons.1 hc with rfl | hc
      · exact hd
      · exact h c hc

theorem repr_value (n : Nat) : digits_value (toString n).data = n := by
  show digits_value (Nat.toDigits 10 n) = n
  exact toDigitsCore_value (n + 1) n (by omega)

theorem repr_isdigit (n : Nat) : ∀ c ∈ (toString n).data, 48 ≤ c.toNat ∧ c.toNat ≤ 57 := by
  show ∀ c ∈ Nat.toDigits 10 n, _
  exact toDigitsCore_isdigit (n + 1) n [] (by simp)

theorem toString_injective (m n : Nat) (h : toString m = toString n) : m = n := by
  rw [← repr_value m, ← repr_value n, h]

theorem synthesized_label_injective (m n : Nat)
    (h : synthesized_label m = synthesized_label n) : m = n := by
  apply toString_injective
  have h1 := congrArg String.data h
  simp only [synthesized_label, String.data_append] at h1
  exact String.ext (List.append_cancel_left h1)

@[simp] theorem synthesized_label_eq_iff (m n : Nat) :
    synthesized_label m = synthesized_label n ↔ m = n :=
  ⟨synthesized_label_injective m n, fun h => h ▸ rfl⟩

/-! ## C7: synthesized labels -/

/-- A statement node that is not `return`, `if` or `while` is handed to
`codegen_expression`. -/
theorem codegen_statement_other (n : ASTNode) (g : CodeGenerator)
    (h1 : ∀ e, n ≠ .return_stmt e) (h2 : ∀ c t e, n ≠ .if_stmt c t e)
    (h3 : ∀ c b, n ≠ .while_stmt c b) :
    codegen_statement g n = codegen_expression g n := by
  cases n <;> simp_all [codegen_statement]

theorem statement_code_other (n : ASTNode) (k : Nat)
    (h1 : ∀ e, n ≠ .return_stmt e) (h2 : ∀ c t e, n ≠ .if_stmt c t e)
    (h3 : ∀ c b, n ≠ .while_stmt c b) :
    statement_code k n = expression_code n ∧ statement_labels k n = k := by
  rw [statement_code, statement_labels, codegen_statement_other n _ h1 h2 h3,
    codegen_expression_frame]
  simp

/-- The code of an expression defines no label. -/
theorem expression_code_no_label (x : String) : ∀ e : ASTNode,
    List.count (Line.label x) (expression_code e) = 0
  | .number v => by simp [expression_code_number]
  | .binary_op op l r => by
    rw [expression_code_binary_op]
    simp only [List.count_append, expression_code_no_label x l, expression_code_no_label x r]
    unfold codegen_binary_operator
    split_ifs <;> simp [codegen_emit]
  | .program _ => by simp [expression_code, codegen_expression, codegen_create]
  | .function _ _ _ => by simp [expression_code, codegen_expression, codegen_create]
  | .extern_function _ _ => by simp [expression_code, codegen_expression, codegen_create]
  | .block _ => by simp [expression_code, codegen_expression, codegen_create]
  | .return_stmt _ => by simp [expression_code, codegen_expression, codegen_create]
  | .if_stmt _ _ _ => by simp [expression_code, codegen_expression, codegen_create]
  | .while_stmt _ _ => by simp [expression_code, codegen_expression, codegen_create]
  | .for_stmt => by simp [expression_code, codegen_expression, codegen_create]
  | .unary_op _ _ => by simp [expression_code, codegen_expression, codegen_create]
  | .variable _ => by simp [expression_code, codegen_expression, codegen_create]
  | .string _ => by simp [expression_code, codegen_expression, codegen_create]
  | .char_literal _ => by simp [expression_code, codegen_expression, codegen_create]
  | .call _ _ => by simp [expression_code, codegen_expression, codegen_create]
  | .assignment => by simp [expression_code, codegen_expression, codegen_create]

mutual

/-- Statements: the label counter does not decrease, and the label `.L<m>` is
defined exactly once if `m` is one of the numbers drawn and not at all
otherwise. -/
theorem statement_code_labels : ∀ (n : ASTNode) (k : Nat),
    k ≤ statement_labels k n ∧ ∀ m, List.count (Line.label (synthesized_label m))
      (statement_code k n) = if k ≤ m ∧ m < statement_labels k n then 1 else 0
  | .return_stmt e, k => by
    rw [statement_labels_return, statement_code_return]
    refine ⟨le_refl _, fun m => ?_⟩
    rw [if_neg (by omega)]
    simp [List.count_append, expression_code_no_label]
  | .if_stmt c t e, k => by
    obtain ⟨h1, c1⟩ := block_code_labels t (k + 2)
    obtain ⟨h2, c2⟩ := else_code_labels e (block_labels (k + 2) t)
    rw [statement_labels_if, statement_code_if]
    refine ⟨by omega, fun m => ?_⟩
    simp only [List.count_append, expression_code_no_label, c1 m, c2 m, List.count_cons,
      List.count_nil, beq_iff_eq, Line.label.injEq, synthesized_label_eq_iff, reduceCtorEq,
      if_false]
    split_ifs <;> omega
  | .while_stmt c b, k => by
    obtain ⟨h1, c1⟩ := block_code_labels b (k + 2)
    rw [statement_labels_while, statement_code_while]
    refine ⟨by omega, fun m => ?_⟩
    simp only [List.count_append, expression_code_no_label, c1 m, List.count_cons,
      List.count_nil, beq_iff_eq, Line.label.injEq, synthesized_label_eq_iff, reduceCtorEq,
      if_false]
    split_ifs <;> omega
  | .program a0, k => by
    obtain ⟨h1, h2⟩ := statement_code_other (.program a0) k (by simp) (by simp) (by simp)
    rw [h1, h2]
    refine ⟨le_refl _, fun m => ?_⟩
    rw [expression_code_no_label, if_neg (by omega)]
  | .function a0 a1 a2, k => by
    obtain ⟨h1, h2⟩ := statement_code_other (.function a0 a1 a2) k (by simp) (by simp) (by simp)
    rw [h1, h2]
    refine ⟨le_refl _, fun m => ?_⟩
    rw [expression_code_no_label, if_neg (by omega)]
  | .extern_function a0 a1, k => by
    obtain ⟨h1, h2⟩ := statement_code_other (.extern_function a0 a1) k (by simp) (by simp) (by simp)
    rw [h1, h2]
    refine ⟨le_refl _, fun m => ?_⟩
    rw [expression_code_no_label, if_neg (by omega)]
  | .block a0, k => by
    obtain ⟨h1, h2⟩ := statement_code_other (.block a0) k (by simp) (by simp) (by simp)
    rw [h1, h2]
    refine ⟨le_refl _, fun m => ?_⟩
    rw [expression_code_no_label, if_neg (by omega)]
  | .for_stmt, k => by
    obtain ⟨h1, h2⟩ := statement_code_other (.for_stmt) k (by simp) (by simp) (by simp)
    rw [h1, h2]
    refine ⟨le_refl _, fun m => ?_⟩
    rw [expression_code_no_label, if_neg (by omega)]
  | .binary_op a0 a1 a2, k => by
    obtain ⟨h1, h2⟩ := statement_code_other (.binary_op a0 a1 a2) k (by simp) (by simp) (by simp)
    rw [h1, h2]
    refine ⟨le_refl _, fun m => ?_⟩
    rw [expression_code_no_label, if_neg (by omega)]
  | .unary_op a0 a1, k => by
    obtain ⟨h1, h2⟩ := statement_code_other (.unary_op a0 a1) k (by simp) (by simp) (by simp)
    rw [h1, h2]
    refine ⟨le_refl _, fun m => ?_⟩
    rw [expression_code_no_label, if_neg (by omega)]
  | .variable a0, k => by
    obtain ⟨h1, h2⟩ := statement_code_other (.variable a0) k (by simp) (by simp) (by simp)
    rw [h1, h2]
    refine ⟨le_refl _, fun m => ?_⟩
    rw [expression_code_no_label, if_neg (by omega)]
  | .number a0, k => by
    obtain ⟨h1, h2⟩ := statement_code_other (.number a0) k (by simp) (by simp) (by simp)
    rw [h1, h2]
    refine ⟨le_refl _, fun m => ?_⟩
    rw [expression_code_no_label, if_neg (by omega)]
  | .string a0, k => by
    obtain ⟨h1, h2⟩ := statement_code_other (.string a0) k (by simp) (by simp) (by simp)
    rw [h1, h2]
    refine ⟨le_refl _, fun m => ?_⟩
    rw [expression_code_no_label, if_neg (by omega)]
  | .char_literal a0, k => by
    obtain ⟨h1, h2⟩ := statement_code_other (.char_literal a0) k (by simp) (by simp) (by simp)
    rw [h1, h2]
    refine ⟨le_refl _, fun m => ?_⟩
    rw [expression_code_no_label, if_neg (by omega)]
  | .call a0 a1, k => by
    obtain ⟨h1, h2⟩ := statement_code_other (.call a0 a1) k (by simp) (by simp) (by simp)
    rw [h1, h2]
    refine ⟨le_refl _, fun m => ?_⟩
    rw [expression_code_no_label, if_neg (by omega)]
  | .assignment, k => by
    obtain ⟨h1, h2⟩ := statement_code_other (.assignment) k (by simp) (by simp) (by simp)
    rw [h1, h2]
    refine ⟨le_refl _, fun m => ?_⟩
    rw [expression_code_no_label, if_neg (by omega)]

/-- The else branch: as for statements. -/
theorem else_code_labels : ∀ (n : Option ASTNode) (k : Nat),
    k ≤ else_labels k n ∧ ∀ m, List.count (Line.label (synthesized_label m))
      (else_code k n) = if k ≤ m ∧ m < else_labels k n then 1 else 0
  | none, k => by
    refine ⟨le_refl _, fun m => ?_⟩
    show List.count _ [] = if k ≤ m ∧ m < k then 1 else 0
    rw [if_neg (by omega)]
    rfl
  | some b, k => by
    rw [else_code_some, else_labels_some]
    exact block_code_labels b k

/-- Blocks: as for statements. -/
theorem block_code_labels : ∀ (n : ASTNode) (k : Nat),
    k ≤ block_labels k n ∧ ∀ m, List.count (Line.label (synthesized_label m))
      (block_code k n) = if k ≤ m ∧ m < block_labels k n then 1 else 0
  | .block ss, k => by
    rw [block_code_block, block_labels_block]
    exact block_loop_code_labels ss k
  | .program _, k => by
    refine ⟨le_refl _, fun m => ?_⟩
    show List.count _ [] = if k ≤ m ∧ m < k then 1 else 0
    rw [if_neg (by omega)]
    rfl
  | .function _ _ _, k => by
    refine ⟨le_refl _, fun m => ?_⟩
    show List.count _ [] = if k ≤ m ∧ m < k then 1 else 0
    rw [if_neg (by omega)]
    rfl
  | .extern_function _ _, k => by
    refine ⟨le_refl _, fun m => ?_⟩
    show List.count _ [] = if k ≤ m ∧ m < k then 1 else 0
    rw [if_neg (by omega)]
    rfl
  | .return_stmt _, k => by
    refine ⟨le_refl _, fun m => ?_⟩
    show List.count _ [] = if k ≤ m ∧ m < k then 1 else 0
    rw [if_neg (by omega)]
    rfl
  | .if_stmt _ _ _, k => by
    refine ⟨le_refl _, fun m => ?_⟩
    show List.count _ [] = if k ≤ m ∧ m < k then 1 else 0
    rw [if_neg (by omega)]
    rfl
  | .while_stmt _ _, k => by
    refine ⟨le_refl _, fun m => ?_⟩
    show List.count _ [] = if k ≤ m ∧ m < k then 1 else 0
    rw [if_neg (by omega)]
    rfl
  | .for_stmt, k => by
    refine ⟨le_refl _, fun m => ?_⟩
    show List.count _ [] = if k ≤ m ∧ m < k then 1 else 0
    rw [if_neg (by omega)]
    rfl
  | .binary_op _ _ _, k => by
    refine ⟨le_refl _, fun m => ?_⟩
    show List.count _ [] = if k ≤ m ∧ m < k then 1 else 0
    rw [if_neg (by omega)]
    rfl
  | .unary_op _ _, k => by
    refine ⟨le_refl _, fun m => ?_⟩
    show List.count _ [] = if k ≤ m ∧ m < k then 1 else 0
    rw [if_neg (by omega)]
    rfl
  | .variable _, k => by
    refine ⟨le_refl _, fun m => ?_⟩
    show List.count _ [] = if k ≤ m ∧ m < k then 1 else 0
    rw [if_neg (by omega)]
    rfl
  | .number _, k => by
    refine ⟨le_refl _, fun m => ?_⟩
    show List.count _ [] = if k ≤ m ∧ m < k then 1 else 0
    rw [if_neg (by omega)]
    rfl
  | .string _, k => by
    refine ⟨le_refl _, fun m => ?_⟩
    show List.count _ [] = if k ≤ m ∧ m < k then 1 else 0
    rw [if_neg (by omega)]
    rfl
  | .char_literal _, k => by
    refine ⟨le_refl _, fun m => ?_⟩
    show List.count _ [] = if k ≤ m ∧ m < k then 1 else 0
    rw [if_neg (by omega)]
    rfl
  | .call _ _, k => by
    refine ⟨le_refl _, fun m => ?_⟩
    show List.count _ [] = if k ≤ m ∧ m < k then 1 else 0
    rw [if_neg (by omega)]
    rfl
  | .assignment, k => by
    refine ⟨le_refl _, fun m => ?_⟩
    show List.count _ [] = if k ≤ m ∧ m < k then 1 else 0
    rw [if_neg (by omega)]
    rfl

/-- Statement lists: as for statements. -/
theorem block_loop_code_labels : ∀ (ns : List ASTNode) (k : Nat),
    k ≤ block_loop_labels k ns ∧ ∀ m, List.count (Line.label (synthesized_label m))
      (block_loop_code k ns) = if k ≤ m ∧ m < block_loop_labels k ns then 1 else 0
  | [], k => by
    refine ⟨le_refl _, fun m => ?_⟩
    show List.count _ [] = if k ≤ m ∧ m < k then 1 else 0
    rw [if_neg (by omega)]
    rfl
  | s :: rest, k => by
    obtain ⟨h1, c1⟩ := statement_code_labels s k
    obtain ⟨h2, c2⟩ := block_loop_code_labels rest (statement_labels k s)
    rw [block_loop_code_cons, block_loop_labels_cons]
    refine ⟨by omega, fun m => ?_⟩
    rw [List.count_append, c1 m, c2 m]
    split_ifs <;> omega

end

mutual

/-- An expression contains no `if` and no `while` node. -/
theorem is_expression_count : ∀ e : ASTNode, is_expression e = true → count_if_while e = 0
  | .binary_op _ l r, h => by
    simp only [is_expression, Bool.and_eq_true] at h
    simp [count_if_while, is_expression_count l h.1, is_expression_count r h.2]
  | .unary_op _ a, h => by
    simp only [is_expression] at h
    simp [count_if_while, is_expression_count a h]
  | .call _ args, h => by
    simp only [is_expression] at h
    simp [count_if_while, all_expressions_count args h]
  | .number _, _ => by simp [count_if_while]
  | .variable _, _ => by simp [count_if_while]
  | .string _, _ => by simp [count_if_while]
  | .char_literal _, _ => by simp [count_if_while]
  | .program _, h => by simp [is_expression] at h
  | .function _ _ _, h => by simp [is_expression] at h
  | .extern_function _ _, h => by simp [is_expression] at h
  | .block _, h => by simp [is_expression] at h
  | .return_stmt _, h => by simp [is_expression] at h
  | .if_stmt _ _ _, h => by simp [is_expression] at h
  | .while_stmt _ _, h => by simp [is_expression] at h
  | .for_stmt, h => by simp [is_expression] at h
  | .assignment, h => by simp [is_expression] at h

/-- A list of expressions contains no `if` and no `while` node. -/
theorem all_expressions_count : ∀ es : List ASTNode,
    all_expressions es = true → count_if_while_list es = 0
  | [], _ => rfl
  | e :: rest, h => by
    simp only [all_expressions, Bool.and_eq_true] at h
    simp [count_if_while_list, is_expression_count e h.1, all_expressions_count rest h.2]

end

mutual

/-- A statement moves the label counter by twice its number of `if` and
`while` nodes. -/
theorem is_statement_labels : ∀ (n : ASTNode) (k : Nat), is_statement n = true →
    statement_labels k n = k + 2 * count_if_while n
  | .return_stmt e, k, h => by
    simp only [is_statement] at h
    rw [statement_labels_return]
    simp [count_if_while, is_expression_count e h]
  | .if_stmt c t e, k, h => by
    simp only [is_statement, Bool.and_eq_true] at h
    rw [statement_labels_if, is_optional_block_labels e _ h.2, is_block_labels t _ h.1.2]
    simp only [count_if_while, is_expression_count c h.1.1]
    omega
  | .while_stmt c b, k, h => by
    simp only [is_statement, Bool.and_eq_true] at h
    rw [statement_labels_while, is_block_labels b _ h.2]
    simp only [count_if_while, is_expression_count c h.1]
    omega
  | .number a0, k, h => by
    rw [(statement_code_other (.number a0) k (by simp) (by simp) (by simp)).2,
      is_expression_count (.number a0) (by simp only [is_statement] at h; simp [is_expression, h])]
    omega
  | .variable a0, k, h => by
    rw [(statement_code_other (.variable a0) k (by simp) (by simp) (by simp)).2,
      is_expression_count (.variable a0) (by simp only [is_statement] at h; simp [is_expression, h])]
    omega
  | .string a0, k, h => by
    rw [(statement_code_other (.string a0) k (by simp) (by simp) (by simp)).2,
      is_expression_count (.string a0) (by simp only [is_statement] at h; simp [is_expression, h])]
    omega
  | .char_literal a0, k, h => by
    rw [(statement_code_other (.char_literal a0) k (by simp) (by simp) (by simp)).2,
      is_expression_count (.char_literal a0) (by simp only [is_statement] at h; simp [is_expression, h])]
    omega
  | .binary_op a0 a1 a2, k, h => by
    rw [(statement_code_other (.binary_op a0 a1 a2) k (by simp) (by simp) (by simp)).2,
      is_expression_count (.binary_op a0 a1 a2) (by simp only [is_statement] at h; simp [is_expression, h])]
    omega
  | .unary_op a0 a1, k, h => by
    rw [(statement_code_other (.unary_op a0 a1) k (by simp) (by simp) (by simp)).2,
      is_expression_count (.unary_op a0 a1) (by simp only [is_statement] at h; simp [is_expression, h])]
    omega
  | .call a0 a1, k, h => by
    rw [(statement_code_other (.call a0 a1) k (by simp) (by simp) (by simp)).2,
      is_expression_count (.call a0 a1) (by simp only [is_statement] at h; simp [is_expression, h])]
    omega
  | .program _, _, h => by simp [is_statement] at h
  | .function _ _ _, _, h => by simp [is_statement] at h
  | .extern_function _ _, _, h => by simp [is_statement] at h
  | .block _, _, h => by simp [is_statement] at h
  | .for_stmt, _, h => by simp [is_statement] at h
  | .assignment, _, h => by simp [is_statement] at h

/-- The else branch moves the label counter by twice its number of `if` and
`while` nodes. -/
theorem is_optional_block_labels : ∀ (n : Option ASTNode) (k : Nat),
    is_optional_block n = true → else_labels k n = k + 2 * count_if_while_option n
  | none, k, _ => rfl
  | some b, k, h => by
    simp only [is_optional_block] at h
    rw [else_labels_some, is_block_labels b k h]
    rfl

/-- A block moves the label counter by twice its number of `if` and `while`
nodes. -/
theorem is_block_labels : ∀ (n : ASTNode) (k : Nat), is_block n = true →
    block_labels k n = k + 2 * count_if_while n
  | .block ss, k, h => by
    simp only [is_block] at h
    rw [block_labels_block, all_statements_labels ss k h]
    rfl
  | .program _, _, h => by simp [is_block] at h
  | .function _ _ _, _, h => by simp [is_block] at h
  | .extern_function _ _, _, h => by simp [is_block] at h
  | .return_stmt _, _, h => by simp [is_block] at h
  | .if_stmt _ _ _, _, h => by simp [is_block] at h
  | .while_stmt _ _, _, h => by simp [is_block] at h
  | .for_stmt, _, h => by simp [is_block] at h
  | .binary_op _ _ _, _, h => by simp [is_block] at h
  | .unary_op _ _, _, h => by simp [is_block] at h
  | .variable _, _, h => by simp [is_block] at h
  | .number _, _, h => by simp [is_block] at h
  | .string _, _, h => by simp [is_block] at h
  | .char_literal _, _, h => by simp [is_block] at h
  | .call _ _, _, h => by simp [is_block] at h
  | .assignment, _, h => by simp [is_block] at h

/-- A statement list moves the label counter by twice its number of `if` and
`while` nodes. -/
theorem all_statements_labels : ∀ (ns : List ASTNode) (k : Nat), all_statements ns = true →
    block_loop_labels k ns = k + 2 * count_if_while_list ns
  | [], k, _ => rfl
  | s :: rest, k, h => by
    simp only [all_statements, Bool.and_eq_true] at h
    rw [block_loop_labels_cons, all_statements_labels rest _ h.2, is_statement_labels s k h.1]
    simp only [count_if_while_list]
    omega

end

theorem params_code_no_label (x : String) (param_count : Nat) : ∀ (regs : List Reg) (i : Nat),
    List.count (Line.label x) (params_code param_count i regs) = 0
  | [], i => by simp [params_code, codegen_params_loop]
  | r :: rest, i => by
    have ih := params_code_no_label x param_count rest (i + 1)
    rw [params_code]
    simp only [codegen_params_loop]
    split_ifs
    · rw [codegen_params_loop_frame]
      simp [codegen_emit, ih]
    · simp

theorem reserve_code_no_label (x : String) (param_count : Nat) :
    List.count (Line.label x) (reserve_code param_count) = 0 := by
  unfold reserve_code
  split_ifs <;> simp

theorem declarations_code_no_label (x : String) : ∀ names : List String,
    List.count (Line.label x) (declarations_code names) = 0
  | [] => by simp [declarations_code, codegen_declarations]
  | name :: rest => by
    rw [declarations_code_cons]
    simp [declarations_code_no_label x rest]

theorem synthesized_label_data (m : Nat) :
    (synthesized_label m).data = '.' :: 'L' :: (toString m).data := by
  simp [synthesized_label, String.data_append]

/-- An identifier is not a synthesized label. -/
theorem identifier_ne_synthesized_label (name : String) (h : is_identifier name = true)
    (m : Nat) : name ≠ synthesized_label m := by
  intro heq
  have hd := synthesized_label_data m
  rw [← heq] at hd
  simp [is_identifier, hd, isalpha] at h

/-- The return label of a function is not a synthesized label. -/
theorem return_label_ne_synthesized_label (name : String) (m : Nat) :
    "." ++ name ++ "_return" ≠ synthesized_label m := by
  intro heq
  have hd := congrArg String.data heq
  rw [synthesized_label_data] at hd
  simp only [String.data_append] at hd
  have hmem : 'n' ∈ ['.'] ++ name.data ++ ['_', 'r', 'e', 't', 'u', 'r', 'n'] := by
    apply List.mem_append_right
    decide
  rw [hd] at hmem
  rcases List.mem_cons.1 hmem with h | hmem
  · exact absurd h (by decide)
  · rcases List.mem_cons.1 hmem with h | hmem
    · exact absurd h (by decide)
    · have := repr_isdigit m 'n' hmem
      revert this
      decide

/-- Labels of one function: the counter does not decrease, and `.L<m>` is
defined exactly once if `m` is one of the numbers drawn and not at all otherwise. -/
theorem function_code_labels (f : ASTNode) (k : Nat) (hf : is_function f = true) :
    function_labels k f = k + 2 * count_if_while f ∧
    ∀ m, List.count (Line.label (synthesized_label m)) (function_code k f) =
      if k ≤ m ∧ m < function_labels k f then 1 else 0 := by
  cases f with
  | function name params body =>
    simp only [is_function, Bool.and_eq_true] at hf
    obtain ⟨_, c1⟩ := block_code_labels body k
    refine ⟨?_, fun m => ?_⟩
    · rw [function_labels_eq, is_block_labels body k hf.2]
      rfl
    · have h1 := identifier_ne_synthesized_label name hf.1 m
      have h2 := return_label_ne_synthesized_label name m
      rw [function_code_eq, function_labels_eq]
      simp only [List.count_append, params_code_no_label, reserve_code_no_label, c1 m,
        List.count_cons, List.count_nil, beq_iff_eq, Line.label.injEq, reduceCtorEq, if_false,
        h1, h2]
      split_ifs <;> omega
  | _ => simp [is_function] at hf

/-- Labels of the functions of a program. -/
theorem functions_code_labels : ∀ (fs : List ASTNode) (k : Nat),
    fs.all is_function = true →
    functions_labels k fs = k + 2 * count_if_while_list fs ∧
    ∀ m, List.count (Line.label (synthesized_label m)) (functions_code k fs) =
      if k ≤ m ∧ m < functions_labels k fs then 1 else 0
  | [], k, _ => by
    refine ⟨rfl, fun m => ?_⟩
    show List.count _ [] = if k ≤ m ∧ m < k then 1 else 0
    rw [if_neg (by omega)]
    rfl
  | f :: rest, k, h => by
    simp only [List.all_cons, Bool.and_eq_true] at h
    obtain ⟨e1, c1⟩ := function_code_labels f k h.1
    obtain ⟨e2, c2⟩ := functions_code_labels rest (function_labels k f) h.2
    refine ⟨?_, fun m => ?_⟩
    · rw [functions_labels_cons, e2, e1]
      simp only [count_if_while_list]
      omega
    · rw [functions_code_cons, functions_labels_cons, List.count_append, c1 m, c2 m]
      rw [e2, e1]
      split_ifs <;> omega

theorem is_function_name (fs : List ASTNode) (h : fs.all is_function = true) :
    ∃ names, fs.mapM ASTNode.function_name = some names := by
  induction fs with
  | nil => exact ⟨[], rfl⟩
  | cons f rest ih =>
    simp only [List.all_cons, Bool.and_eq_true] at h
    obtain ⟨names, hn⟩ := ih h.2
    cases f with
    | function name params body =>
      refine ⟨name :: names, ?_⟩
      rw [List.mapM_cons, hn]
      rfl
    | _ => simp [is_function] at h

/-- Every line that is not a label definition starts with a tab. -/
theorem text_head (line : Line) (h : ∀ x, line ≠ Line.label x) :
    line.text.data.head? = some '\t' := by
  cases line <;> first
    | exact absurd rfl (h _)
    | rfl

/-- The only line whose text is `.L<m>:` is the definition of the label `.L<m>`. -/
theorem text_eq_label (line : Line) (m : Nat)
    (h : line.text = synthesized_label m ++ ":") : line = Line.label (synthesized_label m) := by
  by_cases hl : ∀ x, line ≠ Line.label x
  · have h1 := text_head line hl
    rw [h] at h1
    simp [String.data_append, synthesized_label_data] at h1
  · push_neg at hl
    obtain ⟨x, rfl⟩ := hl
    have h2 := congrArg String.data h
    simp only [Line.text, String.data_append] at h2
    rw [String.ext (List.append_cancel_right h2)]

theorem count_label_text (m : Nat) : ∀ lines : List Line,
    List.count (synthesized_label m ++ ":") (lines.map Line.text) =
      List.count (Line.label (synthesized_label m)) lines
  | [] => rfl
  | line :: rest => by
    rw [List.map_cons, List.count_cons, List.count_cons, count_label_text m rest]
    by_cases h : line = Line.label (synthesized_label m)
    · subst h
      simp [Line.text]
    · have h1 : ¬ line.text = synthesized_label m ++ ":" := fun h1 => h (text_eq_label line m h1)
      simp [h, h1]

theorem codegen_new_label_iterate (k : Nat) :
    (Nat.iterate (fun g => (codegen_new_label g).2) k codegen_create).label_count = k := by
  induction k with
  | zero => rfl
  | succ k ih =>
    rw [Function.iterate_succ_apply']
    show (Nat.iterate (fun g => (codegen_new_label g).2) k codegen_create).label_count + 1 = _
    rw [ih]

/-- C7: synthesized labels are unique and numbered in order. `codegen_new_label`
returns `.L<label_count>` and increases `label_count` by one, so the `k`-th call
after `codegen_create` returns `.L<k-1>`; and for every program (function
nodes named by identifiers, with block bodies, blocks of statements, `if` and
`while` statements with expression conditions and block branches)
`codegen_generate` ends with `label_count` equal to twice the number of `if`
and `while` nodes, and no line `.L<n>:` occurs twice in its output. -/
theorem synthesized_labels_unique :
    (∀ g : CodeGenerator, codegen_new_label g =
      (".L" ++ toString g.label_count, { g with label_count := g.label_count + 1 })) ∧
    (∀ k, 1 ≤ k →
      (codegen_new_label
        (Nat.iterate (fun g => (codegen_new_label g).2) (k - 1) codegen_create)).1 =
        ".L" ++ toString (k - 1)) ∧
    (∀ prog, is_program prog = true →
      ∃ g, codegen_generate codegen_create prog = some g ∧
        g.label_count = 2 * count_if_while prog ∧
        ∀ n : Nat, List.count (".L" ++ toString n ++ ":") (g.output.map Line.text) ≤ 1) := by
  refine ⟨fun g => rfl, fun k _ => ?_, fun prog hp => ?_⟩
  · show ".L" ++ toString (Nat.iterate _ (k - 1) codegen_create).label_count = _
    rw [codegen_new_label_iterate]
  · cases prog with
    | program fs =>
      simp only [is_program] at hp
      obtain ⟨names, hn⟩ := is_function_name fs hp
      obtain ⟨e1, c1⟩ := functions_code_labels fs 0 hp
      refine ⟨_, codegen_generate_eq codegen_create fs names hn, ?_, fun n => ?_⟩
      · show functions_labels 0 fs = _
        rw [e1]
        simp only [count_if_while]
        omega
      · have hs : ".L" ++ toString n ++ ":" = synthesized_label n ++ ":" := rfl
        rw [hs, count_label_text]
        simp only [codegen_create, List.nil_append, List.count_append,
          declarations_code_no_label, c1 n, List.count_cons, List.count_nil, beq_iff_eq,
          reduceCtorEq, if_false]
        have he : List.count (Line.label (synthesized_label n)) entry_point_code = 0 := by
          have hne : "_start" ≠ synthesized_label n :=
            identifier_ne_synthesized_label "_start" (by decide) n
          simp [entry_point_code, codegen_entry_point, codegen_emit, List.count_cons, hne]
        rw [he]
        split_ifs <;> omega
    | _ => simp [is_program] at hp

/-- Witness of C7: a program with an `if` that holds a `while`. -/
theorem synthesized_labels_unique_witness :
    ∃ g, codegen_generate codegen_create
        (.program [.function "main" []
          (.block [.if_stmt (.number 1)
            (.block [.while_stmt (.number 0) (.block [])]) none])]) = some g ∧
      g.label_count = 2 * count_if_while
        (.program [.function "main" []
          (.block [.if_stmt (.number 1)
            (.block [.while_stmt (.number 0) (.block [])]) none])]) ∧
      ∀ n : Nat, List.count (".L" ++ toString n ++ ":") (g.output.map Line.text) ≤ 1 :=
  synthesized_labels_unique.2.2 _ (by decide)

/-! ## Fuel of the parser -/

theorem Settles.refl {α : Type} (x : ParseM α) : Settles x x := fun _ => rfl

theorem Settles.of_out_of_fuel {α : Type} (y : ParseM α) :
    Settles (.error .out_of_fuel) y := fun h => absurd rfl h

theorem Settles.bind {α β : Type} {x y : ParseM α} {f g : α → ParseM β}
    (h1 : Settles x y) (h2 : ∀ a, Settles (f a) (g a)) : Settles (x >>= f) (y >>= g) := by
  intro h
  cases x with
  | error e =>
    have he : (Except.error e : ParseM α) ≠ .error .out_of_fuel := by
      intro hc
      apply h
      rw [hc]
      rfl
    rw [h1 he]
    rfl
  | ok a =>
    rw [h1 (by simp)]
    exact h2 a h

theorem Settles.ite {α : Type} {c : Prop} [Decidable c] {x1 x2 y1 y2 : ParseM α}
    (h1 : Settles x1 y1) (h2 : Settles x2 y2) :
    Settles (if c then x1 else x2) (if c then y1 else y2) := by
  split_ifs
  · exact h1
  · exact h2

theorem expression_fuel_step (n : Nat) :
    (∀ p, Settles (parser_parse_expression n p) (parser_parse_expression (n + 1) p)) ∧
    (∀ p, Settles (parser_parse_arithmetic n p) (parser_parse_arithmetic (n + 1) p)) ∧
    (∀ l p, Settles (parser_parse_arithmetic_loop n l p)
      (parser_parse_arithmetic_loop (n + 1) l p)) ∧
    (∀ p, Settles (parser_parse_term n p) (parser_parse_term (n + 1) p)) ∧
    (∀ l p, Settles (parser_parse_term_loop n l p) (parser_parse_term_loop (n + 1) l p)) ∧
    (∀ p, Settles (parser_parse_factor n p) (parser_parse_factor (n + 1) p)) := by
  induction n with
  | zero =>
    refine ⟨?_, ?_, ?_, ?_, ?_, ?_⟩ <;> intros <;> exact Settles.of_out_of_fuel _
  | succ n ih =>
    obtain ⟨i1, i2, i3, i4, i5, i6⟩ := ih
    refine ⟨?_, ?_, ?_, ?_, ?_, ?_⟩
    · intro p
      rw [parser_parse_expression, parser_parse_expression]
      refine Settles.bind (i2 p) ?_
      rintro ⟨left, p1⟩
      refine Settles.ite ?_ (Settles.refl _)
      refine Settles.bind (Settles.refl _) fun p2 => ?_
      refine Settles.bind (i2 p2) ?_
      rintro ⟨right, p3⟩
      exact Settles.refl _
    · intro p
      rw [parser_parse_arithmetic, parser_parse_arithmetic]
      refine Settles.bind (i4 p) ?_
      rintro ⟨left, p1⟩
      exact i3 left p1
    · intro l p
      rw [parser_parse_arithmetic_loop, parser_parse_arithmetic_loop]
      refine Settles.ite ?_ (Settles.refl _)
      refine Settles.bind (Settles.refl _) fun p1 => ?_
      refine Settles.bind (i4 p1) ?_
      rintro ⟨right, p2⟩
      exact i3 _ p2
    · intro p
      rw [parser_parse_term, parser_parse_term]
      refine Settles.bind (i6 p) ?_
      rintro ⟨left, p1⟩
      exact i5 left p1
    · intro l p
      rw [parser_parse_term_loop, parser_parse_term_loop]
      refine Settles.ite ?_ (Settles.refl _)
      refine Settles.bind (Settles.refl _) fun p1 => ?_
      refine Settles.bind (i6 p1) ?_
      rintro ⟨right, p2⟩
      exact i5 _ p2
    · intro p
      rw [parser_parse_factor, parser_parse_factor]
      refine Settles.ite (Settles.refl _) ?_
      refine Settles.ite (Settles.refl _) ?_
      refine Settles.ite ?_ ?_
      · refine Settles.bind (Settles.refl _) fun p1 => ?_
        refine Settles.bind (i1 p1) ?_
        rintro ⟨e, p2⟩
        exact Settles.refl _
      · refine Settles.ite ?_ (Settles.refl _)
        refine Settles.bind (Settles.refl _) fun p1 => ?_
        refine Settles.bind (i6 p1) ?_
        rintro ⟨e, p2⟩
        exact Settles.refl _

theorem expression_fuel_mono (n m : Nat) (h : n ≤ m) :
    (∀ p, Settles (parser_parse_expression n p) (parser_parse_expression m p)) ∧
    (∀ p, Settles (parser_parse_arithmetic n p) (parser_parse_arithmetic m p)) ∧
    (∀ p, Settles (parser_parse_term n p) (parser_parse_term m p)) ∧
    (∀ p, Settles (parser_parse_factor n p) (parser_parse_factor m p)) ∧
    (∀ l p, Settles (parser_parse_arithmetic_loop n l p) (parser_parse_arithmetic_loop m l p)) ∧
    (∀ l p, Settles (parser_parse_term_loop n l p) (parser_parse_term_loop m l p)) := by
  induction h with
  | refl => exact ⟨fun _ => Settles.refl _, fun _ => Settles.refl _, fun _ => Settles.refl _,
      fun _ => Settles.refl _, fun _ _ => Settles.refl _, fun _ _ => Settles.refl _⟩
  | step hm ih =>
    rename_i m
    obtain ⟨s1, s2, s3, s4, s5, s6⟩ := expression_fuel_step m
    obtain ⟨i1, i2, i3, i4, i5, i6⟩ := ih
    refine ⟨fun p hx => ?_, fun p hx => ?_, fun p hx => ?_, fun p hx => ?_, fun l p hx => ?_,
      fun l p hx => ?_⟩
    · rw [← i1 p hx]; exact s1 p (by rw [i1 p hx]; exact hx)
    · rw [← i2 p hx]; exact s2 p (by rw [i2 p hx]; exact hx)
    · rw [← i3 p hx]; exact s4 p (by rw [i3 p hx]; exact hx)
    · rw [← i4 p hx]; exact s6 p (by rw [i4 p hx]; exact hx)
    · rw [← i5 l p hx]; exact s3 l p (by rw [i5 l p hx]; exact hx)
    · rw [← i6 l p hx]; exact s5 l p (by rw [i6 l p hx]; exact hx)

/-- Statements that only call the expression parser settle with it. -/
theorem return_statement_fuel (n m : Nat) (h : n ≤ m) (p : Parser) :
    Settles (parser_parse_return_statement n p) (parser_parse_return_statement m p) := by
  unfold parser_parse_return_statement
  refine Settles.bind (Settles.refl _) ?_
  rintro ⟨ok, p1⟩
  refine Settles.ite (Settles.refl _) ?_
  refine Settles.bind ((expression_fuel_mono n m h).1 p1) ?_
  rintro ⟨e, p2⟩
  exact Settles.refl _

theorem variable_declaration_fuel (n m : Nat) (h : n ≤ m) (p : Parser) :
    Settles (parser_parse_variable_declaration n p) (parser_parse_variable_declaration m p) := by
  unfold parser_parse_variable_declaration
  refine Settles.bind (Settles.refl _) fun p1 => ?_
  refine Settles.ite (Settles.refl _) ?_
  refine Settles.bind (Settles.refl _) fun p2 => ?_
  refine Settles.bind ?_ ?_
  · refine Settles.ite ?_ (Settles.refl _)
    refine Settles.bind (Settles.refl _) fun p21 => ?_
    refine Settles.bind ((expression_fuel_mono n m h).1 p21) ?_
    rintro ⟨e, p22⟩
    exact Settles.refl _
  · rintro ⟨e, p3⟩
    exact Settles.refl _

theorem assignment_fuel (n m : Nat) (h : n ≤ m) (p : Parser) :
    Settles (parser_parse_assignment n p) (parser_parse_assignment m p) := by
  unfold parser_parse_assignment
  refine Settles.ite (Settles.refl _) ?_
  refine Settles.bind (Settles.refl _) fun p1 => ?_
  refine Settles.bind (Settles.refl _) ?_
  rintro ⟨ok, p2⟩
  refine Settles.ite (Settles.refl _) ?_
  refine Settles.bind ((expression_fuel_mono n m h).1 p2) ?_
  rintro ⟨e, p3⟩
  exact Settles.refl _

theorem statement_fuel_step (n : Nat) :
    (∀ p, Settles (parser_parse_block n p) (parser_parse_block (n + 1) p)) ∧
    (∀ l p, Settles (parser_parse_block_loop n l p) (parser_parse_block_loop (n + 1) l p)) ∧
    (∀ p, Settles (parser_parse_statement n p) (parser_parse_statement (n + 1) p)) ∧
    (∀ p, Settles (parser_parse_if_statement n p) (parser_parse_if_statement (n + 1) p)) ∧
    (∀ p, Settles (parser_parse_while_statement n p)
      (parser_parse_while_statement (n + 1) p)) := by
  induction n with
  | zero =>
    refine ⟨?_, ?_, ?_, ?_, ?_⟩ <;> intros <;> exact Settles.of_out_of_fuel _
  | succ n ih =>
    obtain ⟨i1, i2, i3, i4, i5⟩ := ih
    have hx := (expression_fuel_mono n (n + 1) (Nat.le_succ n)).1
    refine ⟨?_, ?_, ?_, ?_, ?_⟩
    · intro p
      rw [parser_parse_block, parser_parse_block]
      refine Settles.bind (Settles.refl _) ?_
      rintro ⟨ok, p1⟩
      refine Settles.ite (Settles.refl _) ?_
      refine Settles.bind (i2 [] p1) ?_
      rintro ⟨ss, p2⟩
      exact Settles.refl _
    · intro l p
      rw [parser_parse_block_loop, parser_parse_block_loop]
      refine Settles.ite ?_ (Settles.refl _)
      refine Settles.bind (i3 p) ?_
      rintro ⟨s, p1⟩
      exact i2 _ p1
    · intro p
      rw [parser_parse_statement, parser_parse_statement]
      refine Settles.ite (return_statement_fuel n (n + 1) (Nat.le_succ n) p) ?_
      refine Settles.ite (i4 p) ?_
      refine Settles.ite (i5 p) ?_
      refine Settles.ite (variable_declaration_fuel n (n + 1) (Nat.le_succ n) p) ?_
      exact Settles.ite (assignment_fuel n (n + 1) (Nat.le_succ n) p) (Settles.refl _)
    · intro p
      rw [parser_parse_if_statement, parser_parse_if_statement]
      refine Settles.bind (Settles.refl _) ?_
      rintro ⟨ok, p1⟩
      refine Settles.ite (Settles.refl _) ?_
      refine Settles.bind (Settles.refl _) ?_
      rintro ⟨ok2, p2⟩
      refine Settles.ite (Settles.refl _) ?_
      refine Settles.bind (hx p2) ?_
      rintro ⟨c, p3⟩
      refine Settles.bind (Settles.refl _) ?_
      rintro ⟨ok3, p4⟩
      refine Settles.ite (Settles.refl _) ?_
      refine Settles.bind (i1 p4) ?_
      rintro ⟨t, p5⟩
      refine Settles.ite ?_ (Settles.refl _)
      refine Settles.bind (Settles.refl _) fun p6 => ?_
      refine Settles.bind (i1 p6) ?_
      rintro ⟨e, p7⟩
      exact Settles.refl _
    · intro p
      rw [parser_parse_while_statement, parser_parse_while_statement]
      refine Settles.bind (Settles.refl _) ?_
      rintro ⟨ok, p1⟩
      refine Settles.ite (Settles.refl _) ?_
      refine Settles.bind (Settles.refl _) ?_
      rintro ⟨ok2, p2⟩
      refine Settles.ite (Settles.refl _) ?_
      refine Settles.bind (hx p2) ?_
      rintro ⟨c, p3⟩
      refine Settles.bind (Settles.refl _) ?_
      rintro ⟨ok3, p4⟩
      refine Settles.ite (Settles.refl _) ?_
      refine Settles.bind (i1 p4) ?_
      rintro ⟨b, p5⟩
      exact Settles.refl _

theorem block_fuel_mono (n m : Nat) (h : n ≤ m) (p : Parser) :
    Settles (parser_parse_block n p) (parser_parse_block m p) := by
  induction h with
  | refl => exact Settles.refl _
  | step hm ih =>
    rename_i m
    intro hx
    rw [← ih hx]
    exact (statement_fuel_step m).1 p (by rw [ih hx]; exact hx)

theorem params_loop_fuel_step (n : Nat) : ∀ l p,
    Settles (parser_parse_params_loop n l p) (parser_parse_params_loop (n + 1) l p) := by
  induction n with
  | zero => intros; exact Settles.of_out_of_fuel _
  | succ n ih =>
    intro l p
    rw [parser_parse_params_loop, parser_parse_params_loop]
    refine Settles.ite ?_ (Settles.refl _)
    refine Settles.bind (Settles.refl _) ?_
    rintro ⟨ok, p1⟩
    refine Settles.ite (Settles.refl _) ?_
    refine Settles.bind (Settles.refl _) ?_
    rintro ⟨ok2, p2⟩
    refine Settles.ite (Settles.refl _) ?_
    refine Settles.ite (Settles.refl _) ?_
    refine Settles.bind (Settles.refl _) fun p3 => ?_
    exact ih _ p3

theorem params_loop_fuel_mono (n m : Nat) (h : n ≤ m) (l : List String) (p : Parser) :
    Settles (parser_parse_params_loop n l p) (parser_parse_params_loop m l p) := by
  induction h with
  | refl => exact Settles.refl _
  | step hm ih =>
    rename_i m
    intro hx
    rw [← ih hx]
    exact params_loop_fuel_step m l p (by rw [ih hx]; exact hx)

theorem function_fuel_mono (n m : Nat) (h : n ≤ m) (p : Parser) :
    Settles (parser_parse_function n p) (parser_parse_function m p) := by
  unfold parser_parse_function
  refine Settles.bind (Settles.refl _) ?_
  rintro ⟨ok, p1⟩
  refine Settles.bind (Settles.refl _) ?_
  rintro ⟨ok1, p2⟩
  refine Settles.ite (Settles.refl _) ?_
  refine Settles.ite (Settles.refl _) ?_
  refine Settles.bind (Settles.refl _) fun p3 => ?_
  refine Settles.bind (Settles.refl _) ?_
  rintro ⟨ok2, p4⟩
  refine Settles.ite (Settles.refl _) ?_
  refine Settles.bind (params_loop_fuel_mono n m h [] p4) ?_
  rintro ⟨params, p5⟩
  refine Settles.bind (Settles.refl _) ?_
  rintro ⟨ok3, p6⟩
  refine Settles.bind (block_fuel_mono n m h p6) ?_
  rintro ⟨body, p7⟩
  exact Settles.refl _

theorem program_loop_fuel_step (n : Nat) : ∀ l p,
    Settles (parser_parse_program_loop n l p) (parser_parse_program_loop (n + 1) l p) := by
  induction n with
  | zero => intros; exact Settles.of_out_of_fuel _
  | succ n ih =>
    intro l p
    rw [parser_parse_program_loop, parser_parse_program_loop]
    refine Settles.ite ?_ (Settles.refl _)
    refine Settles.bind (function_fuel_mono n (n + 1) (Nat.le_succ n) p) ?_
    rintro ⟨f, p1⟩
    exact ih _ p1

theorem program_loop_fuel_mono (n m : Nat) (h : n ≤ m) (l : List ASTNode) (p : Parser) :
    Settles (parser_parse_program_loop n l p) (parser_parse_program_loop m l p) := by
  induction h with
  | refl => exact Settles.refl _
  | step hm ih =>
    rename_i m
    intro hx
    rw [← ih hx]
    exact program_loop_fuel_step m l p (by rw [ih hx]; exact hx)

/-! ## C2: left-associative chains of operands -/

theorem Settles.ok {α : Type} {x y : ParseM α} {a : α} (h : Settles x y) (hx : x = .ok a) :
    y = .ok a := by
  rw [h (by rw [hx]; simp), hx]

theorem parses_term_of_ok (n : Nat) (p : Parser) (t : ASTNode) (q : Parser)
    (h : parser_parse_term n p = .ok (t, q)) : Parses parser_parse_term p t q :=
  ⟨n, fun m hm => ((expression_fuel_mono n m hm).2.2.1 p).ok h⟩

theorem parses_factor_of_ok (n : Nat) (p : Parser) (t : ASTNode) (q : Parser)
    (h : parser_parse_factor n p = .ok (t, q)) : Parses parser_parse_factor p t q :=
  ⟨n, fun m hm => ((expression_fuel_mono n m hm).2.2.2.1 p).ok h⟩

theorem additive_operator_some (t : TokenType) (op : Char) (h : additive_operator t = some op) :
    (t = TOKEN_PLUS ∨ t = TOKEN_MINUS) ∧ (if t = TOKEN_PLUS then '+' else '-') = op := by
  unfold additive_operator at h
  split_ifs at h with h1 h2
  · exact ⟨Or.inl h1, by rw [if_pos h1]; exact Option.some.inj h⟩
  · exact ⟨Or.inr h2, by rw [if_neg h1]; exact Option.some.inj h⟩

theorem additive_operator_none (t : TokenType) (h : additive_operator t = none) :
    ¬ (t = TOKEN_PLUS ∨ t = TOKEN_MINUS) := by
  unfold additive_operator at h
  split_ifs at h with h1 h2
  simp [h1, h2]

theorem multiplicative_operator_some (t : TokenType) (op : Char)
    (h : multiplicative_operator t = some op) :
    (t = TOKEN_MULTIPLY ∨ t = TOKEN_DIVIDE) ∧ (if t = TOKEN_MULTIPLY then '*' else '/') = op := by
  unfold multiplicative_operator at h
  split_ifs at h with h1 h2
  · exact ⟨Or.inl h1, by rw [if_pos h1]; exact Option.some.inj h⟩
  · exact ⟨Or.inr h2, by rw [if_neg h1]; exact Option.some.inj h⟩

theorem multiplicative_operator_none (t : TokenType) (h : multiplicative_operator t = none) :
    ¬ (t = TOKEN_MULTIPLY ∨ t = TOKEN_DIVIDE) := by
  unfold multiplicative_operator at h
  split_ifs at h with h1 h2
  simp [h1, h2]

/-- The loop of `parser_parse_arithmetic` folds a chain of terms to the left. -/
theorem arithmetic_loop_chain (q : Parser) (items : List (Char × ASTNode)) (q2 : Parser)
    (h : OperandChain (Parses parser_parse_term) additive_operator q items q2) :
    ∀ left, ∃ n0, ∀ n, n0 ≤ n →
      parser_parse_arithmetic_loop n left q = .ok (left_nested left items, q2) := by
  induction h with
  | done q h =>
    intro left
    refine ⟨1, fun n hn => ?_⟩
    obtain ⟨k, rfl⟩ : ∃ k, n = k + 1 := ⟨n - 1, by omega⟩
    rw [parser_parse_arithmetic_loop, if_neg (additive_operator_none _ h)]
    rfl
  | more q p1 q1 q2 op t rest h1 h2 h3 _ ih =>
    intro left
    obtain ⟨n1, hn1⟩ := h3
    obtain ⟨n2, hn2⟩ := ih (.binary_op op left t)
    obtain ⟨hc, hop⟩ := additive_operator_some _ _ h1
    refine ⟨max n1 n2 + 1, fun n hn => ?_⟩
    obtain ⟨k, rfl⟩ : ∃ k, n = k + 1 := ⟨n - 1, by omega⟩
    rw [parser_parse_arithmetic_loop, if_pos hc, h2]
    show (parser_parse_term k p1 >>= _) = _
    rw [hn1 k (by omega)]
    show parser_parse_arithmetic_loop k _ q1 = _
    rw [hop, hn2 k (by omega)]
    rfl

/-- The loop of `parser_parse_term` folds a chain of factors to the left. -/
theorem term_loop_chain (q : Parser) (items : List (Char × ASTNode)) (q2 : Parser)
    (h : OperandChain (Parses parser_parse_factor) multiplicative_operator q items q2) :
    ∀ left, ∃ n0, ∀ n, n0 ≤ n →
      parser_parse_term_loop n left q = .ok (left_nested left items, q2) := by
  induction h with
  | done q h =>
    intro left
    refine ⟨1, fun n hn => ?_⟩
    obtain ⟨k, rfl⟩ : ∃ k, n = k + 1 := ⟨n - 1, by omega⟩
    rw [parser_parse_term_loop, if_neg (multiplicative_operator_none _ h)]
    rfl
  | more q p1 q1 q2 op t rest h1 h2 h3 _ ih =>
    intro left
    obtain ⟨n1, hn1⟩ := h3
    obtain ⟨n2, hn2⟩ := ih (.binary_op op left t)
    obtain ⟨hc, hop⟩ := multiplicative_operator_some _ _ h1
    refine ⟨max n1 n2 + 1, fun n hn => ?_⟩
    obtain ⟨k, rfl⟩ : ∃ k, n = k + 1 := ⟨n - 1, by omega⟩
    rw [parser_parse_term_loop, if_pos hc, h2]
    show (parser_parse_factor k p1 >>= _) = _
    rw [hn1 k (by omega)]
    show parser_parse_term_loop k _ q1 = _
    rw [hop, hn2 k (by omega)]
    rfl

/-- C2: arithmetic parsing respects precedence and associates to the left. If
`parser_parse_term` parses the first operand into `T0` and the tokens that
follow are `op1 t1 ... opn tn` with every `opi` a `+` or `-` and every `ti`
parsed by `parser_parse_term` into `Ti`, then `parser_parse_arithmetic` returns
the left-nested tree `BinaryOp(opn, ... BinaryOp(op1, T0, T1) ..., Tn)`; the same
holds for `parser_parse_term` with `*`, `/` and operands parsed by
`parser_parse_factor`; and a factor that is not followed by `*` or `/` is a
whole term, so the operands of `+` and `-` are maximal products. `2+3*4` parses
to `BinaryOp('+', 2, BinaryOp('*', 3, 4))`, `10-2-3` to
`BinaryOp('-', BinaryOp('-', 10, 2), 3)` and `(2+3)*4` to
`BinaryOp('*', BinaryOp('+', 2, 3), 4)`. -/
theorem arithmetic_left_associative :
    (∀ p0 t0 q0 items q2, Parses parser_parse_term p0 t0 q0 →
      OperandChain (Parses parser_parse_term) additive_operator q0 items q2 →
      Parses parser_parse_arithmetic p0 (left_nested t0 items) q2) ∧
    (∀ p0 t0 q0 items q2, Parses parser_parse_factor p0 t0 q0 →
      OperandChain (Parses parser_parse_factor) multiplicative_operator q0 items q2 →
      Parses parser_parse_term p0 (left_nested t0 items) q2) ∧
    (∀ p t q, Parses parser_parse_factor p t q →
      multiplicative_operator q.current_token.type = none → Parses parser_parse_term p t q) ∧
    parse_expression_text "2+3*4" =
      .ok (.binary_op '+' (.number 2) (.binary_op '*' (.number 3) (.number 4))) ∧
    parse_expression_text "10-2-3" =
      .ok (.binary_op '-' (.binary_op '-' (.number 10) (.number 2)) (.number 3)) ∧
    parse_expression_text "(2+3)*4" =
      .ok (.binary_op '*' (.binary_op '+' (.number 2) (.number 3)) (.number 4)) := by
  have hterm : ∀ p0 t0 q0 items q2, Parses parser_parse_factor p0 t0 q0 →
      OperandChain (Parses parser_parse_factor) multiplicative_operator q0 items q2 →
      Parses parser_parse_term p0 (left_nested t0 items) q2 := by
    intro p0 t0 q0 items q2 h0 hc
    obtain ⟨n1, hn1⟩ := h0
    obtain ⟨n2, hn2⟩ := term_loop_chain q0 items q2 hc t0
    refine ⟨max n1 n2 + 1, fun n hn => ?_⟩
    obtain ⟨k, rfl⟩ : ∃ k, n = k + 1 := ⟨n - 1, by omega⟩
    rw [parser_parse_term]
    show (parser_parse_factor k p0 >>= _) = _
    rw [hn1 k (by omega)]
    exact hn2 k (by omega)
  refine ⟨?_, hterm, ?_, by decide!, by decide!, by decide!⟩
  · intro p0 t0 q0 items q2 h0 hc
    obtain ⟨n1, hn1⟩ := h0
    obtain ⟨n2, hn2⟩ := arithmetic_loop_chain q0 items q2 hc t0
    refine ⟨max n1 n2 + 1, fun n hn => ?_⟩
    obtain ⟨k, rfl⟩ : ∃ k, n = k + 1 := ⟨n - 1, by omega⟩
    rw [parser_parse_arithmetic]
    show (parser_parse_term k p0 >>= _) = _
    rw [hn1 k (by omega)]
    exact hn2 k (by omega)
  · intro p t q h hq
    exact hterm p t q [] q h (.done q hq)

/-- Witness of C2 on `7-2+1`: the first term is `7`, the chain is `- 2`, `+ 1`,
and `parser_parse_arithmetic` returns `BinaryOp('+', BinaryOp('-', 7, 2), 1)`. -/
theorem arithmetic_left_associative_witness :
    Parses parser_parse_arithmetic (parser_after "7-2+1" 0)
      (.binary_op '+' (.binary_op '-' (.number 7) (.number 2)) (.number 1))
      (parser_after "7-2+1" 5) :=
  arithmetic_left_associative.1 (parser_after "7-2+1" 0) (.number 7) (parser_after "7-2+1" 1)
    [('-', .number 2), ('+', .number 1)] (parser_after "7-2+1" 5)
    (parses_term_of_ok 3 _ _ _ (by decide!))
    (.more _ (parser_after "7-2+1" 2) (parser_after "7-2+1" 3) _ _ _ _ (by decide!)
      (by decide!) (parses_term_of_ok 3 _ _ _ (by decide!))
      (.more _ (parser_after "7-2+1" 4) (parser_after "7-2+1" 5) _ _ _ _ (by decide!)
        (by decide!) (parses_term_of_ok 3 _ _ _ (by decide!)) (.done _ (by decide!))))

/-! ## Lexer: cursor invariant, termination and progress -/

theorem Lexer.char_at_beyond (l : Lexer) (i : Nat) (h : l.source.length ≤ i) :
    l.char_at i = NUL := by
  unfold Lexer.char_at
  exact List.getD_eq_default _ _ h

theorem Lexer.cursor_ok.lt (l : Lexer) (h : l.cursor_ok) (h0 : l.current_char ≠ NUL) :
    l.position < l.source.length := by
  by_contra hc
  exact h0 (h.1.trans (l.char_at_beyond _ (by omega)))

theorem lexer_create_cursor_ok (source : List Char) : (lexer_create source).cursor_ok :=
  ⟨rfl, Nat.zero_le _⟩

theorem lexer_advance_cursor_ok (l : Lexer) (h : l.cursor_ok) (h0 : l.current_char ≠ NUL) :
    (lexer_advance l).cursor_ok :=
  ⟨rfl, h.lt l h0⟩

@[simp] theorem lexer_advance_source (l : Lexer) : (lexer_advance l).source = l.source := rfl

@[simp] theorem lexer_advance_position (l : Lexer) :
    (lexer_advance l).position = l.position + 1 := rfl

theorem lexer_advance_current (l : Lexer) : (lexer_advance l).current_char = lexer_peek l := rfl

theorem lexer_peek_lt (l : Lexer) (h : lexer_peek l ≠ NUL) :
    l.position + 1 < l.source.length := by
  by_contra hc
  exact h (l.char_at_beyond _ (by omega))

theorem Lexer.follows_refl (l : Lexer) (h : l.cursor_ok) : l.follows l := ⟨h, rfl, le_refl _⟩

theorem Lexer.follows.after {l2 l1 l : Lexer} (h2 : l2.follows l1) (h1 : l1.follows l) :
    l2.follows l := ⟨h2.1, h2.2.1.trans h1.2.1, le_trans h1.2.2 h2.2.2⟩

theorem Lexer.follows_advance (l : Lexer) (h : l.cursor_ok) (h0 : l.current_char ≠ NUL) :
    (lexer_advance l).follows l :=
  ⟨lexer_advance_cursor_ok l h h0, rfl, Nat.le_succ _⟩

theorem lexer_skip_whitespace_loop_total : ∀ (fuel : Nat) (l : Lexer), l.cursor_ok →
    l.source.length - l.position < fuel →
    ∃ l1, lexer_skip_whitespace_loop fuel l = some l1 ∧ l1.follows l ∧
      ¬ (l1.current_char ≠ NUL ∧ isspace l1.current_char = true)
  | 0, _, _, h => absurd h (Nat.not_lt_zero _)
  | fuel + 1, l, hok, h => by
    rw [lexer_skip_whitespace_loop]
    split_ifs with hc
    · have hlt := hok.lt l hc.1
      obtain ⟨l1, e1, f1, c1⟩ := lexer_skip_whitespace_loop_total fuel (lexer_advance l)
        (lexer_advance_cursor_ok l hok hc.1)
        (by simp only [lexer_advance_source, lexer_advance_position]; omega)
      exact ⟨l1, e1, f1.after (Lexer.follows_advance l hok hc.1), c1⟩
    · exact ⟨l, rfl, Lexer.follows_refl l hok, hc⟩

theorem lexer_skip_line_comment_loop_total : ∀ (fuel : Nat) (l : Lexer), l.cursor_ok →
    l.source.length - l.position < fuel →
    ∃ l1, lexer_skip_line_comment_loop fuel l = some l1 ∧ l1.follows l
  | 0, _, _, h => absurd h (Nat.not_lt_zero _)
  | fuel + 1, l, hok, h => by
    rw [lexer_skip_line_comment_loop]
    split_ifs with hc
    · have hlt := hok.lt l hc.1
      obtain ⟨l1, e1, f1⟩ := lexer_skip_line_comment_loop_total fuel (lexer_advance l)
        (lexer_advance_cursor_ok l hok hc.1)
        (by simp only [lexer_advance_source, lexer_advance_position]; omega)
      exact ⟨l1, e1, f1.after (Lexer.follows_advance l hok hc.1)⟩
    · exact ⟨l, rfl, Lexer.follows_refl l hok⟩

theorem Lexer.follows_advance_two (l : Lexer) (h : l.cursor_ok) (h0 : l.current_char ≠ NUL)
    (h1 : lexer_peek l ≠ NUL) : (lexer_advance (lexer_advance l)).follows l :=
  (Lexer.follows_advance _ (lexer_advance_cursor_ok l h h0) h1).after
    (Lexer.follows_advance l h h0)

theorem lexer_skip_block_comment_loop_total : ∀ (fuel : Nat) (l : Lexer), l.cursor_ok →
    l.source.length - l.position < fuel →
    ∃ l1, lexer_skip_block_comment_loop fuel l = some l1 ∧ l1.follows l
  | 0, _, _, h => absurd h (Nat.not_lt_zero _)
  | fuel + 1, l, hok, h => by
    rw [lexer_skip_block_comment_loop]
    split_ifs with hc hs
    · exact ⟨l, rfl, Lexer.follows_refl l hok⟩
    · exact ⟨_, rfl, Lexer.follows_advance_two l hok hc (by rw [hs.2]; decide)⟩
    · have hlt := hok.lt l hc
      obtain ⟨l1, e1, f1⟩ := lexer_skip_block_comment_loop_total fuel (lexer_advance l)
        (lexer_advance_cursor_ok l hok hc)
        (by simp only [lexer_advance_source, lexer_advance_position]; omega)
      exact ⟨l1, e1, f1.after (Lexer.follows_advance l hok hc)⟩

theorem lexer_make_number_loop_total : ∀ (fuel : Nat) (buffer : List Char) (l : Lexer),
    l.cursor_ok → l.source.length - l.position < fuel →
    ∃ b1 l1, lexer_make_number_loop fuel buffer l = some (b1, l1) ∧ l1.follows l
  | 0, _, _, _, h => absurd h (Nat.not_lt_zero _)
  | fuel + 1, buffer, l, hok, h => by
    rw [lexer_make_number_loop]
    by_cases hc : l.current_char ≠ NUL ∧ isdigit l.current_char = true
    · rw [if_pos hc]
      have hlt := hok.lt l hc.1
      obtain ⟨b1, l1, e1, f1⟩ := lexer_make_number_loop_total fuel
        (if buffer.length < 255 then buffer ++ [l.current_char] else buffer) (lexer_advance l)
        (lexer_advance_cursor_ok l hok hc.1)
        (by simp only [lexer_advance_source, lexer_advance_position]; omega)
      exact ⟨b1, l1, e1, f1.after (Lexer.follows_advance l hok hc.1)⟩
    · rw [if_neg hc]
      exact ⟨buffer, l, rfl, Lexer.follows_refl l hok⟩

theorem lexer_make_identifier_loop_total : ∀ (fuel : Nat) (buffer : List Char) (l : Lexer),
    l.cursor_ok → l.source.length - l.position < fuel →
    ∃ b1 l1, lexer_make_identifier_loop fuel buffer l = some (b1, l1) ∧ l1.follows l
  | 0, _, _, _, h => absurd h (Nat.not_lt_zero _)
  | fuel + 1, buffer, l, hok, h => by
    rw [lexer_make_identifier_loop]
    by_cases hc : l.current_char ≠ NUL ∧ (isalnum l.current_char = true ∨ l.current_char = '_')
    · rw [if_pos hc]
      have hlt := hok.lt l hc.1
      obtain ⟨b1, l1, e1, f1⟩ := lexer_make_identifier_loop_total fuel
        (if buffer.length < 255 then buffer ++ [l.current_char] else buffer) (lexer_advance l)
        (lexer_advance_cursor_ok l hok hc.1)
        (by simp only [lexer_advance_source, lexer_advance_position]; omega)
      exact ⟨b1, l1, e1, f1.after (Lexer.follows_advance l hok hc.1)⟩
    · rw [if_neg hc]
      exact ⟨buffer, l, rfl, Lexer.follows_refl l hok⟩

theorem lexer_fuel_enough (l : Lexer) : l.source.length - l.position < lexer_fuel l := by
  unfold lexer_fuel
  omega

/-- `lexer_skip_whitespace` at a white-space character returns, further on. -/
theorem lexer_skip_whitespace_total (l : Lexer) (hok : l.cursor_ok) (h0 : l.current_char ≠ NUL)
    (h1 : isspace l.current_char = true) :
    ∃ l1, lexer_skip_whitespace l = some l1 ∧ l1.follows l ∧ l.position < l1.position := by
  unfold lexer_skip_whitespace lexer_fuel
  rw [lexer_skip_whitespace_loop, if_pos ⟨h0, h1⟩]
  have hlt := hok.lt l h0
  obtain ⟨l1, e1, f1, _⟩ := lexer_skip_whitespace_loop_total
    (l.source.length - l.position + 1) (lexer_advance l) (lexer_advance_cursor_ok l hok h0)
    (by simp only [lexer_advance_source, lexer_advance_position]; omega)
  exact ⟨l1, e1, f1.after (Lexer.follows_advance l hok h0), f1.2.2⟩

/-- `lexer_skip_comment` at the start of a comment returns, further on. -/
theorem lexer_skip_comment_total (l : Lexer) (hok : l.cursor_ok)
    (h1 : l.current_char = '/' ∧ (lexer_peek l = '/' ∨ lexer_peek l = '*')) :
    ∃ l1, lexer_skip_comment l = some l1 ∧ l1.follows l ∧ l.position < l1.position := by
  have h0 : l.current_char ≠ NUL := by rw [h1.1]; decide
  have hlt := hok.lt l h0
  unfold lexer_skip_comment lexer_fuel
  split_ifs with ha hb
  · rw [lexer_skip_line_comment_loop, if_pos ⟨h0, by rw [h1.1]; decide⟩]
    obtain ⟨l1, e1, f1⟩ := lexer_skip_line_comment_loop_total
      (l.source.length - l.position + 1) (lexer_advance l) (lexer_advance_cursor_ok l hok h0)
      (by simp only [lexer_advance_source, lexer_advance_position]; omega)
    exact ⟨l1, e1, f1.after (Lexer.follows_advance l hok h0), f1.2.2⟩
  · have hp : lexer_peek l ≠ NUL := by rw [hb.2]; decide
    have f2 := Lexer.follows_advance_two l hok h0 hp
    obtain ⟨l1, e1, f1⟩ := lexer_skip_block_comment_loop_total
      (l.source.length - l.position + 2) (lexer_advance (lexer_advance l)) f2.1
      (by simp only [lexer_advance_source, lexer_advance_position]; omega)
    exact ⟨l1, e1, f1.after f2,
      lt_of_lt_of_le (by show l.position < l.position + 1 + 1; omega) f1.2.2⟩
  · rcases h1.2 with h | h
    · exact absurd ⟨h1.1, h⟩ ha
    · exact absurd ⟨h1.1, h⟩ hb

theorem keyword_type_ne_eof (s : String) : keyword_type s ≠ TOKEN_EOF := by
  unfold keyword_type
  split_ifs <;> decide

theorem lexer_make_number_total (l : Lexer) (hok : l.cursor_ok) (h0 : l.current_char ≠ NUL)
    (h1 : isdigit l.current_char = true) :
    ∃ t l1, lexer_make_number l = some (t, l1) ∧ t.type = TOKEN_NUMBER ∧ l1.follows l ∧
      l.position < l1.position := by
  unfold lexer_make_number lexer_fuel
  rw [lexer_make_number_loop, if_pos ⟨h0, h1⟩]
  have hlt := hok.lt l h0
  obtain ⟨b1, l1, e1, f1⟩ := lexer_make_number_loop_total
    (l.source.length - l.position + 1)
    (if ([] : List Char).length < 255 then [] ++ [l.current_char] else []) (lexer_advance l)
    (lexer_advance_cursor_ok l hok h0)
    (by simp only [lexer_advance_source, lexer_advance_position]; omega)
  rw [e1]
  exact ⟨_, l1, rfl, rfl, f1.after (Lexer.follows_advance l hok h0), f1.2.2⟩

theorem lexer_make_identifier_total (l : Lexer) (hok : l.cursor_ok) (h0 : l.current_char ≠ NUL)
    (h1 : isalpha l.current_char = true ∨ l.current_char = '_') :
    ∃ t l1, lexer_make_identifier l = some (t, l1) ∧ t.type ≠ TOKEN_EOF ∧ l1.follows l ∧
      l.position < l1.position := by
  unfold lexer_make_identifier lexer_fuel
  have hc : isalnum l.current_char = true ∨ l.current_char = '_' := by
    rcases h1 with h | h
    · left; simp [isalnum, h]
    · right; exact h
  rw [lexer_make_identifier_loop, if_pos ⟨h0, hc⟩]
  have hlt := hok.lt l h0
  obtain ⟨b1, l1, e1, f1⟩ := lexer_make_identifier_loop_total
    (l.source.length - l.position + 1)
    (if ([] : List Char).length < 255 then [] ++ [l.current_char] else []) (lexer_advance l)
    (lexer_advance_cursor_ok l hok h0)
    (by simp only [lexer_advance_source, lexer_advance_position]; omega)
  rw [e1]
  exact ⟨_, l1, rfl, keyword_type_ne_eof _, f1.after (Lexer.follows_advance l hok h0), f1.2.2⟩

theorem ite_induction {α : Type} {P : α → Prop} {c : Prop} [Decidable c] {a b : α}
    (ha : c → P a) (hb : ¬ c → P b) : P (if c then a else b) := by
  split_ifs with h
  · exact ha h
  · exact hb h

/-- The operator switch returns a token that is not EOF. -/
theorem lexer_operator_type (c : Char) (line column : Nat) (l : Lexer) :
    (lexer_operator c line column l).1.type ≠ TOKEN_EOF := by
  unfold lexer_operator
  repeat' refine ite_induction (P := fun r : Token × Lexer => r.1.type ≠ TOKEN_EOF) (fun _ => ?_) (fun _ => ?_)
  all_goals exact TokenType.noConfusion

/-- The operator switch returns the state it was entered with or the next one. -/
theorem lexer_operator_state (c : Char) (line column : Nat) (l : Lexer) :
    (lexer_operator c line column l).2 = l ∨
    ((lexer_operator c line column l).2 = lexer_advance l ∧
      (l.current_char = '=' ∨ l.current_char = '&' ∨ l.current_char = '|')) := by
  unfold lexer_operator
  repeat'
    refine ite_induction (P := fun r : Token × Lexer => r.2 = l ∨ (r.2 = lexer_advance l ∧
      (l.current_char = '=' ∨ l.current_char = '&' ∨ l.current_char = '|')))
      (fun _ => ?_) (fun _ => ?_)
  all_goals first
    | exact Or.inl rfl
    | exact Or.inr ⟨rfl, Or.inl (by assumption)⟩
    | exact Or.inr ⟨rfl, Or.inr (Or.inl (And.right (by assumption)))⟩
    | exact Or.inr ⟨rfl, Or.inr (Or.inr (And.right (by assumption)))⟩

theorem lexer_operator_follows (c : Char) (line column : Nat) (l : Lexer) (hok : l.cursor_ok) :
    (lexer_operator c line column l).2.follows l := by
  rcases lexer_operator_state c line column l with h | ⟨h, hc⟩
  · rw [h]
    exact Lexer.follows_refl l hok
  · rw [h]
    refine Lexer.follows_advance l hok ?_
    rcases hc with h | h | h <;> rw [h] <;> decide

/-- `lexer_next_token_loop` returns: either the end-of-file token, at the
terminating NUL, or another token, with the cursor moved forward. -/
theorem lexer_next_token_loop_total : ∀ (fuel : Nat) (l : Lexer), l.cursor_ok →
    l.source.length - l.position < fuel →
    ∃ t l1, lexer_next_token_loop fuel l = some (t, l1) ∧ l1.follows l ∧
      ((t.type = TOKEN_EOF ∧ l1.current_char = NUL) ∨
       (t.type ≠ TOKEN_EOF ∧ l.position < l1.position))
  | 0, _, _, h => absurd h (Nat.not_lt_zero _)
  | fuel + 1, l, hok, h => by
    rw [lexer_next_token_loop]
    by_cases h0 : l.current_char = NUL
    · rw [if_pos h0]
      exact ⟨_, l, rfl, Lexer.follows_refl l hok, Or.inl ⟨rfl, h0⟩⟩
    rw [if_neg h0]
    have hlt := hok.lt l h0
    by_cases h1 : isspace l.current_char = true
    · rw [if_pos h1]
      obtain ⟨l1, e1, f1, p1⟩ := lexer_skip_whitespace_total l hok h0 h1
      obtain ⟨t, l2, e2, f2, c2⟩ := lexer_next_token_loop_total fuel l1 f1.1
        (by rw [f1.2.1]; omega)
      rw [e1, Option.some_bind, e2]
      refine ⟨t, l2, rfl, f2.after f1, ?_⟩
      rcases c2 with c2 | c2
      · exact Or.inl c2
      · exact Or.inr ⟨c2.1, lt_trans p1 c2.2⟩
    rw [if_neg h1]
    by_cases h2 : l.current_char = '/' ∧ (lexer_peek l = '/' ∨ lexer_peek l = '*')
    · rw [if_pos h2]
      obtain ⟨l1, e1, f1, p1⟩ := lexer_skip_comment_total l hok h2
      obtain ⟨t, l2, e2, f2, c2⟩ := lexer_next_token_loop_total fuel l1 f1.1
        (by rw [f1.2.1]; omega)
      rw [e1, Option.some_bind, e2]
      refine ⟨t, l2, rfl, f2.after f1, ?_⟩
      rcases c2 with c2 | c2
      · exact Or.inl c2
      · exact Or.inr ⟨c2.1, lt_trans p1 c2.2⟩
    rw [if_neg h2]
    by_cases h3 : isdigit l.current_char = true
    · rw [if_pos h3]
      obtain ⟨t, l1, e1, ty, f1, p1⟩ := lexer_make_number_total l hok h0 h3
      exact ⟨t, l1, e1, f1, Or.inr ⟨by rw [ty]; decide, p1⟩⟩
    rw [if_neg h3]
    by_cases h4 : isalpha l.current_char = true ∨ l.current_char = '_'
    · rw [if_pos h4]
      obtain ⟨t, l1, e1, ty, f1, p1⟩ := lexer_make_identifier_total l hok h0 h4
      exact ⟨t, l1, e1, f1, Or.inr ⟨ty, p1⟩⟩
    rw [if_neg h4]
    have f1 := lexer_operator_follows l.current_char l.line l.column (lexer_advance l)
      (lexer_advance_cursor_ok l hok h0)
    exact ⟨_, _, rfl, f1.after (Lexer.follows_advance l hok h0),
      Or.inr ⟨lexer_operator_type _ _ _ _, lt_of_lt_of_le (Nat.lt_succ_self _) f1.2.2⟩⟩

/-- C32 in the small: one call of `lexer_next_token` returns. -/
theorem lexer_next_token_total (l : Lexer) (hok : l.cursor_ok) :
    ∃ t l1, lexer_next_token l = some (t, l1) ∧ l1.follows l ∧
      ((t.type = TOKEN_EOF ∧ l1.current_char = NUL) ∨
       (t.type ≠ TOKEN_EOF ∧ l.position < l1.position)) :=
  lexer_next_token_loop_total (lexer_fuel l) l hok (lexer_fuel_enough l)

/-- From every state with a sound cursor the lexer yields a finite token
sequence ending in end-of-file, and `lexer_tokens` computes it. -/
theorem lexer_tokens_lexes : ∀ (n : Nat) (l : Lexer), l.cursor_ok →
    l.source.length - l.position < n → LexesTo l (lexer_tokens n l)
  | 0, _, _, h => absurd h (Nat.not_lt_zero _)
  | n + 1, l, hok, h => by
    obtain ⟨t, l1, e1, f1, c1⟩ := lexer_next_token_total l hok
    rw [lexer_tokens, e1]
    rcases c1 with c1 | c1
    · simp only [c1.1, if_true]
      exact LexesTo.eof l t l1 e1 c1.1
    · simp only [c1.1, if_false]
      exact LexesTo.token l t l1 _ e1 c1.1
        (lexer_tokens_lexes n l1 f1.1 (by
          have := f1.1.2
          rw [f1.2.1] at this ⊢
          omega))

theorem token_stream_lexes (source : List Char) :
    LexesTo (lexer_create source) (token_stream source) := by
  apply lexer_tokens_lexes _ _ (lexer_create_cursor_ok source)
  show (source.takeWhile _).length - 0 < source.length + 1
  have := (List.takeWhile_sublist (l := source) (fun c => c != NUL)).length_le
  omega

/-- The token sequence of a state is unique. -/
theorem LexesTo.unique {l : Lexer} {ts1 ts2 : List Token} (h1 : LexesTo l ts1)
    (h2 : LexesTo l ts2) : ts1 = ts2 := by
  induction h1 generalizing ts2 with
  | eof l t l1 e1 ty =>
    cases h2 with
    | eof _ t2 l2 e2 ty2 => rfl
    | token _ t2 l2 ts e2 ty2 _ =>
      rw [e1] at e2
      simp only [Option.some.injEq, Prod.mk.injEq] at e2
      exact absurd (e2.1 ▸ ty) ty2
  | token l t l1 ts e1 ty _ ih =>
    cases h2 with
    | eof _ t2 l2 e2 ty2 =>
      rw [e1] at e2
      simp only [Option.some.injEq, Prod.mk.injEq] at e2
      exact absurd (e2.1 ▸ ty2) ty
    | token _ t2 l2 ts2 e2 ty2 h3 =>
      rw [e1] at e2
      simp only [Option.some.injEq, Prod.mk.injEq] at e2
      obtain ⟨rfl, rfl⟩ := e2
      rw [ih h3]

/-! ## Parser states and token sequences -/

@[simp] theorem ok_bind {α β : Type} (a : α) (f : α → ParseM β) :
    (Except.ok a >>= f) = f a := rfl

@[simp] theorem error_bind {α β : Type} (e : ParseError) (f : α → ParseM β) :
    ((Except.error e : ParseM α) >>= f) = Except.error e := rfl

@[simp] theorem pure_eq_ok {α : Type} (a : α) : (pure a : ParseM α) = Except.ok a := rfl

theorem Parser.reads.head_token {p : Parser} {t : Token} {ts : List Token} (h : p.reads (t :: ts)) :
    p.current_token = t ∧ t.type ≠ TOKEN_EOF := by
  cases ts with
  | nil => exact ⟨h.2.1, h.2.2.1⟩
  | cons u rest => exact ⟨h.2.1, h.2.2.1⟩

theorem Parser.reads.at_end {p : Parser} (h : p.reads []) : p.current_token.type = TOKEN_EOF :=
  h.2.1

/-- The kind of the current token: the kind of the first token left, or EOF. -/
theorem Parser.reads.kind {p : Parser} {ts : List Token} (h : p.reads ts) :
    p.current_token.type = (ts.head?.map Token.type).getD TOKEN_EOF := by
  cases ts with
  | nil => exact h.at_end
  | cons t rest => rw [h.head_token.1]; rfl

theorem LexesTo.nil_state {l : Lexer} (hok : l.cursor_ok) (h : LexesTo l []) :
    ∃ t l1, lexer_next_token l = some (t, l1) ∧ t.type = TOKEN_EOF ∧ l1.cursor_ok ∧
      l1.source = l.source ∧ l1.current_char = NUL := by
  obtain ⟨t, l1, e1, f1, c1⟩ := lexer_next_token_total l hok
  cases h with
  | eof _ t2 l2 e2 ty2 =>
    rw [e1] at e2
    simp only [Option.some.injEq, Prod.mk.injEq] at e2
    rcases c1 with c1 | c1
    · exact ⟨t, l1, e1, c1.1, f1.1, f1.2.1, c1.2⟩
    · exact absurd (e2.1 ▸ ty2) c1.1

theorem LexesTo.cons_state {l : Lexer} {t : Token} {ts : List Token} (hok : l.cursor_ok)
    (h : LexesTo l (t :: ts)) :
    ∃ l1, lexer_next_token l = some (t, l1) ∧ t.type ≠ TOKEN_EOF ∧ l1.cursor_ok ∧
      l1.source = l.source ∧ l.position < l1.position ∧ LexesTo l1 ts := by
  obtain ⟨t1, l1, e1, f1, c1⟩ := lexer_next_token_total l hok
  cases h with
  | token _ _ l2 _ e2 ty2 h3 =>
    rw [e1] at e2
    simp only [Option.some.injEq, Prod.mk.injEq] at e2
    obtain ⟨rfl, rfl⟩ := e2
    rcases c1 with c1 | c1
    · exact absurd c1.1 ty2
    · exact ⟨l1, e1, ty2, f1.1, f1.2.1, c1.2, h3⟩

/-- `parser_advance` drops the first token left. -/
theorem Parser.reads.step {p : Parser} {t : Token} {ts : List Token}
    (h : p.reads (t :: ts)) :
    ∃ p1, parser_advance p = .ok p1 ∧ p1.reads ts ∧ p1.lexer.source = p.lexer.source := by
  obtain ⟨hok, h⟩ := h
  cases ts with
  | nil =>
    obtain ⟨_, _, hpk, hnul⟩ := h
    refine ⟨{ lexer := p.lexer, current_token := p.peek_token,
              peek_token := token_create TOKEN_EOF none p.lexer.line p.lexer.column }, ?_,
      ⟨hok, hpk, rfl, hnul⟩, rfl⟩
    simp [parser_advance, parser_next_token, lexer_next_token_at_nul p.lexer hnul]
  | cons u rest =>
    obtain ⟨_, _, hpk, hu, hl⟩ := h
    cases rest with
    | nil =>
      obtain ⟨t1, l1, e1, ty1, ok1, src1, nul1⟩ := hl.nil_state hok
      refine ⟨{ lexer := l1, current_token := p.peek_token, peek_token := t1 }, ?_,
        ⟨ok1, hpk, hu, ty1, nul1⟩, src1⟩
      simp [parser_advance, parser_next_token, e1]
    | cons v rest =>
      obtain ⟨l1, e1, ty1, ok1, src1, _, hl1⟩ := hl.cons_state hok
      refine ⟨{ lexer := l1, current_token := p.peek_token, peek_token := v }, ?_,
        ⟨ok1, hpk, hu, rfl, ty1, hl1⟩, src1⟩
      simp [parser_advance, parser_next_token, e1]

/-- `parser_create` on a lexer yields a state that has all its tokens left. -/
theorem Parser.reads_of_create {l : Lexer} {ts : List Token} (hok : l.cursor_ok)
    (h : LexesTo l ts) :
    ∃ p, parser_create l = .ok p ∧ p.reads ts ∧ p.lexer.source = l.source := by
  cases ts with
  | nil =>
    obtain ⟨t1, l1, e1, ty1, ok1, src1, nul1⟩ := h.nil_state hok
    refine ⟨{ lexer := l1, current_token := t1,
              peek_token := token_create TOKEN_EOF none l1.line l1.column }, ?_,
      ⟨ok1, ty1, rfl, nul1⟩, src1⟩
    simp only [parser_create, parser_next_token, e1, ok_bind,
      lexer_next_token_at_nul l1 nul1, pure_eq_ok]
  | cons t rest =>
    obtain ⟨l1, e1, ty1, ok1, src1, _, hl1⟩ := h.cons_state hok
    cases rest with
    | nil =>
      obtain ⟨t2, l2, e2, ty2, ok2, src2, nul2⟩ := hl1.nil_state ok1
      refine ⟨{ lexer := l2, current_token := t, peek_token := t2 }, ?_,
        ⟨ok2, rfl, ty1, ty2, nul2⟩, src2.trans src1⟩
      simp only [parser_create, parser_next_token, e1, e2, ok_bind, pure_eq_ok]
    | cons u rest =>
      obtain ⟨l2, e2, ty2, ok2, src2, _, hl2⟩ := hl1.cons_state ok1
      refine ⟨{ lexer := l2, current_token := t, peek_token := u }, ?_,
        ⟨ok2, rfl, ty1, rfl, ty2, hl2⟩, src2.trans src1⟩
      simp only [parser_create, parser_next_token, e1, e2, ok_bind, pure_eq_ok]

/-- `parser_expect` on the kind of the first token left drops that token. -/
theorem Parser.reads.expect_step {p : Parser} {t : Token} {ts : List Token}
    (h : p.reads (t :: ts)) (ty : TokenType) (hty : t.type = ty) :
    ∃ p1, parser_expect p ty = .ok (true, p1) ∧ p1.reads ts ∧
      p1.lexer.source = p.lexer.source := by
  obtain ⟨p1, e1, r1, s1⟩ := h.step
  refine ⟨p1, ?_, r1, s1⟩
  rw [parser_expect, if_pos (by rw [h.head_token.1, hty]), e1]
  rfl

/-- `parser_expect` on another kind leaves the state as it is. -/
theorem Parser.expect_other (p : Parser) (ty : TokenType) (h : p.current_token.type ≠ ty) :
    parser_expect p ty = .ok (false, p) := by
  rw [parser_expect, if_neg h]
  rfl

theorem LexesTo.length_le {l : Lexer} {ts : List Token} (h : LexesTo l ts) :
    l.cursor_ok → ts.length + l.position ≤ l.source.length := by
  induction h with
  | eof l t l1 e1 ty => intro hok; simpa using hok.2
  | token l t l1 ts e1 ty h3 ih =>
    intro hok
    obtain ⟨l2, e2, _, ok2, src2, pos2, _⟩ := (LexesTo.token l t l1 ts e1 ty h3).cons_state hok
    rw [e1] at e2
    simp only [Option.some.injEq, Prod.mk.injEq, true_and] at e2
    subst e2
    have := ih ok2
    rw [src2] at this
    simp only [List.length_cons]
    omega

theorem Parser.reads.bound {p : Parser} {ts : List Token} (h : p.reads ts) :
    ts.length ≤ p.lexer.source.length + 2 := by
  obtain ⟨hok, h⟩ := h
  match ts, h with
  | [], _ => simp
  | [t], _ => simp
  | t :: u :: rest, h =>
    have := h.2.2.2.2.length_le hok
    simp only [List.length_cons]
    omega

/-! ## C5: `int main() { return N; }` from source text to exit status -/

theorem codegen_generate_return (value : Int) :
    codegen_generate codegen_create
        (.program [.function "main" [] (.block [.return_stmt (.number value)])]) =
      some { output := return_listing value, label_count := 0 } := by
  have hparams : params_code 0 0 arg_registers = [] := by decide
  have hreserve : reserve_code 0 = [] := by decide
  have hentry : entry_point_code =
      [.global_directive "_start", .type_directive "_start", .label "_start",
       .comment "Set up stack frame", .movq_reg .rsp .rbp,
       .comment "Align stack to 16 bytes", .andq_imm (-16) .rsp, .call "main",
       .comment "Exit syscall", .movq_reg .rax .rdi, .movq_imm 60 .rax, .syscall,
       .size_directive "_start"] := by decide
  have hcode : functions_code 0 [.function "main" [] (.block [.return_stmt (.number value)])] =
      [.align_directive 16, .label "main", .pushq .rbp, .movq_reg .rsp .rbp,
       .pushq .rbx, .pushq .r12, .pushq .r13, .pushq .r14, .pushq .r15,
       .movq_imm value .rax, .jmp ".main_return", .label ".main_return",
       .popq .r15, .popq .r14, .popq .r13, .popq .r12, .popq .rbx,
       .movq_reg .rbp .rsp, .popq .rbp, .ret, .size_directive "main"] := by
    rw [functions_code_cons, function_code_eq, block_code_block, block_loop_code_cons,
      statement_code_return, expression_code_number]
    simp only [List.length_nil, hparams, hreserve]
    rfl
  have hlabels :
      functions_labels 0 [.function "main" [] (.block [.return_stmt (.number value)])] = 0 := by
    rw [functions_labels_cons, function_labels_eq, block_labels_block, block_loop_labels_cons,
      statement_labels_return]
    rfl
  rw [codegen_generate_eq codegen_create
    [.function "main" [] (.block [.return_stmt (.number value)])] ["main"] rfl]
  simp only [codegen_create, hcode, hlabels, hentry, declarations_code_cons]
  rfl

theorem run_running (listing : List Line) (n : Nat) (m m1 : Machine) (pc pc1 : Nat)
    (h : step listing m pc = .running m1 pc1) :
    run listing (n + 1) m pc = run listing n m1 pc1 := by
  rw [run, h]

theorem run_exited (listing : List Line) (n : Nat) (m : Machine) (pc : Nat) (status : Int)
    (h : step listing m pc = .exited status) :
    run listing (n + 1) m pc = some status := by
  rw [run, h]

theorem Machine.push_keeps_return (m : Machine) (v d : Int) (hd : 0 ≤ d)
    (hret : m.mem (m.regs .rbp + 8) = 34) (hsp : m.regs .rsp = m.regs .rbp - d) :
    (m.push v).mem ((m.push v).regs .rbp + 8) = 34 ∧
      (m.push v).regs .rsp = (m.push v).regs .rbp - (d + 8) := by
  have hne : ¬ m.regs .rbp + 8 = m.regs .rbp - d - 8 := by omega
  simp [Machine.push, Machine.set, Machine.store, hsp, hne, hret]
  omega

theorem run_exit_syscall (value : Int) (k : Nat) (m : Machine) (pc : Nat) (hpc : pc = 34) :
    run (return_listing value) (k + 4) m pc = some (m.regs .rax % 256) := by
  subst hpc
  iterate 3
    refine (run_running _ _ _ ?_ _ ?_ ?_).trans ?_
    pick_goal 3
    exact rfl
  exact run_exited _ _ _ _ _ rfl

theorem run_epilogue (value : Int) (k : Nat) (m : Machine) (pc : Nat) (hpc : pc = 16)
    (hret : m.mem (m.regs .rbp + 8) = 34) :
    run (return_listing value) (k + 13) m pc = some (m.regs .rax % 256) := by
  subst hpc
  iterate 9
    refine (run_running _ _ _ ?_ _ ?_ ?_).trans ?_
    pick_goal 3
    exact rfl
  rw [run_exit_syscall _ _ _ _ (by simp [Machine.set, hret])]
  simp [Machine.set]

theorem run_body (value : Int) (k : Nat) (m : Machine)
    (hret : m.mem (m.regs .rbp + 8) = 34) :
    run (return_listing value) (k + 15) m 14 = some (wrap64 value % 256) := by
  iterate 2
    refine (run_running _ _ _ ?_ _ ?_ ?_).trans ?_
    pick_goal 3
    exact rfl
  rw [run_epilogue _ _ _ _ (by simp [return_listing, List.indexOf_cons])
    (by simpa [Machine.set] using hret)]
  simp [Machine.set]

theorem run_saves (value : Int) (k : Nat) (m : Machine)
    (hret : m.mem (m.regs .rbp + 8) = 34) (hsp : m.regs .rsp = m.regs .rbp) :
    run (return_listing value) (k + 20) m 9 = some (wrap64 value % 256) := by
  iterate 5
    refine (run_running _ _ _ ?_ _ ?_ ?_).trans ?_
    pick_goal 3
    exact rfl
  have h0 := m.push_keeps_return (m.regs .rbx) 0 (le_refl 0) hret (by omega)
  have h1 := Machine.push_keeps_return _ ((m.push (m.regs .rbx)).regs .r12) _ (by omega)
    h0.1 h0.2
  have h2 := Machine.push_keeps_return _
    (((m.push (m.regs .rbx)).push ((m.push (m.regs .rbx)).regs .r12)).regs .r13) _
    (by omega) h1.1 h1.2
  generalize ((m.push (m.regs .rbx)).push ((m.push (m.regs .rbx)).regs .r12)).push _ = m3
    at h2 ⊢
  have h3 := Machine.push_keeps_return _ (m3.regs .r14) _ (by omega) h2.1 h2.2
  have h4 := Machine.push_keeps_return _ ((m3.push (m3.regs .r14)).regs .r15) _ (by omega)
    h3.1 h3.2
  exact run_body _ _ _ h4.1

theorem run_prologue (value : Int) (k : Nat) (m : Machine) (pc : Nat) (hpc : pc = 6)
    (hret : m.mem (m.regs .rsp) = 34) :
    run (return_listing value) (k + 23) m pc = some (wrap64 value % 256) := by
  subst hpc
  iterate 3
    refine (run_running _ _ _ ?_ _ ?_ ?_).trans ?_
    pick_goal 3
    exact rfl
  refine run_saves _ _ _ ?_ ?_
  · have hne : ¬ m.regs .rsp = m.regs .rsp - 8 := by omega
    simp [Machine.push, Machine.set, Machine.store, hne, hret]
  · simp [Machine.push, Machine.set, Machine.store]

theorem run_return_listing (value : Int) (k : Nat) (m : Machine) :
    run (return_listing value) (k + 29) m 28 = some (wrap64 value % 256) := by
  iterate 6
    refine (run_running _ _ _ ?_ _ ?_ ?_).trans ?_
    pick_goal 3
    exact rfl
  refine run_prologue _ _ _ _ ?_ ?_
  · simp [return_listing, List.indexOf_cons]
  · simp [Machine.push, Machine.set, Machine.store]

theorem run_from_start_return (value : Int) (fuel : Nat) (m : Machine) (h : 29 ≤ fuel) :
    run_from_start (return_listing value) fuel m = some (wrap64 value % 256) := by
  obtain ⟨k, rfl⟩ := Nat.exists_eq_add_of_le h
  have hstart : find_label (return_listing value) "_start" = some 28 := by
    simp [find_label, return_listing, List.indexOf_cons]
  rw [run_from_start, hstart, Nat.add_comm]
  exact run_return_listing value k m

/-! ## Lexing a text from left to right -/

theorem lexer_create_at (source : List Char) (h : ∀ c ∈ source, c ≠ NUL) :
    lexer_create source = lexer_at [] source 1 1 := by
  have h1 : source.takeWhile (fun c => c != NUL) = source := by
    rw [List.takeWhile_eq_self_iff]
    intro c hc
    simpa using h c hc
  unfold lexer_create lexer_at
  rw [h1]
  cases source <;> rfl

theorem lexer_at_advance (pre suf : List Char) (c : Char) (line column : Nat) (hc : c ≠ '\n') :
    lexer_advance (lexer_at pre (c :: suf) line column) =
      lexer_at (pre ++ [c]) suf line (column + 1) := by
  have h1 : (pre ++ c :: suf).getD (pre.length + 1) NUL = suf.headD NUL := by
    rw [List.getD_append_right _ _ _ _ (by omega)]
    cases suf <;> simp
  simp only [List.getD_eq_getElem?_getD, List.headD_eq_head?_getD] at h1
  simp [lexer_advance, lexer_at, hc, Lexer.char_at, h1]

theorem lexer_at_fuel (pre suf : List Char) (line column : Nat) :
    lexer_fuel (lexer_at pre suf line column) = suf.length + 2 := by
  simp [lexer_fuel, lexer_at]

theorem isdigit_ne (c : Char) (h : isdigit c = true) : c ≠ NUL ∧ c ≠ '\n' := by
  constructor <;> rintro rfl <;> revert h <;> decide

theorem lexer_at_number_loop (suf : List Char) (line : Nat)
    (hsuf : ¬ (suf.headD NUL ≠ NUL ∧ isdigit (suf.headD NUL) = true)) :
    ∀ (ds : List Char) (fuel : Nat) (buffer pre : List Char) (column : Nat),
      (∀ c ∈ ds, isdigit c = true) → ds.length < fuel → buffer.length + ds.length ≤ 255 →
      lexer_make_number_loop fuel buffer (lexer_at pre (ds ++ suf) line column) =
        some (buffer ++ ds, lexer_at (pre ++ ds) suf line (column + ds.length))
  | [], fuel + 1, buffer, pre, column, _, _, _ => by
    rw [lexer_make_number_loop, if_neg (by simpa [lexer_at] using hsuf)]
    simp
  | d :: ds, fuel + 1, buffer, pre, column, hd, hf, hb => by
    have h1 := isdigit_ne d (hd d (List.mem_cons_self _ _))
    simp only [List.length_cons] at hf hb
    rw [lexer_make_number_loop, if_pos (by
      simpa [lexer_at] using ⟨h1.1, hd d (List.mem_cons_self _ _)⟩)]
    rw [if_pos (by omega)]
    have h2 : (lexer_at pre (d :: ds ++ suf) line column).current_char = d := rfl
    rw [h2, List.cons_append, lexer_at_advance _ _ _ _ _ h1.2,
      lexer_at_number_loop suf line hsuf ds fuel _ _ _
        (fun c hc => hd c (List.mem_cons_of_mem _ hc)) (by omega) (by simp; omega)]
    simp [Nat.add_comm, Nat.add_left_comm]

theorem isalnum_ne (c : Char) (h : isalnum c = true ∨ c = '_') : c ≠ NUL ∧ c ≠ '\n' := by
  constructor <;> rintro rfl <;> revert h <;> decide

theorem lexer_at_identifier_loop (suf : List Char) (line : Nat)
    (hsuf : ¬ (suf.headD NUL ≠ NUL ∧ (isalnum (suf.headD NUL) = true ∨ suf.headD NUL = '_'))) :
    ∀ (cs : List Char) (fuel : Nat) (buffer pre : List Char) (column : Nat),
      (∀ c ∈ cs, isalnum c = true ∨ c = '_') → cs.length < fuel →
      buffer.length + cs.length ≤ 255 →
      lexer_make_identifier_loop fuel buffer (lexer_at pre (cs ++ suf) line column) =
        some (buffer ++ cs, lexer_at (pre ++ cs) suf line (column + cs.length))
  | [], fuel + 1, buffer, pre, column, _, _, _ => by
    rw [lexer_make_identifier_loop, if_neg (by simpa [lexer_at] using hsuf)]
    simp
  | d :: cs, fuel + 1, buffer, pre, column, hd, hf, hb => by
    have h1 := isalnum_ne d (hd d (List.mem_cons_self _ _))
    simp only [List.length_cons] at hf hb
    rw [lexer_make_identifier_loop, if_pos (by
      simpa [lexer_at] using ⟨h1.1, hd d (List.mem_cons_self _ _)⟩)]
    rw [if_pos (by omega)]
    have h2 : (lexer_at pre (d :: cs ++ suf) line column).current_char = d := rfl
    rw [h2, List.cons_append, lexer_at_advance _ _ _ _ _ h1.2,
      lexer_at_identifier_loop suf line hsuf cs fuel _ _ _
        (fun c hc => hd c (List.mem_cons_of_mem _ hc)) (by omega) (by simp; omega)]
    simp [Nat.add_comm, Nat.add_left_comm]

theorem isdigit_not_space (c : Char) (h : isdigit c = true) :
    isspace c = false ∧ c ≠ '/' := by
  constructor
  · by_contra hc
    simp only [isspace, Bool.not_eq_false, Bool.or_eq_true, decide_eq_true_eq] at hc
    rcases hc with ((((rfl | rfl) | rfl) | rfl) | rfl) | rfl <;> revert h <;> decide
  · rintro rfl
    revert h
    decide

theorem isalpha_not_space (c : Char) (h : isalpha c = true ∨ c = '_') :
    isspace c = false ∧ c ≠ '/' ∧ isdigit c = false ∧ c ≠ NUL ∧
      (isalnum c = true ∨ c = '_') := by
  have h5 : isalnum c = true ∨ c = '_' := by
    rcases h with h | h
    · left
      simp [isalnum, h]
    · exact Or.inr h
  refine ⟨?_, ?_, ?_, (isalnum_ne c h5).1, h5⟩
  · by_contra hc
    simp only [isspace, Bool.not_eq_false, Bool.or_eq_true, decide_eq_true_eq] at hc
    rcases hc with ((((rfl | rfl) | rfl) | rfl) | rfl) | rfl <;> revert h <;> decide
  · rintro rfl
    revert h
    decide
  · rcases h with h | rfl
    · by_contra hd
      have hd1 : isdigit c = true := by simpa using hd
      simp only [isalpha, isdigit, Bool.or_eq_true, Bool.and_eq_true, decide_eq_true_eq]
        at h hd1
      omega
    · decide

/-- A run of digits at the cursor is one NUMBER token. -/
theorem lexer_at_number (pre ds suf : List Char) (line column : Nat) (h0 : ds ≠ [])
    (hds : ∀ c ∈ ds, isdigit c = true) (hlen : ds.length ≤ 255)
    (hsuf : ¬ (suf.headD NUL ≠ NUL ∧ isdigit (suf.headD NUL) = true)) :
    lexer_next_token (lexer_at pre (ds ++ suf) line column) =
      some (token_create TOKEN_NUMBER (some (String.mk ds)) line column,
        lexer_at (pre ++ ds) suf line (column + ds.length)) := by
  have e := lexer_at_number_loop suf line hsuf ds (lexer_fuel (lexer_at pre (ds ++ suf) line column))
    [] pre column hds (by rw [lexer_at_fuel]; simp; omega) (by simpa using hlen)
  obtain ⟨d, ds1, rfl⟩ := List.exists_cons_of_ne_nil h0
  have hd := hds d (List.mem_cons_self _ _)
  have h1 := isdigit_ne d hd
  have h2 := isdigit_not_space d hd
  have hc : (lexer_at pre (d :: ds1 ++ suf) line column).current_char = d := rfl
  rw [lexer_next_token, lexer_at_fuel, lexer_next_token_loop, if_neg (by rw [hc]; exact h1.1),
    if_neg (by rw [hc, h2.1]; simp), if_neg (by rw [hc]; exact fun h => h2.2 h.1),
    if_pos (by rw [hc]; exact hd), lexer_make_number, e]
  rfl

/-- A run of letters, digits and underscores at the cursor that starts with a
letter or an underscore is one identifier or keyword token. -/
theorem lexer_at_identifier (pre cs suf : List Char) (line column : Nat) (c : Char)
    (cs1 : List Char) (h0 : cs = c :: cs1) (hc : isalpha c = true ∨ c = '_')
    (hcs : ∀ c ∈ cs, isalnum c = true ∨ c = '_') (hlen : cs.length ≤ 255)
    (hsuf : ¬ (suf.headD NUL ≠ NUL ∧ (isalnum (suf.headD NUL) = true ∨ suf.headD NUL = '_'))) :
    lexer_next_token (lexer_at pre (cs ++ suf) line column) =
      some (token_create (keyword_type (String.mk cs)) (some (String.mk cs)) line column,
        lexer_at (pre ++ cs) suf line (column + cs.length)) := by
  have e := lexer_at_identifier_loop suf line hsuf cs
    (lexer_fuel (lexer_at pre (cs ++ suf) line column))
    [] pre column hcs (by rw [lexer_at_fuel]; simp; omega) (by simpa using hlen)
  subst h0
  have h2 := isalpha_not_space c hc
  have h3 : (lexer_at pre (c :: cs1 ++ suf) line column).current_char = c := rfl
  rw [lexer_next_token, lexer_at_fuel, lexer_next_token_loop, if_neg (by rw [h3]; exact h2.2.2.2.1),
    if_neg (by rw [h3, h2.1]; simp), if_neg (by rw [h3]; exact fun h => h2.2.1 h.1),
    if_neg (by rw [h3, h2.2.2.1]; simp), if_pos (by rw [h3]; exact hc), lexer_make_identifier, e]
  rfl

/-- One blank before a character that is not white space is skipped. -/
theorem lexer_at_blank (pre suf : List Char) (line column : Nat)
    (hsuf : ¬ (suf.headD NUL ≠ NUL ∧ isspace (suf.headD NUL) = true)) :
    lexer_next_token (lexer_at pre (' ' :: suf) line column) =
      lexer_next_token (lexer_at (pre ++ [' ']) suf line (column + 1)) := by
  have h3 : (lexer_at pre (' ' :: suf) line column).current_char = ' ' := rfl
  have hf : lexer_fuel (lexer_at pre (' ' :: suf) line column) = (suf.length + 2) + 1 := by
    rw [lexer_at_fuel]
    simp
  have hw : lexer_skip_whitespace (lexer_at pre (' ' :: suf) line column) =
      some (lexer_at (pre ++ [' ']) suf line (column + 1)) := by
    rw [lexer_skip_whitespace, hf, lexer_skip_whitespace_loop, if_pos (by rw [h3]; decide),
      lexer_at_advance _ _ _ _ _ (by decide)]
    have h4 : suf.length + 2 = (suf.length + 1) + 1 := rfl
    rw [h4, lexer_skip_whitespace_loop, if_neg (by simpa [lexer_at] using hsuf)]
  rw [lexer_next_token, hf, lexer_next_token_loop, if_neg (by rw [h3]; decide),
    if_pos (by rw [h3]; decide), hw, Option.some_bind, lexer_next_token, lexer_at_fuel]

/-- A character that starts neither white space, a comment, a number nor a name
goes to the operator switch. -/
theorem lexer_at_operator (pre suf : List Char) (c : Char) (line column : Nat)
    (h0 : c ≠ NUL) (h1 : isspace c = false) (h2 : c ≠ '/') (h3 : isdigit c = false)
    (h4 : isalpha c = false) (h5 : c ≠ '_') (h6 : c ≠ '\n') :
    lexer_next_token (lexer_at pre (c :: suf) line column) =
      some (lexer_operator c line column (lexer_at (pre ++ [c]) suf line (column + 1))) := by
  rw [lexer_next_token_operator _ h0 h1 h2 h3 h4 h5, lexer_at_advance _ _ _ _ _ h6]
  rfl

/-! ## C5: the tokens of `int main() { return N; }` -/

theorem return_source_lexes (ds : List Char) (h0 : ds ≠ []) (hds : ∀ c ∈ ds, isdigit c = true)
    (hlen : ds.length ≤ 255) :
    LexesTo (lexer_create (return_source ds)) (return_tokens ds) := by
  have hnul : ∀ c ∈ return_source ds, c ≠ NUL := by
    intro c hc
    rcases List.mem_append.1 hc with h | h
    · exact (by decide : ∀ c ∈ "int main() \x7b return ".data, c ≠ NUL) c h
    · rcases List.mem_append.1 h with h | h
      · exact (isdigit_ne c (hds c h)).1
      · exact (by decide : ∀ c ∈ "; \x7d".data, c ≠ NUL) c h
  have sp : ∀ (c : Char) (s : List Char), ¬ (c ≠ NUL ∧ isspace c = true) →
      ¬ ((c :: s).headD NUL ≠ NUL ∧ isspace ((c :: s).headD NUL) = true) := fun _ _ h => h
  have al : ∀ (c : Char) (s : List Char), ¬ (c ≠ NUL ∧ (isalnum c = true ∨ c = '_')) →
      ¬ ((c :: s).headD NUL ≠ NUL ∧
        (isalnum ((c :: s).headD NUL) = true ∨ (c :: s).headD NUL = '_')) := fun _ _ h => h
  have dg : ∀ (c : Char) (s : List Char), ¬ (c ≠ NUL ∧ isdigit c = true) →
      ¬ ((c :: s).headD NUL ≠ NUL ∧ isdigit ((c :: s).headD NUL) = true) := fun _ _ h => h
  rw [lexer_create_at _ hnul]
  obtain ⟨d, ds1, rfl⟩ := List.exists_cons_of_ne_nil h0
  have hd := isdigit_not_space d (hds d (List.mem_cons_self _ _))
  refine LexesTo.token _ _ _ _
    (lexer_at_identifier [] ['i', 'n', 't'] _ 1 1 'i' ['n', 't'] rfl (by decide) (by decide)
      (by decide) (al ' ' _ (by decide))) (by decide) ?_
  refine LexesTo.token _ _ _ _
    ((lexer_at_blank _ _ 1 _ (sp 'm' _ (by decide))).trans
      (lexer_at_identifier _ ['m', 'a', 'i', 'n'] _ 1 _ 'm' ['a', 'i', 'n'] rfl (by decide)
        (by decide) (by decide) (al '(' _ (by decide)))) (by decide) ?_
  refine LexesTo.token _ _ _ _
    (lexer_at_operator _ _ '(' 1 _ (by decide) (by decide) (by decide) (by decide) (by decide)
      (by decide) (by decide)) (by decide) ?_
  refine LexesTo.token _ _ _ _
    (lexer_at_operator _ _ ')' 1 _ (by decide) (by decide) (by decide) (by decide) (by decide)
      (by decide) (by decide)) (by decide) ?_
  refine LexesTo.token _ _ _ _
    ((lexer_at_blank _ _ 1 _ (sp '\x7b' _ (by decide))).trans
      (lexer_at_operator _ _ '\x7b' 1 _ (by decide) (by decide) (by decide) (by decide)
        (by decide) (by decide) (by decide))) (by decide) ?_
  refine LexesTo.token _ _ _ _
    ((lexer_at_blank _ _ 1 _ (sp 'r' _ (by decide))).trans
      (lexer_at_identifier _ ['r', 'e', 't', 'u', 'r', 'n'] _ 1 _ 'r' ['e', 't', 'u', 'r', 'n']
        rfl (by decide) (by decide) (by decide) (al ' ' _ (by decide)))) (by decide) ?_
  refine LexesTo.token _ _ _ _
    ((lexer_at_blank _ _ 1 _ (sp d _ (by rw [hd.1]; simp))).trans
      (lexer_at_number _ (d :: ds1) _ 1 _ (by simp) hds hlen (dg ';' _ (by decide))))
      (fun h => by cases h) ?_
  refine LexesTo.token _ _ _ _
    (lexer_at_operator _ _ ';' 1 _ (by decide) (by decide) (by decide) (by decide) (by decide)
      (by decide) (by decide)) (fun h => by cases h) ?_
  refine LexesTo.token _ _ _ _
    ((lexer_at_blank _ _ 1 _ (sp '\x7d' _ (by decide))).trans
      (lexer_at_operator _ _ '\x7d' 1 _ (by decide) (by decide) (by decide) (by decide)
        (by decide) (by decide) (by decide))) (fun h => by cases h) ?_
  exact LexesTo.eof _ _ _ (lexer_next_token_at_nul _ rfl) rfl

theorem return_tokens_parse (ds : List Char) (p : Parser) (hp : p.reads (return_tokens ds))
    (n : Nat) :
    ∃ q, parser_parse_program_loop (n + 10) [] p =
      .ok ([.function "main" [] (.block [.return_stmt (.number (atoi (String.mk ds)))])], q) := by
  have c0 := hp.head_token
  obtain ⟨p1, e1, r1, -⟩ := hp.expect_step TOKEN_INT rfl
  have c1 := r1.head_token
  obtain ⟨p2, e2, r2, -⟩ := r1.step
  obtain ⟨p3, e3, r3, -⟩ := r2.expect_step TOKEN_LPAREN rfl
  have c3 := r3.head_token
  obtain ⟨p4, e4, r4, -⟩ := r3.expect_step TOKEN_RPAREN rfl
  obtain ⟨p5, e5, r5, -⟩ := r4.expect_step TOKEN_LBRACE rfl
  have c5 := r5.head_token
  obtain ⟨p6, e6, r6, -⟩ := r5.expect_step TOKEN_RETURN rfl
  have c6 := r6.head_token
  obtain ⟨p7, e7, r7, -⟩ := r6.step
  have c7 := r7.head_token
  obtain ⟨p8, e8, r8, -⟩ := r7.expect_step TOKEN_SEMICOLON rfl
  have c8 := r8.head_token
  obtain ⟨p9, e9, r9, -⟩ := r8.expect_step TOKEN_RBRACE rfl
  have c9 := r9.at_end
  have t0 : p.current_token.type = TOKEN_INT := by rw [c0.1]; rfl
  have t1 : p1.current_token.type = TOKEN_IDENTIFIER := by rw [c1.1]; rfl
  have t3 : p3.current_token.type = TOKEN_RPAREN := by rw [c3.1]; rfl
  have t5 : p5.current_token.type = TOKEN_RETURN := by rw [c5.1]; rfl
  have t6 : p6.current_token.type = TOKEN_NUMBER := by rw [c6.1]; rfl
  have t7 : p7.current_token.type = TOKEN_SEMICOLON := by rw [c7.1]; rfl
  have t8 : p8.current_token.type = TOKEN_RBRACE := by rw [c8.1]; rfl
  have x6 : p6.lexeme = String.mk ds := by rw [Parser.lexeme, c6.1]; rfl
  have x1 : p1.lexeme = "main" := by rw [Parser.lexeme, c1.1]; rfl
  have hfactor : ∀ k, parser_parse_factor (k + 1) p6 =
      .ok (.number (atoi (String.mk ds)), p7) := by
    intro k
    rw [parser_parse_factor, if_pos t6, e7, x6]
    rfl
  have hterm : ∀ k, parser_parse_term (k + 2) p6 =
      .ok (.number (atoi (String.mk ds)), p7) := by
    intro k
    rw [parser_parse_term, hfactor, ok_bind]
    dsimp only
    rw [parser_parse_term_loop, if_neg (by rw [t7]; decide)]
    rfl
  have harith : ∀ k, parser_parse_arithmetic (k + 3) p6 =
      .ok (.number (atoi (String.mk ds)), p7) := by
    intro k
    rw [parser_parse_arithmetic, hterm, ok_bind]
    dsimp only
    rw [parser_parse_arithmetic_loop, if_neg (by rw [t7]; decide)]
    rfl
  have hexpr : ∀ k, parser_parse_expression (k + 4) p6 =
      .ok (.number (atoi (String.mk ds)), p7) := by
    intro k
    rw [parser_parse_expression, harith, ok_bind]
    simp only [t7]
    rfl
  have hret : ∀ k, parser_parse_return_statement (k + 4) p5 =
      .ok (.return_stmt (.number (atoi (String.mk ds))), p8) := by
    intro k
    rw [parser_parse_return_statement, e6, ok_bind]
    simp only [Bool.true_eq_false, if_false, hexpr, ok_bind, e8]
    rfl
  have hstmt : ∀ k, parser_parse_statement (k + 5) p5 =
      .ok (.return_stmt (.number (atoi (String.mk ds))), p8) := by
    intro k
    rw [parser_parse_statement, if_pos t5, hret]
  have hblock : ∀ k, parser_parse_block (k + 7) p4 =
      .ok (.block [.return_stmt (.number (atoi (String.mk ds)))], p9) := by
    intro k
    rw [parser_parse_block, e5, ok_bind]
    simp only [Bool.true_eq_false, if_false]
    rw [parser_parse_block_loop, if_pos (by rw [t5]; decide), hstmt, ok_bind]
    dsimp only
    rw [parser_parse_block_loop, if_neg (by rw [t8]; decide)]
    simp only [pure_eq_ok, ok_bind, e9, List.nil_append]
  have hfun : ∀ k, parser_parse_function (k + 7) p =
      .ok (.function "main" [] (.block [.return_stmt (.number (atoi (String.mk ds)))]), p9) := by
    intro k
    rw [parser_parse_function, e1, ok_bind]
    simp only [if_true, pure_eq_ok, ok_bind, Bool.true_eq_false, if_false, t1, ne_eq,
      not_true_eq_false, e2, e3, x1]
    rw [parser_parse_params_loop, if_neg (by rw [t3]; decide)]
    simp only [pure_eq_ok, ok_bind, e4, hblock]
  refine ⟨p9, ?_⟩
  rw [parser_parse_program_loop, if_pos (by rw [t0]; decide), hfun, ok_bind]
  dsimp only
  rw [parser_parse_program_loop, if_neg (by rw [c9]; decide)]
  rfl

theorem toDigitsCore_length (fuel : Nat) : ∀ (n : Nat) (ds : List Char) (k : Nat),
    n < 10 ^ (k + 1) → (Nat.toDigitsCore 10 fuel n ds).length ≤ ds.length + k + 1 := by
  induction fuel with
  | zero => intro n ds k _; simp [Nat.toDigitsCore]; omega
  | succ fuel ih =>
    intro n ds k h
    simp only [Nat.toDigitsCore]
    split_ifs with h0
    · simp
    · cases k with
      | zero => omega
      | succ k =>
        have h1 : n / 10 < 10 ^ (k + 1) := by
          rw [Nat.div_lt_iff_lt_mul (by decide)]
          rw [pow_succ] at h
          exact h
        have h2 := ih (n / 10) (Nat.digitChar (n % 10) :: ds) k h1
        simp only [List.length_cons] at h2
        omega

theorem repr_length (n : Nat) (h : n < 2 ^ 31) : (toString n).data.length ≤ 255 := by
  have h1 := toDigitsCore_length (n + 1) n [] 9 (by omega)
  have h2 : (toString n).data = Nat.toDigitsCore 10 (n + 1) n [] := rfl
  rw [h2]
  simp only [List.length_nil] at h1
  omega

theorem repr_ne_nil (n : Nat) : (toString n).data ≠ [] := by
  intro h
  have h1 := repr_value n
  rw [h] at h1
  have h2 : n = 0 := h1.symm
  subst h2
  revert h
  decide

theorem atoi_digits (ds : List Char) (h : ∀ c ∈ ds, isdigit c = true)
    (hv : digits_value ds < 2 ^ 31) :
    atoi (String.mk ds) = (digits_value ds : Nat) := by
  unfold atoi wrap32
  rw [List.takeWhile_eq_self_iff.2 h, Nat.min_eq_left (by omega)]
  omega

theorem compile_return (ds : List Char) (h0 : ds ≠ []) (hds : ∀ c ∈ ds, isdigit c = true)
    (hlen : ds.length ≤ 255) (hv : digits_value ds < 2 ^ 31) :
    compile (return_source ds) =
      .ok (some { output := return_listing (digits_value ds : Nat), label_count := 0 }) := by
  obtain ⟨p, e, r, -⟩ := Parser.reads_of_create (lexer_create_cursor_ok _)
    (return_source_lexes ds h0 hds hlen)
  have hfuel : parser_fuel p = (8 * p.lexer.source.length + 22) + 10 := by
    unfold parser_fuel
    omega
  obtain ⟨q, hq⟩ := return_tokens_parse ds p r (8 * p.lexer.source.length + 22)
  rw [compile, e, ok_bind, parser_parse_program, hfuel, hq, ok_bind]
  simp only [pure_eq_ok, ok_bind, atoi_digits ds hds hv, codegen_generate_return]

/-- C5: for every decimal literal `N` in `int` range, the pipeline of `main.c`
(lex, parse, `codegen_generate`) applied to `int main() { return N; }` writes a
listing, and the abstract machine started at `_start` of that listing, in any
initial state and with any fuel from 29 steps on, exits through `syscall` 60
with status `N mod 256`. -/
theorem return_literal_exit_status (N : Nat) (hN : N < 2 ^ 31) (fuel : Nat) (hfuel : 29 ≤ fuel)
    (m : Machine) :
    ∃ g, compile ("int main() \x7b return " ++ toString N ++ "; \x7d").data = .ok (some g) ∧
      run_from_start g.output fuel m = some ((N : Int) % 256) := by
  have hds : ∀ c ∈ (toString N).data, isdigit c = true := by
    intro c hc
    have h := repr_isdigit N c hc
    simp [isdigit, h.1, h.2]
  have hsrc : ("int main() \x7b return " ++ toString N ++ "; \x7d").data =
      return_source (toString N).data := by
    simp [return_source, String.data_append]
  refine ⟨_, hsrc ▸ compile_return _ (repr_ne_nil N) hds (repr_length N hN)
    (by rw [repr_value]; exact hN), ?_⟩
  rw [run_from_start_return _ _ _ hfuel, repr_value,
    wrap64_of_range _ (by omega) (by omega)]

theorem return_literal_exit_status_witness :
    (42 : Nat) < 2 ^ 31 ∧ 29 ≤ 29 ∧
      ∃ g, compile "int main() \x7b return 42; \x7d".data = .ok (some g) ∧
        run_from_start g.output 29 Machine.zero = some 42 :=
  ⟨by decide, le_refl _, return_literal_exit_status 42 (by decide) 29 (le_refl _) Machine.zero⟩

/-! ## C1: what the parser accepts is derivable -/

theorem Parser.reads.step_nil {p : Parser} (h : p.reads []) :
    ∃ p1, parser_advance p = .ok p1 ∧ p1.reads [] := by
  obtain ⟨hok, _, hpk, hnul⟩ := h
  refine ⟨{ lexer := p.lexer, current_token := p.peek_token,
            peek_token := token_create TOKEN_EOF none p.lexer.line p.lexer.column }, ?_,
    ⟨hok, hpk, rfl, hnul⟩⟩
  simp [parser_advance, parser_next_token, lexer_next_token_at_nul p.lexer hnul]

/-- `parser_advance` always returns, and drops the first token left if there is one. -/
theorem Parser.reads.advance {p : Parser} {ts : List Token} (h : p.reads ts) :
    ∃ p1, parser_advance p = .ok p1 ∧ p1.reads ts.tail := by
  cases ts with
  | nil => exact h.step_nil
  | cons t ts =>
    obtain ⟨p1, e1, r1, -⟩ := h.step
    exact ⟨p1, e1, r1⟩

/-- The current token is of kind `ty` (not EOF) exactly if the first token left is. -/
theorem Parser.reads.current {p : Parser} {ts : List Token} (h : p.reads ts) (ty : TokenType)
    (h0 : ty ≠ TOKEN_EOF) (hty : p.current_token.type = ty) :
    ∃ t ts1, ts = t :: ts1 ∧ t.type = ty ∧ p.current_token = t := by
  cases ts with
  | nil => exact absurd (h.at_end.symm.trans hty).symm h0
  | cons t ts1 => exact ⟨t, ts1, rfl, by rw [← h.head_token.1, hty], h.head_token.1⟩

/-- The two outcomes of `parser_expect`. -/
theorem Parser.reads.expect {p : Parser} {ts : List Token} (h : p.reads ts) (ty : TokenType)
    (h0 : ty ≠ TOKEN_EOF) :
    (∃ t ts1 p1, ts = t :: ts1 ∧ t.type = ty ∧ p.current_token = t ∧
      parser_expect p ty = .ok (true, p1) ∧ p1.reads ts1) ∨
    (p.current_token.type ≠ ty ∧ parser_expect p ty = .ok (false, p)) := by
  by_cases hty : p.current_token.type = ty
  · obtain ⟨t, ts1, rfl, h1, h2⟩ := h.current ty h0 hty
    obtain ⟨p1, e1, r1, -⟩ := h.expect_step ty h1
    exact Or.inl ⟨t, ts1, p1, rfl, h1, h2, e1, r1⟩
  · exact Or.inr ⟨hty, Parser.expect_other p ty hty⟩

theorem spec_ok {α : Type} {ts : List Token} {low : Prop}
    {post : α → Parser → List Token → Prop} {a : α} {q : Parser} (hq : q.reads ts)
    (hpost : post a q []) : Spec ts low post (.ok (a, q)) :=
  ⟨[], ts, rfl, hq, hpost⟩

theorem spec_fatal {α : Type} {ts : List Token} {low : Prop}
    {post : α → Parser → List Token → Prop} (p : Parser) (message : String) :
    Spec ts low post (parser_error p message) := trivial

theorem spec_out_of_fuel {α : Type} {ts : List Token} {low : Prop}
    {post : α → Parser → List Token → Prop} (h : low) :
    Spec ts low post (.error .out_of_fuel) := h

theorem spec_cons {α : Type} {t : Token} {ts : List Token} {low : Prop}
    {post : α → Parser → List Token → Prop} {x : ParseM (α × Parser)}
    (h : Spec ts low (fun a q w => post a q (t :: w)) x) : Spec (t :: ts) low post x := by
  match x, h with
  | .ok (a, q), ⟨w, rest, e, hq, hp⟩ => exact ⟨t :: w, rest, by rw [e]; rfl, hq, hp⟩
  | .error .out_of_fuel, h => exact h
  | .error (.fatal _ _ _), _ => trivial

theorem spec_mono {α : Type} {ts : List Token} {low1 low : Prop}
    {post1 post : α → Parser → List Token → Prop} {x : ParseM (α × Parser)}
    (h : Spec ts low1 post1 x) (hlow : low1 → low)
    (hpost : ∀ a q w rest, ts = w ++ rest → q.reads rest → post1 a q w → post a q w) :
    Spec ts low post x := by
  match x, h with
  | .ok (a, q), ⟨w, rest, e, hq, hp⟩ => exact ⟨w, rest, e, hq, hpost a q w rest e hq hp⟩
  | .error .out_of_fuel, h => exact hlow h
  | .error (.fatal _ _ _), _ => trivial

theorem spec_bind {α β : Type} {ts : List Token} {low1 low : Prop}
    {post1 : α → Parser → List Token → Prop} {post : β → Parser → List Token → Prop}
    {x : ParseM (α × Parser)} {f : α × Parser → ParseM (β × Parser)}
    (h : Spec ts low1 post1 x) (hlow : low1 → low)
    (hf : ∀ a q w rest, ts = w ++ rest → q.reads rest → post1 a q w →
      Spec rest low (fun b q2 w2 => post b q2 (w ++ w2)) (f (a, q))) :
    Spec ts low post (x >>= f) := by
  match x, h with
  | .ok (a, q), ⟨w, rest, e, hq, hp⟩ =>
    have h2 := hf a q w rest e hq hp
    show Spec ts low post (f (a, q))
    match f (a, q), h2 with
    | .ok (b, q2), ⟨w2, rest2, e2, hq2, hp2⟩ =>
      exact ⟨w ++ w2, rest2, by rw [e, e2, List.append_assoc], hq2, hp2⟩
    | .error .out_of_fuel, h2 => exact h2
    | .error (.fatal _ _ _), _ => trivial
  | .error .out_of_fuel, h => exact hlow h
  | .error (.fatal _ _ _), _ => trivial

theorem is_comparison_relOp (t : TokenType) (h : is_comparison t = true) :
    is_relOp t ∧ t ≠ TOKEN_EOF := by
  cases t <;> first | (exact absurd h (by decide)) | (exact ⟨by simp [is_relOp], by decide⟩)

/-- Soundness of the expression functions, with the fuel that suffices for them. -/
theorem expression_spec (n : Nat) :
    (∀ p ts, p.reads ts → Spec ts (n < 8 * ts.length + 4)
      (fun _ _ w => Derives .expression (w.map Token.type)) (parser_parse_expression n p)) ∧
    (∀ p ts, p.reads ts → Spec ts (n < 8 * ts.length + 3)
      (fun _ _ w => Derives .arithmetic (w.map Token.type)) (parser_parse_arithmetic n p)) ∧
    (∀ left p ts, p.reads ts → Spec ts (n < 8 * ts.length + 1)
      (fun _ _ w => Derives .arithmeticTail (w.map Token.type))
      (parser_parse_arithmetic_loop n left p)) ∧
    (∀ p ts, p.reads ts → Spec ts (n < 8 * ts.length + 2)
      (fun _ _ w => Derives .term (w.map Token.type)) (parser_parse_term n p)) ∧
    (∀ left p ts, p.reads ts → Spec ts (n < 8 * ts.length + 1)
      (fun _ _ w => Derives .termTail (w.map Token.type)) (parser_parse_term_loop n left p)) ∧
    (∀ p ts, p.reads ts → Spec ts (n < 8 * ts.length + 1)
      (fun _ _ w => Derives .factor (w.map Token.type)) (parser_parse_factor n p)) := by
  induction n with
  | zero =>
    refine ⟨?_, ?_, ?_, ?_, ?_, ?_⟩ <;> intros <;> exact spec_out_of_fuel (by omega)
  | succ n ih =>
    obtain ⟨ihe, iha, ihal, iht, ihtl, ihf⟩ := ih
    refine ⟨?_, ?_, ?_, ?_, ?_, ?_⟩
    · intro p ts hp
      rw [parser_parse_expression]
      refine spec_bind (iha p ts hp) (by omega) fun left p1 w rest e hq hd => ?_
      dsimp only
      by_cases hc : is_comparison p1.current_token.type = true
      · rw [if_pos hc]
        obtain ⟨h1, h2⟩ := is_comparison_relOp _ hc
        obtain ⟨t, rest1, rfl, hty, -⟩ := hq.current _ h2 rfl
        obtain ⟨p2, e2, r2, -⟩ := hq.step
        simp only [e2, ok_bind]
        refine spec_cons (spec_bind (iha p2 rest1 r2) (by subst e; simp; omega)
          fun right p3 w2 rest2 e3 hq3 hd2 => ?_)
        refine spec_ok hq3 ?_
        simp only [List.map_append, List.map_cons, List.append_nil]
        exact Derives.expression_rel _ _ _ hd (hty ▸ h1) hd2
      · rw [if_neg hc]
        refine spec_ok hq ?_
        rw [List.append_nil]
        exact Derives.expression _ hd
    · intro p ts hp
      rw [parser_parse_arithmetic]
      refine spec_bind (iht p ts hp) (by omega) fun left p1 w rest e hq hd => ?_
      dsimp only
      refine spec_mono (ihal left p1 rest hq) (by subst e; simp; omega)
        fun _ _ w2 _ _ _ hd2 => ?_
      rw [List.map_append]
      exact Derives.arithmetic _ _ hd hd2
    · intro left p ts hp
      rw [parser_parse_arithmetic_loop]
      by_cases hc : p.current_token.type = TOKEN_PLUS ∨ p.current_token.type = TOKEN_MINUS
      · rw [if_pos hc]
        obtain ⟨t, ts1, rfl, hty, -⟩ := hp.current _ (by rcases hc with h | h <;> rw [h] <;> decide)
          rfl
        obtain ⟨p1, e1, r1, -⟩ := hp.step
        simp only [e1, ok_bind]
        refine spec_cons (spec_bind (iht p1 ts1 r1) (by simp; omega)
          fun right p2 w rest e hq hd => ?_)
        dsimp only
        refine spec_mono (ihal _ p2 rest hq) (by subst e; simp; omega)
          fun _ _ w2 _ _ _ hd2 => ?_
        simp only [List.map_append, List.map_cons]
        exact Derives.arithmeticTail_cons _ _ _ (hty ▸ hc) hd hd2
      · rw [if_neg hc]
        exact spec_ok hp Derives.arithmeticTail_nil
    · intro p ts hp
      rw [parser_parse_term]
      refine spec_bind (ihf p ts hp) (by omega) fun left p1 w rest e hq hd => ?_
      dsimp only
      refine spec_mono (ihtl left p1 rest hq) (by subst e; simp; omega)
        fun _ _ w2 _ _ _ hd2 => ?_
      rw [List.map_append]
      exact Derives.term _ _ hd hd2
    · intro left p ts hp
      rw [parser_parse_term_loop]
      by_cases hc : p.current_token.type = TOKEN_MULTIPLY ∨ p.current_token.type = TOKEN_DIVIDE
      · rw [if_pos hc]
        obtain ⟨t, ts1, rfl, hty, -⟩ := hp.current _ (by rcases hc with h | h <;> rw [h] <;> decide)
          rfl
        obtain ⟨p1, e1, r1, -⟩ := hp.step
        simp only [e1, ok_bind]
        refine spec_cons (spec_bind (ihf p1 ts1 r1) (by simp; omega)
          fun right p2 w rest e hq hd => ?_)
        dsimp only
        refine spec_mono (ihtl _ p2 rest hq) (by subst e; simp; omega)
          fun _ _ w2 _ _ _ hd2 => ?_
        simp only [List.map_append, List.map_cons]
        exact Derives.termTail_cons _ _ _ (hty ▸ hc) hd hd2
      · rw [if_neg hc]
        exact spec_ok hp Derives.termTail_nil
    · intro p ts hp
      rw [parser_parse_factor]
      by_cases h1 : p.current_token.type = TOKEN_NUMBER
      · rw [if_pos h1]
        obtain ⟨t, ts1, rfl, hty, -⟩ := hp.current _ (by decide) h1
        obtain ⟨p1, e1, r1, -⟩ := hp.step
        simp only [e1, ok_bind]
        refine spec_cons (spec_ok r1 ?_)
        simp only [List.map_cons, List.map_nil, hty]
        exact Derives.factor_number
      rw [if_neg h1]
      by_cases h2 : p.current_token.type = TOKEN_IDENTIFIER
      · rw [if_pos h2]
        obtain ⟨t, ts1, rfl, hty, -⟩ := hp.current _ (by decide) h2
        obtain ⟨p1, e1, r1, -⟩ := hp.step
        simp only [e1, ok_bind]
        refine spec_cons (spec_ok r1 ?_)
        simp only [List.map_cons, List.map_nil, hty]
        exact Derives.factor_identifier
      rw [if_neg h2]
      by_cases h3 : p.current_token.type = TOKEN_LPAREN
      · rw [if_pos h3]
        obtain ⟨t, ts1, rfl, hty, -⟩ := hp.current _ (by decide) h3
        obtain ⟨p1, e1, r1, -⟩ := hp.step
        simp only [e1, ok_bind]
        refine spec_cons (spec_bind (ihe p1 ts1 r1) (by simp; omega)
          fun expr p2 w rest e hq hd => ?_)
        dsimp only
        rcases hq.expect TOKEN_RPAREN (by decide) with ⟨t1, rest1, p3, rfl, hty1, -, e3, r3⟩ |
          ⟨-, e3⟩
        · simp only [e3, ok_bind, Bool.true_eq_false, if_false]
          refine spec_cons (spec_ok r3 ?_)
          simp only [List.map_cons, List.map_append, List.map_nil, hty, hty1]
          exact Derives.factor_paren _ hd
        · simp only [e3, ok_bind, if_true]
          exact spec_fatal _ _
      rw [if_neg h3]
      by_cases h4 : p.current_token.type = TOKEN_MINUS
      · rw [if_pos h4]
        obtain ⟨t, ts1, rfl, hty, -⟩ := hp.current _ (by decide) h4
        obtain ⟨p1, e1, r1, -⟩ := hp.step
        simp only [e1, ok_bind]
        refine spec_cons (spec_bind (ihf p1 ts1 r1) (by simp; omega)
          fun factor p2 w rest e hq hd => ?_)
        refine spec_ok hq ?_
        simp only [List.map_cons, List.append_nil, hty]
        exact Derives.factor_minus _ hd
      rw [if_neg h4]
      exact spec_fatal _ _

theorem return_statement_spec (n : Nat) (p : Parser) (ts : List Token) (hp : p.reads ts) :
    Spec ts (n < 8 * ts.length) (fun _ _ w => Derives .returnStmt (w.map Token.type))
      (parser_parse_return_statement n p) := by
  unfold parser_parse_return_statement
  rcases hp.expect TOKEN_RETURN (by decide) with ⟨t, ts1, p1, rfl, hty, -, e1, r1⟩ | ⟨-, e1⟩
  · simp only [e1, ok_bind, Bool.true_eq_false, if_false]
    refine spec_cons (spec_bind ((expression_spec n).1 p1 ts1 r1) (by simp; omega)
      fun expr p2 w rest e hq hd => ?_)
    dsimp only
    rcases hq.expect TOKEN_SEMICOLON (by decide) with ⟨t1, rest1, p3, rfl, hty1, -, e3, r3⟩ |
      ⟨-, e3⟩
    · simp only [e3, ok_bind, Bool.true_eq_false, if_false]
      refine spec_cons (spec_ok r3 ?_)
      simp only [List.map_cons, List.map_append, List.map_nil, hty, hty1]
      exact Derives.returnStmt _ hd
    · simp only [e3, ok_bind, if_true]
      exact spec_fatal _ _
  · simp only [e1, ok_bind, if_true]
    exact spec_fatal _ _

theorem assignment_spec (n : Nat) (p : Parser) (ts : List Token) (hp : p.reads ts) :
    Spec ts (n < 8 * ts.length) (fun _ _ w => Derives .assignment (w.map Token.type))
      (parser_parse_assignment n p) := by
  unfold parser_parse_assignment
  by_cases h1 : p.current_token.type = TOKEN_IDENTIFIER
  · rw [if_neg (not_not.2 h1)]
    obtain ⟨t, ts1, rfl, hty, -⟩ := hp.current _ (by decide) h1
    obtain ⟨p1, e1, r1, -⟩ := hp.step
    simp only [e1, ok_bind]
    refine spec_cons ?_
    rcases r1.expect TOKEN_ASSIGN (by decide) with ⟨t1, ts2, p2, rfl, hty1, -, e2, r2⟩ | ⟨-, e2⟩
    · simp only [e2, ok_bind, Bool.true_eq_false, if_false]
      refine spec_cons (spec_bind ((expression_spec n).1 p2 ts2 r2) (by simp; omega)
        fun expr p3 w rest e hq hd => ?_)
      dsimp only
      rcases hq.expect TOKEN_SEMICOLON (by decide) with ⟨t2, rest1, p4, rfl, hty2, -, e4, r4⟩ |
        ⟨-, e4⟩
      · simp only [e4, ok_bind, Bool.true_eq_false, if_false]
        refine spec_cons (spec_ok r4 ?_)
        simp only [List.map_cons, List.map_append, List.map_nil, hty, hty1, hty2]
        exact Derives.assignment _ hd
      · simp only [e4, ok_bind, if_true]
        exact spec_fatal _ _
    · simp only [e2, ok_bind, if_true]
      exact spec_fatal _ _
  · rw [if_pos h1]
    exact spec_fatal _ _

theorem variable_declaration_spec (n : Nat) (p : Parser) (ts : List Token) (hp : p.reads ts)
    (hint : p.current_token.type = TOKEN_INT) :
    Spec ts (n < 8 * ts.length) (fun _ _ w => Derives .varDecl (w.map Token.type))
      (parser_parse_variable_declaration n p) := by
  unfold parser_parse_variable_declaration
  obtain ⟨t, ts1, rfl, hty, -⟩ := hp.current _ (by decide) hint
  obtain ⟨p1, e1, r1, -⟩ := hp.step
  simp only [e1, ok_bind]
  refine spec_cons ?_
  by_cases h1 : p1.current_token.type = TOKEN_IDENTIFIER
  · rw [if_neg (not_not.2 h1)]
    obtain ⟨t1, ts2, rfl, hty1, -⟩ := r1.current _ (by decide) h1
    obtain ⟨p2, e2, r2, -⟩ := r1.step
    simp only [e2, ok_bind]
    refine spec_cons ?_
    by_cases h2 : p2.current_token.type = TOKEN_ASSIGN
    · rw [if_pos h2]
      obtain ⟨t2, ts3, rfl, hty2, -⟩ := r2.current _ (by decide) h2
      obtain ⟨p3, e3, r3, -⟩ := r2.step
      simp only [e3, ok_bind]
      refine spec_cons ?_
      rw [bind_assoc]
      refine spec_bind ((expression_spec n).1 p3 ts3 r3) (by simp; omega)
        fun expr p4 w rest e hq hd => ?_
      simp only [pure_eq_ok, ok_bind]
      rcases hq.expect TOKEN_SEMICOLON (by decide) with ⟨t3, rest1, p5, rfl, hty3, -, e5, r5⟩ |
        ⟨-, e5⟩
      · simp only [e5, ok_bind, Bool.true_eq_false, if_false]
        refine spec_cons (spec_ok r5 ?_)
        simp only [List.map_cons, List.map_append, List.map_nil, hty, hty1, hty2, hty3]
        exact Derives.varDecl_init _ hd
      · simp only [e5, ok_bind, if_true]
        exact spec_fatal _ _
    · rw [if_neg h2]
      simp only [pure_eq_ok, ok_bind]
      rcases r2.expect TOKEN_SEMICOLON (by decide) with ⟨t3, rest1, p5, rfl, hty3, -, e5, r5⟩ |
        ⟨-, e5⟩
      · simp only [e5, ok_bind, Bool.true_eq_false, if_false]
        refine spec_cons (spec_ok r5 ?_)
        simp only [List.map_cons, List.map_nil, hty, hty1, hty3]
        exact Derives.varDecl
      · simp only [e5, ok_bind, if_true]
        exact spec_fatal _ _
  · rw [if_pos h1]
    exact spec_fatal _ _

theorem statement_ne_nil (w : List TokenType) (h : Derives .statement w) : w ≠ [] := by
  cases h with
  | statement_return _ h => cases h; simp
  | statement_if _ h => cases h <;> simp
  | statement_while _ h => cases h; simp
  | statement_varDecl _ h => cases h <;> simp
  | statement_assignment _ h => cases h; simp

/-- Soundness of the statement functions, with the fuel that suffices for them. -/
theorem statement_spec (n : Nat) :
    (∀ p ts, p.reads ts → Spec ts (n < 8 * ts.length + 1)
      (fun _ _ w => Derives .block (w.map Token.type)) (parser_parse_block n p)) ∧
    (∀ acc p ts, p.reads ts → Spec ts (n < 8 * ts.length + 3)
      (fun _ q w => Derives .statements (w.map Token.type) ∧
        q.current_token.type = TOKEN_RBRACE) (parser_parse_block_loop n acc p)) ∧
    (∀ p ts, p.reads ts → Spec ts (n < 8 * ts.length + 2)
      (fun _ _ w => Derives .statement (w.map Token.type)) (parser_parse_statement n p)) ∧
    (∀ p ts, p.reads ts → Spec ts (n < 8 * ts.length + 1)
      (fun _ _ w => Derives .ifStmt (w.map Token.type)) (parser_parse_if_statement n p)) ∧
    (∀ p ts, p.reads ts → Spec ts (n < 8 * ts.length + 1)
      (fun _ _ w => Derives .whileStmt (w.map Token.type))
      (parser_parse_while_statement n p)) := by
  induction n with
  | zero =>
    refine ⟨?_, ?_, ?_, ?_, ?_⟩ <;> intros <;> exact spec_out_of_fuel (by omega)
  | succ n ih =>
    obtain ⟨ihb, ihbl, ihs, ihi, ihw⟩ := ih
    refine ⟨?_, ?_, ?_, ?_, ?_⟩
    · intro p ts hp
      rw [parser_parse_block]
      rcases hp.expect TOKEN_LBRACE (by decide) with ⟨t, ts1, p1, rfl, hty, -, e1, r1⟩ | ⟨-, e1⟩
      · simp only [e1, ok_bind, Bool.true_eq_false, if_false]
        refine spec_cons (spec_bind (ihbl [] p1 ts1 r1) (by simp; omega)
          fun statements p2 w rest e hq hd => ?_)
        dsimp only
        rcases hq.expect TOKEN_RBRACE (by decide) with ⟨t1, rest1, p3, rfl, hty1, -, e3, r3⟩ |
          ⟨h3, -⟩
        · simp only [e3, ok_bind, pure_eq_ok]
          refine spec_cons (spec_ok r3 ?_)
          simp only [List.map_cons, List.map_append, List.map_nil, hty, hty1]
          exact Derives.block _ hd.1
        · exact absurd hd.2 h3
      · simp only [e1, ok_bind, if_true]
        exact spec_fatal _ _
    · intro acc p ts hp
      rw [parser_parse_block_loop]
      by_cases h1 : p.current_token.type = TOKEN_RBRACE
      · rw [if_neg (not_not.2 h1)]
        exact spec_ok hp ⟨Derives.statements_nil, h1⟩
      · rw [if_pos h1]
        refine spec_bind (ihs p ts hp) (by omega) fun statement p1 w rest e hq hd => ?_
        dsimp only
        have hw : w ≠ [] := fun h => statement_ne_nil _ hd (by rw [h]; rfl)
        have hlen : rest.length < ts.length := by
          subst e
          have := List.length_pos.2 hw
          simp
          omega
        refine spec_mono (ihbl _ p1 rest hq) (by omega) fun _ _ w2 _ _ _ hd2 => ?_
        rw [List.map_append]
        exact ⟨Derives.statements_cons _ _ hd hd2.1, hd2.2⟩
    · intro p ts hp
      rw [parser_parse_statement]
      by_cases h1 : p.current_token.type = TOKEN_RETURN
      · rw [if_pos h1]
        exact spec_mono (return_statement_spec n p ts hp) (by omega)
          fun _ _ _ _ _ _ hd => Derives.statement_return _ hd
      rw [if_neg h1]
      by_cases h2 : p.current_token.type = TOKEN_IF
      · rw [if_pos h2]
        exact spec_mono (ihi p ts hp) (by omega) fun _ _ _ _ _ _ hd => Derives.statement_if _ hd
      rw [if_neg h2]
      by_cases h3 : p.current_token.type = TOKEN_WHILE
      · rw [if_pos h3]
        exact spec_mono (ihw p ts hp) (by omega)
          fun _ _ _ _ _ _ hd => Derives.statement_while _ hd
      rw [if_neg h3]
      by_cases h4 : p.current_token.type = TOKEN_INT
      · rw [if_pos h4]
        exact spec_mono (variable_declaration_spec n p ts hp h4) (by omega)
          fun _ _ _ _ _ _ hd => Derives.statement_varDecl _ hd
      rw [if_neg h4]
      by_cases h5 : p.current_token.type = TOKEN_IDENTIFIER
      · rw [if_pos h5]
        exact spec_mono (assignment_spec n p ts hp) (by omega)
          fun _ _ _ _ _ _ hd => Derives.statement_assignment _ hd
      rw [if_neg h5]
      exact spec_fatal _ _
    · intro p ts hp
      rw [parser_parse_if_statement]
      rcases hp.expect TOKEN_IF (by decide) with ⟨t, ts1, p1, rfl, hty, -, e1, r1⟩ | ⟨-, e1⟩
      · simp only [e1, ok_bind, Bool.true_eq_false, if_false]
        refine spec_cons ?_
        rcases r1.expect TOKEN_LPAREN (by decide) with ⟨t1, ts2, p2, rfl, hty1, -, e2, r2⟩ |
          ⟨-, e2⟩
        · simp only [e2, ok_bind, Bool.true_eq_false, if_false]
          refine spec_cons (spec_bind ((expression_spec n).1 p2 ts2 r2) (by simp; omega)
            fun condition p3 w rest e hq hd => ?_)
          dsimp only
          rcases hq.expect TOKEN_RPAREN (by decide) with
            ⟨t2, rest1, p4, rfl, hty2, -, e4, r4⟩ | ⟨-, e4⟩
          · simp only [e4, ok_bind, Bool.true_eq_false, if_false]
            refine spec_cons (spec_bind (ihb p4 rest1 r4) (by subst e; simp; omega)
              fun then_branch p5 w1 rest2 e5 hq5 hd5 => ?_)
            dsimp only
            by_cases h6 : p5.current_token.type = TOKEN_ELSE
            · rw [if_pos h6]
              obtain ⟨t3, rest3, rfl, hty3, -⟩ := hq5.current _ (by decide) h6
              obtain ⟨p6, e6, r6, -⟩ := hq5.step
              simp only [e6, ok_bind]
              refine spec_cons (spec_bind (ihb p6 rest3 r6) (by subst e e5; simp; omega)
                fun else_branch p7 w2 rest4 e7 hq7 hd7 => ?_)
              refine spec_ok hq7 ?_
              simp only [List.map_cons, List.map_append, List.map_nil, List.append_nil,
                hty, hty1, hty2, hty3]
              exact Derives.ifStmt_else _ _ _ hd hd5 hd7
            · rw [if_neg h6]
              refine spec_ok hq5 ?_
              simp only [List.map_cons, List.map_append, List.map_nil, List.append_nil,
                hty, hty1, hty2]
              exact Derives.ifStmt _ _ hd hd5
          · simp only [e4, ok_bind, if_true]
            exact spec_fatal _ _
        · simp only [e2, ok_bind, if_true]
          exact spec_fatal _ _
      · simp only [e1, ok_bind, if_true]
        exact spec_fatal _ _
    · intro p ts hp
      rw [parser_parse_while_statement]
      rcases hp.expect TOKEN_WHILE (by decide) with ⟨t, ts1, p1, rfl, hty, -, e1, r1⟩ | ⟨-, e1⟩
      · simp only [e1, ok_bind, Bool.true_eq_false, if_false]
        refine spec_cons ?_
        rcases r1.expect TOKEN_LPAREN (by decide) with ⟨t1, ts2, p2, rfl, hty1, -, e2, r2⟩ |
          ⟨-, e2⟩
        · simp only [e2, ok_bind, Bool.true_eq_false, if_false]
          refine spec_cons (spec_bind ((expression_spec n).1 p2 ts2 r2) (by simp; omega)
            fun condition p3 w rest e hq hd => ?_)
          dsimp only
          rcases hq.expect TOKEN_RPAREN (by decide) with
            ⟨t2, rest1, p4, rfl, hty2, -, e4, r4⟩ | ⟨-, e4⟩
          · simp only [e4, ok_bind, Bool.true_eq_false, if_false]
            refine spec_cons (spec_bind (ihb p4 rest1 r4) (by subst e; simp; omega)
              fun body p5 w1 rest2 e5 hq5 hd5 => ?_)
            refine spec_ok hq5 ?_
            simp only [List.map_cons, List.map_append, List.map_nil, List.append_nil,
              hty, hty1, hty2]
            exact Derives.whileStmt _ _ hd hd5
          · simp only [e4, ok_bind, if_true]
            exact spec_fatal _ _
        · simp only [e2, ok_bind, if_true]
          exact spec_fatal _ _
      · simp only [e1, ok_bind, if_true]
        exact spec_fatal _ _

/-- Soundness of the parameter loop: from an empty array it reads `paramList?`,
from a non-empty one the rest of a parameter list, and it stops at `)`. -/
theorem params_loop_spec (n : Nat) : ∀ (params : List String) (p : Parser) (ts : List Token),
    p.reads ts → Spec ts (n < 8 * ts.length + 1)
      (fun _ q w => Derives (if 0 < params.length then .paramTail else .optParams)
        (w.map Token.type) ∧ q.current_token.type = TOKEN_RPAREN)
      (parser_parse_params_loop n params p) := by
  induction n with
  | zero => intros; exact spec_out_of_fuel (by omega)
  | succ n ih =>
    intro params p ts hp
    rw [parser_parse_params_loop]
    by_cases h1 : p.current_token.type = TOKEN_RPAREN
    · rw [if_neg (not_not.2 h1)]
      refine spec_ok hp ⟨?_, h1⟩
      split_ifs
      · exact Derives.paramTail_nil
      · exact Derives.optParams_none
    · rw [if_pos h1]
      by_cases hlen : 0 < params.length
      · simp only [gt_iff_lt, hlen, if_true]
        rcases hp.expect TOKEN_COMMA (by decide) with ⟨t, ts1, p1, rfl, hty, -, e1, r1⟩ | ⟨-, e1⟩
        · simp only [e1, ok_bind, Bool.true_eq_false, if_false]
          refine spec_cons ?_
          rcases r1.expect TOKEN_INT (by decide) with ⟨t1, ts2, p2, rfl, hty1, -, e2, r2⟩ | ⟨-, e2⟩
          · simp only [e2, ok_bind, Bool.true_eq_false, if_false]
            by_cases h2 : p2.current_token.type = TOKEN_IDENTIFIER
            · rw [if_neg (not_not.2 h2)]
              obtain ⟨t2, ts3, rfl, hty2, -⟩ := r2.current _ (by decide) h2
              obtain ⟨p3, e3, r3, -⟩ := r2.step
              simp only [e3, ok_bind]
              refine spec_cons (spec_cons (spec_mono (ih _ p3 ts3 r3) (by simp; omega)
                fun _ _ w _ _ _ hd => ?_))
              simp only [List.length_append, List.length_singleton, Nat.lt_add_one_iff,
                Nat.zero_le, List.length_pos, Nat.add_one_pos, if_true] at hd
              simp only [List.map_cons, hty, hty1, hty2]
              exact ⟨Derives.paramTail_cons _ hd.1, hd.2⟩
            · rw [if_pos h2]
              exact spec_fatal _ _
          · simp only [e2, ok_bind, if_true]
            exact spec_fatal _ _
        · simp only [e1, ok_bind, if_true]
          exact spec_fatal _ _
      · simp only [gt_iff_lt, hlen, if_false, pure_eq_ok, ok_bind, Bool.true_eq_false]
        rcases hp.expect TOKEN_INT (by decide) with ⟨t1, ts2, p2, rfl, hty1, -, e2, r2⟩ | ⟨-, e2⟩
        · simp only [e2, ok_bind, Bool.true_eq_false, if_false]
          by_cases h2 : p2.current_token.type = TOKEN_IDENTIFIER
          · rw [if_neg (not_not.2 h2)]
            obtain ⟨t2, ts3, rfl, hty2, -⟩ := r2.current _ (by decide) h2
            obtain ⟨p3, e3, r3, -⟩ := r2.step
            simp only [e3, ok_bind]
            refine spec_cons (spec_cons (spec_mono (ih _ p3 ts3 r3) (by simp; omega)
              fun _ _ w _ _ _ hd => ?_))
            simp only [List.length_append, List.length_singleton, Nat.lt_add_one_iff,
              Nat.zero_le, List.length_pos, Nat.add_one_pos, if_true] at hd
            simp only [List.map_cons, hty1, hty2]
            exact ⟨Derives.optParams_some _ (Derives.paramList _ hd.1), hd.2⟩
          · rw [if_pos h2]
            exact spec_fatal _ _
        · simp only [e2, ok_bind, if_true]
          exact spec_fatal _ _

theorem function_spec (n : Nat) (p : Parser) (ts : List Token) (hp : p.reads ts) :
    Spec ts (n < 8 * ts.length) (fun _ _ w => Derives .function (w.map Token.type))
      (parser_parse_function n p) := by
  unfold parser_parse_function
  rcases hp.expect TOKEN_INT (by decide) with ⟨t, ts1, p1, rfl, hty, -, e1, r1⟩ | ⟨-, e1⟩
  · simp only [e1, ok_bind, if_true, pure_eq_ok, Bool.true_eq_false, if_false]
    refine spec_cons ?_
    by_cases h2 : p1.current_token.type = TOKEN_IDENTIFIER
    · rw [if_neg (not_not.2 h2)]
      obtain ⟨t1, ts2, rfl, hty1, -⟩ := r1.current _ (by decide) h2
      obtain ⟨p3, e3, r3, -⟩ := r1.step
      simp only [e3, ok_bind]
      refine spec_cons ?_
      rcases r3.expect TOKEN_LPAREN (by decide) with ⟨t2, ts3, p4, rfl, hty2, -, e4, r4⟩ |
        ⟨-, e4⟩
      · simp only [e4, ok_bind, Bool.true_eq_false, if_false]
        refine spec_cons (spec_bind (params_loop_spec n [] p4 ts3 r4) (by simp; omega)
          fun params p5 w rest e hq hd => ?_)
        dsimp only
        rcases hq.expect TOKEN_RPAREN (by decide) with ⟨t3, rest1, p6, rfl, hty3, -, e6, r6⟩ |
          ⟨h6, -⟩
        · simp only [e6, ok_bind]
          refine spec_cons (spec_bind ((statement_spec n).1 p6 rest1 r6)
            (by subst e; simp; omega) fun body p7 w1 rest2 e7 hq7 hd7 => ?_)
          refine spec_ok hq7 ?_
          simp only [List.map_cons, List.map_append, List.map_nil, List.append_nil,
            hty, hty1, hty2, hty3]
          exact Derives.function _ _ _ (Or.inl rfl) hd.1 hd7
        · exact absurd hd.2 h6
      · simp only [e4, ok_bind, if_true]
        exact spec_fatal _ _
    · rw [if_pos h2]
      exact spec_fatal _ _
  · simp only [e1, ok_bind, Bool.false_eq_true, if_false]
    rcases hp.expect TOKEN_VOID (by decide) with ⟨t, ts1, p1, rfl, hty, -, e1, r1⟩ | ⟨-, e1⟩
    · simp only [e1, ok_bind, Bool.true_eq_false, if_false]
      refine spec_cons ?_
      by_cases h2 : p1.current_token.type = TOKEN_IDENTIFIER
      · rw [if_neg (not_not.2 h2)]
        obtain ⟨t1, ts2, rfl, hty1, -⟩ := r1.current _ (by decide) h2
        obtain ⟨p3, e3, r3, -⟩ := r1.step
        simp only [e3, ok_bind]
        refine spec_cons ?_
        rcases r3.expect TOKEN_LPAREN (by decide) with ⟨t2, ts3, p4, rfl, hty2, -, e4, r4⟩ |
          ⟨-, e4⟩
        · simp only [e4, ok_bind, Bool.true_eq_false, if_false]
          refine spec_cons (spec_bind (params_loop_spec n [] p4 ts3 r4) (by simp; omega)
            fun params p5 w rest e hq hd => ?_)
          dsimp only
          rcases hq.expect TOKEN_RPAREN (by decide) with ⟨t3, rest1, p6, rfl, hty3, -, e6, r6⟩ |
            ⟨h6, -⟩
          · simp only [e6, ok_bind]
            refine spec_cons (spec_bind ((statement_spec n).1 p6 rest1 r6)
              (by subst e; simp; omega) fun body p7 w1 rest2 e7 hq7 hd7 => ?_)
            refine spec_ok hq7 ?_
            simp only [List.map_cons, List.map_append, List.map_nil, List.append_nil,
              hty, hty1, hty2, hty3]
            exact Derives.function _ _ _ (Or.inr rfl) hd.1 hd7
          · exact absurd hd.2 h6
        · simp only [e4, ok_bind, if_true]
          exact spec_fatal _ _
      · rw [if_pos h2]
        exact spec_fatal _ _
    · simp only [e1, ok_bind, if_true]
      exact spec_fatal _ _

theorem function_ne_nil (w : List TokenType) (h : Derives .function w) : w ≠ [] := by
  cases h
  simp

/-- Soundness of the loop of `parser_parse_program`: it reads functions and stops
at end-of-input. -/
theorem program_loop_spec (n : Nat) : ∀ (functions : List ASTNode) (p : Parser)
    (ts : List Token), p.reads ts → Spec ts (n < 8 * ts.length + 1)
      (fun _ q w => Derives .program (w.map Token.type) ∧ q.current_token.type = TOKEN_EOF)
      (parser_parse_program_loop n functions p) := by
  induction n with
  | zero => intros; exact spec_out_of_fuel (by omega)
  | succ n ih =>
    intro functions p ts hp
    rw [parser_parse_program_loop]
    by_cases h1 : p.current_token.type = TOKEN_EOF
    · rw [if_neg (not_not.2 h1)]
      exact spec_ok hp ⟨Derives.program_nil, h1⟩
    · rw [if_pos h1]
      refine spec_bind (function_spec n p ts hp) (by omega) fun function p1 w rest e hq hd => ?_
      dsimp only
      have hw : w ≠ [] := fun h => function_ne_nil _ hd (by rw [h]; rfl)
      have hlen : rest.length < ts.length := by
        subst e
        have := List.length_pos.2 hw
        simp
        omega
      refine spec_mono (ih _ p1 rest hq) (by omega) fun _ _ w2 _ _ _ hd2 => ?_
      rw [List.map_append]
      exact ⟨Derives.program_cons _ _ hd hd2.1, hd2.2⟩

/-! ## C1: what is derivable is accepted -/

theorem accepts_ok {α : Type} {rest : List Token} {a : α} {q : Parser} (h : q.reads rest) :
    Accepts rest (.ok (a, q)) := Or.inr ⟨a, q, rfl, h⟩

theorem accepts_out_of_fuel {α : Type} {rest : List Token} :
    Accepts rest (.error .out_of_fuel : ParseM (α × Parser)) := Or.inl rfl

theorem accepts_bind {α β : Type} {mid rest : List Token} {x : ParseM (α × Parser)}
    {f : α × Parser → ParseM (β × Parser)} (h : Accepts mid x)
    (hf : ∀ a q, q.reads mid → Accepts rest (f (a, q))) : Accepts rest (x >>= f) := by
  rcases h with rfl | ⟨a, q, rfl, hq⟩
  · exact Or.inl rfl
  · exact hf a q hq

theorem Parser.reads.next {p : Parser} {ts : List Token} (h : p.reads ts) :
    p.current_token.type = next_kind ts := h.kind

theorem next_kind_cons (t : Token) (ts : List Token) : next_kind (t :: ts) = t.type := rfl

theorem arithmeticTail_first (w : List TokenType) (h : Derives .arithmeticTail w) :
    w = [] ∨ ∃ op w1, w = op :: w1 ∧ (op = TOKEN_PLUS ∨ op = TOKEN_MINUS) := by
  cases h with
  | arithmeticTail_nil => exact Or.inl rfl
  | arithmeticTail_cons op t tail h0 h1 h2 => exact Or.inr ⟨op, _, rfl, h0⟩

theorem termTail_first (w : List TokenType) (h : Derives .termTail w) :
    w = [] ∨ ∃ op w1, w = op :: w1 ∧ (op = TOKEN_MULTIPLY ∨ op = TOKEN_DIVIDE) := by
  cases h with
  | termTail_nil => exact Or.inl rfl
  | termTail_cons op t tail h0 h1 h2 => exact Or.inr ⟨op, _, rfl, h0⟩

/-- The kind after a derived tail of operators and operands followed by `rest`. -/
theorem next_kind_append (ws rest : List Token) :
    next_kind (ws ++ rest) = if ws = [] then next_kind rest else next_kind ws := by
  cases ws <;> rfl

theorem next_kind_map (ws : List Token) (k : TokenType) (w : List TokenType)
    (h : ws.map Token.type = k :: w) : next_kind ws = k ∧ ws ≠ [] := by
  obtain ⟨t, ws1, rfl, hty, -⟩ := List.map_eq_cons_iff.1 h
  exact ⟨hty, by simp⟩

theorem additive_not_multiplicative (k : TokenType) (h : k = TOKEN_PLUS ∨ k = TOKEN_MINUS) :
    multiplicative_operator k = none ∧ k ≠ TOKEN_EOF := by
  rcases h with rfl | rfl <;> exact ⟨rfl, by decide⟩

theorem relOp_not_operator (k : TokenType) (h : is_relOp k) :
    additive_operator k = none ∧ multiplicative_operator k = none ∧
      is_comparison k = true := by
  rcases h with rfl | rfl | rfl | rfl | rfl | rfl <;> exact ⟨rfl, rfl, rfl⟩

theorem term_follow (ws rest : List Token) (h : Derives .arithmeticTail (ws.map Token.type))
    (hfm : multiplicative_operator (next_kind rest) = none) :
    multiplicative_operator (next_kind (ws ++ rest)) = none := by
  rcases arithmeticTail_first _ h with h1 | ⟨op, w1, h1, hop⟩
  · obtain rfl := List.map_eq_nil_iff.1 h1
    exact hfm
  · obtain ⟨hk, hne⟩ := next_kind_map ws op w1 h1
    rw [next_kind_append, if_neg hne, hk]
    exact (additive_not_multiplicative op hop).1

theorem statement_first (w : List TokenType) (h : Derives .statement w) :
    ∃ k w1, w = k :: w1 ∧ (k = TOKEN_RETURN ∨ k = TOKEN_IF ∨ k = TOKEN_WHILE ∨ k = TOKEN_INT ∨
      k = TOKEN_IDENTIFIER) := by
  cases h with
  | statement_return _ h => cases h; exact ⟨_, _, rfl, by simp⟩
  | statement_if _ h => cases h <;> exact ⟨_, _, rfl, by simp⟩
  | statement_while _ h => cases h; exact ⟨_, _, rfl, by simp⟩
  | statement_varDecl _ h => cases h <;> exact ⟨_, _, rfl, by simp⟩
  | statement_assignment _ h => cases h; exact ⟨_, _, rfl, by simp⟩

theorem statements_first (w : List TokenType) (h : Derives .statements w) :
    w = [] ∨ ∃ k w1, w = k :: w1 ∧ k ≠ TOKEN_ELSE := by
  cases h with
  | statements_nil => exact Or.inl rfl
  | statements_cons s ss h1 h2 =>
    obtain ⟨k, s1, rfl, hk⟩ := statement_first s h1
    refine Or.inr ⟨k, s1 ++ ss, rfl, ?_⟩
    rcases hk with rfl | rfl | rfl | rfl | rfl <;> decide

theorem statement_follow (ws rest : List Token) (h : Derives .statements (ws.map Token.type))
    (hfol : next_kind rest = TOKEN_RBRACE) : next_kind (ws ++ rest) ≠ TOKEN_ELSE := by
  rcases statements_first _ h with h1 | ⟨k, w1, h1, hk⟩
  · obtain rfl := List.map_eq_nil_iff.1 h1
    rw [List.nil_append, hfol]
    decide
  · obtain ⟨hk1, hne⟩ := next_kind_map ws k w1 h1
    rw [next_kind_append, if_neg hne, hk1]
    exact hk

/-- The current token is the first of the tokens left. -/
theorem Parser.reads.first {p : Parser} {ws rest : List Token} (hp : p.reads (ws ++ rest))
    (k : TokenType) (w1 : List TokenType) (hw : ws.map Token.type = k :: w1) :
    p.current_token.type = k := by
  obtain ⟨hk, hne⟩ := next_kind_map ws k w1 hw
  rw [hp.next, next_kind_append, if_neg hne, hk]

/-- Completeness, by induction on the derivation: the parsing function of a
nonterminal consumes what is derived from it. -/
theorem derives_complete {X : Nonterminal} {w : List TokenType} (h : Derives X w) :
    Complete X w := by
  induction h with
  | factor_number =>
    intro n p ws rest hw hp
    obtain ⟨t, ws1, rfl, hty, hw1⟩ := List.map_eq_cons_iff.1 hw
    obtain rfl := List.map_eq_nil_iff.1 hw1
    cases n with
    | zero => exact accepts_out_of_fuel
    | succ n =>
      rw [parser_parse_factor, if_pos (by rw [hp.head_token.1, hty])]
      obtain ⟨p1, e1, r1, -⟩ := hp.step
      simp only [e1, ok_bind]
      exact accepts_ok r1
  | factor_identifier =>
    intro n p ws rest hw hp
    obtain ⟨t, ws1, rfl, hty, hw1⟩ := List.map_eq_cons_iff.1 hw
    obtain rfl := List.map_eq_nil_iff.1 hw1
    have hc : p.current_token.type = TOKEN_IDENTIFIER := by rw [hp.head_token.1, hty]
    cases n with
    | zero => exact accepts_out_of_fuel
    | succ n =>
      rw [parser_parse_factor, if_neg (by rw [hc]; decide), if_pos hc]
      obtain ⟨p1, e1, r1, -⟩ := hp.step
      simp only [e1, ok_bind]
      exact accepts_ok r1
  | factor_paren e h ih =>
    intro n p ws rest hw hp
    obtain ⟨t, ws1, rfl, hty, hw1⟩ := List.map_eq_cons_iff.1 hw
    obtain ⟨ws2, ws3, rfl, rfl, hw3⟩ := List.map_eq_append_iff.1 hw1
    obtain ⟨t1, ws4, rfl, hty1, hw4⟩ := List.map_eq_cons_iff.1 hw3
    obtain rfl := List.map_eq_nil_iff.1 hw4
    have hc : p.current_token.type = TOKEN_LPAREN := by rw [hp.head_token.1, hty]
    simp only [List.cons_append, List.append_assoc, List.nil_append] at hp
    cases n with
    | zero => exact accepts_out_of_fuel
    | succ n =>
      rw [parser_parse_factor, if_neg (by rw [hc]; decide), if_neg (by rw [hc]; decide),
        if_pos hc]
      obtain ⟨p1, e1, r1, -⟩ := hp.step
      simp only [e1, ok_bind]
      refine accepts_bind (ih n p1 ws2 (t1 :: rest) rfl r1 (by rw [next_kind_cons, hty1]; rfl)
        (by rw [next_kind_cons, hty1]; rfl) (by rw [next_kind_cons, hty1]; rfl))
        fun expr p2 hq => ?_
      dsimp only
      obtain ⟨p3, e3, r3, -⟩ := hq.expect_step TOKEN_RPAREN hty1
      simp only [e3, ok_bind, Bool.true_eq_false, if_false]
      exact accepts_ok r3
  | factor_minus f h ih =>
    intro n p ws rest hw hp
    obtain ⟨t, ws1, rfl, hty, rfl⟩ := List.map_eq_cons_iff.1 hw
    have hc : p.current_token.type = TOKEN_MINUS := by rw [hp.head_token.1, hty]
    cases n with
    | zero => exact accepts_out_of_fuel
    | succ n =>
      rw [parser_parse_factor, if_neg (by rw [hc]; decide), if_neg (by rw [hc]; decide),
        if_neg (by rw [hc]; decide), if_pos hc]
      obtain ⟨p1, e1, r1, -⟩ := hp.step
      simp only [e1, ok_bind]
      refine accepts_bind (ih n p1 ws1 rest rfl r1) fun factor p2 hq => ?_
      exact accepts_ok hq
  | termTail_nil =>
    intro n left p ws rest hw hp hfol
    obtain rfl := List.map_eq_nil_iff.1 hw
    cases n with
    | zero => exact accepts_out_of_fuel
    | succ n =>
      rw [parser_parse_term_loop, if_neg (by
        rw [hp.next]; exact multiplicative_operator_none _ hfol)]
      exact accepts_ok hp
  | termTail_cons op f tail h0 h1 h2 ih1 ih2 =>
    intro n left p ws rest hw hp hfol
    obtain ⟨t, ws1, rfl, hty, hw1⟩ := List.map_eq_cons_iff.1 hw
    obtain ⟨ws2, ws3, rfl, rfl, rfl⟩ := List.map_eq_append_iff.1 hw1
    have hc : p.current_token.type = op := by rw [hp.head_token.1, hty]
    simp only [List.cons_append, List.append_assoc] at hp
    cases n with
    | zero => exact accepts_out_of_fuel
    | succ n =>
      rw [parser_parse_term_loop, if_pos (by rw [hc]; exact h0)]
      obtain ⟨p1, e1, r1, -⟩ := hp.step
      simp only [e1, ok_bind]
      refine accepts_bind (ih1 n p1 ws2 (ws3 ++ rest) rfl r1) fun right p2 hq => ?_
      exact ih2 n _ p2 ws3 rest rfl hq hfol
  | term f tail h1 h2 ih1 ih2 =>
    intro n p ws rest hw hp hfol
    obtain ⟨ws2, ws3, rfl, rfl, rfl⟩ := List.map_eq_append_iff.1 hw
    simp only [List.append_assoc] at hp
    cases n with
    | zero => exact accepts_out_of_fuel
    | succ n =>
      rw [parser_parse_term]
      refine accepts_bind (ih1 n p ws2 (ws3 ++ rest) rfl hp) fun left p1 hq => ?_
      exact ih2 n left p1 ws3 rest rfl hq hfol
  | arithmeticTail_nil =>
    intro n left p ws rest hw hp hfa hfm
    obtain rfl := List.map_eq_nil_iff.1 hw
    cases n with
    | zero => exact accepts_out_of_fuel
    | succ n =>
      rw [parser_parse_arithmetic_loop, if_neg (by
        rw [hp.next]; exact additive_operator_none _ hfa)]
      exact accepts_ok hp
  | arithmeticTail_cons op t tail h0 h1 h2 ih1 ih2 =>
    intro n left p ws rest hw hp hfa hfm
    obtain ⟨t, ws1, rfl, hty, hw1⟩ := List.map_eq_cons_iff.1 hw
    obtain ⟨ws2, ws3, rfl, rfl, rfl⟩ := List.map_eq_append_iff.1 hw1
    have hc : p.current_token.type = op := by rw [hp.head_token.1, hty]
    simp only [List.cons_append, List.append_assoc] at hp
    cases n with
    | zero => exact accepts_out_of_fuel
    | succ n =>
      rw [parser_parse_arithmetic_loop, if_pos (by rw [hc]; exact h0)]
      obtain ⟨p1, e1, r1, -⟩ := hp.step
      simp only [e1, ok_bind]
      refine accepts_bind (ih1 n p1 ws2 (ws3 ++ rest) rfl r1 (term_follow ws3 rest h2 hfm))
        fun right p2 hq => ?_
      exact ih2 n _ p2 ws3 rest rfl hq hfa hfm
  | arithmetic t tail h1 h2 ih1 ih2 =>
    intro n p ws rest hw hp hfa hfm
    obtain ⟨ws2, ws3, rfl, rfl, rfl⟩ := List.map_eq_append_iff.1 hw
    simp only [List.append_assoc] at hp
    cases n with
    | zero => exact accepts_out_of_fuel
    | succ n =>
      rw [parser_parse_arithmetic]
      refine accepts_bind (ih1 n p ws2 (ws3 ++ rest) rfl hp (term_follow ws3 rest h2 hfm))
        fun left p1 hq => ?_
      exact ih2 n left p1 ws3 rest rfl hq hfa hfm
  | expression a h ih =>
    intro n p ws rest hw hp hfa hfm hfc
    subst hw
    cases n with
    | zero => exact accepts_out_of_fuel
    | succ n =>
      rw [parser_parse_expression]
      refine accepts_bind (ih n p ws rest rfl hp hfa hfm) fun left p1 hq => ?_
      dsimp only
      rw [if_neg (by rw [hq.next, hfc]; simp)]
      exact accepts_ok hq
  | expression_rel a op b h1 h0 h2 ih1 ih2 =>
    intro n p ws rest hw hp hfa hfm hfc
    obtain ⟨ws1, ws2, rfl, rfl, hw2⟩ := List.map_eq_append_iff.1 hw
    obtain ⟨t, ws3, rfl, hty, rfl⟩ := List.map_eq_cons_iff.1 hw2
    obtain ⟨r1, r2, r3⟩ := relOp_not_operator op h0
    simp only [List.cons_append, List.append_assoc] at hp
    cases n with
    | zero => exact accepts_out_of_fuel
    | succ n =>
      rw [parser_parse_expression]
      refine accepts_bind (ih1 n p ws1 (t :: (ws3 ++ rest)) rfl hp
        (by rw [next_kind_cons, hty]; exact r1) (by rw [next_kind_cons, hty]; exact r2))
        fun left p1 hq => ?_
      dsimp only
      rw [if_pos (by rw [hq.next, next_kind_cons, hty]; exact r3)]
      obtain ⟨p2, e2, q2, -⟩ := hq.step
      simp only [e2, ok_bind]
      refine accepts_bind (ih2 n p2 ws3 rest rfl q2 hfa hfm) fun right p3 hq3 => ?_
      exact accepts_ok hq3
  | returnStmt e h ih =>
    intro n p ws rest hw hp
    obtain ⟨t, ws1, rfl, hty, hw1⟩ := List.map_eq_cons_iff.1 hw
    obtain ⟨ws2, ws3, rfl, rfl, hw3⟩ := List.map_eq_append_iff.1 hw1
    obtain ⟨t1, ws4, rfl, hty1, hw4⟩ := List.map_eq_cons_iff.1 hw3
    obtain rfl := List.map_eq_nil_iff.1 hw4
    simp only [List.cons_append, List.append_assoc, List.nil_append] at hp
    unfold parser_parse_return_statement
    obtain ⟨p1, e1, r1, -⟩ := hp.expect_step TOKEN_RETURN hty
    simp only [e1, ok_bind, Bool.true_eq_false, if_false]
    refine accepts_bind (ih n p1 ws2 (t1 :: rest) rfl r1 (by rw [next_kind_cons, hty1]; rfl)
      (by rw [next_kind_cons, hty1]; rfl) (by rw [next_kind_cons, hty1]; rfl))
      fun expr p2 hq => ?_
    dsimp only
    obtain ⟨p3, e3, r3, -⟩ := hq.expect_step TOKEN_SEMICOLON hty1
    simp only [e3, ok_bind, Bool.true_eq_false, if_false]
    exact accepts_ok r3
  | assignment e h ih =>
    intro n p ws rest hw hp
    obtain ⟨t, ws1, rfl, hty, hw1⟩ := List.map_eq_cons_iff.1 hw
    obtain ⟨t0, ws0, rfl, hty0, hw0⟩ := List.map_eq_cons_iff.1 hw1
    obtain ⟨ws2, ws3, rfl, rfl, hw3⟩ := List.map_eq_append_iff.1 hw0
    obtain ⟨t1, ws4, rfl, hty1, hw4⟩ := List.map_eq_cons_iff.1 hw3
    obtain rfl := List.map_eq_nil_iff.1 hw4
    have hc : p.current_token.type = TOKEN_IDENTIFIER := by rw [hp.head_token.1, hty]
    simp only [List.cons_append, List.append_assoc, List.nil_append] at hp
    unfold parser_parse_assignment
    rw [if_neg (not_not.2 hc)]
    obtain ⟨p1, e1, r1, -⟩ := hp.step
    obtain ⟨p2, e2, r2, -⟩ := r1.expect_step TOKEN_ASSIGN hty0
    simp only [e1, e2, ok_bind, Bool.true_eq_false, if_false]
    refine accepts_bind (ih n p2 ws2 (t1 :: rest) rfl r2 (by rw [next_kind_cons, hty1]; rfl)
      (by rw [next_kind_cons, hty1]; rfl) (by rw [next_kind_cons, hty1]; rfl))
      fun expr p3 hq => ?_
    dsimp only
    obtain ⟨p4, e4, r4, -⟩ := hq.expect_step TOKEN_SEMICOLON hty1
    simp only [e4, ok_bind, Bool.true_eq_false, if_false]
    exact accepts_ok r4
  | varDecl =>
    intro n p ws rest hw hp
    obtain ⟨t, ws1, rfl, hty, hw1⟩ := List.map_eq_cons_iff.1 hw
    obtain ⟨t0, ws0, rfl, hty0, hw0⟩ := List.map_eq_cons_iff.1 hw1
    obtain ⟨t1, ws4, rfl, hty1, hw4⟩ := List.map_eq_cons_iff.1 hw0
    obtain rfl := List.map_eq_nil_iff.1 hw4
    simp only [List.cons_append, List.nil_append] at hp
    unfold parser_parse_variable_declaration
    obtain ⟨p1, e1, r1, -⟩ := hp.step
    obtain ⟨p2, e2, r2, -⟩ := r1.step
    obtain ⟨p3, e3, r3, -⟩ := r2.expect_step TOKEN_SEMICOLON hty1
    have hc1 : p1.current_token.type = TOKEN_IDENTIFIER := by rw [r1.head_token.1, hty0]
    have hc2 : p2.current_token.type = TOKEN_SEMICOLON := by rw [r2.head_token.1, hty1]
    simp only [e1, ok_bind]
    rw [if_neg (not_not.2 hc1)]
    simp only [e2, ok_bind]
    rw [if_neg (by rw [hc2]; decide)]
    simp only [pure_eq_ok, ok_bind, e3, Bool.true_eq_false, if_false]
    exact accepts_ok r3
  | varDecl_init e h ih =>
    intro n p ws rest hw hp
    obtain ⟨t, ws1, rfl, hty, hw1⟩ := List.map_eq_cons_iff.1 hw
    obtain ⟨t0, ws0, rfl, hty0, hw0⟩ := List.map_eq_cons_iff.1 hw1
    obtain ⟨ta, wsa, rfl, htya, hwa⟩ := List.map_eq_cons_iff.1 hw0
    obtain ⟨ws2, ws3, rfl, rfl, hw3⟩ := List.map_eq_append_iff.1 hwa
    obtain ⟨t1, ws4, rfl, hty1, hw4⟩ := List.map_eq_cons_iff.1 hw3
    obtain rfl := List.map_eq_nil_iff.1 hw4
    simp only [List.cons_append, List.append_assoc, List.nil_append] at hp
    unfold parser_parse_variable_declaration
    obtain ⟨p1, e1, r1, -⟩ := hp.step
    obtain ⟨p2, e2, r2, -⟩ := r1.step
    obtain ⟨p3, e3, r3, -⟩ := r2.step
    have hc1 : p1.current_token.type = TOKEN_IDENTIFIER := by rw [r1.head_token.1, hty0]
    have hc2 : p2.current_token.type = TOKEN_ASSIGN := by rw [r2.head_token.1, htya]
    simp only [e1, ok_bind]
    rw [if_neg (not_not.2 hc1)]
    simp only [e2, ok_bind]
    rw [if_pos hc2]
    simp only [e3, ok_bind]
    rw [bind_assoc]
    refine accepts_bind (ih n p3 ws2 (t1 :: rest) rfl r3 (by rw [next_kind_cons, hty1]; rfl)
      (by rw [next_kind_cons, hty1]; rfl) (by rw [next_kind_cons, hty1]; rfl))
      fun expr p4 hq => ?_
    obtain ⟨p5, e5, r5, -⟩ := hq.expect_step TOKEN_SEMICOLON hty1
    simp only [pure_eq_ok, ok_bind, e5, Bool.true_eq_false, if_false]
    exact accepts_ok r5
  | whileStmt c b h1 h2 ih1 ih2 =>
    intro n p ws rest hw hp
    obtain ⟨t, ws1, rfl, hty, hw1⟩ := List.map_eq_cons_iff.1 hw
    obtain ⟨t0, ws0, rfl, hty0, hw0⟩ := List.map_eq_cons_iff.1 hw1
    obtain ⟨ws2, ws3, rfl, rfl, hw3⟩ := List.map_eq_append_iff.1 hw0
    obtain ⟨t1, ws4, rfl, hty1, rfl⟩ := List.map_eq_cons_iff.1 hw3
    simp only [List.cons_append, List.append_assoc] at hp
    cases n with
    | zero => exact accepts_out_of_fuel
    | succ n =>
      rw [parser_parse_while_statement]
      obtain ⟨p1, e1, r1, -⟩ := hp.expect_step TOKEN_WHILE hty
      obtain ⟨p2, e2, r2, -⟩ := r1.expect_step TOKEN_LPAREN hty0
      simp only [e1, e2, ok_bind, Bool.true_eq_false, if_false]
      refine accepts_bind (ih1 n p2 ws2 (t1 :: (ws4 ++ rest)) rfl r2
        (by rw [next_kind_cons, hty1]; rfl) (by rw [next_kind_cons, hty1]; rfl)
        (by rw [next_kind_cons, hty1]; rfl)) fun condition p3 hq => ?_
      dsimp only
      obtain ⟨p4, e4, r4, -⟩ := hq.expect_step TOKEN_RPAREN hty1
      simp only [e4, ok_bind, Bool.true_eq_false, if_false]
      refine accepts_bind (ih2 n p4 ws4 rest rfl r4) fun body p5 hq5 => ?_
      exact accepts_ok hq5
  | ifStmt c b h1 h2 ih1 ih2 =>
    intro n p ws rest hw hp hfol
    obtain ⟨t, ws1, rfl, hty, hw1⟩ := List.map_eq_cons_iff.1 hw
    obtain ⟨t0, ws0, rfl, hty0, hw0⟩ := List.map_eq_cons_iff.1 hw1
    obtain ⟨ws2, ws3, rfl, rfl, hw3⟩ := List.map_eq_append_iff.1 hw0
    obtain ⟨t1, ws4, rfl, hty1, rfl⟩ := List.map_eq_cons_iff.1 hw3
    simp only [List.cons_append, List.append_assoc] at hp
    cases n with
    | zero => exact accepts_out_of_fuel
    | succ n =>
      rw [parser_parse_if_statement]
      obtain ⟨p1, e1, r1, -⟩ := hp.expect_step TOKEN_IF hty
      obtain ⟨p2, e2, r2, -⟩ := r1.expect_step TOKEN_LPAREN hty0
      simp only [e1, e2, ok_bind, Bool.true_eq_false, if_false]
      refine accepts_bind (ih1 n p2 ws2 (t1 :: (ws4 ++ rest)) rfl r2
        (by rw [next_kind_cons, hty1]; rfl) (by rw [next_kind_cons, hty1]; rfl)
        (by rw [next_kind_cons, hty1]; rfl)) fun condition p3 hq => ?_
      dsimp only
      obtain ⟨p4, e4, r4, -⟩ := hq.expect_step TOKEN_RPAREN hty1
      simp only [e4, ok_bind, Bool.true_eq_false, if_false]
      refine accepts_bind (ih2 n p4 ws4 rest rfl r4) fun then_branch p5 hq5 => ?_
      dsimp only
      rw [if_neg (by rw [hq5.next]; exact hfol)]
      exact accepts_ok hq5
  | ifStmt_else c b e h1 h2 h3 ih1 ih2 ih3 =>
    intro n p ws rest hw hp hfol
    obtain ⟨t, ws1, rfl, hty, hw1⟩ := List.map_eq_cons_iff.1 hw
    obtain ⟨t0, ws0, rfl, hty0, hw0⟩ := List.map_eq_cons_iff.1 hw1
    obtain ⟨ws2, ws3, rfl, rfl, hw3⟩ := List.map_eq_append_iff.1 hw0
    obtain ⟨t1, ws4, rfl, hty1, hw4⟩ := List.map_eq_cons_iff.1 hw3
    obtain ⟨ws5, ws6, rfl, rfl, hw6⟩ := List.map_eq_append_iff.1 hw4
    obtain ⟨t2, ws7, rfl, hty2, rfl⟩ := List.map_eq_cons_iff.1 hw6
    simp only [List.cons_append, List.append_assoc] at hp
    cases n with
    | zero => exact accepts_out_of_fuel
    | succ n =>
      rw [parser_parse_if_statement]
      obtain ⟨p1, e1, r1, -⟩ := hp.expect_step TOKEN_IF hty
      obtain ⟨p2, e2, r2, -⟩ := r1.expect_step TOKEN_LPAREN hty0
      simp only [e1, e2, ok_bind, Bool.true_eq_false, if_false]
      refine accepts_bind (ih1 n p2 ws2 (t1 :: (ws5 ++ t2 :: (ws7 ++ rest))) rfl r2
        (by rw [next_kind_cons, hty1]; rfl) (by rw [next_kind_cons, hty1]; rfl)
        (by rw [next_kind_cons, hty1]; rfl)) fun condition p3 hq => ?_
      dsimp only
      obtain ⟨p4, e4, r4, -⟩ := hq.expect_step TOKEN_RPAREN hty1
      simp only [e4, ok_bind, Bool.true_eq_false, if_false]
      refine accepts_bind (ih2 n p4 ws5 (t2 :: (ws7 ++ rest)) rfl r4)
        fun then_branch p5 hq5 => ?_
      dsimp only
      rw [if_pos (by rw [hq5.head_token.1, hty2])]
      obtain ⟨p6, e6, r6, -⟩ := hq5.step
      simp only [e6, ok_bind]
      refine accepts_bind (ih3 n p6 ws7 rest rfl r6) fun else_branch p7 hq7 => ?_
      exact accepts_ok hq7
  | statement_return w h ih =>
    intro n p ws rest hw hp hfol
    have hk : ∃ w1, w = TOKEN_RETURN :: w1 := by cases h; exact ⟨_, rfl⟩
    obtain ⟨w1, rfl⟩ := hk
    have hc := hp.first _ _ hw
    cases n with
    | zero => exact accepts_out_of_fuel
    | succ n =>
      rw [parser_parse_statement, if_pos hc]
      exact ih n p ws rest hw hp
  | statement_if w h ih =>
    intro n p ws rest hw hp hfol
    have hk : ∃ w1, w = TOKEN_IF :: w1 := by cases h <;> exact ⟨_, rfl⟩
    obtain ⟨w1, rfl⟩ := hk
    have hc := hp.first _ _ hw
    cases n with
    | zero => exact accepts_out_of_fuel
    | succ n =>
      rw [parser_parse_statement, if_neg (by rw [hc]; decide), if_pos hc]
      exact ih n p ws rest hw hp hfol
  | statement_while w h ih =>
    intro n p ws rest hw hp hfol
    have hk : ∃ w1, w = TOKEN_WHILE :: w1 := by cases h; exact ⟨_, rfl⟩
    obtain ⟨w1, rfl⟩ := hk
    have hc := hp.first _ _ hw
    cases n with
    | zero => exact accepts_out_of_fuel
    | succ n =>
      rw [parser_parse_statement, if_neg (by rw [hc]; decide), if_neg (by rw [hc]; decide),
        if_pos hc]
      exact ih n p ws rest hw hp
  | statement_varDecl w h ih =>
    intro n p ws rest hw hp hfol
    have hk : ∃ w1, w = TOKEN_INT :: w1 := by cases h <;> exact ⟨_, rfl⟩
    obtain ⟨w1, rfl⟩ := hk
    have hc := hp.first _ _ hw
    cases n with
    | zero => exact accepts_out_of_fuel
    | succ n =>
      rw [parser_parse_statement, if_neg (by rw [hc]; decide), if_neg (by rw [hc]; decide),
        if_neg (by rw [hc]; decide), if_pos hc]
      exact ih n p ws rest hw hp
  | statement_assignment w h ih =>
    intro n p ws rest hw hp hfol
    have hk : ∃ w1, w = TOKEN_IDENTIFIER :: w1 := by cases h; exact ⟨_, rfl⟩
    obtain ⟨w1, rfl⟩ := hk
    have hc := hp.first _ _ hw
    cases n with
    | zero => exact accepts_out_of_fuel
    | succ n =>
      rw [parser_parse_statement, if_neg (by rw [hc]; decide), if_neg (by rw [hc]; decide),
        if_neg (by rw [hc]; decide), if_neg (by rw [hc]; decide), if_pos hc]
      exact ih n p ws rest hw hp
  | statements_nil =>
    intro n statements p ws rest hw hp hfol
    obtain rfl := List.map_eq_nil_iff.1 hw
    cases n with
    | zero => exact accepts_out_of_fuel
    | succ n =>
      rw [parser_parse_block_loop, if_neg (not_not.2 (by rw [hp.next]; exact hfol))]
      exact accepts_ok hp
  | statements_cons s ss h1 h2 ih1 ih2 =>
    intro n statements p ws rest hw hp hfol
    obtain ⟨ws2, ws3, rfl, rfl, rfl⟩ := List.map_eq_append_iff.1 hw
    obtain ⟨k, s1, hs, hk⟩ := statement_first _ h1
    simp only [List.append_assoc] at hp
    have hc := hp.first _ _ hs
    cases n with
    | zero => exact accepts_out_of_fuel
    | succ n =>
      rw [parser_parse_block_loop, if_pos (by
        rw [hc]; rcases hk with rfl | rfl | rfl | rfl | rfl <;> decide)]
      refine accepts_bind (ih1 n p ws2 (ws3 ++ rest) rfl hp (statement_follow ws3 rest h2 hfol))
        fun statement p1 hq => ?_
      exact ih2 n _ p1 ws3 rest rfl hq hfol
  | block ss h ih =>
    intro n p ws rest hw hp
    obtain ⟨t, ws1, rfl, hty, hw1⟩ := List.map_eq_cons_iff.1 hw
    obtain ⟨ws2, ws3, rfl, rfl, hw3⟩ := List.map_eq_append_iff.1 hw1
    obtain ⟨t1, ws4, rfl, hty1, hw4⟩ := List.map_eq_cons_iff.1 hw3
    obtain rfl := List.map_eq_nil_iff.1 hw4
    simp only [List.cons_append, List.append_assoc, List.nil_append] at hp
    cases n with
    | zero => exact accepts_out_of_fuel
    | succ n =>
      rw [parser_parse_block]
      obtain ⟨p1, e1, r1, -⟩ := hp.expect_step TOKEN_LBRACE hty
      simp only [e1, ok_bind, Bool.true_eq_false, if_false]
      refine accepts_bind (ih n [] p1 ws2 (t1 :: rest) rfl r1 (by rw [next_kind_cons, hty1]))
        fun statements p2 hq => ?_
      dsimp only
      obtain ⟨p3, e3, r3, -⟩ := hq.expect_step TOKEN_RBRACE hty1
      simp only [e3, ok_bind, pure_eq_ok]
      exact accepts_ok r3
  | paramTail_nil =>
    intro n params p ws rest hlen hw hp hfol
    obtain rfl := List.map_eq_nil_iff.1 hw
    cases n with
    | zero => exact accepts_out_of_fuel
    | succ n =>
      rw [parser_parse_params_loop, if_neg (not_not.2 (by rw [hp.next]; exact hfol))]
      exact accepts_ok hp
  | paramTail_cons tail h ih =>
    intro n params p ws rest hlen hw hp hfol
    obtain ⟨t, ws1, rfl, hty, hw1⟩ := List.map_eq_cons_iff.1 hw
    obtain ⟨t0, ws0, rfl, hty0, hw0⟩ := List.map_eq_cons_iff.1 hw1
    obtain ⟨ta, wsa, rfl, htya, rfl⟩ := List.map_eq_cons_iff.1 hw0
    have hc : p.current_token.type = TOKEN_COMMA := by rw [hp.head_token.1, hty]
    simp only [List.cons_append] at hp
    cases n with
    | zero => exact accepts_out_of_fuel
    | succ n =>
      rw [parser_parse_params_loop, if_pos (by rw [hc]; decide)]
      obtain ⟨p1, e1, r1, -⟩ := hp.expect_step TOKEN_COMMA hty
      obtain ⟨p2, e2, r2, -⟩ := r1.expect_step TOKEN_INT hty0
      obtain ⟨p3, e3, r3, -⟩ := r2.step
      have hc2 : p2.current_token.type = TOKEN_IDENTIFIER := by rw [r2.head_token.1, htya]
      simp only [gt_iff_lt, hlen, if_true, e1, e2, ok_bind, Bool.true_eq_false, if_false]
      rw [if_neg (not_not.2 hc2)]
      simp only [e3, ok_bind]
      exact ih n _ p3 wsa rest (by simp) rfl r3 hfol
  | paramList tail h ih =>
    intro n p ws rest hw hp hfol
    obtain ⟨t0, ws0, rfl, hty0, hw0⟩ := List.map_eq_cons_iff.1 hw
    obtain ⟨ta, wsa, rfl, htya, rfl⟩ := List.map_eq_cons_iff.1 hw0
    have hc : p.current_token.type = TOKEN_INT := by rw [hp.head_token.1, hty0]
    simp only [List.cons_append] at hp
    cases n with
    | zero => exact accepts_out_of_fuel
    | succ n =>
      rw [parser_parse_params_loop, if_pos (by rw [hc]; decide)]
      obtain ⟨p2, e2, r2, -⟩ := hp.expect_step TOKEN_INT hty0
      obtain ⟨p3, e3, r3, -⟩ := r2.step
      have hc2 : p2.current_token.type = TOKEN_IDENTIFIER := by rw [r2.head_token.1, htya]
      simp only [gt_iff_lt, List.length_nil, lt_self_iff_false, if_false, pure_eq_ok, e2,
        ok_bind, Bool.true_eq_false]
      rw [if_neg (not_not.2 hc2)]
      simp only [e3, ok_bind]
      exact ih n _ p3 wsa rest (by simp) rfl r3 hfol
  | optParams_none =>
    intro n p ws rest hw hp hfol
    obtain rfl := List.map_eq_nil_iff.1 hw
    cases n with
    | zero => exact accepts_out_of_fuel
    | succ n =>
      rw [parser_parse_params_loop, if_neg (not_not.2 (by rw [hp.next]; exact hfol))]
      exact accepts_ok hp
  | optParams_some w h ih =>
    intro n p ws rest hw hp hfol
    exact ih n p ws rest hw hp hfol
  | function ret params body h0 h1 h2 ih1 ih2 =>
    intro n p ws rest hw hp
    obtain ⟨t, ws1, rfl, hty, hw1⟩ := List.map_eq_cons_iff.1 hw
    obtain ⟨t0, ws0, rfl, hty0, hw0⟩ := List.map_eq_cons_iff.1 hw1
    obtain ⟨ta, wsa, rfl, htya, hwa⟩ := List.map_eq_cons_iff.1 hw0
    obtain ⟨ws2, ws3, rfl, rfl, hw3⟩ := List.map_eq_append_iff.1 hwa
    obtain ⟨t1, ws4, rfl, hty1, rfl⟩ := List.map_eq_cons_iff.1 hw3
    have hc : p.current_token.type = ret := by rw [hp.head_token.1, hty]
    simp only [List.cons_append, List.append_assoc] at hp
    unfold parser_parse_function
    rcases h0 with rfl | rfl
    · obtain ⟨p1, e1, r1, -⟩ := hp.expect_step TOKEN_INT hty
      simp only [e1, ok_bind, if_true, pure_eq_ok, Bool.true_eq_false, if_false]
      have hc1 : p1.current_token.type = TOKEN_IDENTIFIER := by rw [r1.head_token.1, hty0]
      rw [if_neg (not_not.2 hc1)]
      obtain ⟨p3, e3, r3, -⟩ := r1.step
      obtain ⟨p4, e4, r4, -⟩ := r3.expect_step TOKEN_LPAREN htya
      simp only [e3, e4, ok_bind, Bool.true_eq_false, if_false]
      refine accepts_bind (ih1 n p4 ws2 (t1 :: (ws4 ++ rest)) rfl r4
        (by rw [next_kind_cons, hty1])) fun params p5 hq => ?_
      dsimp only
      obtain ⟨p6, e6, r6, -⟩ := hq.expect_step TOKEN_RPAREN hty1
      simp only [e6, ok_bind]
      refine accepts_bind (ih2 n p6 ws4 rest rfl r6) fun body p7 hq7 => ?_
      exact accepts_ok hq7
    · obtain ⟨p1, e1, r1, -⟩ := hp.expect_step TOKEN_VOID hty
      simp only [Parser.expect_other p TOKEN_INT (by rw [hc]; decide), e1, ok_bind,
        Bool.false_eq_true, Bool.true_eq_false, if_false]
      have hc1 : p1.current_token.type = TOKEN_IDENTIFIER := by rw [r1.head_token.1, hty0]
      rw [if_neg (not_not.2 hc1)]
      obtain ⟨p3, e3, r3, -⟩ := r1.step
      obtain ⟨p4, e4, r4, -⟩ := r3.expect_step TOKEN_LPAREN htya
      simp only [e3, e4, ok_bind, Bool.true_eq_false, if_false]
      refine accepts_bind (ih1 n p4 ws2 (t1 :: (ws4 ++ rest)) rfl r4
        (by rw [next_kind_cons, hty1])) fun params p5 hq => ?_
      dsimp only
      obtain ⟨p6, e6, r6, -⟩ := hq.expect_step TOKEN_RPAREN hty1
      simp only [e6, ok_bind]
      refine accepts_bind (ih2 n p6 ws4 rest rfl r6) fun body p7 hq7 => ?_
      exact accepts_ok hq7
  | program_nil =>
    intro n functions p ws hw hp
    obtain rfl := List.map_eq_nil_iff.1 hw
    cases n with
    | zero => exact accepts_out_of_fuel
    | succ n =>
      rw [parser_parse_program_loop, if_neg (not_not.2 hp.at_end)]
      exact accepts_ok hp
  | program_cons f fs h1 h2 ih1 ih2 =>
    intro n functions p ws hw hp
    obtain ⟨ws2, ws3, rfl, rfl, rfl⟩ := List.map_eq_append_iff.1 hw
    obtain ⟨t, ws4, rfl⟩ := List.exists_cons_of_ne_nil
      (fun h0 : ws2 = [] => function_ne_nil _ h1 (by rw [h0]; rfl))
    have hc := hp.head_token
    cases n with
    | zero => exact accepts_out_of_fuel
    | succ n =>
      rw [parser_parse_program_loop, if_pos (by rw [hc.1]; exact hc.2)]
      refine accepts_bind (ih1 n p (t :: ws4) ws3 rfl hp) fun function p1 hq => ?_
      exact ih2 n _ p1 ws3 rfl hq

theorem Parser.reads.nil_of_eof {p : Parser} {ts : List Token} (h : p.reads ts)
    (heof : p.current_token.type = TOKEN_EOF) : ts = [] := by
  cases ts with
  | nil => rfl
  | cons t ts => exact absurd (h.head_token.1 ▸ heof) h.head_token.2

/-- C1: `parser_parse_program` accepts exactly the grammar of section 4.2. For
every source text, `parser_create` followed by `parser_parse_program` returns a
Program node if and only if the kinds of the tokens of the text up to
end-of-input are derivable from `program`; and when it does not, it has stopped
in `parser_error`, never for lack of fuel. -/
theorem parser_accepts_grammar (source : List Char) :
    ((∃ functions, (parser_create (lexer_create source) >>= parser_parse_program) =
        .ok (.program functions)) ↔
      Derives .program ((token_stream source).map Token.type)) ∧
    (parser_create (lexer_create source) >>= parser_parse_program) ≠ .error .out_of_fuel := by
  obtain ⟨p, e, r, -⟩ := Parser.reads_of_create (lexer_create_cursor_ok source)
    (token_stream_lexes source)
  have hb := r.bound
  have hs := program_loop_spec (parser_fuel p) [] p _ r
  have hc : Derives .program ((token_stream source).map Token.type) →
      Accepts [] (parser_parse_program_loop (parser_fuel p) [] p) :=
    fun h => derives_complete h (parser_fuel p) [] p _ rfl r
  rw [e, ok_bind, parser_parse_program]
  cases hx : parser_parse_program_loop (parser_fuel p) [] p with
  | ok res =>
    obtain ⟨functions, q⟩ := res
    rw [hx] at hs
    obtain ⟨w, rest, hw, hq, hd, heof⟩ := hs
    obtain rfl := hq.nil_of_eof heof
    rw [List.append_nil] at hw
    rw [hw]
    exact ⟨⟨fun _ => hd, fun _ => ⟨functions, rfl⟩⟩, fun h => by cases h⟩
  | error err =>
    cases err with
    | fatal line column message =>
      refine ⟨⟨fun h => ?_, fun h => ?_⟩, fun h => by cases h⟩
      · obtain ⟨_, h⟩ := h
        cases h
      · rcases hc h with h1 | ⟨a, q, h1, -⟩
        · rw [hx] at h1
          cases h1
        · rw [hx] at h1
          cases h1
    | out_of_fuel =>
      rw [hx] at hs
      have hlow : parser_fuel p < 8 * (token_stream source).length + 1 := hs
      unfold parser_fuel at hlow
      omega

/-! ## Lexer: the cursor moving over a text -/

theorem position_after_append (line column : Nat) (a b : List Char) :
    position_after line column (a ++ b) =
      position_after (position_after line column a).1 (position_after line column a).2 b := by
  induction a generalizing line column with
  | nil => rfl
  | cons c a ih =>
    simp only [List.cons_append, position_after]
    split_ifs <;> exact ih _ _

theorem lexer_moved_nil (pre : List Char) (line column : Nat) (suf : List Char) :
    lexer_moved pre line column [] suf = lexer_at pre suf line column := by
  simp [lexer_moved, position_after]

theorem lexer_moved_moved (pre : List Char) (line column : Nat) (a b suf : List Char) :
    lexer_moved (pre ++ a) (position_after line column a).1 (position_after line column a).2 b
      suf = lexer_moved pre line column (a ++ b) suf := by
  simp [lexer_moved, position_after_append]

theorem lexer_moved_current (pre : List Char) (line column : Nat) (k suf : List Char) :
    (lexer_moved pre line column k suf).current_char = suf.headD NUL := rfl

theorem lexer_moved_peek (pre : List Char) (line column : Nat) (k : List Char) (c : Char)
    (suf : List Char) :
    lexer_peek (lexer_moved pre line column k (c :: suf)) = suf.headD NUL := by
  have h1 : (pre ++ k ++ c :: suf).getD ((pre ++ k).length + 1) NUL = suf.headD NUL := by
    rw [List.getD_append_right _ _ _ _ (by omega)]
    cases suf <;> simp
  exact h1

theorem lexer_moved_advance (pre : List Char) (line column : Nat) (k : List Char) (c : Char)
    (suf : List Char) :
    lexer_advance (lexer_moved pre line column k (c :: suf)) =
      lexer_moved pre line column (k ++ [c]) suf := by
  have h1 := lexer_moved_peek pre line column k c suf
  have h2 : position_after line column (k ++ [c]) =
      (if c = '\n' then (position_after line column k).1 + 1 else (position_after line column k).1,
       if c = '\n' then 1 else (position_after line column k).2 + 1) := by
    rw [position_after_append]
    simp only [position_after]
    split_ifs <;> rfl
  unfold lexer_peek at h1
  unfold lexer_advance
  rw [h1]
  simp only [lexer_moved, lexer_at, h2, List.append_assoc, List.singleton_append,
    List.length_append, List.length_singleton, List.headD_cons, Nat.add_assoc]

theorem lexer_moved_fuel (pre : List Char) (line column : Nat) (k suf : List Char) :
    lexer_fuel (lexer_moved pre line column k suf) = suf.length + 2 :=
  lexer_at_fuel _ _ _ _

theorem lexer_moved_cursor_ok (pre : List Char) (line column : Nat) (k suf : List Char) :
    (lexer_moved pre line column k suf).cursor_ok := by
  constructor
  · show suf.headD NUL = (pre ++ k ++ suf).getD (pre ++ k).length NUL
    rw [List.getD_append_right _ _ _ _ (le_refl _)]
    cases suf <;> simp
  · show (pre ++ k).length ≤ (pre ++ k ++ suf).length
    simp

theorem isspace_ne (c : Char) (h : isspace c = true) : c ≠ NUL := by
  rintro rfl
  revert h
  decide

theorem lexer_moved_whitespace_loop (pre : List Char) (line column : Nat) (suf : List Char)
    (hsuf : isspace (suf.headD NUL) = false) :
    ∀ (ws : List Char) (fuel : Nat) (k : List Char), (∀ c ∈ ws, isspace c = true) →
      ws.length < fuel →
      lexer_skip_whitespace_loop fuel (lexer_moved pre line column k (ws ++ suf)) =
        some (lexer_moved pre line column (k ++ ws) suf)
  | [], fuel + 1, k, _, _ => by
    rw [lexer_skip_whitespace_loop, if_neg (by
      rw [List.nil_append, lexer_moved_current, hsuf]; simp), List.append_nil, List.nil_append]
  | c :: ws, fuel + 1, k, hws, hf => by
    have hc := hws c (List.mem_cons_self _ _)
    simp only [List.length_cons] at hf
    rw [lexer_skip_whitespace_loop, if_pos (by
      rw [List.cons_append, lexer_moved_current]; exact ⟨isspace_ne c hc, hc⟩),
      List.cons_append, lexer_moved_advance,
      lexer_moved_whitespace_loop pre line column suf hsuf ws fuel _
        (fun x hx => hws x (List.mem_cons_of_mem _ hx)) (by omega)]
    simp

theorem lexer_moved_line_comment_loop (pre : List Char) (line column : Nat) (suf : List Char)
    (hsuf : suf.headD NUL = NUL ∨ suf.headD NUL = '\n') :
    ∀ (d : List Char) (fuel : Nat) (k : List Char), (∀ c ∈ d, c ≠ NUL ∧ c ≠ '\n') →
      d.length < fuel →
      lexer_skip_line_comment_loop fuel (lexer_moved pre line column k (d ++ suf)) =
        some (lexer_moved pre line column (k ++ d) suf)
  | [], fuel + 1, k, _, _ => by
    rw [lexer_skip_line_comment_loop, if_neg (by
      rw [List.nil_append, lexer_moved_current]
      rcases hsuf with h | h <;> rw [h] <;> decide), List.append_nil, List.nil_append]
  | c :: d, fuel + 1, k, hd, hf => by
    have hc := hd c (List.mem_cons_self _ _)
    simp only [List.length_cons] at hf
    rw [lexer_skip_line_comment_loop, if_pos (by
      rw [List.cons_append, lexer_moved_current]; exact hc),
      List.cons_append, lexer_moved_advance,
      lexer_moved_line_comment_loop pre line column suf hsuf d fuel _
        (fun x hx => hd x (List.mem_cons_of_mem _ hx)) (by omega)]
    simp

/-- The `*/` that ends a block comment is not in `x :: c`: the cursor at `x` is
not at the end of the comment, and `c` has no `*/` either. -/
theorem comment_end_cons (x : Char) (c rest : List Char) (h : ¬ ['*', '/'] <:+: x :: c)
    (hrest : rest.headD NUL ≠ '/') :
    ¬ (x = '*' ∧ (c ++ rest).headD NUL = '/') ∧ ¬ ['*', '/'] <:+: c := by
  constructor
  · rintro ⟨rfl, h2⟩
    cases c with
    | nil => exact hrest h2
    | cons y c =>
      simp only [List.cons_append, List.headD_cons] at h2
      subst h2
      exact h ⟨[], c, rfl⟩
  · intro h2
    exact h (h2.trans (List.infix_cons (List.infix_refl _)))

theorem lexer_moved_block_comment_loop (pre : List Char) (line column : Nat)
    (suf : List Char) :
    ∀ (c : List Char) (fuel : Nat) (k : List Char), (∀ x ∈ c, x ≠ NUL) →
      ¬ ['*', '/'] <:+: c → c.length < fuel →
      lexer_skip_block_comment_loop fuel
          (lexer_moved pre line column k (c ++ '*' :: '/' :: suf)) =
        some (lexer_moved pre line column (k ++ c ++ ['*', '/']) suf)
  | [], fuel + 1, k, _, _, _ => by
    rw [lexer_skip_block_comment_loop, if_neg (by
      rw [List.nil_append, lexer_moved_current]; exact (by decide : '*' ≠ NUL)), if_pos (by
      rw [List.nil_append, lexer_moved_current, lexer_moved_peek]; exact ⟨rfl, rfl⟩),
      List.nil_append, lexer_moved_advance, lexer_moved_advance]
    simp
  | x :: c, fuel + 1, k, hc, hno, hf => by
    have hx := hc x (List.mem_cons_self _ _)
    obtain ⟨h1, h2⟩ := comment_end_cons x c ('*' :: '/' :: suf) hno
      (by decide : '*' ≠ '/')
    simp only [List.length_cons] at hf
    rw [lexer_skip_block_comment_loop, if_neg (by
      rw [List.cons_append, lexer_moved_current]; exact hx), if_neg (by
      rw [List.cons_append, lexer_moved_current, lexer_moved_peek]; exact h1),
      List.cons_append, lexer_moved_advance,
      lexer_moved_block_comment_loop pre line column suf c fuel _
        (fun y hy => hc y (List.mem_cons_of_mem _ hy)) h2 (by omega)]
    simp

theorem lexer_moved_open_comment_loop (pre : List Char) (line column : Nat) :
    ∀ (c : List Char) (fuel : Nat) (k : List Char), (∀ x ∈ c, x ≠ NUL) →
      ¬ ['*', '/'] <:+: c → c.length < fuel →
      lexer_skip_block_comment_loop fuel (lexer_moved pre line column k c) =
        some (lexer_moved pre line column (k ++ c) [])
  | [], fuel + 1, k, _, _, _ => by
    rw [lexer_skip_block_comment_loop, if_pos (by rw [lexer_moved_current]; rfl),
      List.append_nil]
  | x :: c, fuel + 1, k, hc, hno, hf => by
    have hx := hc x (List.mem_cons_self _ _)
    obtain ⟨h1, h2⟩ := comment_end_cons x c [] hno (by decide)
    rw [List.append_nil] at h1
    simp only [List.length_cons] at hf
    rw [lexer_skip_block_comment_loop, if_neg (by
      rw [lexer_moved_current]; exact hx), if_neg (by
      rw [lexer_moved_current, lexer_moved_peek]; exact h1),
      lexer_moved_advance,
      lexer_moved_open_comment_loop pre line column c fuel _
        (fun y hy => hc y (List.mem_cons_of_mem _ hy)) h2 (by omega)]
    simp

theorem buffer_step (buffer : List Char) (c : Char) (run : List Char) :
    (if buffer.length < 255 then buffer ++ [c] else buffer) ++
        run.take (255 - (if buffer.length < 255 then buffer ++ [c] else buffer).length) =
      buffer ++ (c :: run).take (255 - buffer.length) := by
  split_ifs with h
  · have h1 : 255 - buffer.length = (255 - (buffer ++ [c]).length) + 1 := by
      simp only [List.length_append, List.length_singleton]
      omega
    rw [h1, List.take_succ_cons]
    simp
  · have h1 : 255 - buffer.length = 0 := by omega
    rw [h1]
    simp

theorem lexer_moved_number_loop (pre : List Char) (line column : Nat) (suf : List Char)
    (hsuf : isdigit (suf.headD NUL) = false) :
    ∀ (ds : List Char) (fuel : Nat) (buffer k : List Char), (∀ c ∈ ds, isdigit c = true) →
      ds.length < fuel →
      lexer_make_number_loop fuel buffer (lexer_moved pre line column k (ds ++ suf)) =
        some (buffer ++ ds.take (255 - buffer.length), lexer_moved pre line column (k ++ ds) suf)
  | [], fuel + 1, buffer, k, _, _ => by
    rw [lexer_make_number_loop, if_neg (by
      rw [List.nil_append, lexer_moved_current, hsuf]; simp)]
    simp
  | c :: ds, fuel + 1, buffer, k, hds, hf => by
    have hc := hds c (List.mem_cons_self _ _)
    simp only [List.length_cons] at hf
    rw [lexer_make_number_loop, if_pos (by
      rw [List.cons_append, lexer_moved_current]; exact ⟨(isdigit_ne c hc).1, hc⟩),
      List.cons_append, lexer_moved_advance,
      lexer_moved_number_loop pre line column suf hsuf ds fuel _ _
        (fun x hx => hds x (List.mem_cons_of_mem _ hx)) (by omega)]
    rw [lexer_moved_current, List.headD_cons, buffer_step]
    simp

theorem lexer_moved_identifier_loop (pre : List Char) (line column : Nat) (suf : List Char)
    (hsuf : isalnum (suf.headD NUL) = false ∧ suf.headD NUL ≠ '_') :
    ∀ (cs : List Char) (fuel : Nat) (buffer k : List Char),
      (∀ c ∈ cs, isalnum c = true ∨ c = '_') → cs.length < fuel →
      lexer_make_identifier_loop fuel buffer (lexer_moved pre line column k (cs ++ suf)) =
        some (buffer ++ cs.take (255 - buffer.length), lexer_moved pre line column (k ++ cs) suf)
  | [], fuel + 1, buffer, k, _, _ => by
    rw [lexer_make_identifier_loop, if_neg (by
      rw [List.nil_append, lexer_moved_current]
      rintro ⟨-, h | h⟩
      · rw [hsuf.1] at h
        cases h
      · exact hsuf.2 h)]
    simp
  | c :: cs, fuel + 1, buffer, k, hcs, hf => by
    have hc := hcs c (List.mem_cons_self _ _)
    simp only [List.length_cons] at hf
    rw [lexer_make_identifier_loop, if_pos (by
      rw [List.cons_append, lexer_moved_current]; exact ⟨(isalnum_ne c hc).1, hc⟩),
      List.cons_append, lexer_moved_advance,
      lexer_moved_identifier_loop pre line column suf hsuf cs fuel _ _
        (fun x hx => hcs x (List.mem_cons_of_mem _ hx)) (by omega)]
    rw [lexer_moved_current, List.headD_cons, buffer_step]
    simp

/-- Enough fuel: the loop of `lexer_next_token` does not depend on its fuel. -/
theorem lexer_next_token_loop_fuel : ∀ (f1 f2 : Nat) (l : Lexer), l.cursor_ok →
    l.source.length - l.position < f1 → l.source.length - l.position < f2 →
    lexer_next_token_loop f1 l = lexer_next_token_loop f2 l
  | 0, _, _, _, h, _ => absurd h (Nat.not_lt_zero _)
  | _ + 1, 0, _, _, _, h => absurd h (Nat.not_lt_zero _)
  | f1 + 1, f2 + 1, l, hok, h1, h2 => by
    rw [lexer_next_token_loop, lexer_next_token_loop]
    by_cases h0 : l.current_char = NUL
    · rw [if_pos h0, if_pos h0]
    rw [if_neg h0, if_neg h0]
    by_cases hs : isspace l.current_char = true
    · rw [if_pos hs, if_pos hs]
      obtain ⟨l1, e1, g1, p1⟩ := lexer_skip_whitespace_total l hok h0 hs
      have hb := g1.1.2
      rw [g1.2.1] at hb
      rw [e1, Option.some_bind, Option.some_bind]
      exact lexer_next_token_loop_fuel f1 f2 l1 g1.1 (by rw [g1.2.1]; omega)
        (by rw [g1.2.1]; omega)
    rw [if_neg hs, if_neg hs]
    by_cases hc : l.current_char = '/' ∧ (lexer_peek l = '/' ∨ lexer_peek l = '*')
    · rw [if_pos hc, if_pos hc]
      obtain ⟨l1, e1, g1, p1⟩ := lexer_skip_comment_total l hok hc
      have hb := g1.1.2
      rw [g1.2.1] at hb
      rw [e1, Option.some_bind, Option.some_bind]
      exact lexer_next_token_loop_fuel f1 f2 l1 g1.1 (by rw [g1.2.1]; omega)
        (by rw [g1.2.1]; omega)
    rw [if_neg hc, if_neg hc]

theorem lexer_next_token_loop_enough (fuel : Nat) (l : Lexer) (hok : l.cursor_ok)
    (h : l.source.length - l.position < fuel) :
    lexer_next_token_loop fuel l = lexer_next_token l :=
  lexer_next_token_loop_fuel fuel _ l hok h (lexer_fuel_enough l)

/-- White space before a token: the token is the one found after it. -/
theorem lexer_next_token_skip_whitespace (l l1 : Lexer) (hok : l.cursor_ok)
    (h0 : l.current_char ≠ NUL) (hs : isspace l.current_char = true)
    (e : lexer_skip_whitespace l = some l1) : lexer_next_token l = lexer_next_token l1 := by
  obtain ⟨l2, e2, g2, p2⟩ := lexer_skip_whitespace_total l hok h0 hs
  obtain rfl : l2 = l1 := Option.some.inj (e2.symm.trans e)
  have hf : lexer_fuel l = (l.source.length - l.position + 1) + 1 := rfl
  have hb := g2.1.2
  rw [g2.2.1] at hb
  rw [lexer_next_token, hf, lexer_next_token_loop, if_neg h0, if_pos hs, e, Option.some_bind]
  exact lexer_next_token_loop_enough _ l2 g2.1 (by rw [g2.2.1]; omega)

/-- A comment before a token: the token is the one found after it. -/
theorem lexer_next_token_skip_comment (l l1 : Lexer) (hok : l.cursor_ok)
    (hc : l.current_char = '/' ∧ (lexer_peek l = '/' ∨ lexer_peek l = '*'))
    (e : lexer_skip_comment l = some l1) : lexer_next_token l = lexer_next_token l1 := by
  obtain ⟨l2, e2, g2, p2⟩ := lexer_skip_comment_total l hok hc
  obtain rfl : l2 = l1 := Option.some.inj (e2.symm.trans e)
  have hf : lexer_fuel l = (l.source.length - l.position + 1) + 1 := rfl
  have h0 : l.current_char ≠ NUL := by rw [hc.1]; decide
  have hs : ¬ isspace l.current_char = true := by rw [hc.1]; decide
  have hb := g2.1.2
  rw [g2.2.1] at hb
  rw [lexer_next_token, hf, lexer_next_token_loop, if_neg h0, if_neg hs, if_pos hc, e,
    Option.some_bind]
  exact lexer_next_token_loop_enough _ l2 g2.1 (by rw [g2.2.1]; omega)

/-! ## Lexer: one call of `lexer_next_token` on a text -/

theorem lexer_moved_eof (pre : List Char) (line column : Nat) (k suf : List Char)
    (h : suf.headD NUL = NUL) :
    lexer_next_token (lexer_moved pre line column k suf) =
      some (token_create TOKEN_EOF none (position_after line column k).1
        (position_after line column k).2, lexer_moved pre line column k suf) :=
  lexer_next_token_at_nul _ h

theorem lexer_moved_whitespace (pre : List Char) (line column : Nat) (k ws suf : List Char)
    (h0 : ws ≠ []) (hws : ∀ c ∈ ws, isspace c = true) (hsuf : isspace (suf.headD NUL) = false) :
    lexer_next_token (lexer_moved pre line column k (ws ++ suf)) =
      lexer_next_token (lexer_moved pre line column (k ++ ws) suf) := by
  obtain ⟨c, ws1, rfl⟩ := List.exists_cons_of_ne_nil h0
  have hc := hws c (List.mem_cons_self _ _)
  refine lexer_next_token_skip_whitespace _ _ (lexer_moved_cursor_ok _ _ _ _ _)
    (isspace_ne c hc) hc ?_
  rw [lexer_skip_whitespace, lexer_moved_fuel]
  exact lexer_moved_whitespace_loop pre line column suf hsuf _ _ _ hws
    (by simp only [List.length_append]; omega)

theorem lexer_moved_line_comment (pre : List Char) (line column : Nat) (k d suf : List Char)
    (hd : ∀ c ∈ d, c ≠ NUL ∧ c ≠ '\n') (hsuf : suf.headD NUL = NUL ∨ suf.headD NUL = '\n') :
    lexer_next_token (lexer_moved pre line column k ('/' :: '/' :: (d ++ suf))) =
      lexer_next_token (lexer_moved pre line column (k ++ '/' :: '/' :: d) suf) := by
  have hc : (lexer_moved pre line column k ('/' :: '/' :: (d ++ suf))).current_char = '/' ∧
      lexer_peek (lexer_moved pre line column k ('/' :: '/' :: (d ++ suf))) = '/' :=
    ⟨rfl, lexer_moved_peek _ _ _ _ _ _⟩
  refine lexer_next_token_skip_comment _ _ (lexer_moved_cursor_ok _ _ _ _ _)
    ⟨hc.1, Or.inl hc.2⟩ ?_
  rw [lexer_skip_comment, if_pos hc, lexer_moved_fuel]
  have h := lexer_moved_line_comment_loop pre line column suf hsuf ('/' :: '/' :: d)
    (('/' :: '/' :: (d ++ suf)).length + 2) k (by
      intro x hx
      rcases List.mem_cons.1 hx with rfl | hx
      · decide
      rcases List.mem_cons.1 hx with rfl | hx
      · decide
      exact hd x hx) (by simp only [List.length_cons, List.length_append]; omega)
  exact h

theorem lexer_moved_block_comment (pre : List Char) (line column : Nat) (k c suf : List Char)
    (hc : ∀ x ∈ c, x ≠ NUL) (hno : ¬ ['*', '/'] <:+: c) :
    lexer_next_token (lexer_moved pre line column k ('/' :: '*' :: (c ++ '*' :: '/' :: suf))) =
      lexer_next_token
        (lexer_moved pre line column (k ++ '/' :: '*' :: (c ++ ['*', '/'])) suf) := by
  have h1 : (lexer_moved pre line column k
      ('/' :: '*' :: (c ++ '*' :: '/' :: suf))).current_char = '/' := rfl
  have h2 : lexer_peek (lexer_moved pre line column k
      ('/' :: '*' :: (c ++ '*' :: '/' :: suf))) = '*' := lexer_moved_peek _ _ _ _ _ _
  refine lexer_next_token_skip_comment _ _ (lexer_moved_cursor_ok _ _ _ _ _)
    ⟨h1, Or.inr h2⟩ ?_
  rw [lexer_skip_comment, if_neg (by rw [h2]; exact fun h => absurd h.2 (by decide)), if_pos ⟨h1, h2⟩, lexer_moved_fuel,
    lexer_moved_advance, lexer_moved_advance,
    lexer_moved_block_comment_loop pre line column suf c _ _ hc hno
      (by simp only [List.length_cons, List.length_append]; omega)]
  simp

theorem lexer_moved_open_comment (pre : List Char) (line column : Nat) (k c : List Char)
    (hc : ∀ x ∈ c, x ≠ NUL) (hno : ¬ ['*', '/'] <:+: c) :
    lexer_next_token (lexer_moved pre line column k ('/' :: '*' :: c)) =
      some (token_create TOKEN_EOF none
          (position_after line column (k ++ '/' :: '*' :: c)).1
          (position_after line column (k ++ '/' :: '*' :: c)).2,
        lexer_moved pre line column (k ++ '/' :: '*' :: c) []) := by
  have h1 : (lexer_moved pre line column k ('/' :: '*' :: c)).current_char = '/' := rfl
  have h2 : lexer_peek (lexer_moved pre line column k ('/' :: '*' :: c)) = '*' :=
    lexer_moved_peek _ _ _ _ _ _
  rw [← lexer_moved_eof pre line column _ [] rfl]
  refine lexer_next_token_skip_comment _ _ (lexer_moved_cursor_ok _ _ _ _ _)
    ⟨h1, Or.inr h2⟩ ?_
  rw [lexer_skip_comment, if_neg (by rw [h2]; exact fun h => absurd h.2 (by decide)), if_pos ⟨h1, h2⟩, lexer_moved_fuel,
    lexer_moved_advance, lexer_moved_advance,
    lexer_moved_open_comment_loop pre line column c _ _ hc hno
      (by simp only [List.length_cons]; omega)]
  simp

theorem lexer_moved_number (pre : List Char) (line column : Nat) (k ds suf : List Char)
    (h0 : ds ≠ []) (hds : ∀ c ∈ ds, isdigit c = true)
    (hsuf : isdigit (suf.headD NUL) = false) :
    lexer_next_token (lexer_moved pre line column k (ds ++ suf)) =
      some (token_create TOKEN_NUMBER (some (String.mk (ds.take 255)))
          (position_after line column k).1 (position_after line column k).2,
        lexer_moved pre line column (k ++ ds) suf) := by
  have e := lexer_moved_number_loop pre line column suf hsuf ds ((ds ++ suf).length + 2) [] k
    hds (by simp only [List.length_append]; omega)
  obtain ⟨d, ds1, rfl⟩ := List.exists_cons_of_ne_nil h0
  have hd := hds d (List.mem_cons_self _ _)
  have h1 := isdigit_ne d hd
  have h2 := isdigit_not_space d hd
  have hc : (lexer_moved pre line column k (d :: ds1 ++ suf)).current_char = d := rfl
  rw [lexer_next_token, lexer_moved_fuel, lexer_next_token_loop,
    if_neg (by rw [hc]; exact h1.1), if_neg (by rw [hc, h2.1]; simp),
    if_neg (by rw [hc]; exact fun h => h2.2 h.1), if_pos (by rw [hc]; exact hd),
    lexer_make_number, lexer_moved_fuel, e]
  rfl

theorem lexer_moved_identifier (pre : List Char) (line column : Nat) (k cs suf : List Char)
    (c : Char) (cs1 : List Char) (h0 : cs = c :: cs1) (hc : isalpha c = true ∨ c = '_')
    (hcs : ∀ c ∈ cs, isalnum c = true ∨ c = '_')
    (hsuf : isalnum (suf.headD NUL) = false ∧ suf.headD NUL ≠ '_') :
    lexer_next_token (lexer_moved pre line column k (cs ++ suf)) =
      some (token_create (keyword_type (String.mk (cs.take 255)))
          (some (String.mk (cs.take 255)))
          (position_after line column k).1 (position_after line column k).2,
        lexer_moved pre line column (k ++ cs) suf) := by
  have e := lexer_moved_identifier_loop pre line column suf hsuf cs ((cs ++ suf).length + 2)
    [] k hcs (by simp only [List.length_append]; omega)
  subst h0
  have h2 := isalpha_not_space c hc
  have h3 : (lexer_moved pre line column k (c :: cs1 ++ suf)).current_char = c := rfl
  rw [lexer_next_token, lexer_moved_fuel, lexer_next_token_loop,
    if_neg (by rw [h3]; exact h2.2.2.2.1), if_neg (by rw [h3, h2.1]; simp),
    if_neg (by rw [h3]; exact fun h => h2.2.1 h.1), if_neg (by rw [h3, h2.2.2.1]; simp),
    if_pos (by rw [h3]; exact hc), lexer_make_identifier, lexer_moved_fuel, e]
  rfl

theorem lexer_moved_operator (pre : List Char) (line column : Nat) (k : List Char) (c : Char)
    (suf : List Char) (h0 : c ≠ NUL) (h1 : isspace c = false)
    (h2 : ¬ (c = '/' ∧ (suf.headD NUL = '/' ∨ suf.headD NUL = '*')))
    (h3 : isdigit c = false) (h4 : isalpha c = false) (h5 : c ≠ '_') :
    lexer_next_token (lexer_moved pre line column k (c :: suf)) =
      some (lexer_operator c (position_after line column k).1 (position_after line column k).2
        (lexer_moved pre line column (k ++ [c]) suf)) := by
  have hc : (lexer_moved pre line column k (c :: suf)).current_char = c := rfl
  rw [lexer_next_token, lexer_moved_fuel, lexer_next_token_loop, if_neg (by rw [hc]; exact h0),
    if_neg (by rw [hc, h1]; simp), if_neg (by rw [hc, lexer_moved_peek]; exact h2),
    if_neg (by rw [hc, h3]; simp), if_neg (by rw [hc, h4]; simpa using h5),
    lexer_moved_advance, hc]
  rfl

/-! ## Lexer: the operator switch -/

theorem lexer_operator_shape (c : Char) (line column : Nat) (l : Lexer) :
    OperatorShape c line column l (lexer_operator c line column l) := by
  unfold lexer_operator
  repeat' refine ite_induction (P := OperatorShape c line column l) (fun h => ?_) (fun h => ?_)
  all_goals first
    | refine ⟨[c], ?_, TokenType.noConfusion, Or.inl ⟨rfl, rfl, ?_⟩⟩
      · subst_vars
        rfl
      · intro line1 column1 l1 h1
        rcases h1 with h1 | h1 | h1 <;> simp [lexer_operator, h1, NUL, token_create, *]
    | refine ⟨[c, l.current_char], ?_, TokenType.noConfusion, Or.inr ⟨rfl, rfl, ?_⟩⟩
      · simp [token_create, *]
      · intro line1 column1 l1 h1
        simp [lexer_operator, h1, token_create, *]

/-- A character that the operator switch has no case for gives an ERROR token
whose lexeme is that character, and the state is left as it is. -/
theorem lexer_operator_unrecognised (c : Char) (line column : Nat) (l : Lexer)
    (h : c ∉ operator_chars) :
    lexer_operator c line column l =
      (token_create TOKEN_ERROR (some (String.mk [c])) line column, l) := by
  simp only [operator_chars, List.mem_cons, List.mem_singleton, not_or, List.mem_nil_iff,
    or_false] at h
  simp [lexer_operator, h]

/-! ## Lexer: what one call finds in a text -/

theorem run_split (p : Char → Bool) : ∀ suf : List Char, ∃ run rest, suf = run ++ rest ∧
    (∀ c ∈ run, p c = true) ∧ (rest = [] ∨ ∃ c r, rest = c :: r ∧ p c = false)
  | [] => ⟨[], [], rfl, by simp, Or.inl rfl⟩
  | c :: s => by
    by_cases hc : p c = true
    · obtain ⟨run, rest, e, h1, h2⟩ := run_split p s
      refine ⟨c :: run, rest, by rw [e]; rfl, ?_, h2⟩
      intro x hx
      rcases List.mem_cons.1 hx with rfl | hx
      · exact hc
      · exact h1 x hx
    · exact ⟨[], c :: s, rfl, by simp, Or.inr ⟨c, s, rfl, by simpa using hc⟩⟩

theorem comment_split : ∀ t : List Char,
    (∃ c rest, t = c ++ '*' :: '/' :: rest ∧ ¬ ['*', '/'] <:+: c) ∨ ¬ ['*', '/'] <:+: t
  | [] => Or.inr (by simp)
  | [x] => Or.inr (by
      intro h
      have := h.length_le
      simp at this)
  | x :: y :: t => by
    by_cases hxy : x = '*' ∧ y = '/'
    · obtain ⟨rfl, rfl⟩ := hxy
      exact Or.inl ⟨[], t, rfl, by simp⟩
    · have hpre : ∀ u : List Char, ¬ ['*', '/'] <+: x :: y :: u := by
        rintro u ⟨v, hv⟩
        simp only [List.cons_append, List.nil_append, List.cons.injEq] at hv
        exact hxy ⟨hv.1.symm, hv.2.1.symm⟩
      rcases comment_split (y :: t) with ⟨c, rest, e, hno⟩ | hno
      · refine Or.inl ⟨x :: c, rest, by rw [e]; rfl, ?_⟩
        intro h
        rcases List.infix_cons_iff.1 h with h | h
        · cases c with
          | nil =>
            have := h.length_le
            simp at this
          | cons z c =>
            simp only [List.cons_append, List.cons.injEq] at e
            obtain ⟨rfl, -⟩ := e
            exact hpre c h
        · exact hno h
      · refine Or.inr ?_
        intro h
        rcases List.infix_cons_iff.1 h with h | h
        · exact hpre t h
        · exact hno h

theorem finds_nil : Finds [] [] [] [] TOKEN_EOF none ∧ TokenText [] [] TOKEN_EOF none :=
  ⟨⟨rfl, fun pre line column k => by
    rw [List.append_nil, List.nil_append, List.append_nil]
    exact lexer_moved_eof pre line column k [] rfl⟩, Or.inl ⟨rfl, rfl, rfl, rfl⟩⟩

/-- Skipped text in front of what a call finds. -/
theorem finds_after (suf skipped0 suf0 skipped body rest : List Char) (ty : TokenType)
    (value : Option String) (e : suf = skipped0 ++ suf0)
    (h0 : ∀ pre line column k, lexer_next_token (lexer_moved pre line column k suf) =
      lexer_next_token (lexer_moved pre line column (k ++ skipped0) suf0))
    (h : Finds suf0 skipped body rest ty value) :
    Finds suf (skipped0 ++ skipped) body rest ty value := by
  refine ⟨by rw [e, h.1, List.append_assoc], fun pre line column k => ?_⟩
  rw [h0, h.2]
  simp only [List.append_assoc]

theorem head_not (p : Char → Bool) (hp : p NUL = false) (rest : List Char)
    (h : rest = [] ∨ ∃ c r, rest = c :: r ∧ p c = false) : p (rest.headD NUL) = false := by
  rcases h with rfl | ⟨c, r, rfl, hc⟩
  · exact hp
  · exact hc

theorem head_blank_or_end (p : Char → Bool) (hp : p NUL = false) (hb : p ' ' = false)
    (suf : List Char) (h : suf.headD NUL = ' ' ∨ suf.headD NUL = NUL) :
    p (suf.headD NUL) = false := by
  rcases h with h | h <;> rw [h] <;> assumption

/-- A maximal run of digits is found as one NUMBER token. -/
theorem finds_number (run rest : List Char) (h0 : run ≠ [])
    (hrun : ∀ c ∈ run, isdigit c = true) (hrest : isdigit (rest.headD NUL) = false) :
    Finds (run ++ rest) [] run rest TOKEN_NUMBER (some (String.mk (run.take 255))) ∧
      TokenText run rest TOKEN_NUMBER (some (String.mk (run.take 255))) := by
  obtain ⟨c, ds, rfl⟩ := List.exists_cons_of_ne_nil h0
  refine ⟨⟨rfl, fun pre line column k => ?_⟩, Or.inr ⟨by decide, by simp, rfl, ?_, ?_⟩⟩
  · rw [List.append_nil, List.nil_append]
    exact lexer_moved_number pre line column k _ rest h0 hrun hrest
  · exact (isdigit_not_space c (hrun c (List.mem_cons_self _ _))).1
  · intro pre line column k suf hsuf
    have h := lexer_moved_number pre line column k ((c :: ds).take 255) suf (by simp)
      (fun x hx => hrun x (List.mem_of_mem_take hx))
      (head_blank_or_end isdigit (by decide) (by decide) suf hsuf)
    rw [List.take_take, min_self] at h
    exact h

/-- A maximal run of letters, digits and underscores that starts with a letter
or an underscore is found as one identifier or keyword token. -/
theorem finds_identifier (run rest : List Char) (c : Char) (cs : List Char)
    (h0 : run = c :: cs) (hc : isalpha c = true ∨ c = '_')
    (hrun : ∀ c ∈ run, isalnum c = true ∨ c = '_')
    (hrest : isalnum (rest.headD NUL) = false ∧ rest.headD NUL ≠ '_') :
    Finds (run ++ rest) [] run rest (keyword_type (String.mk (run.take 255)))
        (some (String.mk (run.take 255))) ∧
      TokenText run rest (keyword_type (String.mk (run.take 255)))
        (some (String.mk (run.take 255))) := by
  refine ⟨⟨rfl, fun pre line column k => ?_⟩,
    Or.inr ⟨keyword_type_ne_eof _, by rw [h0]; simp, rfl, ?_, ?_⟩⟩
  · rw [List.append_nil, List.nil_append]
    exact lexer_moved_identifier pre line column k _ rest c cs h0 hc hrun hrest
  · rw [h0]
    exact (isalpha_not_space c hc).1
  · intro pre line column k suf hsuf
    have h := lexer_moved_identifier pre line column k (run.take 255) suf c (cs.take 254)
      (by rw [h0]; rfl) hc (fun x hx => hrun x (List.mem_of_mem_take hx))
      ⟨head_blank_or_end isalnum (by decide) (by decide) suf hsuf, by
        rcases hsuf with h | h <;> rw [h] <;> decide⟩
    rw [List.take_take, min_self] at h
    exact h

/-- A character that starts neither white space, a comment, a number nor a name
is found, alone or with the character after it, as one token of the operator
switch. -/
theorem finds_operator (c : Char) (s : List Char) (h0 : c ≠ NUL) (h1 : isspace c = false)
    (h2 : ¬ (c = '/' ∧ (s.headD NUL = '/' ∨ s.headD NUL = '*')))
    (h3 : isdigit c = false) (h4 : isalpha c = false) (h5 : c ≠ '_') :
    ∃ body rest ty value, Finds (c :: s) [] body rest ty value ∧
      TokenText body rest ty value := by
  obtain ⟨body, -, hty, hshape⟩ := lexer_operator_shape c 1 1 (lexer_moved [] 1 1 [c] s)
  have hstate := lexer_operator_state c 1 1 (lexer_moved [] 1 1 [c] s)
  have hx : (lexer_moved [] 1 1 [c] s).current_char = s.headD NUL := rfl
  rw [hx] at hshape hstate
  generalize (lexer_operator c 1 1 (lexer_moved [] 1 1 [c] s)).1.type = ty at hty hshape
  rcases hshape with ⟨rfl, -, huni⟩ | ⟨rfl, hadv, huni⟩
  · refine ⟨[c], s, ty, some (String.mk [c]), ⟨rfl, fun pre line column k => ?_⟩,
      Or.inr ⟨hty, by simp, by simp, h1, ?_⟩⟩
    · rw [lexer_moved_operator pre line column k c s h0 h1 h2 h3 h4 h5,
        huni _ _ _ (Or.inr (Or.inr rfl))]
      simp
    · intro pre line column k suf hsuf
      have hs2 : ¬ (c = '/' ∧ (suf.headD NUL = '/' ∨ suf.headD NUL = '*')) := by
        rintro ⟨-, h | h⟩ <;> rcases hsuf with h6 | h6 <;> rw [h6] at h <;>
          exact absurd h (by decide)
      rw [show [c].take 255 ++ suf = c :: suf from rfl,
        lexer_moved_operator pre line column k c suf h0 h1 hs2 h3 h4 h5,
        huni _ _ _ (by
          rcases hsuf with h | h
          · exact Or.inl h
          · exact Or.inr (Or.inl h))]
      simp
  · have hx3 : s.headD NUL = '=' ∨ s.headD NUL = '&' ∨ s.headD NUL = '|' := by
      rcases hstate with h | ⟨-, h⟩
      · rw [h] at hadv
        have := congrArg Lexer.position hadv
        simp at this
      · exact h
    obtain ⟨x, s1, rfl⟩ : ∃ x s1, s = x :: s1 := by
      cases s with
      | nil => rcases hx3 with h | h | h <;> exact absurd h (by decide)
      | cons x s1 => exact ⟨x, s1, rfl⟩
    simp only [List.headD_cons] at huni hx3 h2
    refine ⟨[c, x], s1, ty, some (String.mk [c, x]), ⟨rfl, fun pre line column k => ?_⟩,
      Or.inr ⟨hty, by simp, by simp, h1, ?_⟩⟩
    · rw [lexer_moved_operator pre line column k c (x :: s1) h0 h1 h2 h3 h4 h5,
        huni _ _ _ rfl, lexer_moved_advance]
      simp
    · intro pre line column k suf hsuf
      rw [show [c, x].take 255 ++ suf = c :: x :: suf from rfl,
        lexer_moved_operator pre line column k c (x :: suf) h0 h1 h2 h3 h4 h5,
        huni _ _ _ rfl, lexer_moved_advance]
      simp

theorem lexer_finds_bounded : ∀ (n : Nat) (suf : List Char), suf.length ≤ n →
    (∀ c ∈ suf, c ≠ NUL) →
    ∃ skipped body rest ty value, Finds suf skipped body rest ty value ∧
      TokenText body rest ty value ∧ Finds (body ++ rest) [] body rest ty value
  | _, [], _, _ => ⟨[], [], [], TOKEN_EOF, none, finds_nil.1, finds_nil.2, finds_nil.1⟩
  | n + 1, c :: s, hn, hnul => by
    have hc0 : c ≠ NUL := hnul c (List.mem_cons_self _ _)
    have hs0 : ∀ x ∈ s, x ≠ NUL := fun x hx => hnul x (List.mem_cons_of_mem _ hx)
    simp only [List.length_cons, Nat.add_le_add_iff_right] at hn
    by_cases hsp : isspace c = true
    · obtain ⟨ws, rest0, e, hws, hrest⟩ := run_split isspace s
      obtain ⟨skipped, body, rest, ty, value, hF, hT, hF0⟩ := lexer_finds_bounded n rest0
        (by rw [e] at hn; simp only [List.length_append] at hn; omega)
        (fun x hx => hs0 x (by rw [e]; exact List.mem_append_right _ hx))
      refine ⟨(c :: ws) ++ skipped, body, rest, ty, value,
        finds_after _ (c :: ws) rest0 _ _ _ _ _ (by rw [e]; rfl) (fun pre line column k => ?_) hF,
        hT, hF0⟩
      rw [e]
      exact lexer_moved_whitespace pre line column k (c :: ws) rest0 (by simp)
        (by
          intro x hx
          rcases List.mem_cons.1 hx with rfl | hx
          · exact hsp
          · exact hws x hx)
        (head_not isspace (by decide) rest0 hrest)
    by_cases hline : c = '/' ∧ s.headD NUL = '/'
    · obtain ⟨rfl, h2⟩ := hline
      obtain ⟨s1, rfl⟩ : ∃ s1, s = '/' :: s1 := by
        cases s with
        | nil => exact absurd h2 (by decide)
        | cons x s1 => exact ⟨s1, by rw [List.headD_cons] at h2; rw [h2]⟩
      obtain ⟨d, rest0, e, hd, hrest⟩ := run_split (fun x => x != '\n') s1
      obtain ⟨skipped, body, rest, ty, value, hF, hT, hF0⟩ := lexer_finds_bounded n rest0
        (by
          rw [e] at hn
          simp only [List.length_cons, List.length_append] at hn
          omega)
        (fun x hx => hs0 x (by rw [e]; exact List.mem_cons_of_mem _ (List.mem_append_right _ hx)))
      refine ⟨('/' :: '/' :: d) ++ skipped, body, rest, ty, value,
        finds_after _ ('/' :: '/' :: d) rest0 _ _ _ _ _ (by rw [e]; rfl)
          (fun pre line column k => ?_) hF, hT, hF0⟩
      rw [e]
      refine lexer_moved_line_comment pre line column k d rest0 (fun x hx => ⟨?_, ?_⟩) ?_
      · exact hs0 x (by rw [e]; exact List.mem_cons_of_mem _ (List.mem_append_left _ hx))
      · simpa using hd x hx
      · rcases hrest with rfl | ⟨x, r, rfl, hx⟩
        · exact Or.inl rfl
        · exact Or.inr (by simpa using hx)
    by_cases hblock : c = '/' ∧ s.headD NUL = '*'
    · obtain ⟨rfl, h2⟩ := hblock
      obtain ⟨s1, rfl⟩ : ∃ s1, s = '*' :: s1 := by
        cases s with
        | nil => exact absurd h2 (by decide)
        | cons x s1 => exact ⟨s1, by rw [List.headD_cons] at h2; rw [h2]⟩
      have hs1 : ∀ x ∈ s1, x ≠ NUL := fun x hx => hs0 x (List.mem_cons_of_mem _ hx)
      rcases comment_split s1 with ⟨c0, rest0, e, hno⟩ | hno
      · obtain ⟨skipped, body, rest, ty, value, hF, hT, hF0⟩ := lexer_finds_bounded n rest0
          (by
            rw [e] at hn
            simp only [List.length_cons, List.length_append] at hn
            omega)
          (fun x hx => hs1 x (by
            rw [e]
            exact List.mem_append_right _ (List.mem_cons_of_mem _ (List.mem_cons_of_mem _ hx))))
        refine ⟨('/' :: '*' :: (c0 ++ ['*', '/'])) ++ skipped, body, rest, ty, value,
          finds_after _ ('/' :: '*' :: (c0 ++ ['*', '/'])) rest0 _ _ _ _ _ (by rw [e]; simp)
            (fun pre line column k => ?_) hF, hT, hF0⟩
        rw [e]
        exact lexer_moved_block_comment pre line column k c0 rest0
          (fun x hx => hs1 x (by rw [e]; exact List.mem_append_left _ hx)) hno
      · refine ⟨'/' :: '*' :: s1, [], [], TOKEN_EOF, none, ⟨by simp, fun pre line column k => ?_⟩,
          finds_nil.2, finds_nil.1⟩
        rw [lexer_moved_open_comment pre line column k s1 hs1 hno]
        simp
    have hcomment : ¬ (c = '/' ∧ (s.headD NUL = '/' ∨ s.headD NUL = '*')) := by
      rintro ⟨h1, h2 | h2⟩
      · exact hline ⟨h1, h2⟩
      · exact hblock ⟨h1, h2⟩
    by_cases hdig : isdigit c = true
    · obtain ⟨ds, rest0, e, hds, hrest⟩ := run_split isdigit s
      have h := finds_number (c :: ds) rest0 (by simp)
        (by
          intro x hx
          rcases List.mem_cons.1 hx with rfl | hx
          · exact hdig
          · exact hds x hx)
        (head_not isdigit (by decide) rest0 hrest)
      rw [e]
      exact ⟨[], c :: ds, rest0, _, _, h.1, h.2, h.1⟩
    by_cases halpha : isalpha c = true ∨ c = '_'
    · obtain ⟨cs, rest0, e, hcs, hrest⟩ := run_split (fun x => isalnum x || x == '_') s
      have h := finds_identifier (c :: cs) rest0 c cs rfl halpha
        (by
          intro x hx
          rcases List.mem_cons.1 hx with rfl | hx
          · exact (isalpha_not_space x halpha).2.2.2.2
          · simpa using hcs x hx)
        (by
          have h6 := head_not (fun x => isalnum x || x == '_') (by decide) rest0 hrest
          simpa using h6)
      rw [e]
      exact ⟨[], c :: cs, rest0, _, _, h.1, h.2, h.1⟩
    · obtain ⟨body, rest, ty, value, hF, hT⟩ := finds_operator c s hc0 (by simpa using hsp)
        hcomment (by simpa using hdig) (by simpa using fun h => halpha (Or.inl h))
        (fun h => halpha (Or.inr h))
      have e : c :: s = body ++ rest := hF.1
      rw [e] at hF ⊢
      exact ⟨[], body, rest, ty, value, hF, hT, hF⟩

/-- What `lexer_next_token` finds in a text without NUL, whatever lies behind
the cursor and whatever the line and column are. -/
theorem lexer_finds (suf : List Char) (h : ∀ c ∈ suf, c ≠ NUL) :
    ∃ skipped body rest ty value, Finds suf skipped body rest ty value ∧
      TokenText body rest ty value ∧ Finds (body ++ rest) [] body rest ty value :=
  lexer_finds_bounded suf.length suf (le_refl _) h

/-! ## Lexer: token sequences of texts -/

theorem lexer_create_moved (source : List Char) :
    lexer_create source = lexer_moved [] 1 1 [] (source.takeWhile (fun c => c != NUL)) := by
  unfold lexer_create lexer_moved lexer_at
  cases source.takeWhile (fun c => c != NUL) <;> rfl

theorem takeWhile_not_nul_mem (source : List Char) :
    ∀ c ∈ source.takeWhile (fun c => c != NUL), c ≠ NUL := by
  intro c hc
  simpa using List.mem_takeWhile_imp hc

theorem takeWhile_append_left (p : Char → Bool) (a b : List Char) (h : ∀ c ∈ a, p c = true) :
    (a ++ b).takeWhile p = a ++ b.takeWhile p := by
  induction a with
  | nil => rfl
  | cons c a ih =>
    rw [List.cons_append, List.takeWhile_cons, if_pos (h c (List.mem_cons_self _ _)),
      ih (fun x hx => h x (List.mem_cons_of_mem _ hx))]
    rfl

/-- The token sequence of a state depends on the next call only. -/
theorem LexesTo.of_next_eq {l l1 : Lexer} {ts : List Token}
    (e : lexer_next_token l = lexer_next_token l1) (h : LexesTo l ts) : LexesTo l1 ts := by
  cases h with
  | eof _ t l2 e1 ty => exact LexesTo.eof _ t l2 (e ▸ e1) ty
  | token _ t l2 ts e1 ty h3 => exact LexesTo.token _ t l2 ts (e ▸ e1) ty h3

/-- One character of white space before the text `suf`. -/
theorem lexer_moved_space (pre : List Char) (line column : Nat) (k : List Char) (c : Char)
    (suf : List Char) (hc : isspace c = true) :
    lexer_next_token (lexer_moved pre line column k (c :: suf)) =
      lexer_next_token (lexer_moved pre line column (k ++ [c]) suf) := by
  obtain ⟨ws, rest, e, hws, hrest⟩ := run_split isspace suf
  have hr := head_not isspace (by decide) rest hrest
  rw [e]
  have h1 := lexer_moved_whitespace pre line column k (c :: ws) rest (by simp)
    (by
      intro x hx
      rcases List.mem_cons.1 hx with rfl | hx
      · exact hc
      · exact hws x hx) hr
  rw [List.cons_append] at h1
  rw [h1]
  cases ws with
  | nil => simp
  | cons w ws =>
    rw [lexer_moved_whitespace pre line column (k ++ [c]) (w :: ws) rest (by simp) hws hr]
    simp

/-- White space before the text `suf`. -/
theorem lexer_moved_blanks (pre : List Char) (line column : Nat) :
    ∀ (w k suf : List Char), (∀ c ∈ w, isspace c = true) →
      lexer_next_token (lexer_moved pre line column k (w ++ suf)) =
        lexer_next_token (lexer_moved pre line column (k ++ w) suf)
  | [], k, suf, _ => by simp
  | c :: w, k, suf, h => by
    rw [List.cons_append, lexer_moved_space pre line column k c _ (h c (List.mem_cons_self _ _)),
      lexer_moved_blanks pre line column w _ suf (fun x hx => h x (List.mem_cons_of_mem _ hx))]
    simp

/-- Kinds and lexemes of the tokens of a text do not depend on what lies behind
the cursor nor on the line and column. -/
theorem lexes_relocate : ∀ (n : Nat) (suf : List Char), suf.length < n →
    (∀ c ∈ suf, c ≠ NUL) →
    ∀ (pre : List Char) (line column : Nat) (k pre2 : List Char) (line2 column2 : Nat)
      (k2 : List Char) (ts1 ts2 : List Token),
      LexesTo (lexer_moved pre line column k suf) ts1 →
      LexesTo (lexer_moved pre2 line2 column2 k2 suf) ts2 →
      ts1.map Token.content = ts2.map Token.content
  | 0, _, h, _ => absurd h (Nat.not_lt_zero _)
  | n + 1, suf, hn, hnul => by
    intro pre line column k pre2 line2 column2 k2 ts1 ts2 h1 h2
    obtain ⟨skipped, body, rest, ty, value, hF, hT, -⟩ := lexer_finds suf hnul
    have e1 := hF.2 pre line column k
    have e2 := hF.2 pre2 line2 column2 k2
    have hrest : ty ≠ TOKEN_EOF → rest.length < n ∧ ∀ c ∈ rest, c ≠ NUL := by
      intro hty
      rcases hT with ⟨h, -⟩ | ⟨-, hb, -⟩
      · exact absurd h hty
      · have hlen := congrArg List.length hF.1
        have := List.length_pos.2 hb
        simp only [List.length_append] at hlen
        refine ⟨by omega, fun c hc => hnul c ?_⟩
        rw [hF.1]
        exact List.mem_append_right _ (List.mem_append_right _ hc)
    cases h1 with
    | eof _ t l1 f1 ty1 =>
      rw [e1] at f1
      simp only [Option.some.injEq, Prod.mk.injEq] at f1
      have hty : ty = TOKEN_EOF := by rw [← ty1, ← f1.1]; rfl
      cases h2 with
      | eof _ t2 l2 f2 ty2 => rfl
      | token _ t2 l2 ts f2 ty2 _ =>
        rw [e2] at f2
        simp only [Option.some.injEq, Prod.mk.injEq] at f2
        exact absurd (by rw [← f2.1]; exact hty) ty2
    | token _ t l1 ts f1 ty1 g1 =>
      rw [e1] at f1
      simp only [Option.some.injEq, Prod.mk.injEq] at f1
      have hty : ty ≠ TOKEN_EOF := by
        intro h
        exact ty1 (by rw [← f1.1]; exact h)
      cases h2 with
      | eof _ t2 l2 f2 ty2 =>
        rw [e2] at f2
        simp only [Option.some.injEq, Prod.mk.injEq] at f2
        exact absurd (by rw [← f2.1] at ty2; exact ty2) hty
      | token _ t2 l2 ts2 f2 ty2 g2 =>
        rw [e2] at f2
        simp only [Option.some.injEq, Prod.mk.injEq] at f2
        obtain ⟨rfl, rfl⟩ := f1
        obtain ⟨rfl, rfl⟩ := f2
        rw [List.map_cons, List.map_cons,
          lexes_relocate n rest (hrest hty).1 (hrest hty).2 _ _ _ _ _ _ _ _ _ _ g1 g2]
        rfl

theorem position_after_plain (line column : Nat) (cs : List Char) (h : ∀ c ∈ cs, c ≠ '\n') :
    position_after line column cs = (line, column + cs.length) := by
  induction cs generalizing column with
  | nil => rfl
  | cons c cs ih =>
    rw [position_after, if_neg (h c (List.mem_cons_self _ _)),
      ih _ (fun x hx => h x (List.mem_cons_of_mem _ hx))]
    simp only [List.length_cons, Prod.mk.injEq, true_and]
    omega

/-- From the start of a text the cursor reaches line `1 +` the number of
newlines, and column `1 +` the number of characters after the last newline. -/
theorem position_after_start (cs : List Char) :
    position_after 1 1 cs =
      (1 + cs.count '\n', 1 + (cs.reverse.takeWhile (fun c => c != '\n')).length) := by
  induction cs using List.reverseRecOn with
  | nil => rfl
  | append_singleton cs c ih =>
    rw [position_after_append, ih]
    simp only [position_after, List.reverse_append, List.reverse_singleton,
      List.singleton_append, List.takeWhile_cons, List.count_append, List.count_singleton]
    by_cases hc : c = '\n'
    · subst hc
      simp
      omega
    · have h2 : ('\n' == c) = false := by simpa using fun h => hc h.symm
      simp [hc, h2]
      omega


theorem keyword_type_long (s : String) (h : 6 < s.length) :
    keyword_type s = TOKEN_IDENTIFIER := by
  unfold keyword_type
  have hne : ∀ k : String, k.length ≤ 6 → s ≠ k := by
    intro k hk e
    rw [e] at h
    omega
  rw [if_neg (hne _ (by decide)), if_neg (hne _ (by decide)), if_neg (hne _ (by decide)),
    if_neg (hne _ (by decide)), if_neg (hne _ (by decide)), if_neg (hne _ (by decide)),
    if_neg (hne _ (by decide))]

theorem isdigit_not_newline (c : Char) (h : isdigit c = true) : c ≠ '\n' := by
  rintro rfl
  exact absurd h (by decide)

theorem isalnum_not_newline (c : Char) (h : isalnum c = true ∨ c = '_') : c ≠ '\n' := by
  rintro rfl
  rcases h with h | h
  · exact absurd h (by decide)
  · exact absurd h (by decide)

theorem lexer_operator_lone (c : Char) (line column : Nat) (l : Lexer)
    (hc : c = '&' ∨ c = '|') (hl : l.current_char ≠ c) :
    lexer_operator c line column l =
      (token_create TOKEN_ERROR (some (String.mk [c])) line column, l) := by
  rcases hc with rfl | rfl <;> simp [lexer_operator, hl]

/-- C11: a character that is not NUL, white space, a digit, a letter, an
underscore or an operator character, and also an ampersand or a bar that is
not doubled, gives an ERROR token whose lexeme is that one character, at the
line and column of the character; the cursor moves on by exactly one
character, and the tokens lexed from there have the kinds and lexemes of the
tokens of the rest of the input lexed on its own. -/
theorem lexer_error_token (pre : List Char) (c : Char) (suf : List Char) (line column : Nat)
    (h0 : c ≠ NUL) (h1 : isspace c = false) (h2 : isdigit c = false) (h3 : isalpha c = false)
    (h4 : c ≠ '_')
    (h5 : c ∉ operator_chars ∨ ((c = '&' ∨ c = '|') ∧ suf.headD NUL ≠ c))
    (hsuf : ∀ x ∈ suf, x ≠ NUL) :
    ∃ l1 ts, lexer_next_token (lexer_at pre (c :: suf) line column) =
        some (token_create TOKEN_ERROR (some (String.mk [c])) line column, l1) ∧
      l1 = lexer_at (pre ++ [c]) suf line (column + 1) ∧
      l1.position = (lexer_at pre (c :: suf) line column).position + 1 ∧
      LexesTo l1 ts ∧ ts.map Token.content = (token_stream suf).map Token.content := by
  have hslash : c ≠ '/' := by
    rintro rfl
    rcases h5 with h5 | ⟨h5 | h5, -⟩
    · exact h5 (by decide)
    · exact absurd h5 (by decide)
    · exact absurd h5 (by decide)
  have hnl : c ≠ '\n' := by
    rintro rfl
    exact absurd h1 (by decide)
  have hop : lexer_operator c (position_after line column []).1 (position_after line column []).2
      (lexer_moved pre line column ([] ++ [c]) suf) =
      (token_create TOKEN_ERROR (some (String.mk [c])) line column,
        lexer_moved pre line column ([] ++ [c]) suf) := by
    rcases h5 with h5 | ⟨h5, h6⟩
    · exact lexer_operator_unrecognised _ _ _ _ h5
    · exact lexer_operator_lone _ _ _ _ h5 h6
  have e := lexer_moved_operator pre line column [] c suf h0 h1 (fun h => hslash h.1) h2 h3 h4
  rw [lexer_moved_nil, hop] at e
  have e2 : lexer_moved pre line column ([] ++ [c]) suf =
      lexer_at (pre ++ [c]) suf line (column + 1) := by
    simp [lexer_moved, position_after, hnl]
  have hts : LexesTo (lexer_moved pre line column ([] ++ [c]) suf)
      (lexer_tokens (suf.length + 1) (lexer_moved pre line column ([] ++ [c]) suf)) := by
    refine lexer_tokens_lexes _ _ (lexer_moved_cursor_ok _ _ _ _ _) ?_
    simp only [lexer_moved, lexer_at, List.length_append, List.length_cons, List.length_nil]
    omega
  refine ⟨_, _, e, e2, ?_, hts, ?_⟩
  · simp [lexer_moved, lexer_at]
  · have h6 := token_stream_lexes suf
    rw [lexer_create_at suf hsuf, ← lexer_moved_nil] at h6
    exact lexes_relocate _ suf (Nat.lt_succ_self _) hsuf _ _ _ _ _ _ _ _ _ _ hts h6

theorem lexer_error_token_witness :
    ∃ l1 ts, lexer_next_token (lexer_at ['x', ' '] ('@' :: ['1', '+', 'y']) 1 3) =
        some (token_create TOKEN_ERROR (some (String.mk ['@'])) 1 3, l1) ∧
      l1 = lexer_at (['x', ' '] ++ ['@']) ['1', '+', 'y'] 1 (3 + 1) ∧
      l1.position = (lexer_at ['x', ' '] ('@' :: ['1', '+', 'y']) 1 3).position + 1 ∧
      LexesTo l1 ts ∧
        ts.map Token.content = (token_stream ['1', '+', 'y']).map Token.content :=
  lexer_error_token ['x', ' '] '@' ['1', '+', 'y'] 1 3 (by decide) (by decide) (by decide)
    (by decide) (by decide) (Or.inl (by decide)) (by decide)

/-- C12: at a letter or underscore the lexer consumes the maximal run of
letters, digits and underscores; the lexeme is the first 255 characters of the
run, hence the whole run when it has at most 255 characters; the kind is a
keyword kind exactly when the lexeme is that keyword, spelled exactly, and
IDENTIFIER otherwise. -/
theorem identifier_keyword_recognition (pre : List Char) (c : Char) (cs rest : List Char)
    (line column : Nat) (hc : isalpha c = true ∨ c = '_')
    (hcs : ∀ x ∈ cs, isalnum x = true ∨ x = '_')
    (hrest : isalnum (rest.headD NUL) = false ∧ rest.headD NUL ≠ '_') :
    lexer_next_token (lexer_at pre (c :: cs ++ rest) line column) =
        some (token_create (keyword_type (String.mk ((c :: cs).take 255)))
            (some (String.mk ((c :: cs).take 255))) line column,
          lexer_at (pre ++ c :: cs) rest line (column + (c :: cs).length)) ∧
      ((c :: cs).length ≤ 255 → (c :: cs).take 255 = c :: cs) ∧
      (∀ s : String,
        (keyword_type s = TOKEN_INT ↔ s = "int") ∧
        (keyword_type s = TOKEN_RETURN ↔ s = "return") ∧
        (keyword_type s = TOKEN_IF ↔ s = "if") ∧
        (keyword_type s = TOKEN_ELSE ↔ s = "else") ∧
        (keyword_type s = TOKEN_WHILE ↔ s = "while") ∧
        (keyword_type s = TOKEN_FOR ↔ s = "for") ∧
        (keyword_type s = TOKEN_VOID ↔ s = "void") ∧
        (keyword_type s = TOKEN_IDENTIFIER ↔
          s ∉ ["int", "return", "if", "else", "while", "for", "void"])) ∧
      (∀ s ∈ ["intx", "Int", "_if", "while1"], keyword_type s = TOKEN_IDENTIFIER) := by
  have hall : ∀ x ∈ c :: cs, isalnum x = true ∨ x = '_' := by
    intro x hx
    rcases List.mem_cons.1 hx with rfl | hx
    · rcases hc with h | h
      · exact Or.inl (by simp [isalnum, h])
      · exact Or.inr h
    · exact hcs x hx
  have e := lexer_moved_identifier pre line column [] (c :: cs) rest c cs rfl hc hall hrest
  rw [lexer_moved_nil] at e
  have e2 : lexer_moved pre line column ([] ++ c :: cs) rest =
      lexer_at (pre ++ c :: cs) rest line (column + (c :: cs).length) := by
    rw [lexer_moved, List.nil_append,
      position_after_plain line column (c :: cs) (fun x hx => isalnum_not_newline x (hall x hx))]
  rw [e2] at e
  refine ⟨e, fun h => List.take_of_length_le h, ?_, by decide⟩
  intro s
  unfold keyword_type
  by_cases k1 : s = "int"
  · subst k1; decide
  by_cases k2 : s = "return"
  · subst k2; decide
  by_cases k3 : s = "if"
  · subst k3; decide
  by_cases k4 : s = "else"
  · subst k4; decide
  by_cases k5 : s = "while"
  · subst k5; decide
  by_cases k6 : s = "for"
  · subst k6; decide
  by_cases k7 : s = "void"
  · subst k7; decide
  simp [k1, k2, k3, k4, k5, k6, k7]

theorem identifier_keyword_recognition_witness :
    lexer_next_token (lexer_at ['1', ' '] ('w' :: ['h', 'i', 'l', 'e'] ++ ['(', 'x']) 1 3) =
        some (token_create (keyword_type (String.mk (('w' :: ['h', 'i', 'l', 'e']).take 255)))
            (some (String.mk (('w' :: ['h', 'i', 'l', 'e']).take 255))) 1 3,
          lexer_at (['1', ' '] ++ 'w' :: ['h', 'i', 'l', 'e']) ['(', 'x'] 1
            (3 + ('w' :: ['h', 'i', 'l', 'e']).length)) ∧
      keyword_type (String.mk (('w' :: ['h', 'i', 'l', 'e']).take 255)) = TOKEN_WHILE :=
  ⟨(identifier_keyword_recognition ['1', ' '] 'w' ['h', 'i', 'l', 'e'] ['(', 'x'] 1 3
    (by decide) (by decide) (by decide)).1, by decide⟩

/-- C13: at a digit the lexer consumes the maximal run of decimal digits and
returns a NUMBER token whose lexeme is the first 255 digits of the run, hence
the whole run when it has at most 255 digits; the cursor is left on the first
character that is not a digit, which starts the next token: `123abc` gives
NUMBER `123`, then IDENTIFIER `abc`. -/
theorem number_recognition (pre : List Char) (d : Char) (ds rest : List Char)
    (line column : Nat) (hd : isdigit d = true) (hds : ∀ x ∈ ds, isdigit x = true)
    (hrest : isdigit (rest.headD NUL) = false) :
    lexer_next_token (lexer_at pre (d :: ds ++ rest) line column) =
        some (token_create TOKEN_NUMBER (some (String.mk ((d :: ds).take 255))) line column,
          lexer_at (pre ++ d :: ds) rest line (column + (d :: ds).length)) ∧
      ((d :: ds).length ≤ 255 → (d :: ds).take 255 = d :: ds) ∧
      (lexer_at (pre ++ d :: ds) rest line (column + (d :: ds).length)).current_char =
        rest.headD NUL ∧
      token_stream "123abc".data =
        [token_create TOKEN_NUMBER (some "123") 1 1,
          token_create TOKEN_IDENTIFIER (some "abc") 1 4] := by
  have hall : ∀ x ∈ d :: ds, isdigit x = true := by
    intro x hx
    rcases List.mem_cons.1 hx with rfl | hx
    · exact hd
    · exact hds x hx
  have e := lexer_moved_number pre line column [] (d :: ds) rest (by simp) hall hrest
  rw [lexer_moved_nil] at e
  have e2 : lexer_moved pre line column ([] ++ d :: ds) rest =
      lexer_at (pre ++ d :: ds) rest line (column + (d :: ds).length) := by
    rw [lexer_moved, List.nil_append,
      position_after_plain line column (d :: ds) (fun x hx => isdigit_not_newline x (hall x hx))]
  rw [e2] at e
  exact ⟨e, fun h => List.take_of_length_le h, rfl, by decide!⟩

theorem number_recognition_witness :
    lexer_next_token (lexer_at [] ('1' :: ['2', '3'] ++ ['a', 'b', 'c']) 1 1) =
      some (token_create TOKEN_NUMBER (some (String.mk (('1' :: ['2', '3']).take 255))) 1 1,
        lexer_at ([] ++ '1' :: ['2', '3']) ['a', 'b', 'c'] 1 (1 + ('1' :: ['2', '3']).length)) :=
  (number_recognition [] '1' ['2', '3'] ['a', 'b', 'c'] 1 1 (by decide) (by decide)
    (by decide)).1

/-- C15: at a block comment that is never closed the lexer consumes the rest
of the input and returns the EOF token, with the cursor at the end of the
source. -/
theorem unterminated_comment_eof (pre c : List Char) (line column : Nat)
    (hc : ∀ x ∈ c, x ≠ NUL) (hno : ¬ ['*', '/'] <:+: c) :
    ∃ t l1, lexer_next_token (lexer_at pre ('/' :: '*' :: c) line column) = some (t, l1) ∧
      t.type = TOKEN_EOF ∧ t.value = none ∧
      l1.source = (lexer_at pre ('/' :: '*' :: c) line column).source ∧
      l1.position = l1.source.length ∧ l1.current_char = NUL := by
  have e := lexer_moved_open_comment pre line column [] c hc hno
  rw [lexer_moved_nil] at e
  refine ⟨_, _, e, rfl, rfl, ?_, ?_, rfl⟩
  · simp [lexer_moved, lexer_at]
  · simp [lexer_moved, lexer_at]

theorem unterminated_comment_eof_witness :
    ∃ t l1, lexer_next_token (lexer_at ['x', ' '] ('/' :: '*' :: ['a', '*', '\n', '/', 'b']) 1 3) =
        some (t, l1) ∧
      t.type = TOKEN_EOF ∧ t.value = none ∧
      l1.source = (lexer_at ['x', ' '] ('/' :: '*' :: ['a', '*', '\n', '/', 'b']) 1 3).source ∧
      l1.position = l1.source.length ∧ l1.current_char = NUL :=
  unterminated_comment_eof ['x', ' '] ['a', '*', '\n', '/', 'b'] 1 3 (by decide) (by decide)

/-- C16: a run of more than 255 digits gives one NUMBER token, and a run of
more than 255 identifier characters one IDENTIFIER token, whose lexeme is the
first 255 characters of the run, while the cursor moves past the whole run. -/
theorem lexeme_truncated_at_255 (pre ds rest : List Char) (line column : Nat)
    (pre1 : List Char) (c : Char) (cs rest1 : List Char) (line1 column1 : Nat)
    (hlen : 255 < ds.length) (hds : ∀ x ∈ ds, isdigit x = true)
    (hrest : isdigit (rest.headD NUL) = false)
    (hlen1 : 255 < (c :: cs).length) (hc : isalpha c = true ∨ c = '_')
    (hcs : ∀ x ∈ cs, isalnum x = true ∨ x = '_')
    (hrest1 : isalnum (rest1.headD NUL) = false ∧ rest1.headD NUL ≠ '_') :
    lexer_next_token (lexer_at pre (ds ++ rest) line column) =
        some (token_create TOKEN_NUMBER (some (String.mk (ds.take 255))) line column,
          lexer_at (pre ++ ds) rest line (column + ds.length)) ∧
      lexer_next_token (lexer_at pre1 (c :: cs ++ rest1) line1 column1) =
        some (token_create TOKEN_IDENTIFIER (some (String.mk ((c :: cs).take 255))) line1 column1,
          lexer_at (pre1 ++ c :: cs) rest1 line1 (column1 + (c :: cs).length)) ∧
      (ds.take 255).length = 255 ∧ ((c :: cs).take 255).length = 255 := by
  have hall : ∀ x ∈ c :: cs, isalnum x = true ∨ x = '_' := by
    intro x hx
    rcases List.mem_cons.1 hx with rfl | hx
    · rcases hc with h | h
      · exact Or.inl (by simp [isalnum, h])
      · exact Or.inr h
    · exact hcs x hx
  have hne : ds ≠ [] := by
    rintro rfl
    simp at hlen
  have e := lexer_moved_number pre line column [] ds rest hne hds hrest
  rw [lexer_moved_nil] at e
  have e2 : lexer_moved pre line column ([] ++ ds) rest =
      lexer_at (pre ++ ds) rest line (column + ds.length) := by
    rw [lexer_moved, List.nil_append,
      position_after_plain line column ds (fun x hx => isdigit_not_newline x (hds x hx))]
  rw [e2] at e
  have f := lexer_moved_identifier pre1 line1 column1 [] (c :: cs) rest1 c cs rfl hc hall hrest1
  rw [lexer_moved_nil] at f
  have f2 : lexer_moved pre1 line1 column1 ([] ++ c :: cs) rest1 =
      lexer_at (pre1 ++ c :: cs) rest1 line1 (column1 + (c :: cs).length) := by
    rw [lexer_moved, List.nil_append,
      position_after_plain line1 column1 (c :: cs)
        (fun x hx => isalnum_not_newline x (hall x hx))]
  have l1 : (ds.take 255).length = 255 := by
    rw [List.length_take]
    omega
  have l2 : ((c :: cs).take 255).length = 255 := by
    rw [List.length_take]
    omega
  rw [f2, keyword_type_long _ (by
    show 6 < (String.mk ((c :: cs).take 255)).length
    rw [String.length, l2]
    decide)] at f
  exact ⟨e, f, l1, l2⟩

theorem lexeme_truncated_at_255_witness :
    lexer_next_token (lexer_at ['='] (List.replicate 300 '7' ++ [';']) 1 2) =
        some (token_create TOKEN_NUMBER (some (String.mk ((List.replicate 300 '7').take 255))) 1 2,
          lexer_at (['='] ++ List.replicate 300 '7') [';'] 1
            (2 + (List.replicate 300 '7').length)) ∧
      lexer_next_token (lexer_at [] ('a' :: List.replicate 256 '_' ++ []) 4 1) =
        some (token_create TOKEN_IDENTIFIER
            (some (String.mk (('a' :: List.replicate 256 '_').take 255))) 4 1,
          lexer_at ([] ++ 'a' :: List.replicate 256 '_') [] 4
            (1 + ('a' :: List.replicate 256 '_').length)) ∧
      ((List.replicate 300 '7').take 255).length = 255 ∧
      (('a' :: List.replicate 256 '_').take 255).length = 255 :=
  lexeme_truncated_at_255 ['='] (List.replicate 300 '7') [';'] 1 2 [] 'a'
    (List.replicate 256 '_') [] 4 1 (by rw [List.length_replicate]; decide)
    (fun x hx => by rw [List.eq_of_mem_replicate hx]; decide) (by decide)
    (by rw [List.length_cons, List.length_replicate]; decide)
    (by decide) (fun x hx => by rw [List.eq_of_mem_replicate hx]; decide) (by decide)


/-- Text that the lexer skips in front of any text leaves kinds and lexemes of
the token sequence as they are. -/
theorem token_stream_skip (a rest : List Char) (ha : ∀ x ∈ a, x ≠ NUL)
    (h : ∀ suf, lexer_next_token (lexer_moved [] 1 1 [] (a ++ suf)) =
      lexer_next_token (lexer_moved [] 1 1 a suf)) :
    (token_stream (a ++ rest)).map Token.content = (token_stream rest).map Token.content := by
  have h1 := token_stream_lexes (a ++ rest)
  rw [lexer_create_moved, takeWhile_append_left _ a rest (by simpa using ha)] at h1
  have h2 := token_stream_lexes rest
  rw [lexer_create_moved] at h2
  exact lexes_relocate _ _ (Nat.lt_succ_self _) (takeWhile_not_nul_mem rest) _ _ _ _ _ _ _ _ _ _
    (LexesTo.of_next_eq (h _) h1) h2

/-- C14: white space and comments are transparent: putting white space, a
closed block comment or a line comment with its newline before a text leaves
the kinds and lexemes of its token sequence unchanged. -/
theorem whitespace_and_comments_transparent (w c d rest : List Char)
    (hw : ∀ x ∈ w, isspace x = true)
    (hc : ∀ x ∈ c, x ≠ NUL) (hno : ¬ ['*', '/'] <:+: c)
    (hd : ∀ x ∈ d, x ≠ NUL ∧ x ≠ '\n') :
    (token_stream (w ++ rest)).map Token.content = (token_stream rest).map Token.content ∧
    (token_stream (['/', '*'] ++ c ++ ['*', '/'] ++ rest)).map Token.content =
      (token_stream rest).map Token.content ∧
    (token_stream (['/', '/'] ++ d ++ ['\n'] ++ rest)).map Token.content =
      (token_stream rest).map Token.content := by
  refine ⟨?_, ?_, ?_⟩
  · refine token_stream_skip w rest ?_ ?_
    · intro x hx e
      rw [e] at hx
      exact absurd (hw _ hx) (by decide)
    · intro suf
      rw [lexer_moved_blanks [] 1 1 w [] suf hw, List.nil_append]
  · refine token_stream_skip (['/', '*'] ++ c ++ ['*', '/']) rest ?_ ?_
    · intro x hx
      simp only [List.cons_append, List.nil_append, List.mem_cons, List.mem_append,
        List.mem_singleton, List.not_mem_nil, or_false] at hx
      rcases hx with rfl | rfl | hx | rfl | rfl
      · decide
      · decide
      · exact hc x hx
      · decide
      · decide
    · intro suf
      have e := lexer_moved_block_comment [] 1 1 [] c suf hc hno
      simp only [List.cons_append, List.nil_append, List.append_assoc] at e ⊢
      exact e
  · refine token_stream_skip (['/', '/'] ++ d ++ ['\n']) rest ?_ ?_
    · intro x hx
      simp only [List.cons_append, List.nil_append, List.mem_cons, List.mem_append,
        List.mem_singleton, List.not_mem_nil, or_false] at hx
      rcases hx with rfl | rfl | hx | rfl
      · decide
      · decide
      · exact (hd x hx).1
      · decide
    · intro suf
      have e := lexer_moved_line_comment [] 1 1 [] d ('\n' :: suf) hd (Or.inr rfl)
      have e2 := lexer_moved_space [] 1 1 ([] ++ '/' :: '/' :: d) '\n' suf (by decide)
      simp only [List.cons_append, List.nil_append, List.append_assoc] at e e2 ⊢
      rw [e, e2]

theorem whitespace_and_comments_transparent_witness :
    (token_stream ([' ', '\t', '\n'] ++ ['x', '+', '1'])).map Token.content =
      (token_stream ['x', '+', '1']).map Token.content ∧
    (token_stream (['/', '*'] ++ ['a', '*', '*'] ++ ['*', '/'] ++ ['x', '+', '1'])).map
        Token.content = (token_stream ['x', '+', '1']).map Token.content ∧
    (token_stream (['/', '/'] ++ ['/', '*', 'b'] ++ ['\n'] ++ ['x', '+', '1'])).map
        Token.content = (token_stream ['x', '+', '1']).map Token.content :=
  whitespace_and_comments_transparent [' ', '\t', '\n'] ['a', '*', '*'] ['/', '*', 'b']
    ['x', '+', '1'] (by decide) (by decide) (by decide) (by decide)

/-- Every call of the lexer on a text returns a token, and the token stands at
an offset of the text. -/
theorem again_stands_at (src : List Char) : ∀ (n : Nat) (pre suf : List Char),
    src = pre ++ suf → (∀ x ∈ suf, x ≠ NUL) → ∃ t l1 off,
    lexer_next_token_again n (lexer_next_token (lexer_moved [] 1 1 pre suf)) = some (t, l1) ∧
    Token.StandsAt src t l1 off := by
  intro n
  induction n with
  | zero =>
    intro pre suf hsrc hnul
    obtain ⟨skipped, body, rest, ty, value, hF, hT, -⟩ := lexer_finds suf hnul
    have e := hF.2 [] 1 1 pre
    have hs : src = (pre ++ skipped) ++ (body ++ rest) := by
      rw [hsrc, hF.1, List.append_assoc]
    refine ⟨_, _, (pre ++ skipped).length, e, ?_, ?_, ?_, ?_, ?_, ?_⟩
    · rw [hs]
      simp [lexer_moved, lexer_at]
    · rw [hs]
      simp only [List.length_append]
      omega
    · rw [hs, List.take_left']
      · rfl
      · rfl
    · rw [hs, List.take_left']
      · rfl
      · rfl
    · intro hty
      rcases hT with ⟨-, -, hb, hr⟩ | ⟨hne, -⟩
      · rw [hs, hb, hr]
        simp
      · exact absurd hty hne
    · intro hty
      rcases hT with ⟨he, -⟩ | ⟨-, hb, hv, hsp, -⟩
      · exact absurd he hty
      · refine ⟨body, hb, ?_, hv, hsp, ?_⟩
        · rw [hs, List.drop_left']
          · exact List.prefix_append _ _
          · rfl
        · simp [lexer_moved, lexer_at, Nat.add_assoc]
  | succ n ih =>
    intro pre suf hsrc hnul
    obtain ⟨skipped, body, rest, ty, value, hF, hT, -⟩ := lexer_finds suf hnul
    have e := hF.2 [] 1 1 pre
    obtain ⟨t, l1, off, h, hoff⟩ := ih (pre ++ (skipped ++ body)) rest
      (by rw [hsrc, hF.1]; simp)
      (fun x hx => hnul x (by
        rw [hF.1]
        exact List.mem_append_right _ (List.mem_append_right _ hx)))
    refine ⟨t, l1, off, ?_, hoff⟩
    show lexer_next_token_again n ((lexer_next_token _).bind _) = _
    rw [e, Option.some_bind]
    exact h

/-- Every token of a text can be lexed again from its lexeme. -/
theorem lexes_relexable : ∀ (n : Nat) (suf : List Char), suf.length < n →
    (∀ c ∈ suf, c ≠ NUL) →
    ∀ (pre : List Char) (line column : Nat) (k : List Char) (ts : List Token),
      LexesTo (lexer_moved pre line column k suf) ts → ∀ t ∈ ts, t.Relexable
  | 0, _, h, _ => absurd h (Nat.not_lt_zero _)
  | n + 1, suf, hn, hnul => by
    intro pre line column k ts h1 t ht
    obtain ⟨skipped, body, rest, ty, value, hF, hT, -⟩ := lexer_finds suf hnul
    have e1 := hF.2 pre line column k
    cases h1 with
    | eof _ t0 l1 f1 ty1 => exact absurd ht (List.not_mem_nil _)
    | token _ t0 l1 ts f1 ty1 g1 =>
      rw [e1] at f1
      simp only [Option.some.injEq, Prod.mk.injEq] at f1
      obtain ⟨rfl, rfl⟩ := f1
      rcases hT with ⟨he, -⟩ | ⟨hne, hb, hv, hsp, hre⟩
      · exact absurd he ty1
      · have hsub : ∀ x ∈ body, x ≠ NUL := by
          intro x hx
          refine hnul x ?_
          rw [hF.1]
          exact List.mem_append_right _ (List.mem_append_left _ hx)
        rcases List.mem_cons.1 ht with rfl | ht
        · refine ⟨body.take 255, hv, hne, ?_, ?_, ?_, hre⟩
          · cases body with
            | nil => exact absurd rfl hb
            | cons b bs => simp
          · cases body with
            | nil => exact absurd rfl hb
            | cons b bs => exact hsp
          · exact fun x hx => hsub x (List.mem_of_mem_take hx)
        · have hlen := congrArg List.length hF.1
          have := List.length_pos.2 hb
          simp only [List.length_append] at hlen
          refine lexes_relexable n rest (by omega) ?_ _ _ _ _ _ g1 t ht
          intro x hx
          refine hnul x ?_
          rw [hF.1]
          exact List.mem_append_right _ (List.mem_append_right _ hx)

theorem join_lexemes_not_nul : ∀ ts : List Token, (∀ t ∈ ts, t.Relexable) →
    ∀ x ∈ join_lexemes ts, x ≠ NUL
  | [], _, x, hx => absurd hx (List.not_mem_nil _)
  | [t], h, x, hx => by
    obtain ⟨lexeme, hv, -, -, -, hn, -⟩ := h t (List.mem_cons_self _ _)
    rw [join_lexemes, hv] at hx
    exact hn x hx
  | t :: u :: ts, h, x, hx => by
    obtain ⟨lexeme, hv, -, -, -, hn, -⟩ := h t (List.mem_cons_self _ _)
    rw [join_lexemes, hv] at hx
    rcases List.mem_append.1 hx with hx | hx
    · exact hn x hx
    · rcases List.mem_cons.1 hx with rfl | hx
      · decide
      · exact join_lexemes_not_nul (u :: ts) (fun v hv => h v (List.mem_cons_of_mem _ hv)) x hx

/-- The lexemes of relexable tokens, joined by single spaces, lex to tokens of
the same kinds and lexemes. -/
theorem join_lexemes_lexes (pre : List Char) (line column : Nat) :
    ∀ (ts : List Token), (∀ t ∈ ts, t.Relexable) → ∀ k : List Char,
      ∃ ts1, LexesTo (lexer_moved pre line column k (join_lexemes ts)) ts1 ∧
        ts1.map Token.content = ts.map Token.content
  | [], _, k => ⟨[], LexesTo.eof _ _ _ (lexer_moved_eof pre line column k [] rfl) rfl, rfl⟩
  | [t], h, k => by
    obtain ⟨lexeme, hv, hne, -, -, -, hre⟩ := h t (List.mem_cons_self _ _)
    have e := hre pre line column k [] (Or.inr rfl)
    rw [List.append_nil] at e
    refine ⟨[token_create t.type (some (String.mk lexeme)) (position_after line column k).1
      (position_after line column k).2], ?_, ?_⟩
    · rw [join_lexemes, hv]
      exact LexesTo.token _ _ _ _ e hne
        (LexesTo.eof _ _ _ (lexer_moved_eof pre line column _ [] rfl) rfl)
    · simp [Token.content, token_create, hv]
  | t :: u :: ts, h, k => by
    obtain ⟨lexeme, hv, hne, -, -, -, hre⟩ := h t (List.mem_cons_self _ _)
    have e := hre pre line column k (' ' :: join_lexemes (u :: ts)) (Or.inl rfl)
    obtain ⟨ts1, h1, h2⟩ := join_lexemes_lexes pre line column (u :: ts)
      (fun v hv => h v (List.mem_cons_of_mem _ hv)) (k ++ lexeme ++ [' '])
    refine ⟨token_create t.type (some (String.mk lexeme)) (position_after line column k).1
      (position_after line column k).2 :: ts1, ?_, ?_⟩
    · rw [join_lexemes, hv]
      refine LexesTo.token _ _ _ _ e hne (LexesTo.of_next_eq ?_ h1)
      exact (lexer_moved_space pre line column (k ++ lexeme) ' ' _ (by decide)).symm
    · rw [List.map_cons, List.map_cons, h2]
      simp [Token.content, token_create, hv]

/-- C18: lexing again is idempotent: for a text without NUL, the lexemes of
its tokens other than EOF, joined by single spaces, lex to as many tokens, of
the same kinds and the same lexemes. -/
theorem relex_idempotent (s : List Char) (h : ∀ c ∈ s, c ≠ NUL) :
    (token_stream (join_lexemes (token_stream s))).map Token.content =
      (token_stream s).map Token.content := by
  have h1 := token_stream_lexes s
  rw [lexer_create_at s h, ← lexer_moved_nil] at h1
  have hre := lexes_relexable _ s (Nat.lt_succ_self _) h _ _ _ _ _ h1
  obtain ⟨ts1, g1, g2⟩ := join_lexemes_lexes [] 1 1 _ hre []
  have h2 := token_stream_lexes (join_lexemes (token_stream s))
  rw [lexer_create_at _ (join_lexemes_not_nul _ hre), ← lexer_moved_nil] at h2
  rw [LexesTo.unique h2 g1, g2]

theorem relex_idempotent_witness :
    (token_stream (join_lexemes (token_stream "a+=1/*c*/<=b@".data))).map Token.content =
      (token_stream "a+=1/*c*/<=b@".data).map Token.content :=
  relex_idempotent "a+=1/*c*/<=b@".data (by decide)

/-! ## Parser: the trees it builds -/

theorem yields_bind {α β : Type} {Q : α → Prop} {P : β → Prop} {x : ParseM α}
    {f : α → ParseM β} (h1 : Yields Q x) (h2 : ∀ a, Q a → Yields P (f a)) :
    Yields P (x >>= f) := by
  intro b hb
  cases x with
  | error e => cases hb
  | ok a => exact h2 a (h1 a rfl) b hb

theorem yields_any {α : Type} (x : ParseM α) : Yields (fun _ => True) x := fun _ _ => trivial

theorem yields_ite {α : Type} {P : α → Prop} {c : Prop} [Decidable c] {x y : ParseM α}
    (h1 : Yields P x) (h2 : Yields P y) : Yields P (if c then x else y) := by
  split_ifs
  · exact h1
  · exact h2

theorem yields_pure {α : Type} {P : α → Prop} {a : α} (h : P a) :
    Yields P (pure a : ParseM α) := by
  intro b hb
  cases hb
  exact h

theorem yields_error {α : Type} {P : α → Prop} (p : Parser) (message : String) :
    Yields P (parser_error p message : ParseM α) := fun _ hb => by cases hb

theorem yields_out_of_fuel {α : Type} {P : α → Prop} :
    Yields P (.error .out_of_fuel : ParseM α) := fun _ hb => by cases hb

theorem has_unary_op_list_append (a : List ASTNode) (b : ASTNode) :
    ASTNode.has_unary_op_list (a ++ [b]) =
      (ASTNode.has_unary_op_list a || ASTNode.has_unary_op b) := by
  induction a with
  | nil => simp [ASTNode.has_unary_op_list]
  | cons x a ih => simp [ASTNode.has_unary_op_list, ih, Bool.or_assoc]

/-- The expression functions build no `NODE_UNARY_OP` node. -/
theorem expression_plain (n : Nat) :
    (∀ p, Yields Plain (parser_parse_expression n p)) ∧
    (∀ p, Yields Plain (parser_parse_arithmetic n p)) ∧
    (∀ l p, l.has_unary_op = false → Yields Plain (parser_parse_arithmetic_loop n l p)) ∧
    (∀ p, Yields Plain (parser_parse_term n p)) ∧
    (∀ l p, l.has_unary_op = false → Yields Plain (parser_parse_term_loop n l p)) ∧
    (∀ p, Yields Plain (parser_parse_factor n p)) := by
  induction n with
  | zero =>
    refine ⟨?_, ?_, ?_, ?_, ?_, ?_⟩ <;> intros <;> exact yields_out_of_fuel
  | succ n ih =>
    obtain ⟨i1, i2, i3, i4, i5, i6⟩ := ih
    refine ⟨?_, ?_, ?_, ?_, ?_, ?_⟩
    · intro p
      rw [parser_parse_expression]
      refine yields_bind (i2 p) ?_
      rintro ⟨left, p1⟩ hl
      refine yields_ite ?_ (yields_pure hl)
      refine yields_bind (yields_any _) fun p2 _ => ?_
      refine yields_bind (i2 p2) ?_
      rintro ⟨right, p3⟩ hr
      refine yields_pure ?_
      simp only [Plain, ASTNode.has_unary_op] at hl hr ⊢
      rw [hl, hr]
      rfl
    · intro p
      rw [parser_parse_arithmetic]
      refine yields_bind (i4 p) ?_
      rintro ⟨left, p1⟩ hl
      exact i3 left p1 hl
    · intro l p hl
      rw [parser_parse_arithmetic_loop]
      refine yields_ite ?_ (yields_pure hl)
      refine yields_bind (yields_any _) fun p1 _ => ?_
      refine yields_bind (i4 p1) ?_
      rintro ⟨right, p2⟩ hr
      refine i3 _ p2 ?_
      simp only [Plain, ASTNode.has_unary_op] at hr ⊢
      rw [hl, hr]
      rfl
    · intro p
      rw [parser_parse_term]
      refine yields_bind (i6 p) ?_
      rintro ⟨left, p1⟩ hl
      exact i5 left p1 hl
    · intro l p hl
      rw [parser_parse_term_loop]
      refine yields_ite ?_ (yields_pure hl)
      refine yields_bind (yields_any _) fun p1 _ => ?_
      refine yields_bind (i6 p1) ?_
      rintro ⟨right, p2⟩ hr
      refine i5 _ p2 ?_
      simp only [Plain, ASTNode.has_unary_op] at hr ⊢
      rw [hl, hr]
      rfl
    · intro p
      rw [parser_parse_factor]
      refine yields_ite ?_ (yields_ite ?_ (yields_ite ?_ (yields_ite ?_ (yields_error _ _))))
      · exact yields_bind (yields_any _) fun p1 _ => yields_pure rfl
      · exact yields_bind (yields_any _) fun p1 _ => yields_pure rfl
      · refine yields_bind (yields_any _) fun p1 _ => ?_
        refine yields_bind (i1 p1) ?_
        rintro ⟨e, p2⟩ he
        refine yields_bind (yields_any _) ?_
        rintro ⟨ok, p3⟩ -
        exact yields_ite (yields_error _ _) (yields_pure he)
      · refine yields_bind (yields_any _) fun p1 _ => ?_
        refine yields_bind (i6 p1) ?_
        rintro ⟨e, p2⟩ he
        refine yields_pure ?_
        simp only [Plain, ASTNode.has_unary_op] at he ⊢
        rw [he]
        rfl


theorem return_statement_plain (n : Nat) (p : Parser) :
    Yields Plain (parser_parse_return_statement n p) := by
  unfold parser_parse_return_statement
  refine yields_bind (yields_any _) ?_
  rintro ⟨ok, p1⟩ -
  refine yields_ite (yields_error _ _) ?_
  refine yields_bind ((expression_plain n).1 p1) ?_
  rintro ⟨e, p2⟩ he
  refine yields_bind (yields_any _) ?_
  rintro ⟨ok2, p3⟩ -
  exact yields_ite (yields_error _ _) (yields_pure he)

theorem variable_declaration_plain (n : Nat) (p : Parser) :
    Yields Plain (parser_parse_variable_declaration n p) := by
  unfold parser_parse_variable_declaration
  refine yields_bind (yields_any _) fun p1 _ => ?_
  refine yields_ite (yields_error _ _) ?_
  refine yields_bind (yields_any _) fun p2 _ => ?_
  refine yields_bind
    (Q := fun r => ASTNode.has_unary_op_option r.1 = false) ?_ ?_
  · refine yields_ite ?_ (yields_pure rfl)
    refine yields_bind (yields_any _) fun p21 _ => ?_
    refine yields_bind ((expression_plain n).1 p21) ?_
    rintro ⟨e, p22⟩ he
    exact yields_pure he
  · rintro ⟨init_expr, p3⟩ hi
    refine yields_bind (yields_any _) ?_
    rintro ⟨ok, p4⟩ -
    refine yields_ite (yields_error _ _) ?_
    cases init_expr with
    | none => exact yields_pure rfl
    | some e =>
      refine yields_pure ?_
      simp only [Plain, ASTNode.has_unary_op, ASTNode.has_unary_op_option] at hi ⊢
      rw [hi]
      rfl

theorem assignment_plain (n : Nat) (p : Parser) :
    Yields Plain (parser_parse_assignment n p) := by
  unfold parser_parse_assignment
  refine yields_ite (yields_error _ _) ?_
  refine yields_bind (yields_any _) fun p1 _ => ?_
  refine yields_bind (yields_any _) ?_
  rintro ⟨ok, p2⟩ -
  refine yields_ite (yields_error _ _) ?_
  refine yields_bind ((expression_plain n).1 p2) ?_
  rintro ⟨e, p3⟩ he
  refine yields_bind (yields_any _) ?_
  rintro ⟨ok2, p4⟩ -
  refine yields_ite (yields_error _ _) (yields_pure ?_)
  simp only [Plain, ASTNode.has_unary_op] at he ⊢
  rw [he]
  rfl

/-- The statement functions build no `NODE_UNARY_OP` node. -/
theorem statement_plain (n : Nat) :
    (∀ p, Yields Plain (parser_parse_block n p)) ∧
    (∀ acc p, ASTNode.has_unary_op_list acc = false →
      Yields PlainList (parser_parse_block_loop n acc p)) ∧
    (∀ p, Yields Plain (parser_parse_statement n p)) ∧
    (∀ p, Yields Plain (parser_parse_if_statement n p)) ∧
    (∀ p, Yields Plain (parser_parse_while_statement n p)) := by
  induction n with
  | zero =>
    refine ⟨?_, ?_, ?_, ?_, ?_⟩ <;> intros <;> exact yields_out_of_fuel
  | succ n ih =>
    obtain ⟨ihb, ihbl, ihs, ihi, ihw⟩ := ih
    refine ⟨?_, ?_, ?_, ?_, ?_⟩
    · intro p
      rw [parser_parse_block]
      refine yields_bind (yields_any _) ?_
      rintro ⟨ok, p1⟩ -
      refine yields_ite (yields_error _ _) ?_
      refine yields_bind (ihbl [] p1 rfl) ?_
      rintro ⟨statements, p2⟩ hs
      refine yields_bind (yields_any _) ?_
      rintro ⟨ok2, p3⟩ -
      exact yields_pure hs
    · intro acc p hacc
      rw [parser_parse_block_loop]
      refine yields_ite ?_ (yields_pure hacc)
      refine yields_bind (ihs p) ?_
      rintro ⟨statement, p1⟩ hs
      refine ihbl _ p1 ?_
      rw [has_unary_op_list_append, hacc]
      exact hs
    · intro p
      rw [parser_parse_statement]
      exact yields_ite (return_statement_plain n p) (yields_ite (ihi p) (yields_ite (ihw p)
        (yields_ite (variable_declaration_plain n p)
          (yields_ite (assignment_plain n p) (yields_error _ _)))))
    · intro p
      rw [parser_parse_if_statement]
      refine yields_bind (yields_any _) ?_
      rintro ⟨ok, p1⟩ -
      refine yields_ite (yields_error _ _) ?_
      refine yields_bind (yields_any _) ?_
      rintro ⟨ok2, p2⟩ -
      refine yields_ite (yields_error _ _) ?_
      refine yields_bind ((expression_plain n).1 p2) ?_
      rintro ⟨condition, p3⟩ hc
      refine yields_bind (yields_any _) ?_
      rintro ⟨ok3, p4⟩ -
      refine yields_ite (yields_error _ _) ?_
      refine yields_bind (ihb p4) ?_
      rintro ⟨then_branch, p5⟩ ht
      refine yields_ite ?_ (yields_pure ?_)
      · refine yields_bind (yields_any _) fun p6 _ => ?_
        refine yields_bind (ihb p6) ?_
        rintro ⟨else_branch, p7⟩ he
        refine yields_pure ?_
        simp only [Plain, ASTNode.has_unary_op, ASTNode.has_unary_op_option] at hc ht he ⊢
        rw [hc, ht, he]
        rfl
      · simp only [Plain, ASTNode.has_unary_op, ASTNode.has_unary_op_option] at hc ht ⊢
        rw [hc, ht]
        rfl
    · intro p
      rw [parser_parse_while_statement]
      refine yields_bind (yields_any _) ?_
      rintro ⟨ok, p1⟩ -
      refine yields_ite (yields_error _ _) ?_
      refine yields_bind (yields_any _) ?_
      rintro ⟨ok2, p2⟩ -
      refine yields_ite (yields_error _ _) ?_
      refine yields_bind ((expression_plain n).1 p2) ?_
      rintro ⟨condition, p3⟩ hc
      refine yields_bind (yields_any _) ?_
      rintro ⟨ok3, p4⟩ -
      refine yields_ite (yields_error _ _) ?_
      refine yields_bind (ihb p4) ?_
      rintro ⟨body, p5⟩ hb
      refine yields_pure ?_
      simp only [Plain, ASTNode.has_unary_op] at hc hb ⊢
      rw [hc, hb]
      rfl

theorem function_plain (n : Nat) (p : Parser) : Yields Plain (parser_parse_function n p) := by
  unfold parser_parse_function
  refine yields_bind (yields_any _) ?_
  rintro ⟨ok, p1⟩ -
  refine yields_bind (yields_any _) ?_
  rintro ⟨ok1, p2⟩ -
  refine yields_ite (yields_error _ _) (yields_ite (yields_error _ _) ?_)
  refine yields_bind (yields_any _) fun p3 _ => ?_
  refine yields_bind (yields_any _) ?_
  rintro ⟨ok2, p4⟩ -
  refine yields_ite (yields_error _ _) ?_
  refine yields_bind (yields_any _) ?_
  rintro ⟨params, p5⟩ -
  refine yields_bind (yields_any _) ?_
  rintro ⟨ok3, p6⟩ -
  refine yields_bind ((statement_plain n).1 p6) ?_
  rintro ⟨body, p7⟩ hb
  exact yields_pure hb

theorem program_loop_plain (n : Nat) : ∀ (functions : List ASTNode) (p : Parser),
    ASTNode.has_unary_op_list functions = false →
    Yields PlainList (parser_parse_program_loop n functions p) := by
  induction n with
  | zero => intros; exact yields_out_of_fuel
  | succ n ih =>
    intro functions p hf
    rw [parser_parse_program_loop]
    refine yields_ite ?_ (yields_pure hf)
    refine yields_bind (function_plain n p) ?_
    rintro ⟨function, p1⟩ h1
    refine ih _ p1 ?_
    rw [has_unary_op_list_append, hf]
    exact h1

theorem program_plain (p : Parser) :
    Yields (fun t => t.has_unary_op = false) (parser_parse_program p) := by
  unfold parser_parse_program
  refine yields_bind (program_loop_plain _ [] p rfl) ?_
  rintro ⟨functions, p1⟩ hf
  exact yields_pure hf

/-- C19: unary minus is sugar: on a minus sign `parser_parse_factor` parses the
factor after it to a tree `T` and returns `BinaryOp('-', NumberLiteral 0, T)`;
`-5+3` parses to `BinaryOp('+', BinaryOp('-', 0, 5), 3)`; and no tree that the
parser returns, for a program or for an expression, has a `UnaryOp` node. -/
theorem unary_minus_desugars :
    (∀ n p p1 T q, p.current_token.type = TOKEN_MINUS → parser_advance p = .ok p1 →
      parser_parse_factor n p1 = .ok (T, q) →
      parser_parse_factor (n + 1) p = .ok (.binary_op '-' (.number 0) T, q)) ∧
    (∀ p p1 T q, p.current_token.type = TOKEN_MINUS → parser_advance p = .ok p1 →
      Parses parser_parse_factor p1 T q →
      Parses parser_parse_factor p (.binary_op '-' (.number 0) T) q) ∧
    parse_expression_text "-5+3" =
      .ok (.binary_op '+' (.binary_op '-' (.number 0) (.number 5)) (.number 3)) ∧
    (∀ source tree, (parser_create (lexer_create source) >>= parser_parse_program) = .ok tree →
      tree.has_unary_op = false) ∧
    (∀ n p t q, parser_parse_expression n p = .ok (t, q) → t.has_unary_op = false) := by
  have h1 : ∀ n p p1 T q, p.current_token.type = TOKEN_MINUS → parser_advance p = .ok p1 →
      parser_parse_factor n p1 = .ok (T, q) →
      parser_parse_factor (n + 1) p = .ok (.binary_op '-' (.number 0) T, q) := by
    intro n p p1 T q hty ha hf
    rw [parser_parse_factor, if_neg (by rw [hty]; decide), if_neg (by rw [hty]; decide),
      if_neg (by rw [hty]; decide), if_pos hty, ha, ok_bind, hf, ok_bind]
    rfl
  refine ⟨h1, ?_, by decide!, ?_, ?_⟩
  · rintro p p1 T q hty ha ⟨n0, hn0⟩
    refine ⟨n0 + 1, fun n hn => ?_⟩
    obtain ⟨k, rfl⟩ : ∃ k, n = k + 1 := ⟨n - 1, by omega⟩
    exact h1 k p p1 T q hty ha (hn0 k (by omega))
  · intro source tree h
    refine yields_bind (yields_any (parser_create (lexer_create source)))
      (fun p _ => program_plain p) tree h
  · intro n p t q h
    exact (expression_plain n).1 p (t, q) h

theorem unary_minus_desugars_witness :
    Parses parser_parse_factor (parser_after "-(x*2)+3" 0)
      (.binary_op '-' (.number 0) (.binary_op '*' (.variable "x") (.number 2)))
      (parser_after "-(x*2)+3" 6) :=
  unary_minus_desugars.2.1 (parser_after "-(x*2)+3" 0) (parser_after "-(x*2)+3" 1)
    (.binary_op '*' (.variable "x") (.number 2)) (parser_after "-(x*2)+3" 6) (by decide!)
    (by decide!) (parses_factor_of_ok 6 _ _ _ (by decide!))


/-! ## Parser: one relational operator per expression -/

theorem parses_arithmetic_of_ok (n : Nat) (p : Parser) (t : ASTNode) (q : Parser)
    (h : parser_parse_arithmetic n p = .ok (t, q)) : Parses parser_parse_arithmetic p t q :=
  ⟨n, fun m hm => ((expression_fuel_mono n m hm).2.1 p).ok h⟩

theorem is_comparison_not (t ty : TokenType) (h : is_comparison t = true)
    (hty : is_comparison ty = false) : t ≠ ty := by
  rintro rfl
  rw [h] at hty
  cases hty

/-- One relational operator between two arithmetic expressions. -/
theorem parses_expression_relational (p : Parser) (A : ASTNode) (q1 q2 : Parser) (B : ASTNode)
    (q3 : Parser) (hA : Parses parser_parse_arithmetic p A q1)
    (hr : is_comparison q1.current_token.type = true) (ha : parser_advance q1 = .ok q2)
    (hB : Parses parser_parse_arithmetic q2 B q3) :
    Parses parser_parse_expression p
      (.binary_op (comparison_operator q1.current_token.type) A B) q3 := by
  obtain ⟨n1, h1⟩ := hA
  obtain ⟨n2, h2⟩ := hB
  refine ⟨max n1 n2 + 1, fun n hn => ?_⟩
  obtain ⟨k, rfl⟩ : ∃ k, n = k + 1 := ⟨n - 1, by omega⟩
  rw [parser_parse_expression, h1 k (by omega), ok_bind]
  dsimp only
  rw [if_pos hr, ha, ok_bind, h2 k (by omega), ok_bind]
  rfl

/-- An expression in parentheses is a factor. -/
theorem parses_factor_parenthesised (p p1 : Parser) (E : ASTNode) (q q1 : Parser)
    (hp : p.current_token.type = TOKEN_LPAREN) (ha : parser_advance p = .ok p1)
    (hE : Parses parser_parse_expression p1 E q) (hq : q.current_token.type = TOKEN_RPAREN)
    (hb : parser_advance q = .ok q1) : Parses parser_parse_factor p E q1 := by
  obtain ⟨n1, h1⟩ := hE
  refine ⟨n1 + 1, fun n hn => ?_⟩
  obtain ⟨k, rfl⟩ : ∃ k, n = k + 1 := ⟨n - 1, by omega⟩
  rw [parser_parse_factor, if_neg (by rw [hp]; decide), if_neg (by rw [hp]; decide), if_pos hp,
    ha, ok_bind, h1 k (by omega), ok_bind]
  dsimp only
  rw [parser_expect, if_pos hq, hb]
  rfl

/-- A factor that no arithmetic operator follows is an arithmetic expression. -/
theorem parses_arithmetic_of_factor (p : Parser) (T : ASTNode) (q : Parser)
    (h : Parses parser_parse_factor p T q)
    (h1 : ¬ (q.current_token.type = TOKEN_MULTIPLY ∨ q.current_token.type = TOKEN_DIVIDE))
    (h2 : ¬ (q.current_token.type = TOKEN_PLUS ∨ q.current_token.type = TOKEN_MINUS)) :
    Parses parser_parse_arithmetic p T q := by
  obtain ⟨n1, hn1⟩ := h
  refine ⟨n1 + 3, fun n hn => ?_⟩
  obtain ⟨k, rfl⟩ : ∃ k, n = k + 3 := ⟨n - 3, by omega⟩
  rw [parser_parse_arithmetic, parser_parse_term, hn1 (k + 1) (by omega), ok_bind]
  dsimp only
  rw [parser_parse_term_loop, if_neg h1]
  show parser_parse_arithmetic_loop (k + 2) T q = _
  rw [parser_parse_arithmetic_loop, if_neg h2]
  rfl

/-- C20: relational operators do not chain: in `return A r1 B r2 C;` the
expression ends before the second relational operator, with the tree of
`A r1 B`, and the return statement fails with a syntax error reported at the
line and column of that operator; `return (A r1 B) r2 C;` parses to
`BinaryOp(r2, BinaryOp(r1, A, B), C)`. -/
theorem relational_non_chaining :
    (∀ p p1 A q1 q2 B q3, p.current_token.type = TOKEN_RETURN → parser_advance p = .ok p1 →
      Parses parser_parse_arithmetic p1 A q1 → is_comparison q1.current_token.type = true →
      parser_advance q1 = .ok q2 → Parses parser_parse_arithmetic q2 B q3 →
      is_comparison q3.current_token.type = true →
      Parses parser_parse_expression p1
        (.binary_op (comparison_operator q1.current_token.type) A B) q3 ∧
      ∃ n0, ∀ n, n0 ≤ n → parser_parse_return_statement n p =
        .error (.fatal q3.current_token.line q3.current_token.column
          "Expected ';' after return statement")) ∧
    (∀ p p1 p2 A q1 q2 B q3 q4 q5 C q6 q7, p.current_token.type = TOKEN_RETURN →
      parser_advance p = .ok p1 → p1.current_token.type = TOKEN_LPAREN →
      parser_advance p1 = .ok p2 →
      Parses parser_parse_arithmetic p2 A q1 → is_comparison q1.current_token.type = true →
      parser_advance q1 = .ok q2 → Parses parser_parse_arithmetic q2 B q3 →
      q3.current_token.type = TOKEN_RPAREN → parser_advance q3 = .ok q4 →
      is_comparison q4.current_token.type = true → parser_advance q4 = .ok q5 →
      Parses parser_parse_arithmetic q5 C q6 → q6.current_token.type = TOKEN_SEMICOLON →
      parser_advance q6 = .ok q7 →
      Parses parser_parse_return_statement p
        (.return_stmt (.binary_op (comparison_operator q4.current_token.type)
          (.binary_op (comparison_operator q1.current_token.type) A B) C)) q7) ∧
    (parser_create (lexer_create "int main() \x7b return 1 < 2 < 3; \x7d".data) >>=
      parser_parse_program) = .error (.fatal 1 27 "Expected ';' after return statement") ∧
    (parser_create (lexer_create "int main() \x7b return (1 < 2) < 3; \x7d".data) >>=
      parser_parse_program) = .ok (.program [.function "main" [] (.block [.return_stmt
        (.binary_op '<' (.binary_op '<' (.number 1) (.number 2)) (.number 3))])]) := by
  refine ⟨?_, ?_, by decide!, by decide!⟩
  · intro p p1 A q1 q2 B q3 hp ha hA hr1 hq1 hB hr2
    have hE := parses_expression_relational p1 A q1 q2 B q3 hA hr1 hq1 hB
    refine ⟨hE, ?_⟩
    obtain ⟨n0, hn0⟩ := hE
    refine ⟨n0, fun n hn => ?_⟩
    rw [parser_parse_return_statement, parser_expect, if_pos hp, ha]
    simp only [ok_bind, pure_eq_ok, Bool.true_eq_false, if_false]
    rw [hn0 n hn, ok_bind]
    dsimp only
    rw [Parser.expect_other q3 _ (is_comparison_not _ _ hr2 (by decide)), ok_bind]
    rfl
  · intro p p1 p2 A q1 q2 B q3 q4 q5 C q6 q7 hp ha hp1 ha1 hA hr1 hq1 hB hq3 ha3 hr2 ha4 hC
      hq6 ha6
    have hF := parses_factor_parenthesised p1 p2 _ q3 q4 hp1 ha1
      (parses_expression_relational p2 A q1 q2 B q3 hA hr1 hq1 hB) hq3 ha3
    have hne : ∀ ty, is_comparison ty = false → q4.current_token.type ≠ ty :=
      fun ty h => is_comparison_not _ ty hr2 h
    have hL := parses_arithmetic_of_factor p1 _ q4 hF
      (fun h => h.elim (hne _ (by decide)) (hne _ (by decide)))
      (fun h => h.elim (hne _ (by decide)) (hne _ (by decide)))
    obtain ⟨n0, hn0⟩ := parses_expression_relational p1 _ q4 q5 C q6 hL hr2 ha4 hC
    refine ⟨n0, fun n hn => ?_⟩
    rw [parser_parse_return_statement, parser_expect, if_pos hp, ha]
    simp only [ok_bind, pure_eq_ok, Bool.true_eq_false, if_false]
    rw [hn0 n hn, ok_bind]
    dsimp only
    rw [parser_expect, if_pos hq6, ha6]
    rfl

theorem relational_non_chaining_witness :
    (Parses parser_parse_expression (parser_after "return x+1<=2!=y;" 1)
        (.binary_op (comparison_operator (parser_after "return x+1<=2!=y;" 4).current_token.type)
          (.binary_op '+' (.variable "x") (.number 1)) (.number 2))
        (parser_after "return x+1<=2!=y;" 6) ∧
      ∃ n0, ∀ n, n0 ≤ n → parser_parse_return_statement n (parser_after "return x+1<=2!=y;" 0) =
        .error (.fatal (parser_after "return x+1<=2!=y;" 6).current_token.line
          (parser_after "return x+1<=2!=y;" 6).current_token.column
          "Expected ';' after return statement")) ∧
    Parses parser_parse_return_statement (parser_after "return (1<2)==3;" 0)
      (.return_stmt (.binary_op (comparison_operator
          (parser_after "return (1<2)==3;" 6).current_token.type)
        (.binary_op (comparison_operator (parser_after "return (1<2)==3;" 3).current_token.type)
          (.number 1) (.number 2)) (.number 3)))
      (parser_after "return (1<2)==3;" 9) :=
  ⟨relational_non_chaining.1 (parser_after "return x+1<=2!=y;" 0)
      (parser_after "return x+1<=2!=y;" 1) (.binary_op '+' (.variable "x") (.number 1))
      (parser_after "return x+1<=2!=y;" 4) (parser_after "return x+1<=2!=y;" 5) (.number 2)
      (parser_after "return x+1<=2!=y;" 6) (by decide!) (by decide!)
      (parses_arithmetic_of_ok 5 _ _ _ (by decide!)) (by decide!) (by decide!)
      (parses_arithmetic_of_ok 5 _ _ _ (by decide!)) (by decide!),
    relational_non_chaining.2.1 (parser_after "return (1<2)==3;" 0)
      (parser_after "return (1<2)==3;" 1) (parser_after "return (1<2)==3;" 2) (.number 1)
      (parser_after "return (1<2)==3;" 3) (parser_after "return (1<2)==3;" 4) (.number 2)
      (parser_after "return (1<2)==3;" 5) (parser_after "return (1<2)==3;" 6)
      (parser_after "return (1<2)==3;" 7) (.number 3) (parser_after "return (1<2)==3;" 8)
      (parser_after "return (1<2)==3;" 9) (by decide!) (by decide!) (by decide!) (by decide!)
      (parses_arithmetic_of_ok 5 _ _ _ (by decide!)) (by decide!) (by decide!)
      (parses_arithmetic_of_ok 5 _ _ _ (by decide!)) (by decide!) (by decide!) (by decide!)
      (by decide!) (parses_arithmetic_of_ok 5 _ _ _ (by decide!)) (by decide!) (by decide!)⟩

/-! ## Code generator: stack reservation -/

/-- On 32-bit patterns, `x & ~15` clears the four low bits. -/
theorem land_mask_eq (x : Nat) (h : x < 2 ^ 32) : x &&& 0xFFFFFFF0 = 16 * (x / 16) := by
  have hm : (0xFFFFFFF0 : Nat) = (2 ^ 28 - 1) <<< 4 := by decide
  have hx : 16 * (x / 16) = (x >>> 4) <<< 4 := by
    rw [Nat.shiftLeft_eq, Nat.shiftRight_eq_div_pow]
    norm_num
    ring
  rw [hm, hx]
  apply Nat.eq_of_testBit_eq
  intro i
  rw [Nat.testBit_and, Nat.testBit_shiftLeft, Nat.testBit_shiftLeft, Nat.testBit_shiftRight,
    Nat.testBit_two_pow_sub_one]
  by_cases h4 : 4 ≤ i
  · have e : 4 + (i - 4) = i := by omega
    rw [e]
    by_cases h32 : i - 4 < 28
    · simp [h4, h32]
    · have hb : x.testBit i = false := by
        apply Nat.testBit_lt_two_pow
        exact lt_of_lt_of_le h (Nat.pow_le_pow_right (by decide) (by omega))
      simp [hb]
  · simp [h4]

theorem stack_size_eq (n : Nat) (h : n * 8 + 15 < 2 ^ 31) :
    stack_size n = ((16 * ((n * 8 + 15) / 16) : Nat) : Int) := by
  have e : (n * 8 + 15) &&& 0xFFFFFFF0 = 16 * ((n * 8 + 15) / 16) :=
    land_mask_eq _ (lt_trans h (by decide))
  have hlt : 16 * ((n * 8 + 15) / 16) < 2 ^ 31 :=
    lt_of_le_of_lt (Nat.mul_div_le _ _) h
  unfold stack_size
  simp only [e]
  rw [if_pos hlt]

/-- C24: for a function with `n` parameters, `8n + 15` in `int` range, the
size that `codegen_function` computes is the least multiple of 16 that is at
least `8n`, and the line `subq $size, %rsp` is emitted, between
`movq %rsp, %rbp` and the register pushes, exactly when `n > 0`. -/
theorem stack_reservation_aligned (n : Nat) (h : n * 8 + 15 < 2 ^ 31) :
    (16 ∣ stack_size n ∧ 8 * (n : Int) ≤ stack_size n ∧
      ∀ m : Int, 16 ∣ m → 8 * (n : Int) ≤ m → stack_size n ≤ m) ∧
    (0 < stack_size n ↔ 0 < n) ∧
    (∀ k name params body, params.length = n →
      function_code k (.function name params body) =
        [Line.align_directive 16, Line.label name, Line.pushq Reg.rbp,
          Line.movq_reg Reg.rsp Reg.rbp] ++
        (if 0 < n then [Line.subq_imm (stack_size n) Reg.rsp] else []) ++
        [Line.pushq Reg.rbx, Line.pushq Reg.r12, Line.pushq Reg.r13, Line.pushq Reg.r14,
          Line.pushq Reg.r15] ++ params_code n 0 arg_registers ++ block_code k body ++
        [Line.label ("." ++ name ++ "_return"), Line.popq Reg.r15, Line.popq Reg.r14,
          Line.popq Reg.r13, Line.popq Reg.r12, Line.popq Reg.rbx,
          Line.movq_reg Reg.rbp Reg.rsp, Line.popq Reg.rbp, Line.ret,
          Line.size_directive name]) ∧
    (Line.subq_imm (stack_size n) Reg.rsp).text =
      "\tsubq $" ++ toString (stack_size n).toNat ++ ", %rsp" := by
  have e := stack_size_eq n h
  have hpos : 0 < stack_size n ↔ 0 < n := by
    rw [e]
    omega
  refine ⟨⟨?_, by rw [e]; omega, ?_⟩, hpos, ?_, ?_⟩
  · rw [e]
    exact ⟨((n * 8 + 15) / 16 : Nat), by push_cast; ring⟩
  · rintro m ⟨q, rfl⟩ hm
    rw [e]
    omega
  · intro k name params body hlen
    rw [function_code_eq, hlen, reserve_code]
    by_cases hn : 0 < n
    · rw [if_pos (hpos.2 hn), if_pos hn]
    · rw [if_neg (fun h0 => hn (hpos.1 h0)), if_neg hn]
  · rw [e]
    show "\tsubq $" ++ toString (((16 * ((n * 8 + 15) / 16) : Nat) : Int)) ++ ", " ++ "%rsp" = _
    rw [String.append_assoc _ ", " "%rsp", Int.toNat_ofNat]
    rfl

theorem stack_reservation_aligned_witness :
    16 ∣ stack_size 3 ∧ 8 * ((3 : Nat) : Int) ≤ stack_size 3 ∧
      ∀ m : Int, 16 ∣ m → 8 * ((3 : Nat) : Int) ≤ m → stack_size 3 ≤ m :=
  (stack_reservation_aligned 3 (by decide)).1

/-! ## Code generator: lowering of operators, `if`, `while`, parameters -/

theorem operator_code_other (op : Char)
    (h : op ∉ ['+', '-', '*', '/', '>', '<']) : operator_code op = [] := by
  simp only [List.mem_cons, List.mem_singleton, not_or, List.mem_nil_iff, or_false] at h
  simp [operator_code, codegen_binary_operator, h]

/-- Run of the operand code of a binary node over arithmetic operands: the
left value is in `%rax`, the right one in `%rcx`, and `%rsp` is restored. -/
theorem exec_operands (l r : ASTNode) (m : Machine) (hl : is_arithmetic l = true)
    (hr : is_arithmetic r = true) (dl : division_defined l) (dr : division_defined r) :
    ∃ m1, exec_lines (expression_code r ++ [Line.pushq Reg.rax] ++ expression_code l ++
        [Line.popq Reg.rcx]) m = some m1 ∧
      m1.regs Reg.rax = eval_arithmetic l ∧ m1.regs Reg.rcx = eval_arithmetic r ∧
      m1.regs Reg.rsp = m.regs Reg.rsp := by
  obtain ⟨m1, e1, a1, s1, -⟩ := exec_arithmetic r m hr dr
  obtain ⟨m3, e3, a3, s3, k3⟩ := exec_arithmetic l (m1.push (m1.regs Reg.rax)) hl dl
  have hsp : (m1.push (m1.regs Reg.rax)).regs Reg.rsp = m.regs Reg.rsp - 8 := by
    simp [Machine.push, Machine.store, Machine.set, s1]
  have hmem : (m1.push (m1.regs Reg.rax)).mem (m.regs Reg.rsp - 8) = eval_arithmetic r := by
    simp [Machine.push, Machine.store, Machine.set, s1, a1]
  refine ⟨(m3.set Reg.rsp (m3.regs Reg.rsp + 8)).set Reg.rcx (m3.mem (m3.regs Reg.rsp)),
    ?_, ?_, ?_, ?_⟩
  · simp only [exec_lines_append, e1, Option.some_bind, exec_lines, exec_line, e3]
  · rw [Machine.set_regs_ne _ _ _ _ (by decide), Machine.set_regs_ne _ _ _ _ (by decide), a3]
  · rw [Machine.set_regs_same, s3, hsp, k3 _ (by rw [hsp]), hmem]
  · rw [Machine.set_regs_ne _ _ _ _ (by decide), Machine.set_regs_same, s3, hsp]
    omega

/-- C25: for a binary node with operator `op` and operands `L`, `R`,
`codegen_expression` emits the code of `R`, `pushq %rax`, the code of `L`,
`popq %rcx` and the lines of the operator, in this order; over arithmetic
operands the run of the operand part leaves the value of `L` in `%rax` and
that of `R` in `%rcx`. -/
theorem binary_operation_lowering :
    (∀ (op : Char) (l r : ASTNode) (g : CodeGenerator),
      codegen_expression g (.binary_op op l r) =
        { output := g.output ++ (expression_code r ++ [Line.pushq Reg.rax] ++
            expression_code l ++ [Line.popq Reg.rcx] ++ operator_code op),
          label_count := g.label_count }) ∧
    (∀ (e : ASTNode) (g : CodeGenerator), codegen_expression g e =
      { output := g.output ++ expression_code e, label_count := g.label_count }) ∧
    ([Line.pushq Reg.rax, Line.popq Reg.rcx].map Line.text =
      ["\tpushq %rax", "\tpopq %rcx"]) ∧
    ((operator_code '+').map Line.text = ["\taddq %rcx, %rax"] ∧
      (operator_code '-').map Line.text = ["\tsubq %rcx, %rax"] ∧
      (operator_code '*').map Line.text = ["\timulq %rcx, %rax"] ∧
      (operator_code '/').map Line.text = ["\tcqo", "\tidivq %rcx"] ∧
      (operator_code '>').map Line.text =
        ["\tcmpq %rcx, %rax", "\tsetg %al", "\tmovzbq %al, %rax"] ∧
      (operator_code '<').map Line.text =
        ["\tcmpq %rcx, %rax", "\tsetl %al", "\tmovzbq %al, %rax"] ∧
      ∀ op, op ∉ ['+', '-', '*', '/', '>', '<'] → operator_code op = []) ∧
    (∀ (l r : ASTNode) (m : Machine), is_arithmetic l = true → is_arithmetic r = true →
      division_defined l → division_defined r →
      ∃ m1, exec_lines (expression_code r ++ [Line.pushq Reg.rax] ++ expression_code l ++
          [Line.popq Reg.rcx]) m = some m1 ∧
        m1.regs Reg.rax = eval_arithmetic l ∧ m1.regs Reg.rcx = eval_arithmetic r ∧
        m1.regs Reg.rsp = m.regs Reg.rsp) := by
  refine ⟨?_, fun e g => codegen_expression_frame e g, by decide,
    ⟨by decide, by decide, by decide, by decide, by decide, by decide, operator_code_other⟩,
    exec_operands⟩
  intro op l r g
  rw [codegen_expression_frame, expression_code_binary_op]
  rfl

theorem binary_operation_lowering_witness :
    ∃ m1, exec_lines (expression_code (.number 3) ++ [Line.pushq Reg.rax] ++
        expression_code (.binary_op '*' (.number 2) (.number 5)) ++
        [Line.popq Reg.rcx]) Machine.zero = some m1 ∧
      m1.regs Reg.rax = eval_arithmetic (.binary_op '*' (.number 2) (.number 5)) ∧
      m1.regs Reg.rcx = eval_arithmetic (.number 3) ∧
      m1.regs Reg.rsp = Machine.zero.regs Reg.rsp :=
  binary_operation_lowering.2.2.2.2 (.binary_op '*' (.number 2) (.number 5)) (.number 3)
    Machine.zero (by decide) (by decide) ⟨trivial, trivial, fun h => absurd h (by decide)⟩
    trivial


/-- C26: for an `if` node handled by `codegen_statement` when the label counter
is `k`, the lines emitted are the code of the condition, `cmpq $0, %rax`,
`je .L<k>`, the code of the then-branch, `jmp .L<k+1>`, `.L<k>:`, the code of
the else-branch (nothing when it is absent) and `.L<k+1>:`; the branches draw
their labels from `k+2` onward, and the label `.L<k>` is defined exactly once,
also when the else-branch is absent. -/
theorem if_lowering (c t : ASTNode) (e : Option ASTNode) (g : CodeGenerator) :
    (codegen_statement g (.if_stmt c t e)).output =
      g.output ++ (expression_code c ++
        [Line.cmpq_imm 0 Reg.rax, Line.je (synthesized_label g.label_count)] ++
        block_code (g.label_count + 2) t ++
        [Line.jmp (synthesized_label (g.label_count + 1)),
          Line.label (synthesized_label g.label_count)] ++
        else_code (block_labels (g.label_count + 2) t) e ++
        [Line.label (synthesized_label (g.label_count + 1))]) ∧
    (codegen_statement g (.if_stmt c t e)).label_count =
      else_labels (block_labels (g.label_count + 2) t) e ∧
    (∀ j, else_code j none = [] ∧ else_labels j none = j) ∧
    (∀ b j, else_code j (some b) = block_code j b ∧ else_labels j (some b) = block_labels j b) ∧
    (∀ n g1, codegen_block g1 n =
      { output := g1.output ++ block_code g1.label_count n,
        label_count := block_labels g1.label_count n }) ∧
    g.label_count + 2 ≤ block_labels (g.label_count + 2) t ∧
    block_labels (g.label_count + 2) t ≤ else_labels (block_labels (g.label_count + 2) t) e ∧
    (∀ m, m < g.label_count + 2 →
      List.count (Line.label (synthesized_label m)) (block_code (g.label_count + 2) t) = 0 ∧
      List.count (Line.label (synthesized_label m))
        (else_code (block_labels (g.label_count + 2) t) e) = 0) ∧
    List.count (Line.label (synthesized_label g.label_count))
      (statement_code g.label_count (.if_stmt c t e)) = 1 ∧
    List.count (".L" ++ toString g.label_count ++ ":")
      ((statement_code g.label_count (.if_stmt c t e)).map Line.text) = 1 ∧
    [Line.cmpq_imm 0 Reg.rax, Line.je (synthesized_label g.label_count),
        Line.jmp (synthesized_label (g.label_count + 1)),
        Line.label (synthesized_label g.label_count),
        Line.label (synthesized_label (g.label_count + 1))].map Line.text =
      ["\tcmpq $0, %rax", "\tje .L" ++ toString g.label_count,
        "\tjmp .L" ++ toString (g.label_count + 1), ".L" ++ toString g.label_count ++ ":",
        ".L" ++ toString (g.label_count + 1) ++ ":"] := by
  obtain ⟨h1, c1⟩ := block_code_labels t (g.label_count + 2)
  obtain ⟨h2, c2⟩ := else_code_labels e (block_labels (g.label_count + 2) t)
  obtain ⟨h3, c3⟩ := statement_code_labels (.if_stmt c t e) g.label_count
  have hcount : List.count (Line.label (synthesized_label g.label_count))
      (statement_code g.label_count (.if_stmt c t e)) = 1 := by
    rw [c3, if_pos]
    rw [statement_labels_if]
    omega
  refine ⟨?_, ?_, fun j => ⟨rfl, rfl⟩, fun b j => ⟨rfl, rfl⟩,
    fun n g1 => codegen_block_frame n g1, h1, h2, fun m hm => ⟨?_, ?_⟩, hcount, ?_, ?_⟩
  · rw [codegen_statement_frame, statement_code_if]
  · rw [codegen_statement_frame, statement_labels_if]
  · rw [c1, if_neg (by omega)]
  · rw [c2, if_neg (by omega)]
  · exact (count_label_text g.label_count _).trans hcount
  · simp only [List.map_cons, List.map_nil, Line.text, synthesized_label, Reg.text]
    simp only [← String.append_assoc]
    rfl

theorem if_lowering_witness :
    List.count (Line.label (synthesized_label 1))
        (block_code (codegen_create.label_count + 2)
          (.block [.while_stmt (.number 1) (.block [])])) = 0 ∧
      List.count (Line.label (synthesized_label 1))
        (else_code (block_labels (codegen_create.label_count + 2)
          (.block [.while_stmt (.number 1) (.block [])])) none) = 0 :=
  (if_lowering (.number 1) (.block [.while_stmt (.number 1) (.block [])]) none
    codegen_create).2.2.2.2.2.2.2.1 1 (by decide)

/-- C27: for a `while` node handled by `codegen_statement` when the label
counter is `k`, the lines emitted are `.L<k>:`, the code of the condition,
`cmpq $0, %rax`, `je .L<k+1>`, the code of the body, `jmp .L<k>` and
`.L<k+1>:`, so the condition code stands between the start label and the jump
back to it; the body draws its labels from `k+2` onward. -/
theorem while_lowering (c b : ASTNode) (g : CodeGenerator) :
    (codegen_statement g (.while_stmt c b)).output =
      g.output ++ ([Line.label (synthesized_label g.label_count)] ++ expression_code c ++
        [Line.cmpq_imm 0 Reg.rax, Line.je (synthesized_label (g.label_count + 1))] ++
        block_code (g.label_count + 2) b ++
        [Line.jmp (synthesized_label g.label_count),
          Line.label (synthesized_label (g.label_count + 1))]) ∧
    (codegen_statement g (.while_stmt c b)).label_count = block_labels (g.label_count + 2) b ∧
    (∀ n g1, codegen_block g1 n =
      { output := g1.output ++ block_code g1.label_count n,
        label_count := block_labels g1.label_count n }) ∧
    (∀ e g1, codegen_expression g1 e =
      { output := g1.output ++ expression_code e, label_count := g1.label_count }) ∧
    g.label_count + 2 ≤ block_labels (g.label_count + 2) b ∧
    List.count (Line.label (synthesized_label g.label_count))
      (statement_code g.label_count (.while_stmt c b)) = 1 ∧
    List.count (Line.label (synthesized_label (g.label_count + 1)))
      (statement_code g.label_count (.while_stmt c b)) = 1 ∧
    [Line.label (synthesized_label g.label_count), Line.cmpq_imm 0 Reg.rax,
        Line.je (synthesized_label (g.label_count + 1)),
        Line.jmp (synthesized_label g.label_count),
        Line.label (synthesized_label (g.label_count + 1))].map Line.text =
      [".L" ++ toString g.label_count ++ ":", "\tcmpq $0, %rax",
        "\tje .L" ++ toString (g.label_count + 1), "\tjmp .L" ++ toString g.label_count,
        ".L" ++ toString (g.label_count + 1) ++ ":"] := by
  obtain ⟨h1, -⟩ := block_code_labels b (g.label_count + 2)
  obtain ⟨-, c3⟩ := statement_code_labels (.while_stmt c b) g.label_count
  refine ⟨?_, ?_, fun n g1 => codegen_block_frame n g1,
    fun e g1 => codegen_expression_frame e g1, h1, ?_, ?_, ?_⟩
  · rw [codegen_statement_frame, statement_code_while]
  · rw [codegen_statement_frame, statement_labels_while]
  · rw [c3, if_pos]
    rw [statement_labels_while]
    omega
  · rw [c3, if_pos]
    rw [statement_labels_while]
    omega
  · simp only [List.map_cons, List.map_nil, Line.text, synthesized_label, Reg.text]
    simp only [← String.append_assoc]
    rfl

/-- The parameter copies of `codegen_function`, in closed form. -/
theorem params_code_eq : ∀ n : Nat, params_code n 0 arg_registers =
    ((List.range (min n 6)).zip arg_registers).map
      (fun ir => Line.movq_store ir.2 (-(8 * ((ir.1 : Int) + 1))) Reg.rbp)
  | 0 => by decide
  | 1 => by decide
  | 2 => by decide
  | 3 => by decide
  | 4 => by decide
  | 5 => by decide
  | n + 6 => by
    have h : min (n + 6) 6 = 6 := by omega
    rw [h]
    simp [params_code, codegen_params_loop, arg_registers, MAX_ARGS_IN_REGISTERS, codegen_emit,
      List.range_succ]

/-- C28: for a function with `n` parameters `codegen_function` emits, after the
five pushes of callee-saved registers and before the body, exactly `min(n, 6)`
lines `movq <reg_i>, <-(8*(i+1))>(%rbp)`, for `i` from 0 upwards, with the
registers `%rdi`, `%rsi`, `%rdx`, `%rcx`, `%r8`, `%r9` in this order; a
parameter of index 6 or more is not copied. -/
theorem parameter_reception (n : Nat) :
    params_code n 0 arg_registers =
      ((List.range (min n 6)).zip arg_registers).map
        (fun ir => Line.movq_store ir.2 (-(8 * ((ir.1 : Int) + 1))) Reg.rbp) ∧
    (params_code n 0 arg_registers).length = min n 6 ∧
    arg_registers.map Reg.text = ["%rdi", "%rsi", "%rdx", "%rcx", "%r8", "%r9"] ∧
    (∀ (r : Reg) (i : Nat), (Line.movq_store r (-(8 * ((i : Int) + 1))) Reg.rbp).text =
      "\tmovq " ++ r.text ++ ", " ++ toString (-(8 * ((i : Int) + 1))) ++ "(%rbp)") ∧
    (∀ k name params body,
      function_code k (.function name params body) =
        [Line.align_directive 16, Line.label name, Line.pushq Reg.rbp,
          Line.movq_reg Reg.rsp Reg.rbp] ++ reserve_code params.length ++
        [Line.pushq Reg.rbx, Line.pushq Reg.r12, Line.pushq Reg.r13, Line.pushq Reg.r14,
          Line.pushq Reg.r15] ++ params_code params.length 0 arg_registers ++
        block_code k body ++
        [Line.label ("." ++ name ++ "_return"), Line.popq Reg.r15, Line.popq Reg.r14,
          Line.popq Reg.r13, Line.popq Reg.r12, Line.popq Reg.rbx,
          Line.movq_reg Reg.rbp Reg.rsp, Line.popq Reg.rbp, Line.ret,
          Line.size_directive name]) ∧
    (params_code 2 0 arg_registers).map Line.text =
      ["\tmovq %rdi, -8(%rbp)", "\tmovq %rsi, -16(%rbp)"] ∧
    (params_code 8 0 arg_registers).map Line.text =
      ["\tmovq %rdi, -8(%rbp)", "\tmovq %rsi, -16(%rbp)", "\tmovq %rdx, -24(%rbp)",
        "\tmovq %rcx, -32(%rbp)", "\tmovq %r8, -40(%rbp)", "\tmovq %r9, -48(%rbp)"] := by
  refine ⟨params_code_eq n, ?_, by decide, ?_, ?_, by decide, by decide⟩
  · rw [params_code_eq]
    simp [arg_registers]
  · intro r i
    show "\tmovq " ++ r.text ++ ", " ++ toString (-(8 * ((i : Int) + 1))) ++ "(" ++ "%rbp" ++ ")"
      = _
    rw [String.append_assoc _ "(" "%rbp", String.append_assoc _ _ ")"]
    rfl
  · intro k name params body
    rw [function_code_eq]

/-! ## Parser: the nodes it builds -/

theorem all_nodes_list_append (q : ASTNode → Bool) (a : List ASTNode) (b : ASTNode) :
    ASTNode.all_nodes_list q (a ++ [b]) =
      (ASTNode.all_nodes_list q a && ASTNode.all_nodes q b) := by
  induction a with
  | nil => simp [ASTNode.all_nodes_list]
  | cons x a ih => simp [ASTNode.all_nodes_list, ih, Bool.and_assoc]

/-- The expression functions build number, variable and operator nodes. -/
theorem expression_nodes (q : ASTNode → Bool) (hq : ParserNodes q) (n : Nat) :
    (∀ p, Yields (fun r => r.1.all_nodes q = true) (parser_parse_expression n p)) ∧
    (∀ p, Yields (fun r => r.1.all_nodes q = true) (parser_parse_arithmetic n p)) ∧
    (∀ l p, l.all_nodes q = true →
      Yields (fun r => r.1.all_nodes q = true) (parser_parse_arithmetic_loop n l p)) ∧
    (∀ p, Yields (fun r => r.1.all_nodes q = true) (parser_parse_term n p)) ∧
    (∀ l p, l.all_nodes q = true →
      Yields (fun r => r.1.all_nodes q = true) (parser_parse_term_loop n l p)) ∧
    (∀ p, Yields (fun r => r.1.all_nodes q = true) (parser_parse_factor n p)) := by
  have hbin : ∀ op l r, ASTNode.all_nodes q l = true → ASTNode.all_nodes q r = true →
      ASTNode.all_nodes q (.binary_op op l r) = true := by
    intro op l r hl hr
    simp only [ASTNode.all_nodes, hq.of_binary_op, hl, hr, Bool.and_self]
  induction n with
  | zero =>
    refine ⟨?_, ?_, ?_, ?_, ?_, ?_⟩ <;> intros <;> exact yields_out_of_fuel
  | succ n ih =>
    obtain ⟨i1, i2, i3, i4, i5, i6⟩ := ih
    refine ⟨?_, ?_, ?_, ?_, ?_, ?_⟩
    · intro p
      rw [parser_parse_expression]
      refine yields_bind (i2 p) ?_
      rintro ⟨left, p1⟩ hl
      refine yields_ite ?_ (yields_pure hl)
      refine yields_bind (yields_any _) fun p2 _ => ?_
      refine yields_bind (i2 p2) ?_
      rintro ⟨right, p3⟩ hr
      exact yields_pure (hbin _ _ _ hl hr)
    · intro p
      rw [parser_parse_arithmetic]
      refine yields_bind (i4 p) ?_
      rintro ⟨left, p1⟩ hl
      exact i3 left p1 hl
    · intro l p hl
      rw [parser_parse_arithmetic_loop]
      refine yields_ite ?_ (yields_pure hl)
      refine yields_bind (yields_any _) fun p1 _ => ?_
      refine yields_bind (i4 p1) ?_
      rintro ⟨right, p2⟩ hr
      exact i3 _ p2 (hbin _ _ _ hl hr)
    · intro p
      rw [parser_parse_term]
      refine yields_bind (i6 p) ?_
      rintro ⟨left, p1⟩ hl
      exact i5 left p1 hl
    · intro l p hl
      rw [parser_parse_term_loop]
      refine yields_ite ?_ (yields_pure hl)
      refine yields_bind (yields_any _) fun p1 _ => ?_
      refine yields_bind (i6 p1) ?_
      rintro ⟨right, p2⟩ hr
      exact i5 _ p2 (hbin _ _ _ hl hr)
    · intro p
      rw [parser_parse_factor]
      refine yields_ite ?_ (yields_ite ?_ (yields_ite ?_ (yields_ite ?_ (yields_error _ _))))
      · refine yields_bind (yields_any _) fun p1 _ => yields_pure ?_
        simp only [ASTNode.all_nodes, hq.of_number]
      · refine yields_bind (yields_any _) fun p1 _ => yields_pure ?_
        simp only [ASTNode.all_nodes, hq.of_variable]
      · refine yields_bind (yields_any _) fun p1 _ => ?_
        refine yields_bind (i1 p1) ?_
        rintro ⟨e, p2⟩ he
        refine yields_bind (yields_any _) ?_
        rintro ⟨ok, p3⟩ -
        exact yields_ite (yields_error _ _) (yields_pure he)
      · refine yields_bind (yields_any _) fun p1 _ => ?_
        refine yields_bind (i6 p1) ?_
        rintro ⟨e, p2⟩ he
        refine yields_pure (hbin _ _ _ ?_ he)
        simp only [ASTNode.all_nodes, hq.of_number]


theorem return_statement_nodes (q : ASTNode → Bool) (hq : ParserNodes q) (n : Nat)
    (p : Parser) :
    Yields (fun r => r.1.all_nodes q = true) (parser_parse_return_statement n p) := by
  unfold parser_parse_return_statement
  refine yields_bind (yields_any _) ?_
  rintro ⟨ok, p1⟩ -
  refine yields_ite (yields_error _ _) ?_
  refine yields_bind ((expression_nodes q hq n).1 p1) ?_
  rintro ⟨e, p2⟩ he
  refine yields_bind (yields_any _) ?_
  rintro ⟨ok2, p3⟩ -
  refine yields_ite (yields_error _ _) (yields_pure ?_)
  simp only [ASTNode.all_nodes, hq.of_return_stmt, he, Bool.and_self]

theorem variable_declaration_nodes (q : ASTNode → Bool) (hq : ParserNodes q) (n : Nat)
    (p : Parser) :
    Yields (fun r => r.1.all_nodes q = true) (parser_parse_variable_declaration n p) := by
  unfold parser_parse_variable_declaration
  refine yields_bind (yields_any _) fun p1 _ => ?_
  refine yields_ite (yields_error _ _) ?_
  refine yields_bind (yields_any _) fun p2 _ => ?_
  refine yields_bind
    (Q := fun r => ASTNode.all_nodes_option q r.1 = true) ?_ ?_
  · refine yields_ite ?_ (yields_pure rfl)
    refine yields_bind (yields_any _) fun p21 _ => ?_
    refine yields_bind ((expression_nodes q hq n).1 p21) ?_
    rintro ⟨e, p22⟩ he
    exact yields_pure he
  · rintro ⟨init_expr, p3⟩ hi
    refine yields_bind (yields_any _) ?_
    rintro ⟨ok, p4⟩ -
    refine yields_ite (yields_error _ _) ?_
    cases init_expr with
    | none =>
      refine yields_pure ?_
      simp only [ASTNode.all_nodes, hq.of_variable]
    | some e =>
      refine yields_pure ?_
      simp only [ASTNode.all_nodes_option] at hi
      simp only [ASTNode.all_nodes, hq.of_binary_op, hq.of_variable, hi, Bool.and_self]

theorem assignment_nodes (q : ASTNode → Bool) (hq : ParserNodes q) (n : Nat) (p : Parser) :
    Yields (fun r => r.1.all_nodes q = true) (parser_parse_assignment n p) := by
  unfold parser_parse_assignment
  refine yields_ite (yields_error _ _) ?_
  refine yields_bind (yields_any _) fun p1 _ => ?_
  refine yields_bind (yields_any _) ?_
  rintro ⟨ok, p2⟩ -
  refine yields_ite (yields_error _ _) ?_
  refine yields_bind ((expression_nodes q hq n).1 p2) ?_
  rintro ⟨e, p3⟩ he
  refine yields_bind (yields_any _) ?_
  rintro ⟨ok2, p4⟩ -
  refine yields_ite (yields_error _ _) (yields_pure ?_)
  simp only [ASTNode.all_nodes, hq.of_binary_op, hq.of_variable, he, Bool.and_self]

/-- The statement functions build blocks of statements, and `if` and `while`
nodes whose branches are blocks. -/
theorem statement_nodes (q : ASTNode → Bool) (hq : ParserNodes q) (n : Nat) :
    (∀ p, Yields (fun r => r.1.is_block_node = true ∧ r.1.all_nodes q = true)
      (parser_parse_block n p)) ∧
    (∀ acc p, ASTNode.all_nodes_list q acc = true →
      Yields (fun r => ASTNode.all_nodes_list q r.1 = true)
        (parser_parse_block_loop n acc p)) ∧
    (∀ p, Yields (fun r => r.1.all_nodes q = true) (parser_parse_statement n p)) ∧
    (∀ p, Yields (fun r => r.1.all_nodes q = true) (parser_parse_if_statement n p)) ∧
    (∀ p, Yields (fun r => r.1.all_nodes q = true) (parser_parse_while_statement n p)) := by
  induction n with
  | zero =>
    refine ⟨?_, ?_, ?_, ?_, ?_⟩ <;> intros <;> exact yields_out_of_fuel
  | succ n ih =>
    obtain ⟨ihb, ihbl, ihs, ihi, ihw⟩ := ih
    refine ⟨?_, ?_, ?_, ?_, ?_⟩
    · intro p
      rw [parser_parse_block]
      refine yields_bind (yields_any _) ?_
      rintro ⟨ok, p1⟩ -
      refine yields_ite (yields_error _ _) ?_
      refine yields_bind (ihbl [] p1 rfl) ?_
      rintro ⟨statements, p2⟩ hs
      refine yields_bind (yields_any _) ?_
      rintro ⟨ok2, p3⟩ -
      refine yields_pure ⟨rfl, ?_⟩
      simp only [ASTNode.all_nodes, hq.of_block, Bool.true_and]
      exact hs
    · intro acc p hacc
      rw [parser_parse_block_loop]
      refine yields_ite ?_ (yields_pure hacc)
      refine yields_bind (ihs p) ?_
      rintro ⟨statement, p1⟩ hs
      refine ihbl _ p1 ?_
      rw [all_nodes_list_append, hacc]
      exact hs
    · intro p
      rw [parser_parse_statement]
      exact yields_ite (return_statement_nodes q hq n p) (yields_ite (ihi p) (yields_ite (ihw p)
        (yields_ite (variable_declaration_nodes q hq n p)
          (yields_ite (assignment_nodes q hq n p) (yields_error _ _)))))
    · intro p
      rw [parser_parse_if_statement]
      refine yields_bind (yields_any _) ?_
      rintro ⟨ok, p1⟩ -
      refine yields_ite (yields_error _ _) ?_
      refine yields_bind (yields_any _) ?_
      rintro ⟨ok2, p2⟩ -
      refine yields_ite (yields_error _ _) ?_
      refine yields_bind ((expression_nodes q hq n).1 p2) ?_
      rintro ⟨condition, p3⟩ hc
      refine yields_bind (yields_any _) ?_
      rintro ⟨ok3, p4⟩ -
      refine yields_ite (yields_error _ _) ?_
      refine yields_bind (ihb p4) ?_
      rintro ⟨then_branch, p5⟩ ⟨hb, ht⟩
      refine yields_ite ?_ (yields_pure ?_)
      · refine yields_bind (yields_any _) fun p6 _ => ?_
        refine yields_bind (ihb p6) ?_
        rintro ⟨else_branch, p7⟩ ⟨hb2, he⟩
        refine yields_pure ?_
        simp only [ASTNode.all_nodes, ASTNode.all_nodes_option, hq.of_if_else _ _ _ hb hb2,
          hc, ht, he, Bool.and_self]
      · simp only [ASTNode.all_nodes, ASTNode.all_nodes_option, hq.of_if_stmt _ _ hb, hc, ht,
          Bool.and_self]
    · intro p
      rw [parser_parse_while_statement]
      refine yields_bind (yields_any _) ?_
      rintro ⟨ok, p1⟩ -
      refine yields_ite (yields_error _ _) ?_
      refine yields_bind (yields_any _) ?_
      rintro ⟨ok2, p2⟩ -
      refine yields_ite (yields_error _ _) ?_
      refine yields_bind ((expression_nodes q hq n).1 p2) ?_
      rintro ⟨condition, p3⟩ hc
      refine yields_bind (yields_any _) ?_
      rintro ⟨ok3, p4⟩ -
      refine yields_ite (yields_error _ _) ?_
      refine yields_bind (ihb p4) ?_
      rintro ⟨body, p5⟩ ⟨hb, hbody⟩
      refine yields_pure ?_
      simp only [ASTNode.all_nodes, hq.of_while_stmt _ _ hb, hc, hbody, Bool.and_self]

theorem function_nodes (q : ASTNode → Bool) (hq : ParserNodes q) (n : Nat) (p : Parser) :
    Yields (fun r => r.1.is_function_node = true ∧ r.1.all_nodes q = true)
      (parser_parse_function n p) := by
  unfold parser_parse_function
  refine yields_bind (yields_any _) ?_
  rintro ⟨ok, p1⟩ -
  refine yields_bind (yields_any _) ?_
  rintro ⟨ok1, p2⟩ -
  refine yields_ite (yields_error _ _) (yields_ite (yields_error _ _) ?_)
  refine yields_bind (yields_any _) fun p3 _ => ?_
  refine yields_bind (yields_any _) ?_
  rintro ⟨ok2, p4⟩ -
  refine yields_ite (yields_error _ _) ?_
  refine yields_bind (yields_any _) ?_
  rintro ⟨params, p5⟩ -
  refine yields_bind (yields_any _) ?_
  rintro ⟨ok3, p6⟩ -
  refine yields_bind ((statement_nodes q hq n).1 p6) ?_
  rintro ⟨body, p7⟩ ⟨hb, hbody⟩
  refine yields_pure ⟨hb, ?_⟩
  simp only [ASTNode.all_nodes, hq.of_function _ _ _ hb, hbody, Bool.and_self]

theorem program_loop_nodes (q : ASTNode → Bool) (hq : ParserNodes q) (n : Nat) :
    ∀ (functions : List ASTNode) (p : Parser),
    functions.all ASTNode.is_function_node = true →
    ASTNode.all_nodes_list q functions = true →
    Yields (fun r => r.1.all ASTNode.is_function_node = true ∧
      ASTNode.all_nodes_list q r.1 = true) (parser_parse_program_loop n functions p) := by
  induction n with
  | zero => intros; exact yields_out_of_fuel
  | succ n ih =>
    intro functions p hf ha
    rw [parser_parse_program_loop]
    refine yields_ite ?_ (yields_pure ⟨hf, ha⟩)
    refine yields_bind (function_nodes q hq n p) ?_
    rintro ⟨function, p1⟩ ⟨h1, h2⟩
    refine ih _ p1 ?_ ?_
    · rw [List.all_append, hf]
      simp [h1]
    · rw [all_nodes_list_append, ha]
      exact h2

/-- Every node of a tree that `parser_parse_program` returns is one of those
the parser builds, and the root is a program node. -/
theorem program_nodes (q : ASTNode → Bool) (hq : ParserNodes q) (p : Parser) :
    Yields (fun t => (∃ functions, t = .program functions) ∧ t.all_nodes q = true)
      (parser_parse_program p) := by
  unfold parser_parse_program
  refine yields_bind (program_loop_nodes q hq _ [] p rfl rfl) ?_
  rintro ⟨functions, p1⟩ ⟨hf, ha⟩
  refine yields_pure ⟨⟨functions, rfl⟩, ?_⟩
  simp only [ASTNode.all_nodes, hq.of_program _ hf, Bool.true_and]
  exact ha

theorem arity_ok_nodes : ParserNodes ASTNode.arity_ok where
  of_number := fun _ => rfl
  of_variable := fun _ => rfl
  of_binary_op := fun _ _ _ => rfl
  of_return_stmt := fun _ => rfl
  of_if_stmt := fun _ _ h => h
  of_if_else := fun _ _ _ h1 h2 => by simp [ASTNode.arity_ok, h1, h2]
  of_while_stmt := fun _ _ h => h
  of_block := fun _ => rfl
  of_function := fun _ _ _ h => h
  of_program := fun _ h => h

/-- C21: for every source on which `parser_parse_program` succeeds, the tree
is a program node, and every node of it follows the arity rules: the children
of the program are function nodes with a block body, the then-branch of every
`if` is a block and its else-branch is absent or a block, the body of every
`while` is a block; conditions, return expressions and both operands of every
operator are present. -/
theorem ast_arity_well_formed (source : List Char) (tree : ASTNode)
    (h : (parser_create (lexer_create source) >>= parser_parse_program) = .ok tree) :
    (∃ functions, tree = .program functions ∧
      functions.all ASTNode.is_function_node = true) ∧
    tree.all_nodes ASTNode.arity_ok = true := by
  obtain ⟨⟨functions, rfl⟩, h2⟩ :=
    yields_bind (yields_any (parser_create (lexer_create source)))
      (fun p _ => program_nodes ASTNode.arity_ok arity_ok_nodes p) tree h
  refine ⟨⟨functions, rfl, ?_⟩, h2⟩
  simp only [ASTNode.all_nodes, Bool.and_eq_true] at h2
  exact h2.1


theorem ast_arity_well_formed_witness :
    (∃ functions,
      ASTNode.program [.function "main" [] (.block [
        .if_stmt (.number 1) (.block [.return_stmt (.number 2)])
          (some (.block [.while_stmt (.number 0) (.block [])])),
        .return_stmt (.number 3)])] = .program functions ∧
      functions.all ASTNode.is_function_node = true) ∧
    (ASTNode.program [.function "main" [] (.block [
        .if_stmt (.number 1) (.block [.return_stmt (.number 2)])
          (some (.block [.while_stmt (.number 0) (.block [])])),
        .return_stmt (.number 3)])]).all_nodes ASTNode.arity_ok = true :=
  ast_arity_well_formed
    "int main() \x7b if (1) \x7b return 2; \x7d else \x7b while (0) \x7b \x7d \x7d return 3; \x7d".data
    _ (by decide!)

/-! ## Parser: what a successful parse says about the tokens -/

/-- A parse that succeeds has read a program of the grammar, up to
end-of-input; a parse never stops for lack of fuel. -/
theorem parse_program_sound (source : List Char) :
    (∀ tree, (parser_create (lexer_create source) >>= parser_parse_program) = .ok tree →
      Derives .program ((token_stream source).map Token.type)) ∧
    (parser_create (lexer_create source) >>= parser_parse_program) ≠ .error .out_of_fuel := by
  obtain ⟨p, e, r, -⟩ := Parser.reads_of_create (lexer_create_cursor_ok source)
    (token_stream_lexes source)
  have hb := r.bound
  have hs := program_loop_spec (parser_fuel p) [] p _ r
  rw [e, ok_bind, parser_parse_program]
  cases hx : parser_parse_program_loop (parser_fuel p) [] p with
  | ok res =>
    obtain ⟨functions, q⟩ := res
    rw [hx] at hs
    obtain ⟨w, rest, hw, hq, hd, heof⟩ := hs
    obtain rfl := hq.nil_of_eof heof
    rw [List.append_nil] at hw
    rw [hw]
    exact ⟨fun _ _ => hd, fun h => by cases h⟩
  | error err =>
    cases err with
    | fatal line column message =>
      exact ⟨fun _ h => (by cases h), fun h => (by cases h)⟩
    | out_of_fuel =>
      rw [hx] at hs
      have hlow : parser_fuel p < 8 * (token_stream source).length + 1 := hs
      unfold parser_fuel at hlow
      omega

/-- A parse that does not succeed has stopped in `parser_error`. -/
theorem parse_program_fails (source : List Char)
    (h : ∀ tree, (parser_create (lexer_create source) >>= parser_parse_program) ≠ .ok tree) :
    ∃ line column message, (parser_create (lexer_create source) >>= parser_parse_program) =
      .error (.fatal line column message) := by
  have h2 := (parse_program_sound source).2
  cases hx : (parser_create (lexer_create source) >>= parser_parse_program) with
  | ok tree => exact absurd hx (h tree)
  | error err =>
    cases err with
    | fatal line column message => exact ⟨line, column, message, rfl⟩
    | out_of_fuel => exact absurd hx h2

theorem relOp_terminal (op : TokenType) (h : is_relOp op) : op ∈ grammar_terminals := by
  rcases h with rfl | rfl | rfl | rfl | rfl | rfl <;> decide

/-- Every token kind of a derivable sequence is a terminal of the grammar. -/
theorem derives_terminals {X : Nonterminal} {w : List TokenType} (h : Derives X w) :
    ∀ k ∈ w, k ∈ grammar_terminals := by
  induction h with
  | function ret params body h0 h1 h2 ih1 ih2 =>
    intro k hk
    simp only [List.mem_cons, List.mem_append] at hk
    rcases hk with rfl | rfl | rfl | hk | rfl | hk
    · rcases h0 with rfl | rfl <;> decide
    · decide
    · decide
    · exact ih1 k hk
    · decide
    · exact ih2 k hk
  | expression_rel a op b h1 h0 h2 ih1 ih2 =>
    intro k hk
    simp only [List.mem_cons, List.mem_append] at hk
    rcases hk with hk | rfl | hk
    · exact ih1 k hk
    · exact relOp_terminal k h0
    · exact ih2 k hk
  | arithmeticTail_cons op t tail h0 h1 h2 ih1 ih2 =>
    intro k hk
    simp only [List.mem_cons, List.mem_append] at hk
    rcases hk with rfl | hk | hk
    · rcases h0 with rfl | rfl <;> decide
    · exact ih1 k hk
    · exact ih2 k hk
  | termTail_cons op t tail h0 h1 h2 ih1 ih2 =>
    intro k hk
    simp only [List.mem_cons, List.mem_append] at hk
    rcases hk with rfl | hk | hk
    · rcases h0 with rfl | rfl <;> decide
    · exact ih1 k hk
    · exact ih2 k hk
  | _ =>
    first
      | assumption
      | (simp only [List.forall_mem_cons, List.forall_mem_append, List.mem_nil_iff,
          List.not_mem_nil, false_imp_iff, implies_true, and_true]
         repeat' constructor
         all_goals assumption)


/-- C23: lexical anomalies always end in a syntax error: when the token
sequence of a source has an ERROR token before end-of-input,
`parser_parse_program` stops in `parser_error`; and whenever it succeeds, no
token of the source is an ERROR token. -/
theorem error_token_escalates (source : List Char) :
    ((∃ t ∈ token_stream source, t.type = TOKEN_ERROR) →
      ∃ line column message,
        (parser_create (lexer_create source) >>= parser_parse_program) =
          .error (.fatal line column message)) ∧
    (∀ tree, (parser_create (lexer_create source) >>= parser_parse_program) = .ok tree →
      ∀ t ∈ token_stream source, t.type ≠ TOKEN_ERROR) := by
  have h2 : ∀ tree, (parser_create (lexer_create source) >>= parser_parse_program) = .ok tree →
      ∀ t ∈ token_stream source, t.type ≠ TOKEN_ERROR := by
    intro tree h t ht hty
    have hd := derives_terminals ((parse_program_sound source).1 tree h) t.type
      (List.mem_map_of_mem _ ht)
    rw [hty] at hd
    exact absurd hd (by decide)
  refine ⟨?_, h2⟩
  rintro ⟨t, ht, hty⟩
  exact parse_program_fails source fun tree h => h2 tree h t ht hty

theorem error_token_escalates_witness :
    ∃ line column message,
      (parser_create (lexer_create "int main() \x7b return 1 @ 2; \x7d".data) >>=
        parser_parse_program) = .error (.fatal line column message) :=
  (error_token_escalates "int main() \x7b return 1 @ 2; \x7d".data).1
    ⟨token_create TOKEN_ERROR (some "@") 1 23, by decide!, rfl⟩

/-! ## Parser: the token after `return` -/

theorem returnsOk_nil : ReturnsOk [] := by
  intro prev h
  simpa [returns_ok] using h

theorem returnsOk_cons (k : TokenType) (w : List TokenType) (hk : k ≠ TOKEN_RETURN)
    (hw : ReturnsOk w) : ReturnsOk (k :: w) := by
  intro prev h
  simp [returns_ok, h, hw k hk]

theorem returns_ok_append (prev : TokenType) (a b : List TokenType)
    (ha : returns_ok prev a = true) (hb : ReturnsOk b) : returns_ok prev (a ++ b) = true := by
  induction a generalizing prev with
  | nil =>
    refine hb prev ?_
    simpa [returns_ok] using ha
  | cons k a ih =>
    simp only [returns_ok, Bool.and_eq_true] at ha
    simp only [List.cons_append, returns_ok, Bool.and_eq_true]
    exact ⟨ha.1, ih k ha.2⟩

theorem returnsOk_append (a b : List TokenType) (ha : ReturnsOk a) (hb : ReturnsOk b) :
    ReturnsOk (a ++ b) :=
  fun prev h => returns_ok_append prev a b (ha prev h) hb

theorem factor_first (w : List TokenType) (h : Derives .factor w) :
    ∃ k w1, w = k :: w1 ∧ k ∈ factor_starts := by
  cases h with
  | factor_number => exact ⟨_, _, rfl, by decide⟩
  | factor_identifier => exact ⟨_, _, rfl, by decide⟩
  | factor_paren e h => exact ⟨_, _, rfl, by decide⟩
  | factor_minus f h => exact ⟨_, _, rfl, by decide⟩

theorem expression_first (w : List TokenType) (h : Derives .expression w) :
    ∃ k w1, w = k :: w1 ∧ k ∈ factor_starts := by
  have hterm : ∀ w, Derives .term w → ∃ k w1, w = k :: w1 ∧ k ∈ factor_starts := by
    intro w h
    cases h with
    | term f tail h1 h2 =>
      obtain ⟨k, w1, rfl, hk⟩ := factor_first f h1
      exact ⟨k, _, rfl, hk⟩
  have harith : ∀ w, Derives .arithmetic w → ∃ k w1, w = k :: w1 ∧ k ∈ factor_starts := by
    intro w h
    cases h with
    | arithmetic t tail h1 h2 =>
      obtain ⟨k, w1, rfl, hk⟩ := hterm t h1
      exact ⟨k, _, rfl, hk⟩
  cases h with
  | expression a h => exact harith _ h
  | expression_rel a op b h1 h0 h2 =>
    obtain ⟨k, w1, rfl, hk⟩ := harith a h1
    exact ⟨k, _, rfl, hk⟩

theorem relOp_not_return (op : TokenType) (h : is_relOp op) : op ≠ TOKEN_RETURN := by
  rcases h with rfl | rfl | rfl | rfl | rfl | rfl <;> decide

/-- In a derivable sequence every `return` is followed by a token that starts
a factor. -/
theorem derives_returnsOk {X : Nonterminal} {w : List TokenType} (h : Derives X w) :
    ReturnsOk w := by
  induction h with
  | function ret params body h0 h1 h2 ih1 ih2 =>
    refine returnsOk_cons _ _ (by rcases h0 with rfl | rfl <;> decide) ?_
    exact returnsOk_cons _ _ (by decide) (returnsOk_cons _ _ (by decide)
      (returnsOk_append _ _ ih1 (returnsOk_cons _ _ (by decide) ih2)))
  | expression_rel a op b h1 h0 h2 ih1 ih2 =>
    exact returnsOk_append _ _ ih1 (returnsOk_cons _ _ (relOp_not_return op h0) ih2)
  | arithmeticTail_cons op t tail h0 h1 h2 ih1 ih2 =>
    exact returnsOk_cons _ _ (by rcases h0 with rfl | rfl <;> decide)
      (returnsOk_append _ _ ih1 ih2)
  | termTail_cons op t tail h0 h1 h2 ih1 ih2 =>
    exact returnsOk_cons _ _ (by rcases h0 with rfl | rfl <;> decide)
      (returnsOk_append _ _ ih1 ih2)
  | returnStmt e h ih =>
    obtain ⟨k, e1, rfl, hk⟩ := expression_first e h
    have h2 := returnsOk_append _ _ ih
      (returnsOk_cons TOKEN_SEMICOLON [] (by decide) returnsOk_nil)
    intro prev hprev
    have h3 := h2 prev hprev
    simp only [List.cons_append, returns_ok, Bool.and_eq_true] at h3 ⊢
    refine ⟨by simp [hprev], ?_, h3.2⟩
    simp [hk]
  | _ =>
    first
      | assumption
      | exact returnsOk_nil
      | (repeat' first
          | assumption
          | exact returnsOk_nil
          | refine returnsOk_cons _ _ (by decide) ?_
          | refine returnsOk_append _ _ ?_ ?_)


theorem returns_ok_follow : ∀ (u : List TokenType) (prev a b : TokenType) (v : List TokenType),
    returns_ok prev (u ++ a :: b :: v) = true → a = TOKEN_RETURN → b ∈ factor_starts
  | [], prev, a, b, v, h, ha => by
    simp only [List.nil_append, returns_ok, Bool.and_eq_true, Bool.or_eq_true] at h
    rcases h.2.1 with h1 | h1
    · simp [ha] at h1
    · simpa using h1
  | k :: u, prev, a, b, v, h, ha => by
    simp only [List.cons_append, returns_ok, Bool.and_eq_true] at h
    exact returns_ok_follow u k a b v h.2 ha

theorem returns_ok_last : ∀ (u : List TokenType) (prev a : TokenType),
    returns_ok prev (u ++ [a]) = true → a ≠ TOKEN_RETURN
  | [], prev, a, h => by
    simp only [List.nil_append, returns_ok, Bool.and_eq_true] at h
    simpa using h.2
  | k :: u, prev, a, h => by
    simp only [List.cons_append, returns_ok, Bool.and_eq_true] at h
    exact returns_ok_last u k a h.2

theorem parser_advance_current (p p1 : Parser) (h : parser_advance p = .ok p1) :
    p1.current_token = p.peek_token := by
  unfold parser_advance at h
  cases hx : parser_next_token p.lexer with
  | error e =>
    rw [hx] at h
    cases h
  | ok r =>
    rw [hx] at h
    cases h
    rfl

/-- A statement that starts with `return` and goes on with a token that starts
no factor stops in `parser_error` at that token. -/
theorem return_statement_stops (p p1 : Parser) (n : Nat)
    (hp : p.current_token.type = TOKEN_RETURN) (ha : parser_advance p = .ok p1)
    (ht : p.peek_token.type ∉ factor_starts) (hn : 5 ≤ n) :
    parser_parse_statement n p =
      .error (.fatal p.peek_token.line p.peek_token.column
        "Expected number, identifier, or '('") := by
  obtain ⟨k, rfl⟩ : ∃ k, n = k + 5 := ⟨n - 5, by omega⟩
  have hc := parser_advance_current p p1 ha
  simp only [factor_starts, List.mem_cons, List.mem_singleton, not_or, List.mem_nil_iff,
    or_false] at ht
  rw [← hc] at ht ⊢
  rw [parser_parse_statement, if_pos hp, parser_parse_return_statement, parser_expect,
    if_pos hp, ha]
  simp only [ok_bind, pure_eq_ok, Bool.true_eq_false, if_false]
  rw [parser_parse_expression, parser_parse_arithmetic, parser_parse_term, parser_parse_factor,
    if_neg ht.1, if_neg ht.2.1, if_neg ht.2.2.1, if_neg ht.2.2.2]
  rfl


/-- C22 (amended): a source in which a `return` token is followed by a token
that starts no factor, or by end-of-input, does not parse: parsing stops in
`parser_error`. When the parser reaches the statement that starts with this
`return`, the error is reported at the line and column of the token that
follows it; an earlier syntax error is reported at its own place. For
`int main() { return }` the error is reported at line 1, column 21, the
position of the closing brace. -/
theorem return_expression_missing :
    (∀ source : List Char,
      ((∃ u r t v, token_stream source = u ++ r :: t :: v ∧ r.type = TOKEN_RETURN ∧
          t.type ∉ factor_starts) ∨
        (∃ u r, token_stream source = u ++ [r] ∧ r.type = TOKEN_RETURN)) →
      ∃ line column message,
        (parser_create (lexer_create source) >>= parser_parse_program) =
          .error (.fatal line column message)) ∧
    (∀ (p p1 : Parser) (n : Nat), p.current_token.type = TOKEN_RETURN →
      parser_advance p = .ok p1 → p.peek_token.type ∉ factor_starts → 5 ≤ n →
      parser_parse_statement n p =
        .error (.fatal p.peek_token.line p.peek_token.column
          "Expected number, identifier, or '('")) ∧
    (∀ (p : Parser) (r t : Token) (rest : List Token), p.reads (r :: t :: rest) →
      p.current_token = r ∧ p.peek_token = t) ∧
    (parser_create (lexer_create "int main() \x7b return \x7d".data) >>=
      parser_parse_program) = .error (.fatal 1 21 "Expected number, identifier, or '('") := by
  refine ⟨?_, return_statement_stops, fun p r t rest h => ⟨h.2.1, h.2.2.2.1⟩, by decide!⟩
  intro source h
  refine parse_program_fails source fun tree htree => ?_
  have hd := derives_returnsOk ((parse_program_sound source).1 tree htree) TOKEN_EOF
    (by decide)
  rcases h with ⟨u, r, t, v, e, hr, ht⟩ | ⟨u, r, e, hr⟩
  · rw [e] at hd
    simp only [List.map_append, List.map_cons] at hd
    exact ht (returns_ok_follow _ _ _ _ _ hd hr)
  · rw [e] at hd
    simp only [List.map_append, List.map_cons, List.map_nil] at hd
    exact returns_ok_last _ _ _ hd hr

theorem return_expression_missing_witness :
    parser_parse_statement 5 (parser_after "int main() \x7b return \x7d" 5) =
      .error (.fatal (parser_after "int main() \x7b return \x7d" 5).peek_token.line
        (parser_after "int main() \x7b return \x7d" 5).peek_token.column
        "Expected number, identifier, or '('") :=
  return_expression_missing.2.1 (parser_after "int main() \x7b return \x7d" 5)
    (parser_after "int main() \x7b return \x7d" 6) 5 (by decide!) (by decide!) (by decide!)
    (by decide)

/-- C22 (claim as stated, at a concrete input): in
`int main() { int x = 1 return }` the token `return` at column 24 is followed
by the closing brace at column 31, which starts no factor, but the error
reported is the missing semicolon of the declaration, at the `return` token,
line 1, column 24. -/
theorem return_error_position_counterexample :
    ∃ u r t v, token_stream "int main() \x7b int x = 1 return \x7d".data = u ++ r :: t :: v ∧
      r.type = TOKEN_RETURN ∧ t.type ∉ factor_starts ∧ (t.line, t.column) = (1, 31) ∧
      (parser_create (lexer_create "int main() \x7b int x = 1 return \x7d".data) >>=
        parser_parse_program) =
        .error (.fatal 1 24 "Expected ';' after variable declaration") :=
  ⟨(token_stream "int main() \x7b int x = 1 return \x7d".data).take 9,
    token_create TOKEN_RETURN (some "return") 1 24,
    token_create TOKEN_RBRACE (some "\x7d") 1 31, [], by decide!, rfl, by decide, rfl,
    by decide!⟩

/-! ## Parser: identifiers before a parenthesis -/

theorem not_call_nodes : ParserNodes ASTNode.not_call where
  of_number := fun _ => rfl
  of_variable := fun _ => rfl
  of_binary_op := fun _ _ _ => rfl
  of_return_stmt := fun _ => rfl
  of_if_stmt := fun _ _ _ => rfl
  of_if_else := fun _ _ _ _ _ => rfl
  of_while_stmt := fun _ _ _ => rfl
  of_block := fun _ => rfl
  of_function := fun _ _ _ _ => rfl
  of_program := fun _ _ => rfl

/-- At an identifier `parser_parse_factor` returns its variable node. -/
theorem factor_identifier_variable (n : Nat) (p p1 : Parser)
    (hp : p.current_token.type = TOKEN_IDENTIFIER) (ha : parser_advance p = .ok p1) :
    parser_parse_factor (n + 1) p = .ok (.variable p.lexeme, p1) := by
  rw [parser_parse_factor, if_neg (by rw [hp]; decide), if_pos hp, ha]
  rfl

/-- An identifier before `(` is a whole expression: the variable node. -/
theorem expression_identifier_paren (n : Nat) (p p1 : Parser)
    (hp : p.current_token.type = TOKEN_IDENTIFIER) (ha : parser_advance p = .ok p1)
    (hq : p1.current_token.type = TOKEN_LPAREN) :
    parser_parse_expression (n + 4) p = .ok (.variable p.lexeme, p1) := by
  rw [parser_parse_expression, parser_parse_arithmetic, parser_parse_term,
    factor_identifier_variable n p p1 hp ha, ok_bind]
  dsimp only
  rw [parser_parse_term_loop, if_neg (by rw [hq]; decide), pure_eq_ok, ok_bind]
  dsimp only
  rw [parser_parse_arithmetic_loop, if_neg (by rw [hq]; decide), pure_eq_ok, ok_bind]
  dsimp only
  rw [if_neg (by rw [hq]; decide)]
  rfl


/-- C29 (amended): function calls are not parsed. At an identifier
`parser_parse_factor` returns the variable node of the identifier, whatever
follows; before `(` this node is the whole expression and `(` stays the current
token, so that a return statement `return f(args);` stops in `parser_error` at
the `(`, as does an assignment `x = f(args);`; and no tree that the parser
returns, for a program or for an expression, has a call node. -/
theorem call_not_parsed :
    (∀ (n : Nat) (p p1 : Parser), p.current_token.type = TOKEN_IDENTIFIER →
      parser_advance p = .ok p1 →
      parser_parse_factor (n + 1) p = .ok (.variable p.lexeme, p1)) ∧
    (∀ (n : Nat) (p p1 : Parser), p.current_token.type = TOKEN_IDENTIFIER →
      parser_advance p = .ok p1 → p1.current_token.type = TOKEN_LPAREN →
      parser_parse_expression (n + 4) p = .ok (.variable p.lexeme, p1)) ∧
    (∀ (n : Nat) (p0 p p1 : Parser), p0.current_token.type = TOKEN_RETURN →
      parser_advance p0 = .ok p → p.current_token.type = TOKEN_IDENTIFIER →
      parser_advance p = .ok p1 → p1.current_token.type = TOKEN_LPAREN →
      parser_parse_return_statement (n + 4) p0 =
        .error (.fatal p1.current_token.line p1.current_token.column
          "Expected ';' after return statement")) ∧
    (∀ source tree, (parser_create (lexer_create source) >>= parser_parse_program) = .ok tree →
      tree.all_nodes ASTNode.not_call = true) ∧
    (∀ n p t q, parser_parse_expression n p = .ok (t, q) →
      t.all_nodes ASTNode.not_call = true) ∧
    (parser_create (lexer_create "int main() \x7b return f(1, 2); \x7d".data) >>=
      parser_parse_program) = .error (.fatal 1 22 "Expected ';' after return statement") ∧
    (parser_create (lexer_create "int main() \x7b x = f(1); \x7d".data) >>=
      parser_parse_program) = .error (.fatal 1 19 "Expected ';' after assignment") := by
  refine ⟨factor_identifier_variable, expression_identifier_paren, ?_, ?_, ?_, by decide!,
    by decide!⟩
  · intro n p0 p p1 h0 ha0 hp ha hq
    rw [parser_parse_return_statement, parser_expect, if_pos h0, ha0]
    simp only [ok_bind, pure_eq_ok, Bool.true_eq_false, if_false]
    rw [expression_identifier_paren n p p1 hp ha hq, ok_bind]
    dsimp only
    rw [Parser.expect_other p1 _ (by rw [hq]; decide), ok_bind]
    rfl
  · intro source tree h
    exact (yields_bind (yields_any (parser_create (lexer_create source)))
      (fun p _ => program_nodes ASTNode.not_call not_call_nodes p) tree h).2
  · intro n p t q h
    exact (expression_nodes ASTNode.not_call not_call_nodes n).1 p (t, q) h

theorem call_not_parsed_witness :
    parser_parse_return_statement (0 + 4) (parser_after "return f(1, 2);" 0) =
      .error (.fatal (parser_after "return f(1, 2);" 2).current_token.line
        (parser_after "return f(1, 2);" 2).current_token.column
        "Expected ';' after return statement") :=
  call_not_parsed.2.2.1 0 (parser_after "return f(1, 2);" 0) (parser_after "return f(1, 2);" 1)
    (parser_after "return f(1, 2);" 2) (by decide!) (by decide!) (by decide!) (by decide!)
    (by decide!)

/-- C29 (claim as stated, at a concrete input): `int main() { return f(1, 2); }`
is not accepted; the parser stops at the `(` after `f`, line 1, column 22. -/
theorem call_rejected_counterexample :
    (parser_create (lexer_create "int main() \x7b return f(1, 2); \x7d".data) >>=
      parser_parse_program) = .error (.fatal 1 22 "Expected ';' after return statement") ∧
    (token_stream "int main() \x7b return f(1, 2); \x7d".data).map
        (fun t => (t.type, t.line, t.column)) =
      [(TOKEN_INT, 1, 1), (TOKEN_IDENTIFIER, 1, 5), (TOKEN_LPAREN, 1, 9), (TOKEN_RPAREN, 1, 10),
        (TOKEN_LBRACE, 1, 12), (TOKEN_RETURN, 1, 14), (TOKEN_IDENTIFIER, 1, 21),
        (TOKEN_LPAREN, 1, 22), (TOKEN_NUMBER, 1, 23), (TOKEN_COMMA, 1, 24),
        (TOKEN_NUMBER, 1, 26), (TOKEN_RPAREN, 1, 27), (TOKEN_SEMICOLON, 1, 28),
        (TOKEN_RBRACE, 1, 30)] := by
  exact ⟨by decide!, by decide!⟩

/-! ## Lexer: quotes -/

theorem keyword_type_kind (s : String) :
    keyword_type s ≠ TOKEN_STRING ∧ keyword_type s ≠ TOKEN_CHAR := by
  unfold keyword_type
  split_ifs <;> exact ⟨by decide, by decide⟩

theorem lexer_operator_not_string (c : Char) (line column : Nat) (l : Lexer) :
    (lexer_operator c line column l).1.type ≠ TOKEN_STRING := by
  unfold lexer_operator
  repeat'
    refine ite_induction (P := fun r : Token × Lexer => r.1.type ≠ TOKEN_STRING)
      (fun _ => ?_) (fun _ => ?_)
  all_goals exact TokenType.noConfusion

theorem lexer_operator_not_char (c : Char) (line column : Nat) (l : Lexer) :
    (lexer_operator c line column l).1.type ≠ TOKEN_CHAR := by
  unfold lexer_operator
  repeat'
    refine ite_induction (P := fun r : Token × Lexer => r.1.type ≠ TOKEN_CHAR)
      (fun _ => ?_) (fun _ => ?_)
  all_goals exact TokenType.noConfusion

/-- No branch of `lexer_next_token` builds a STRING or a CHAR token. -/
theorem lexer_next_token_loop_kind : ∀ (fuel : Nat) (l : Lexer) (t : Token) (l1 : Lexer),
    lexer_next_token_loop fuel l = some (t, l1) →
    t.type ≠ TOKEN_STRING ∧ t.type ≠ TOKEN_CHAR
  | 0, _, _, _, h => by cases h
  | fuel + 1, l, t, l1, h => by
    rw [lexer_next_token_loop] at h
    split_ifs at h with h0 h1 h2 h3 h4
    · cases h
      exact ⟨TokenType.noConfusion, TokenType.noConfusion⟩
    · obtain ⟨l2, -, h5⟩ := Option.bind_eq_some.1 h
      exact lexer_next_token_loop_kind fuel l2 t l1 h5
    · obtain ⟨l2, -, h5⟩ := Option.bind_eq_some.1 h
      exact lexer_next_token_loop_kind fuel l2 t l1 h5
    · unfold lexer_make_number at h
      obtain ⟨r, -, h5⟩ := Option.map_eq_some'.1 h
      cases h5
      exact ⟨TokenType.noConfusion, TokenType.noConfusion⟩
    · unfold lexer_make_identifier at h
      obtain ⟨r, -, h5⟩ := Option.map_eq_some'.1 h
      cases h5
      exact keyword_type_kind _
    · have h5 : (lexer_operator l.current_char l.line l.column (lexer_advance l)).1 = t :=
        congrArg Prod.fst (Option.some.inj h)
      rw [← h5]
      exact ⟨lexer_operator_not_string _ _ _ _, lexer_operator_not_char _ _ _ _⟩

theorem lexes_kind {l : Lexer} {ts : List Token} (h : LexesTo l ts) :
    ∀ t ∈ ts, t.type ≠ TOKEN_STRING ∧ t.type ≠ TOKEN_CHAR := by
  induction h with
  | eof l t l1 e ty => exact fun _ h => absurd h (List.not_mem_nil _)
  | token l t l1 ts e ty h3 ih =>
    intro u hu
    rcases List.mem_cons.1 hu with rfl | hu
    · exact lexer_next_token_loop_kind _ _ _ _ e
    · exact ih u hu

/-- A quote is an unrecognised character: ERROR token of the one character. -/
theorem lexer_at_quote (c : Char) (hc : c = DQUOTE ∨ c = SQUOTE) (pre suf : List Char)
    (line column : Nat) :
    lexer_next_token (lexer_at pre (c :: suf) line column) =
      some (token_create TOKEN_ERROR (some (String.mk [c])) line column,
        lexer_at (pre ++ [c]) suf line (column + 1)) := by
  have e := lexer_moved_operator pre line column [] c suf
    (by rcases hc with rfl | rfl <;> decide) (by rcases hc with rfl | rfl <;> decide)
    (fun h => by rcases hc with rfl | rfl <;> exact absurd h.1 (by decide))
    (by rcases hc with rfl | rfl <;> decide) (by rcases hc with rfl | rfl <;> decide)
    (by rcases hc with rfl | rfl <;> decide)
  rw [lexer_moved_nil, lexer_operator_unrecognised _ _ _ _
    (by rcases hc with rfl | rfl <;> decide)] at e
  rw [e]
  have hnl : c ≠ '\n' := by rcases hc with rfl | rfl <;> decide
  simp [lexer_moved, position_after, hnl]


/-- C30 (amended): string and character literals are not tokenized. At a
double or single quote `lexer_next_token` returns an ERROR token whose lexeme
is the quote alone, leaves the cursor on the next character, and lexes the
content of the literal as ordinary tokens; no call of `lexer_next_token`
returns a token of kind STRING or CHAR, so no token of any source has one of
these kinds. -/
theorem quotes_not_tokenized :
    (∀ c, c = DQUOTE ∨ c = SQUOTE → ∀ (pre suf : List Char) (line column : Nat),
      lexer_next_token (lexer_at pre (c :: suf) line column) =
        some (token_create TOKEN_ERROR (some (String.mk [c])) line column,
          lexer_at (pre ++ [c]) suf line (column + 1))) ∧
    (∀ l t l1, lexer_next_token l = some (t, l1) →
      t.type ≠ TOKEN_STRING ∧ t.type ≠ TOKEN_CHAR) ∧
    (∀ source, ∀ t ∈ token_stream source, t.type ≠ TOKEN_STRING ∧ t.type ≠ TOKEN_CHAR) ∧
    (token_stream [DQUOTE, 'a', 'b', 'c', DQUOTE]).map Token.content =
      [(TOKEN_ERROR, some (String.mk [DQUOTE])), (TOKEN_IDENTIFIER, some "abc"),
        (TOKEN_ERROR, some (String.mk [DQUOTE]))] ∧
    (token_stream [SQUOTE, 'a', SQUOTE]).map Token.content =
      [(TOKEN_ERROR, some (String.mk [SQUOTE])), (TOKEN_IDENTIFIER, some "a"),
        (TOKEN_ERROR, some (String.mk [SQUOTE]))] :=
  ⟨fun c hc pre suf line column => lexer_at_quote c hc pre suf line column,
    fun l t l1 h => lexer_next_token_loop_kind _ l t l1 h,
    fun source => lexes_kind (token_stream_lexes source), by decide!, by decide!⟩

theorem quotes_not_tokenized_witness :
    lexer_next_token (lexer_at ['x', '='] (DQUOTE :: ['h', 'i', DQUOTE, ';']) 1 3) =
      some (token_create TOKEN_ERROR (some (String.mk [DQUOTE])) 1 3,
        lexer_at (['x', '='] ++ [DQUOTE]) ['h', 'i', DQUOTE, ';'] 1 (3 + 1)) :=
  quotes_not_tokenized.1 DQUOTE (Or.inl rfl) ['x', '='] ['h', 'i', DQUOTE, ';'] 1 3

/-- C30 (claim as stated, at a concrete input): on the string literal `abc` in
double quotes the first call returns an ERROR token for the opening quote, not
a STRING token, and the literal gives three tokens; likewise the character
literal `a` in single quotes. -/
theorem string_literal_counterexample :
    (token_stream [DQUOTE, 'a', 'b', 'c', DQUOTE]).map
        (fun t => (t.type, t.value, t.line, t.column)) =
      [(TOKEN_ERROR, some (String.mk [DQUOTE]), 1, 1), (TOKEN_IDENTIFIER, some "abc", 1, 2),
        (TOKEN_ERROR, some (String.mk [DQUOTE]), 1, 5)] ∧
    (token_stream [SQUOTE, 'a', SQUOTE]).map
        (fun t => (t.type, t.value, t.line, t.column)) =
      [(TOKEN_ERROR, some (String.mk [SQUOTE]), 1, 1), (TOKEN_IDENTIFIER, some "a", 1, 2),
        (TOKEN_ERROR, some (String.mk [SQUOTE]), 1, 3)] := by
  exact ⟨by decide!, by decide!⟩

/-! ## Code generator: parameter slots -/

/-- C34: for a function with `n` parameters, `8n + 15` in `int` range, and
every index `i < min(n, 6)`, the offset `8*(i+1)` of the parameter copy is at
most the reserved size `(8n + 15) & ~15`; every parameter copy that
`codegen_function` emits stores at such an offset below `%rbp`, and its
quadword lies above the quadwords of the registers pushed below the reserved
area, whatever the frame base. -/
theorem parameter_slots_in_frame (n i : Nat) (hn : n * 8 + 15 < 2 ^ 31) (hi : i < min n 6) :
    8 * ((i : Int) + 1) ≤ stack_size n ∧
    (∀ line ∈ params_code n 0 arg_registers, ∃ (r : Reg) (j : Nat), j < min n 6 ∧
      line = Line.movq_store r (-(8 * ((j : Int) + 1))) Reg.rbp ∧
      8 * ((j : Int) + 1) ≤ stack_size n) ∧
    (∀ (base : Int) (k : Nat), 1 ≤ k →
      base - stack_size n - 8 * (k : Int) + 8 ≤ base - 8 * ((i : Int) + 1)) := by
  have e := stack_size_eq n hn
  have hb : ∀ j, j < min n 6 → 8 * ((j : Int) + 1) ≤ stack_size n := by
    intro j hj
    rw [e]
    omega
  refine ⟨hb i hi, ?_, ?_⟩
  · intro line hline
    rw [params_code_eq] at hline
    obtain ⟨⟨j, r⟩, hjr, rfl⟩ := List.mem_map.1 hline
    have hj : j ∈ List.range (min n 6) := (List.of_mem_zip hjr).1
    exact ⟨r, j, List.mem_range.1 hj, rfl, hb j (List.mem_range.1 hj)⟩
  · intro base k hk
    have := hb i hi
    omega

theorem parameter_slots_in_frame_witness :
    8 * (((2 : Nat) : Int) + 1) ≤ stack_size 3 ∧
    (∀ line ∈ params_code 3 0 arg_registers, ∃ (r : Reg) (j : Nat), j < min 3 6 ∧
      line = Line.movq_store r (-(8 * ((j : Int) + 1))) Reg.rbp ∧
      8 * ((j : Int) + 1) ≤ stack_size 3) ∧
    (∀ (base : Int) (k : Nat), 1 ≤ k →
      base - stack_size 3 - 8 * (k : Int) + 8 ≤ base - 8 * (((2 : Nat) : Int) + 1)) :=
  parameter_slots_in_frame 3 2 (by decide) (by decide)

/-- With 268435455 parameters `param_count * 8 + 15` leaves the `int` range:
the size computed is `-2147483648`, the offset 8 of the first parameter copy is
not at most it, no `subq` line is emitted, and the six parameter copies store
at `-8(%rbp)` to `-48(%rbp)`, where the five pushes before them have put
`%rbx`, `%r12`, `%r13`, `%r14` and `%r15`. -/
theorem parameter_slot_outside_frame_counterexample :
    stack_size 268435455 = -2147483648 ∧
    0 < min 268435455 6 ∧
    ¬ (8 * (((0 : Nat) : Int) + 1) ≤ stack_size 268435455) ∧
    function_code 0 (.function "f" (List.replicate 268435455 "a") (.block [])) =
      [Line.align_directive 16, Line.label "f", Line.pushq Reg.rbp,
        Line.movq_reg Reg.rsp Reg.rbp,
        Line.pushq Reg.rbx, Line.pushq Reg.r12, Line.pushq Reg.r13, Line.pushq Reg.r14,
        Line.pushq Reg.r15,
        Line.movq_store Reg.rdi (-8) Reg.rbp, Line.movq_store Reg.rsi (-16) Reg.rbp,
        Line.movq_store Reg.rdx (-24) Reg.rbp, Line.movq_store Reg.rcx (-32) Reg.rbp,
        Line.movq_store Reg.r8 (-40) Reg.rbp, Line.movq_store Reg.r9 (-48) Reg.rbp,
        Line.label ".f_return", Line.popq Reg.r15, Line.popq Reg.r14, Line.popq Reg.r13,
        Line.popq Reg.r12, Line.popq Reg.rbx, Line.movq_reg Reg.rbp Reg.rsp,
        Line.popq Reg.rbp, Line.ret, Line.size_directive "f"] := by
  have h1 : stack_size 268435455 = -2147483648 := by decide!
  have h2 : reserve_code 268435455 = [] := by decide!
  have h3 : params_code 268435455 0 arg_registers =
      [Line.movq_store Reg.rdi (-8) Reg.rbp, Line.movq_store Reg.rsi (-16) Reg.rbp,
        Line.movq_store Reg.rdx (-24) Reg.rbp, Line.movq_store Reg.rcx (-32) Reg.rbp,
        Line.movq_store Reg.r8 (-40) Reg.rbp, Line.movq_store Reg.r9 (-48) Reg.rbp] := by
    decide!
  refine ⟨h1, by decide, ?_, ?_⟩
  · rw [h1]
    decide
  · rw [function_code_eq, List.length_replicate, h2, h3]
    rfl

/-! ## Code generator: pushes and pops of expression code -/

theorem prefixOk_append (d : Nat) (a b : List Line) (ha : PrefixOk d a)
    (hb : ∀ k, (b.take k).countP Line.is_pop + a.countP Line.is_pop ≤
      d + a.countP Line.is_push + (b.take k).countP Line.is_push) :
    PrefixOk d (a ++ b) := by
  intro k
  rw [List.take_append_eq_append_take, List.countP_append, List.countP_append]
  by_cases hk : k ≤ a.length
  · have h0 : k - a.length = 0 := by omega
    rw [h0, List.take_zero]
    have := ha k
    simp only [List.countP_nil]
    omega
  · rw [List.take_of_length_le (by omega)]
    have := hb (k - a.length)
    omega

theorem prefixOk_neutral (d : Nat) (c : List Line)
    (hc : ∀ l ∈ c, l.is_pop = false) : PrefixOk d c := by
  intro k
  have h : (c.take k).countP Line.is_pop = 0 := by
    rw [List.countP_eq_zero]
    intro l hl
    simp [hc l (List.mem_of_mem_take hl)]
  omega

theorem operator_code_keeps_rsp (op : Char) : ∀ l ∈ operator_code op, l.keeps_rsp = true := by
  unfold operator_code codegen_binary_operator
  split_ifs <;> simp [codegen_emit, Line.keeps_rsp]

theorem keeps_rsp_not_push (l : Line) (h : l.keeps_rsp = true) :
    l.is_push = false ∧ l.is_pop = false := by
  cases l <;> simp_all [Line.keeps_rsp, Line.is_push, Line.is_pop]

theorem expression_code_binary (op : Char) (l r : ASTNode) :
    expression_code (.binary_op op l r) =
      expression_code r ++ (Line.pushq Reg.rax :: (expression_code l ++
        (Line.popq Reg.rcx :: operator_code op))) := by
  rw [expression_code_binary_op]
  simp only [List.append_assoc, List.singleton_append]
  rfl

theorem exprLines_binary (a b : Nat) (R L : List Line) (op : Char)
    (hR : ExprLines a R) (hL : ExprLines b L) :
    ExprLines (1 + b + a)
      (R ++ (Line.pushq Reg.rax :: (L ++ (Line.popq Reg.rcx :: operator_code op)))) := by
  obtain ⟨r1, r2, r3, r4⟩ := hR
  obtain ⟨l1, l2, l3, l4⟩ := hL
  have hop := operator_code_keeps_rsp op
  have o1 : (operator_code op).countP Line.is_push = 0 := by
    rw [List.countP_eq_zero]
    intro l hl
    simp [(keeps_rsp_not_push l (hop l hl)).1]
  have o2 : (operator_code op).countP Line.is_pop = 0 := by
    rw [List.countP_eq_zero]
    intro l hl
    simp [(keeps_rsp_not_push l (hop l hl)).2]
  refine ⟨?_, ?_, ?_, ?_⟩
  · simp only [List.countP_append, r1, l1, o1, List.countP_cons, List.countP_nil, Line.is_push]
    simp
    omega
  · simp only [List.countP_append, r2, l2, o2, List.countP_cons, List.countP_nil, Line.is_pop]
    simp
    omega
  · refine prefixOk_append 0 R _ r3 (fun k => ?_)
    rw [r1, r2]
    have h1 : PrefixOk 1 (L ++ (Line.popq Reg.rcx :: operator_code op)) := by
      refine prefixOk_append 1 L _ (fun j => le_trans (l3 j) (by omega)) (fun j => ?_)
      rw [l1, l2]
      have h2 : (((Line.popq Reg.rcx :: operator_code op).take j).countP Line.is_pop) ≤ 1 := by
        refine le_trans (List.Sublist.countP_le _ (List.take_sublist j _)) ?_
        simp only [o2, List.countP_cons, Line.is_pop]
        simp
      omega
    have h3 : ∀ j, ((Line.pushq Reg.rax :: (L ++ (Line.popq Reg.rcx :: operator_code op))).take j).countP
        Line.is_pop ≤ ((Line.pushq Reg.rax :: (L ++ (Line.popq Reg.rcx :: operator_code op))).take j).countP
        Line.is_push := by
      intro j
      cases j with
      | zero => simp
      | succ j =>
        have := h1 j
        simp only [List.take_succ_cons, List.countP_cons, Line.is_push, Line.is_pop]
        simp
        omega
    have := h3 k
    omega
  · intro l hl
    simp only [List.mem_append, List.mem_cons] at hl
    rcases hl with hl | hl | hl | hl | hl
    · exact r4 l hl
    · exact Or.inl (by rw [hl]; rfl)
    · exact l4 l hl
    · exact Or.inr (Or.inl hl)
    · exact Or.inr (Or.inr (hop l hl))

theorem exprLines_nil : ExprLines 0 [] :=
  ⟨rfl, rfl, fun k => by simp, fun l hl => by cases hl⟩

theorem exprLines_number (v : Int) : ExprLines 0 [Line.movq_imm v Reg.rax] := by
  refine ⟨rfl, rfl, prefixOk_neutral 0 _ ?_, ?_⟩
  · intro l hl
    rw [List.mem_singleton.1 hl]
    rfl
  · intro l hl
    rw [List.mem_singleton.1 hl]
    exact Or.inr (Or.inr rfl)

theorem expression_code_empty (e : ASTNode) (h : expression_code e = []) :
    ExprLines (lowered_operators e) (expression_code e) := by
  rw [h]
  cases e <;> first | exact exprLines_nil | (exfalso; revert h; simp [expression_code_binary])

/-- The lines of every expression: as many pushes and as many pops as it has
lowered binary nodes, pushes ahead of pops in every prefix. -/
theorem expression_code_lines : ∀ e : ASTNode,
    ExprLines (lowered_operators e) (expression_code e)
  | .number v => by
    rw [expression_code_number]
    exact exprLines_number v
  | .binary_op op l r => by
    rw [expression_code_binary]
    exact exprLines_binary _ _ _ _ op (expression_code_lines r) (expression_code_lines l)
  | .program _ => expression_code_empty _ (by simp [expression_code, codegen_expression, codegen_create])
  | .function _ _ _ => expression_code_empty _ (by simp [expression_code, codegen_expression, codegen_create])
  | .extern_function _ _ => expression_code_empty _ (by simp [expression_code, codegen_expression, codegen_create])
  | .block _ => expression_code_empty _ (by simp [expression_code, codegen_expression, codegen_create])
  | .return_stmt _ => expression_code_empty _ (by simp [expression_code, codegen_expression, codegen_create])
  | .if_stmt _ _ _ => expression_code_empty _ (by simp [expression_code, codegen_expression, codegen_create])
  | .while_stmt _ _ => expression_code_empty _ (by simp [expression_code, codegen_expression, codegen_create])
  | .for_stmt => expression_code_empty _ (by simp [expression_code, codegen_expression, codegen_create])
  | .unary_op _ _ => expression_code_empty _ (by simp [expression_code, codegen_expression, codegen_create])
  | .variable _ => expression_code_empty _ (by simp [expression_code, codegen_expression, codegen_create])
  | .string _ => expression_code_empty _ (by simp [expression_code, codegen_expression, codegen_create])
  | .char_literal _ => expression_code_empty _ (by simp [expression_code, codegen_expression, codegen_create])
  | .call _ _ => expression_code_empty _ (by simp [expression_code, codegen_expression, codegen_create])
  | .assignment => expression_code_empty _ (by simp [expression_code, codegen_expression, codegen_create])

/-- On trees of numbers, variables and binary nodes every binary node is
lowered. -/
theorem lowered_operators_all : ∀ e : ASTNode, operators_only e = true →
    lowered_operators e = count_binary_op e
  | .binary_op op l r, h => by
    simp only [operators_only, Bool.and_eq_true] at h
    simp only [lowered_operators, count_binary_op, lowered_operators_all l h.1,
      lowered_operators_all r h.2]
  | .number _, _ => rfl
  | .variable _, _ => rfl
  | .program _, h => by simp [operators_only] at h
  | .function _ _ _, h => by simp [operators_only] at h
  | .extern_function _ _, h => by simp [operators_only] at h
  | .block _, h => by simp [operators_only] at h
  | .return_stmt _, h => by simp [operators_only] at h
  | .if_stmt _ _ _, h => by simp [operators_only] at h
  | .while_stmt _ _, h => by simp [operators_only] at h
  | .for_stmt, h => by simp [operators_only] at h
  | .unary_op _ _, h => by simp [operators_only] at h
  | .string _, h => by simp [operators_only] at h
  | .char_literal _, h => by simp [operators_only] at h
  | .call _ _, h => by simp [operators_only] at h
  | .assignment, h => by simp [operators_only] at h

/-- One line that is a push, `popq %rcx` or keeps `%rsp`: its effect on
`%rsp`. -/
theorem exec_line_rsp (l : Line) (m m1 : Machine)
    (hl : l.is_push = true ∨ l = Line.popq Reg.rcx ∨ l.keeps_rsp = true)
    (h : exec_line l m = some m1) :
    m1.regs Reg.rsp = m.regs Reg.rsp - 8 * (if l.is_push then 1 else 0) +
      8 * (if l.is_pop then 1 else 0) := by
  rcases hl with hl | hl | hl
  · cases l <;> (try simp only [Line.is_push, Bool.false_eq_true] at hl)
    simp only [exec_line, Option.some.injEq] at h
    subst h
    simp [Machine.push, Machine.store, Line.is_push, Line.is_pop]
  · subst hl
    simp only [exec_line, Option.some.injEq] at h
    subst h
    rw [Machine.set_regs_ne _ _ _ _ (by decide), Machine.set_regs_same]
    simp [Line.is_push, Line.is_pop]
  · cases l <;> simp only [Line.keeps_rsp, bne_iff_ne, ne_eq, Bool.false_eq_true] at hl <;>
      simp only [exec_line] at h
    all_goals first
      | (simp only [Option.some.injEq] at h
         subst h
         simp [Line.is_push, Line.is_pop, Machine.set, Machine.compare, Ne.symm hl])
      | (simp only [Option.some.injEq] at h
         subst h
         simp [Line.is_push, Line.is_pop, Machine.set, Machine.compare])
      | (split_ifs at h
         simp only [Option.some.injEq] at h
         subst h
         simp [Line.is_push, Line.is_pop, Machine.set])

/-- Lines that are pushes, `popq %rcx` or keep `%rsp`: after them `%rsp` is the
entry value, less eight per push, plus eight per pop. -/
theorem exec_lines_rsp : ∀ (lines : List Line) (m m1 : Machine),
    (∀ l ∈ lines, l.is_push = true ∨ l = Line.popq Reg.rcx ∨ l.keeps_rsp = true) →
    exec_lines lines m = some m1 →
    m1.regs Reg.rsp = m.regs Reg.rsp - 8 * (lines.countP Line.is_push : Nat) +
      8 * (lines.countP Line.is_pop : Nat)
  | [], m, m1, _, h => by
    simp only [exec_lines, Option.some.injEq] at h
    subst h
    simp
  | l :: rest, m, m1, hl, h => by
    simp only [exec_lines] at h
    cases h1 : exec_line l m with
    | none => rw [h1] at h; cases h
    | some m2 =>
      rw [h1] at h
      have e1 := exec_line_rsp l m m2 (hl l (List.mem_cons_self _ _)) h1
      have e2 := exec_lines_rsp rest m2 m1 (fun x hx => hl x (List.mem_cons_of_mem _ hx)) h
      rw [e2, e1, List.countP_cons, List.countP_cons]
      cases l.is_push <;> cases l.is_pop <;> simp <;> omega

/-- C33: the lines that `codegen_expression` emits for any tree hold as many
`pushq` as `popq` lines, one of each per binary node reached from the root
through binary nodes only (every binary node when the tree is built of numbers,
variables and binary nodes); no prefix has more pops than pushes; a run of a
prefix never leaves `%rsp` above its entry value and a run of the whole list
leaves it at the entry value; and the five pops of the epilogue of
`codegen_function` are the five pushes of the prologue in reverse order. -/
theorem expression_code_stack_balanced :
    (∀ e : ASTNode,
      (expression_code e).countP Line.is_push = lowered_operators e ∧
      (expression_code e).countP Line.is_pop = lowered_operators e ∧
      (∀ k, ((expression_code e).take k).countP Line.is_pop ≤
        ((expression_code e).take k).countP Line.is_push) ∧
      (∀ k m m1, exec_lines ((expression_code e).take k) m = some m1 →
        m1.regs Reg.rsp ≤ m.regs Reg.rsp) ∧
      (∀ m m1, exec_lines (expression_code e) m = some m1 →
        m1.regs Reg.rsp = m.regs Reg.rsp)) ∧
    (∀ e : ASTNode, operators_only e = true → lowered_operators e = count_binary_op e) ∧
    (∀ (k : Nat) (name : String) (params : List String) (body : ASTNode),
      function_code k (.function name params body) =
        [Line.align_directive 16, Line.label name, Line.pushq Reg.rbp,
          Line.movq_reg Reg.rsp Reg.rbp] ++ reserve_code params.length ++
        [Reg.rbx, Reg.r12, Reg.r13, Reg.r14, Reg.r15].map Line.pushq ++
        params_code params.length 0 arg_registers ++ block_code k body ++
        [Line.label ("." ++ name ++ "_return")] ++
        [Reg.rbx, Reg.r12, Reg.r13, Reg.r14, Reg.r15].reverse.map Line.popq ++
        [Line.movq_reg Reg.rbp Reg.rsp, Line.popq Reg.rbp, Line.ret,
          Line.size_directive name]) := by
  refine ⟨fun e => ?_, lowered_operators_all, fun k name params body => ?_⟩
  · obtain ⟨h1, h2, h3, h4⟩ := expression_code_lines e
    refine ⟨h1, h2, fun k => ?_, fun k m m1 h => ?_, fun m m1 h => ?_⟩
    · have := h3 k
      omega
    · have e1 := exec_lines_rsp _ m m1 (fun l hl => h4 l (List.mem_of_mem_take hl)) h
      have := h3 k
      omega
    · have e1 := exec_lines_rsp _ m m1 h4 h
      omega
  · rw [function_code_eq]
    simp [List.append_assoc]

theorem expression_code_stack_balanced_witness :
    operators_only (.binary_op '+' (.number 1) (.binary_op '*' (.variable "x") (.number 2)))
      = true ∧
    lowered_operators (.binary_op '+' (.number 1) (.binary_op '*' (.variable "x") (.number 2)))
      = count_binary_op
        (.binary_op '+' (.number 1) (.binary_op '*' (.variable "x") (.number 2))) ∧
    ∃ m1, exec_lines (expression_code (.binary_op '+' (.number 1) (.number 2))) Machine.zero
        = some m1 ∧ m1.regs Reg.rsp = Machine.zero.regs Reg.rsp :=
  ⟨rfl, expression_code_stack_balanced.2.1 _ rfl, _, rfl,
    (expression_code_stack_balanced.1 (.binary_op '+' (.number 1) (.number 2))).2.2.2.2
      Machine.zero _ rfl⟩

/-- The tree `-(1 + 2)` as a unary node over a binary node has one binary node,
and `codegen_expression` emits no line for it: no push and no pop. -/
theorem unlowered_binary_counterexample :
    count_binary_op (.unary_op '-' (.binary_op '+' (.number 1) (.number 2))) = 1 ∧
    expression_code (.unary_op '-' (.binary_op '+' (.number 1) (.number 2))) = [] ∧
    (expression_code (.unary_op '-' (.binary_op '+' (.number 1) (.number 2)))).countP
      Line.is_push = 0 ∧
    (expression_code (.unary_op '-' (.binary_op '+' (.number 1) (.number 2)))).countP
      Line.is_pop = 0 :=
  ⟨rfl, rfl, rfl, rfl⟩

/-! ## Parser: termination -/

theorem spec_returns {α : Type} {ts : List Token} {low : Prop}
    {post : α → Parser → List Token → Prop} {x : ParseM (α × Parser)}
    (h : Spec ts low post x) (hl : ¬ low) : x ≠ .error .out_of_fuel := by
  intro hx
  rw [hx] at h
  exact hl h

theorem spec_result {α : Type} {ts : List Token} {low : Prop}
    {post : α → Parser → List Token → Prop} {x : ParseM (α × Parser)}
    (h : Spec ts low post x) (a : α) (q : Parser) (hx : x = .ok (a, q)) :
    ∃ w rest, ts = w ++ rest ∧ q.reads rest ∧ post a q w := by
  rw [hx] at h
  exact h

theorem factor_ne_nil (w : List TokenType) (h : Derives .factor w) : w ≠ [] := by
  cases h <;> simp

theorem expression_ne_nil (w : List TokenType) (h : Derives .expression w) : w ≠ [] := by
  have ht : ∀ t, Derives .term t → t ≠ [] := by
    intro t h1
    cases h1 with
    | term f tail h1 h2 =>
      have := factor_ne_nil f h1
      simp [this]
  have ha : ∀ a, Derives .arithmetic a → a ≠ [] := by
    intro a h1
    cases h1 with
    | arithmetic t tail h1 h2 =>
      have := ht t h1
      simp [this]
  cases h with
  | expression a h => exact ha _ h
  | expression_rel a op b h1 h0 h2 => simp

theorem block_ne_nil (w : List TokenType) (h : Derives .block w) : w ≠ [] := by
  cases h
  simp

theorem map_ne_nil {w : List Token} (h : w.map Token.type ≠ []) : w ≠ [] := by
  intro h0
  rw [h0] at h
  exact h rfl

/-- The state after `parser_create` has the token stream of the source left. -/
theorem parser_after_reads (source : String) :
    (parser_after source 0).reads (token_stream source.data) := by
  obtain ⟨p, e, r, -⟩ := Parser.reads_of_create (lexer_create_cursor_ok source.data)
    (token_stream_lexes source.data)
  have : parser_after source 0 = p := by
    simp only [parser_after, e, ok_bind, parser_advance_times, pure_eq_ok]
  rw [this]
  exact r

/-- C35: `parser_parse_program` returns for every source text, with a Program
node or in `parser_error`. A parsing function started with the tokens `ts` left
returns when its recursion depth is allowed to reach `8 * ts.length + 4`, with
the same result at every greater depth; the depth that `parser_parse_program`
allows is at least that for the tokens of the source, which are at most as many
as its characters. Every call that returns a function, block, statement,
expression or factor has consumed at least one token, a prefix of the tokens
left. On success of the program loop the current token is end-of-input and no
token is left. -/
theorem parser_terminates :
    (∀ source : List Char,
      ((∃ functions, (parser_create (lexer_create source) >>= parser_parse_program) =
          .ok (.program functions)) ∨
        (∃ line column message, (parser_create (lexer_create source) >>= parser_parse_program) =
          .error (.fatal line column message))) ∧
      ∃ p, parser_create (lexer_create source) = .ok p ∧ p.reads (token_stream source) ∧
        (token_stream source).length ≤ source.length ∧
        8 * (token_stream source).length + 4 ≤ parser_fuel p) ∧
    (∀ (n : Nat) (p : Parser) (ts : List Token), p.reads ts → 8 * ts.length + 4 ≤ n →
      (∀ functions, parser_parse_program_loop n functions p ≠ .error .out_of_fuel ∧
        ∀ m, n ≤ m →
          parser_parse_program_loop m functions p = parser_parse_program_loop n functions p) ∧
      parser_parse_function n p ≠ .error .out_of_fuel ∧
      parser_parse_block n p ≠ .error .out_of_fuel ∧
      parser_parse_statement n p ≠ .error .out_of_fuel ∧
      parser_parse_expression n p ≠ .error .out_of_fuel ∧
      parser_parse_factor n p ≠ .error .out_of_fuel) ∧
    (∀ (n : Nat) (p : Parser) (ts : List Token), p.reads ts →
      (∀ a q, parser_parse_function n p = .ok (a, q) →
        ∃ w rest, w ≠ [] ∧ ts = w ++ rest ∧ q.reads rest) ∧
      (∀ a q, parser_parse_block n p = .ok (a, q) →
        ∃ w rest, w ≠ [] ∧ ts = w ++ rest ∧ q.reads rest) ∧
      (∀ a q, parser_parse_statement n p = .ok (a, q) →
        ∃ w rest, w ≠ [] ∧ ts = w ++ rest ∧ q.reads rest) ∧
      (∀ a q, parser_parse_expression n p = .ok (a, q) →
        ∃ w rest, w ≠ [] ∧ ts = w ++ rest ∧ q.reads rest) ∧
      (∀ a q, parser_parse_factor n p = .ok (a, q) →
        ∃ w rest, w ≠ [] ∧ ts = w ++ rest ∧ q.reads rest)) ∧
    (∀ (n : Nat) (functions : List ASTNode) (p : Parser) (ts : List Token), p.reads ts →
      ∀ r q, parser_parse_program_loop n functions p = .ok (r, q) →
        q.current_token.type = TOKEN_EOF ∧ q.reads []) := by
  refine ⟨fun source => ⟨?_, ?_⟩, fun n p ts hp hn => ⟨fun functions => ⟨?_, fun m hm => ?_⟩,
    ?_, ?_, ?_, ?_, ?_⟩, fun n p ts hp => ⟨?_, ?_, ?_, ?_, ?_⟩, fun n functions p ts hp r q hx => ?_⟩
  · by_cases h : ∃ tree, (parser_create (lexer_create source) >>= parser_parse_program) = .ok tree
    · obtain ⟨tree, h⟩ := h
      left
      obtain ⟨p, e, -, -⟩ := Parser.reads_of_create (lexer_create_cursor_ok source)
        (token_stream_lexes source)
      rw [e, ok_bind, parser_parse_program] at h ⊢
      cases hx : parser_parse_program_loop (parser_fuel p) [] p with
      | ok res => exact ⟨res.1, rfl⟩
      | error err =>
        rw [hx] at h
        cases h
    · right
      exact parse_program_fails source fun tree ht => h ⟨tree, ht⟩
  · obtain ⟨p, e, r, hsrc⟩ := Parser.reads_of_create (lexer_create_cursor_ok source)
      (token_stream_lexes source)
    have h1 := (token_stream_lexes source).length_le (lexer_create_cursor_ok source)
    have h2 : (lexer_create source).source.length ≤ source.length :=
      (List.takeWhile_sublist (l := source) (fun c => c != NUL)).length_le
    have h3 : (lexer_create source).position = 0 := rfl
    refine ⟨p, e, r, ?_, ?_⟩
    · omega
    · unfold parser_fuel
      rw [hsrc]
      omega
  · exact spec_returns (program_loop_spec n functions p ts hp) (by omega)
  · exact (program_loop_fuel_mono n m hm functions p
      (spec_returns (program_loop_spec n functions p ts hp) (by omega)))
  · exact spec_returns (function_spec n p ts hp) (by omega)
  · exact spec_returns ((statement_spec n).1 p ts hp) (by omega)
  · exact spec_returns ((statement_spec n).2.2.1 p ts hp) (by omega)
  · exact spec_returns ((expression_spec n).1 p ts hp) (by omega)
  · exact spec_returns ((expression_spec n).2.2.2.2.2 p ts hp) (by omega)
  · intro a q hx
    obtain ⟨w, rest, e, hq, hd⟩ := spec_result (function_spec n p ts hp) a q hx
    exact ⟨w, rest, map_ne_nil (function_ne_nil _ hd), e, hq⟩
  · intro a q hx
    obtain ⟨w, rest, e, hq, hd⟩ := spec_result ((statement_spec n).1 p ts hp) a q hx
    exact ⟨w, rest, map_ne_nil (block_ne_nil _ hd), e, hq⟩
  · intro a q hx
    obtain ⟨w, rest, e, hq, hd⟩ := spec_result ((statement_spec n).2.2.1 p ts hp) a q hx
    exact ⟨w, rest, map_ne_nil (statement_ne_nil _ hd), e, hq⟩
  · intro a q hx
    obtain ⟨w, rest, e, hq, hd⟩ := spec_result ((expression_spec n).1 p ts hp) a q hx
    exact ⟨w, rest, map_ne_nil (expression_ne_nil _ hd), e, hq⟩
  · intro a q hx
    obtain ⟨w, rest, e, hq, hd⟩ := spec_result ((expression_spec n).2.2.2.2.2 p ts hp) a q hx
    exact ⟨w, rest, map_ne_nil (factor_ne_nil _ hd), e, hq⟩
  · obtain ⟨w, rest, e, hq, hd, heof⟩ := spec_result (program_loop_spec n functions p ts hp) r q hx
    obtain rfl := hq.nil_of_eof heof
    exact ⟨heof, hq⟩

theorem parser_terminates_witness :
    (∀ functions, parser_parse_program_loop 76 functions
        (parser_after "int f() \x7b return 1; \x7d" 0) ≠ .error .out_of_fuel ∧
      ∀ m, 76 ≤ m →
        parser_parse_program_loop m functions (parser_after "int f() \x7b return 1; \x7d" 0) =
          parser_parse_program_loop 76 functions
            (parser_after "int f() \x7b return 1; \x7d" 0)) ∧
    parser_parse_function 76 (parser_after "int f() \x7b return 1; \x7d" 0) ≠
      .error .out_of_fuel ∧
    parser_parse_block 76 (parser_after "int f() \x7b return 1; \x7d" 0) ≠
      .error .out_of_fuel ∧
    parser_parse_statement 76 (parser_after "int f() \x7b return 1; \x7d" 0) ≠
      .error .out_of_fuel ∧
    parser_parse_expression 76 (parser_after "int f() \x7b return 1; \x7d" 0) ≠
      .error .out_of_fuel ∧
    parser_parse_factor 76 (parser_after "int f() \x7b return 1; \x7d" 0) ≠
      .error .out_of_fuel :=
  parser_terminates.2.1 76 (parser_after "int f() \x7b return 1; \x7d" 0)
    (token_stream "int f() \x7b return 1; \x7d".data)
    (parser_after_reads "int f() \x7b return 1; \x7d") (by decide!)

/-! ## Code generator: targets of jumps -/

/-- C36 (code at the failing input): for `int f() { return 1; }`, a program of
one function, the output of `codegen_generate` holds the line
`jmp .main_return`, its only jump, and no line `.main_return:`; the label that
the epilogue of `f` defines is `.f_return`. -/
theorem return_jump_target_undefined :
    (parser_create (lexer_create "int f() \x7b return 1; \x7d".data) >>= parser_parse_program) =
      .ok (.program [.function "f" [] (.block [.return_stmt (.number 1)])]) ∧
    (codegen_generate codegen_create
        (.program [.function "f" [] (.block [.return_stmt (.number 1)])])).map
      (fun g => g.output.map Line.text) =
      some ["\t.section .data", "\t.section .bss", "\t.section .text", "\t.global f",
        "\t.type f, @function", "\t.align 16", "f:", "\tpushq %rbp", "\tmovq %rsp, %rbp",
        "\tpushq %rbx", "\tpushq %r12", "\tpushq %r13", "\tpushq %r14", "\tpushq %r15",
        "\tmovq $1, %rax", "\tjmp .main_return", ".f_return:", "\tpopq %r15", "\tpopq %r14",
        "\tpopq %r13", "\tpopq %r12", "\tpopq %rbx", "\tmovq %rbp, %rsp", "\tpopq %rbp",
        "\tret", "\t.size f, .-f", "\t.global _start", "\t.type _start, @function",
        "_start:", "\t# Set up stack frame", "\tmovq %rsp, %rbp",
        "\t# Align stack to 16 bytes", "\tandq $-16, %rsp", "\tcall main", "\t# Exit syscall",
        "\tmovq %rax, %rdi", "\tmovq $60, %rax", "\tsyscall", "\t.size _start, .-_start"] ∧
    (codegen_generate codegen_create
        (.program [.function "f" [] (.block [.return_stmt (.number 1)])])).map
      (fun g => (jump_targets g.output, g.output.count (Line.label ".main_return"),
        g.output.count (Line.label ".f_return"),
        (g.output.map Line.text).count ".main_return:")) =
      some ([".main_return"], 0, 1, 0) := by
  decide!

theorem labelsWithin_mono {k k1 j j1 : Nat} {lines : List Line} (h : LabelsWithin k k1 lines)
    (h1 : j ≤ k) (h2 : k1 ≤ j1) : LabelsWithin j j1 lines := by
  intro line hl
  obtain ⟨a, b⟩ := h line hl
  refine ⟨fun x hx => ?_, fun t ht => ?_⟩
  · obtain ⟨m, m1, m2, m3⟩ := a x hx
    exact ⟨m, by omega, by omega, m3⟩
  · rcases b t ht with b | ⟨m, m1, m2, m3⟩
    · exact Or.inl b
    · exact Or.inr ⟨m, by omega, by omega, m3⟩

theorem labelsWithin_append {k k1 : Nat} {a b : List Line} (ha : LabelsWithin k k1 a)
    (hb : LabelsWithin k k1 b) : LabelsWithin k k1 (a ++ b) := by
  intro line hl
  rcases List.mem_append.1 hl with hl | hl
  · exact ha line hl
  · exact hb line hl

theorem labelsWithin_nil (k k1 : Nat) : LabelsWithin k k1 [] := fun _ h => by cases h

theorem expression_line_plain (line : Line)
    (h : line.is_push = true ∨ line = Line.popq Reg.rcx ∨ line.keeps_rsp = true) :
    (∀ x, line ≠ Line.label x) ∧ line.jump_target = none := by
  cases line <;> simp_all [Line.is_push, Line.keeps_rsp, Line.jump_target]

/-- The code of an expression holds no label and no jump. -/
theorem expression_code_within (e : ASTNode) (k k1 : Nat) :
    LabelsWithin k k1 (expression_code e) := by
  intro line hl
  obtain ⟨-, -, -, h⟩ := expression_code_lines e
  obtain ⟨h1, h2⟩ := expression_line_plain line (h line hl)
  refine ⟨fun x hx => absurd hx (h1 x), fun t ht => ?_⟩
  rw [h2] at ht
  cases ht

theorem labelsWithin_cons {k k1 : Nat} {line : Line} {rest : List Line}
    (h1 : LabelsWithin k k1 [line]) (h2 : LabelsWithin k k1 rest) :
    LabelsWithin k k1 (line :: rest) :=
  labelsWithin_append (a := [line]) h1 h2

theorem labelsWithin_label (k k1 m : Nat) (h1 : k ≤ m) (h2 : m < k1) :
    LabelsWithin k k1 [Line.label (synthesized_label m)] := by
  intro line hl
  rw [List.mem_singleton.1 hl]
  refine ⟨fun x hx => ?_, fun t ht => by cases ht⟩
  exact ⟨m, h1, h2, (Line.label.inj hx).symm⟩

theorem labelsWithin_je (k k1 m : Nat) (h1 : k ≤ m) (h2 : m < k1) :
    LabelsWithin k k1 [Line.je (synthesized_label m)] := by
  intro line hl
  rw [List.mem_singleton.1 hl]
  refine ⟨fun x hx => (by cases hx), fun t ht => Or.inr ?_⟩
  exact ⟨m, h1, h2, (Option.some.inj ht).symm⟩

theorem labelsWithin_jmp (k k1 m : Nat) (h1 : k ≤ m) (h2 : m < k1) :
    LabelsWithin k k1 [Line.jmp (synthesized_label m)] := by
  intro line hl
  rw [List.mem_singleton.1 hl]
  refine ⟨fun x hx => (by cases hx), fun t ht => Or.inr ?_⟩
  exact ⟨m, h1, h2, (Option.some.inj ht).symm⟩

theorem labelsWithin_return_jump (k k1 : Nat) :
    LabelsWithin k k1 [Line.jmp ".main_return"] := by
  intro line hl
  rw [List.mem_singleton.1 hl]
  exact ⟨fun x hx => (by cases hx), fun t ht => Or.inl (Option.some.inj ht).symm⟩

theorem labelsWithin_cmpq_imm (k k1 : Nat) (v : Int) (r : Reg) :
    LabelsWithin k k1 [Line.cmpq_imm v r] := by
  intro line hl
  rw [List.mem_singleton.1 hl]
  exact ⟨fun x hx => (by cases hx), fun t ht => by cases ht⟩

theorem statement_code_within_other (n : ASTNode) (k : Nat)
    (h1 : ∀ e, n ≠ .return_stmt e) (h2 : ∀ c t e, n ≠ .if_stmt c t e)
    (h3 : ∀ c b, n ≠ .while_stmt c b) :
    LabelsWithin k (statement_labels k n) (statement_code k n) := by
  obtain ⟨e1, e2⟩ := statement_code_other n k h1 h2 h3
  rw [e1, e2]
  exact expression_code_within n k k

mutual

/-- Statements: the labels defined are `.L<m>` with `m` one of the numbers
drawn, and the jumps go to such labels or to `.main_return`. -/
theorem statement_code_within : ∀ (n : ASTNode) (k : Nat),
    LabelsWithin k (statement_labels k n) (statement_code k n)
  | .return_stmt e, k => by
    rw [statement_labels_return, statement_code_return]
    exact labelsWithin_append (expression_code_within e k k) (labelsWithin_return_jump k k)
  | .if_stmt c t e, k => by
    have b1 := block_code_within t (k + 2)
    have b2 := else_code_within e (block_labels (k + 2) t)
    have m1 := (block_code_labels t (k + 2)).1
    have m2 := (else_code_labels e (block_labels (k + 2) t)).1
    rw [statement_labels_if, statement_code_if]
    refine labelsWithin_append (labelsWithin_append (labelsWithin_append (labelsWithin_append
      (labelsWithin_append (expression_code_within c _ _) ?_) ?_) ?_) ?_) ?_
    · exact labelsWithin_cons (labelsWithin_cmpq_imm _ _ _ _)
        (labelsWithin_je _ _ k (le_refl _) (by omega))
    · exact labelsWithin_mono b1 (by omega) m2
    · exact labelsWithin_cons (labelsWithin_jmp _ _ (k + 1) (by omega) (by omega))
        (labelsWithin_label _ _ k (le_refl _) (by omega))
    · exact labelsWithin_mono b2 (by omega) (le_refl _)
    · exact labelsWithin_label _ _ (k + 1) (by omega) (by omega)
  | .while_stmt c b, k => by
    have b1 := block_code_within b (k + 2)
    have m1 := (block_code_labels b (k + 2)).1
    rw [statement_labels_while, statement_code_while]
    refine labelsWithin_append (labelsWithin_append (labelsWithin_append (labelsWithin_append
      ?_ (expression_code_within c _ _)) ?_) ?_) ?_
    · exact labelsWithin_label _ _ k (le_refl _) (by omega)
    · exact labelsWithin_cons (labelsWithin_cmpq_imm _ _ _ _)
        (labelsWithin_je _ _ (k + 1) (by omega) (by omega))
    · exact labelsWithin_mono b1 (by omega) (le_refl _)
    · exact labelsWithin_cons (labelsWithin_jmp _ _ k (le_refl _) (by omega))
        (labelsWithin_label _ _ (k + 1) (by omega) (by omega))
  | .program a0, k => statement_code_within_other _ k (by simp) (by simp) (by simp)
  | .function a0 a1 a2, k => statement_code_within_other _ k (by simp) (by simp) (by simp)
  | .extern_function a0 a1, k => statement_code_within_other _ k (by simp) (by simp) (by simp)
  | .block a0, k => statement_code_within_other _ k (by simp) (by simp) (by simp)
  | .for_stmt, k => statement_code_within_other _ k (by simp) (by simp) (by simp)
  | .binary_op a0 a1 a2, k => statement_code_within_other _ k (by simp) (by simp) (by simp)
  | .unary_op a0 a1, k => statement_code_within_other _ k (by simp) (by simp) (by simp)
  | .variable a0, k => statement_code_within_other _ k (by simp) (by simp) (by simp)
  | .number a0, k => statement_code_within_other _ k (by simp) (by simp) (by simp)
  | .string a0, k => statement_code_within_other _ k (by simp) (by simp) (by simp)
  | .char_literal a0, k => statement_code_within_other _ k (by simp) (by simp) (by simp)
  | .call a0 a1, k => statement_code_within_other _ k (by simp) (by simp) (by simp)
  | .assignment, k => statement_code_within_other _ k (by simp) (by simp) (by simp)

/-- The else branch: as for statements. -/
theorem else_code_within : ∀ (n : Option ASTNode) (k : Nat),
    LabelsWithin k (else_labels k n) (else_code k n)
  | none, k => labelsWithin_nil k k
  | some b, k => by
    rw [else_code_some, else_labels_some]
    exact block_code_within b k

/-- Blocks: as for statements. -/
theorem block_code_within : ∀ (n : ASTNode) (k : Nat),
    LabelsWithin k (block_labels k n) (block_code k n)
  | .block ss, k => by
    rw [block_code_block, block_labels_block]
    exact block_loop_code_within ss k
  | .program _, k => labelsWithin_nil k k
  | .function _ _ _, k => labelsWithin_nil k k
  | .extern_function _ _, k => labelsWithin_nil k k
  | .return_stmt _, k => labelsWithin_nil k k
  | .if_stmt _ _ _, k => labelsWithin_nil k k
  | .while_stmt _ _, k => labelsWithin_nil k k
  | .for_stmt, k => labelsWithin_nil k k
  | .binary_op _ _ _, k => labelsWithin_nil k k
  | .unary_op _ _, k => labelsWithin_nil k k
  | .variable _, k => labelsWithin_nil k k
  | .number _, k => labelsWithin_nil k k
  | .string _, k => labelsWithin_nil k k
  | .char_literal _, k => labelsWithin_nil k k
  | .call _ _, k => labelsWithin_nil k k
  | .assignment, k => labelsWithin_nil k k

/-- Statement lists: as for statements. -/
theorem block_loop_code_within : ∀ (ns : List ASTNode) (k : Nat),
    LabelsWithin k (block_loop_labels k ns) (block_loop_code k ns)
  | [], k => labelsWithin_nil k k
  | s :: rest, k => by
    have h1 := statement_code_within s k
    have h2 := block_loop_code_within rest (statement_labels k s)
    have m1 := (statement_code_labels s k).1
    have m2 := (block_loop_code_labels rest (statement_labels k s)).1
    rw [block_loop_code_cons, block_loop_labels_cons]
    exact labelsWithin_append (labelsWithin_mono h1 (le_refl _) m2)
      (labelsWithin_mono h2 m1 (le_refl _))

end

theorem mem_jump_targets (t : String) (lines : List Line) :
    t ∈ jump_targets lines ↔ ∃ line ∈ lines, line.jump_target = some t := by
  simp [jump_targets, List.mem_filterMap]

/-- Lines within a range of synthesized labels define no other label. -/
theorem labelsWithin_count {k k1 : Nat} {lines : List Line} (h : LabelsWithin k k1 lines)
    (x : String) (hx : ∀ m, x ≠ synthesized_label m) :
    List.count (Line.label x) lines = 0 := by
  rw [List.count_eq_zero]
  intro hmem
  obtain ⟨m, -, -, e⟩ := (h _ hmem).1 x rfl
  exact hx m e

theorem main_return_ne_synthesized_label (m : Nat) : ".main_return" ≠ synthesized_label m :=
  return_label_ne_synthesized_label "main" m

theorem identifier_ne_main_return (name : String) (h : is_identifier name = true) :
    name ≠ ".main_return" := by
  intro heq
  subst heq
  revert h
  decide

theorem return_label_eq_main (name : String) :
    "." ++ name ++ "_return" = ".main_return" ↔ name = "main" := by
  constructor
  · intro h
    have hd := congrArg String.data h
    simp only [String.data_append] at hd
    have h1 : ['.'] ++ name.data ++ ['_', 'r', 'e', 't', 'u', 'r', 'n'] =
        ['.'] ++ ['m', 'a', 'i', 'n'] ++ ['_', 'r', 'e', 't', 'u', 'r', 'n'] := hd
    have h2 := List.append_cancel_left (List.append_cancel_right h1)
    exact String.ext h2
  · rintro rfl
    rfl

theorem reserve_code_no_jump (n : Nat) : ∀ line ∈ reserve_code n, line.jump_target = none := by
  unfold reserve_code
  split_ifs <;> simp [Line.jump_target]

theorem params_code_no_jump (n : Nat) :
    ∀ line ∈ params_code n 0 arg_registers, line.jump_target = none := by
  intro line hl
  rw [params_code_eq] at hl
  obtain ⟨⟨j, r⟩, -, rfl⟩ := List.mem_map.1 hl
  rfl

/-- The jumps of the code of a function go to `.main_return` or to a
synthesized label numbered among those drawn for its body. -/
theorem function_code_targets (k : Nat) (name : String) (params : List String)
    (body : ASTNode) :
    ∀ line ∈ function_code k (.function name params body), ∀ t, line.jump_target = some t →
      t = ".main_return" ∨ ∃ m, k ≤ m ∧ m < block_labels k body ∧ t = synthesized_label m := by
  intro line hl t ht
  rw [function_code_eq] at hl
  simp only [List.mem_append, List.mem_cons, List.mem_singleton, List.mem_nil_iff,
    or_false] at hl
  rcases hl with ((((hl | hl) | hl) | hl) | hl) | hl
  · rcases hl with rfl | rfl | rfl | rfl <;> cases ht
  · rw [reserve_code_no_jump _ line hl] at ht
    cases ht
  · rcases hl with rfl | rfl | rfl | rfl | rfl <;> cases ht
  · rw [params_code_no_jump _ line hl] at ht
    cases ht
  · exact (block_code_within body k line hl).2 t ht
  · rcases hl with rfl | rfl | rfl | rfl | rfl | rfl | rfl | rfl | rfl | rfl <;> cases ht

/-- The code of a function named by an identifier defines `.main_return` once if
the function is `main`, and not at all otherwise. -/
theorem function_code_main_return (k : Nat) (name : String) (params : List String)
    (body : ASTNode) (hid : is_identifier name = true) :
    List.count (Line.label ".main_return") (function_code k (.function name params body)) =
      if name = "main" then 1 else 0 := by
  have h1 := identifier_ne_main_return name hid
  have h2 := labelsWithin_count (block_code_within body k) ".main_return"
    main_return_ne_synthesized_label
  rw [function_code_eq]
  simp only [List.count_append, params_code_no_label, reserve_code_no_label, h2,
    List.count_cons, List.count_nil, beq_iff_eq, Line.label.injEq, reduceCtorEq, if_false,
    h1, return_label_eq_main]
  split_ifs <;> rfl

/-- The jumps of the functions of a program go to `.main_return` or to a
synthesized label numbered among those drawn. -/
theorem functions_code_targets : ∀ (fs : List ASTNode) (k : Nat),
    fs.all is_function = true →
    ∀ line ∈ functions_code k fs, ∀ t, line.jump_target = some t →
      t = ".main_return" ∨
        ∃ m, k ≤ m ∧ m < functions_labels k fs ∧ t = synthesized_label m
  | [], k, _ => fun line hl => by cases hl
  | f :: rest, k, h => by
    simp only [List.all_cons, Bool.and_eq_true] at h
    obtain ⟨e1, -⟩ := function_code_labels f k h.1
    obtain ⟨e2, -⟩ := functions_code_labels rest (function_labels k f) h.2
    have ih := functions_code_targets rest (function_labels k f) h.2
    intro line hl t ht
    rw [functions_code_cons] at hl
    rw [functions_labels_cons]
    rcases List.mem_append.1 hl with hl | hl
    · cases f with
      | function name params body =>
        rcases function_code_targets k name params body line hl t ht with h1 | ⟨m, m1, m2, m3⟩
        · exact Or.inl h1
        · rw [← function_labels_eq k name params body] at m2
          exact Or.inr ⟨m, m1, by omega, m3⟩
      | _ => simp [is_function] at h
    · rcases ih line hl t ht with h1 | ⟨m, m1, m2, m3⟩
      · exact Or.inl h1
      · exact Or.inr ⟨m, by omega, m2, m3⟩

/-- The functions of a program define `.main_return` once per function named
`main`. -/
theorem functions_code_main_return : ∀ (fs : List ASTNode) (k : Nat),
    fs.all is_function = true →
    List.count (Line.label ".main_return") (functions_code k fs) =
      (fs.filterMap ASTNode.function_name).count "main"
  | [], k, _ => rfl
  | f :: rest, k, h => by
    simp only [List.all_cons, Bool.and_eq_true] at h
    have ih := functions_code_main_return rest (function_labels k f) h.2
    rw [functions_code_cons, List.count_append, ih]
    cases f with
    | function name params body =>
      simp only [is_function, Bool.and_eq_true] at h
      rw [function_code_main_return k name params body h.1.1]
      have hf : (ASTNode.function name params body :: rest).filterMap ASTNode.function_name =
          name :: rest.filterMap ASTNode.function_name := rfl
      rw [hf, List.count_cons]
      simp only [beq_iff_eq]
      omega
    | _ => simp [is_function] at h

theorem declarations_code_no_jump : ∀ names : List String,
    ∀ line ∈ declarations_code names, line.jump_target = none
  | [] => fun line hl => by
    simp [declarations_code, codegen_declarations] at hl
  | name :: rest => fun line hl => by
    rw [declarations_code_cons] at hl
    rcases List.mem_append.1 hl with hl | hl
    · simp only [List.mem_cons, List.mem_singleton, List.mem_nil_iff, or_false] at hl
      rcases hl with rfl | rfl <;> rfl
    · exact declarations_code_no_jump rest line hl

theorem entry_point_code_eq : entry_point_code =
    [.global_directive "_start", .type_directive "_start", .label "_start",
     .comment "Set up stack frame", .movq_reg .rsp .rbp,
     .comment "Align stack to 16 bytes", .andq_imm (-16) .rsp, .call "main",
     .comment "Exit syscall", .movq_reg .rax .rdi, .movq_imm 60 .rax, .syscall,
     .size_directive "_start"] := by
  decide

/-- Jump targets of the output of `codegen_generate`. For a program of function
nodes named by identifiers whose bodies are blocks, every target of a `jmp` or
`je` line other than `.main_return` is defined by exactly one label line; the
label `.main_return` is defined once per function named `main`; so when the
function names are pairwise distinct and one of them is `main`, every target is
defined by exactly one label line. -/
theorem jump_targets_defined (fs : List ASTNode) (hp : fs.all is_function = true) :
    ∃ g, codegen_generate codegen_create (.program fs) = some g ∧
      (∀ t ∈ jump_targets g.output, t ≠ ".main_return" →
        g.output.count (Line.label t) = 1) ∧
      g.output.count (Line.label ".main_return") =
        (fs.filterMap ASTNode.function_name).count "main" ∧
      ((fs.filterMap ASTNode.function_name).Nodup →
        "main" ∈ fs.filterMap ASTNode.function_name →
        ∀ t ∈ jump_targets g.output, g.output.count (Line.label t) = 1) := by
  obtain ⟨names, hn⟩ := is_function_name fs hp
  obtain ⟨e1, c1⟩ := functions_code_labels fs 0 hp
  have hentry : ∀ x, x ≠ "_start" → List.count (Line.label x) entry_point_code = 0 := by
    intro x hx
    rw [entry_point_code_eq]
    simp [List.count_cons, Ne.symm hx]
  have hcount : ∀ x, x ≠ "_start" →
      List.count (Line.label x)
        (codegen_create.output ++
          ([Line.section_directive ".data", Line.section_directive ".bss",
            Line.section_directive ".text"] ++ declarations_code names ++
            functions_code codegen_create.label_count fs ++ entry_point_code)) =
      List.count (Line.label x) (functions_code 0 fs) := by
    intro x hx
    simp only [codegen_create, List.nil_append, List.count_append, declarations_code_no_label,
      hentry x hx, List.count_cons, List.count_nil, beq_iff_eq, reduceCtorEq, if_false]
    omega
  have htargets : ∀ t,
      t ∈ jump_targets (codegen_create.output ++
          ([Line.section_directive ".data", Line.section_directive ".bss",
            Line.section_directive ".text"] ++ declarations_code names ++
            functions_code codegen_create.label_count fs ++ entry_point_code)) →
      t = ".main_return" ∨ ∃ m, m < functions_labels 0 fs ∧ t = synthesized_label m := by
    intro t ht
    obtain ⟨line, hl, hj⟩ := (mem_jump_targets t _).1 ht
    simp only [codegen_create, List.nil_append, List.mem_append, List.mem_cons,
      List.mem_singleton, List.mem_nil_iff, or_false] at hl
    rcases hl with ((hl | hl) | hl) | hl
    · rcases hl with rfl | rfl | rfl <;> cases hj
    · rw [declarations_code_no_jump names line hl] at hj
      cases hj
    · rcases functions_code_targets fs 0 hp line hl t hj with h1 | ⟨m, -, m2, m3⟩
      · exact Or.inl h1
      · exact Or.inr ⟨m, m2, m3⟩
    · rw [entry_point_code_eq] at hl
      simp only [List.mem_cons, List.mem_singleton, List.mem_nil_iff, or_false] at hl
      rcases hl with rfl | rfl | rfl | rfl | rfl | rfl | rfl | rfl | rfl | rfl | rfl | rfl | rfl <;>
        cases hj
  have hdefined : ∀ t,
      t ∈ jump_targets (codegen_create.output ++
          ([Line.section_directive ".data", Line.section_directive ".bss",
            Line.section_directive ".text"] ++ declarations_code names ++
            functions_code codegen_create.label_count fs ++ entry_point_code)) →
      t ≠ ".main_return" →
      List.count (Line.label t)
        (codegen_create.output ++
          ([Line.section_directive ".data", Line.section_directive ".bss",
            Line.section_directive ".text"] ++ declarations_code names ++
            functions_code codegen_create.label_count fs ++ entry_point_code)) = 1 := by
    intro t ht hne
    rcases htargets t ht with h1 | ⟨m, m2, rfl⟩
    · exact absurd h1 hne
    · rw [hcount _ (Ne.symm (identifier_ne_synthesized_label "_start" (by decide) m)), c1 m,
        if_pos ⟨Nat.zero_le _, m2⟩]
  have hmain : List.count (Line.label ".main_return")
        (codegen_create.output ++
          ([Line.section_directive ".data", Line.section_directive ".bss",
            Line.section_directive ".text"] ++ declarations_code names ++
            functions_code codegen_create.label_count fs ++ entry_point_code)) =
      (fs.filterMap ASTNode.function_name).count "main" := by
    rw [hcount _ (by decide), functions_code_main_return fs 0 hp]
  refine ⟨_, codegen_generate_eq codegen_create fs names hn, hdefined, hmain, ?_⟩
  intro hnodup hmem t ht
  by_cases hne : t = ".main_return"
  · rw [hne]
    exact hmain.trans (List.count_eq_one_of_mem hnodup hmem)
  · exact hdefined t ht hne

/-! ## Lexer: no access outside the buffer, no counter beyond `int` -/

theorem lexer_advance_checked_ok (l : Lexer) (hok : l.cursor_ok) (hr : l.in_range)
    (h0 : l.current_char ≠ NUL) :
    lexer_advance_checked l = .ok (lexer_advance l) ∧ (lexer_advance l).in_range := by
  have hlt := hok.lt l h0
  obtain ⟨r1, r2, r3⟩ := hr
  constructor
  · rw [lexer_advance_checked, if_neg h0]
    have c1 : ¬ INT_MAX < (if l.current_char = '\n' then l.line else l.column) + 1 := by
      split_ifs <;> omega
    rw [if_neg c1, if_neg (by omega), if_neg (by omega)]
  · refine ⟨r1, ?_, ?_⟩
    · show (if l.current_char = '\n' then l.line + 1 else l.line) +
        (l.source.length - (l.position + 1)) ≤ INT_MAX
      split_ifs <;> omega
    · show (if l.current_char = '\n' then 1 else l.column + 1) +
        (l.source.length - (l.position + 1)) ≤ INT_MAX
      split_ifs <;> omega

theorem lexer_peek_checked_ok (l : Lexer) (hok : l.cursor_ok) (hr : l.in_range)
    (h0 : l.current_char ≠ NUL) :
    lexer_peek_checked l = .ok (lexer_peek l) := by
  have hlt := hok.lt l h0
  have r1 := hr.1
  rw [lexer_peek_checked, if_neg (by omega), if_neg (by omega)]

theorem except_ok_bind {ε α β : Type} (a : α) (f : α → Except ε β) :
    (Except.ok a : Except ε α).bind f = f a := rfl

theorem lexer_skip_whitespace_loop_checked_ok : ∀ (fuel : Nat) (l r : Lexer),
    l.cursor_ok → l.in_range → lexer_skip_whitespace_loop fuel l = some r →
    lexer_skip_whitespace_loop_checked fuel l = .ok r ∧ r.in_range
  | 0, _, _, _, _, h => by cases h
  | fuel + 1, l, r, hok, hr, h => by
    rw [lexer_skip_whitespace_loop] at h
    rw [lexer_skip_whitespace_loop_checked]
    split_ifs at h ⊢ with hc
    · obtain ⟨e, hr1⟩ := lexer_advance_checked_ok l hok hr hc.1
      rw [e, except_ok_bind]
      exact lexer_skip_whitespace_loop_checked_ok fuel _ r
        (lexer_advance_cursor_ok l hok hc.1) hr1 h
    · cases h
      exact ⟨rfl, hr⟩

theorem lexer_skip_line_comment_loop_checked_ok : ∀ (fuel : Nat) (l r : Lexer),
    l.cursor_ok → l.in_range → lexer_skip_line_comment_loop fuel l = some r →
    lexer_skip_line_comment_loop_checked fuel l = .ok r ∧ r.in_range
  | 0, _, _, _, _, h => by cases h
  | fuel + 1, l, r, hok, hr, h => by
    rw [lexer_skip_line_comment_loop] at h
    rw [lexer_skip_line_comment_loop_checked]
    split_ifs at h ⊢ with hc
    · obtain ⟨e, hr1⟩ := lexer_advance_checked_ok l hok hr hc.1
      rw [e, except_ok_bind]
      exact lexer_skip_line_comment_loop_checked_ok fuel _ r
        (lexer_advance_cursor_ok l hok hc.1) hr1 h
    · cases h
      exact ⟨rfl, hr⟩

theorem lexer_advance_twice_checked_ok (l : Lexer) (hok : l.cursor_ok) (hr : l.in_range)
    (h0 : l.current_char ≠ NUL) (h1 : lexer_peek l ≠ NUL) :
    (lexer_advance_checked l).bind lexer_advance_checked =
      .ok (lexer_advance (lexer_advance l)) ∧
    (lexer_advance (lexer_advance l)).cursor_ok ∧
    (lexer_advance (lexer_advance l)).in_range := by
  obtain ⟨e, hr1⟩ := lexer_advance_checked_ok l hok hr h0
  have hok1 := lexer_advance_cursor_ok l hok h0
  obtain ⟨e2, hr2⟩ := lexer_advance_checked_ok _ hok1 hr1 h1
  rw [e, except_ok_bind]
  exact ⟨e2, lexer_advance_cursor_ok _ hok1 h1, hr2⟩

theorem lexer_skip_block_comment_loop_checked_ok : ∀ (fuel : Nat) (l r : Lexer),
    l.cursor_ok → l.in_range → lexer_skip_block_comment_loop fuel l = some r →
    lexer_skip_block_comment_loop_checked fuel l = .ok r ∧ r.in_range
  | 0, _, _, _, _, h => by cases h
  | fuel + 1, l, r, hok, hr, h => by
    rw [lexer_skip_block_comment_loop] at h
    rw [lexer_skip_block_comment_loop_checked]
    by_cases h0 : l.current_char = NUL
    · rw [if_pos h0] at h ⊢
      cases h
      exact ⟨rfl, hr⟩
    rw [if_neg h0] at h ⊢
    obtain ⟨e, hr1⟩ := lexer_advance_checked_ok l hok hr h0
    have hok1 := lexer_advance_cursor_ok l hok h0
    by_cases h1 : l.current_char = '*'
    · rw [if_pos h1, lexer_peek_checked_ok l hok hr h0, except_ok_bind]
      by_cases h2 : lexer_peek l = '/'
      · rw [if_pos ⟨h1, h2⟩] at h
        rw [if_pos h2]
        cases h
        obtain ⟨e2, -, hr2⟩ := lexer_advance_twice_checked_ok l hok hr h0 (by rw [h2]; decide)
        exact ⟨e2, hr2⟩
      · rw [if_neg (fun hc => h2 hc.2)] at h
        rw [if_neg h2, e, except_ok_bind]
        exact lexer_skip_block_comment_loop_checked_ok fuel _ r hok1 hr1 h
    · rw [if_neg (fun hc => h1 hc.1)] at h
      rw [if_neg h1, e, except_ok_bind]
      exact lexer_skip_block_comment_loop_checked_ok fuel _ r hok1 hr1 h

theorem lexer_skip_comment_checked_ok (l r : Lexer) (hok : l.cursor_ok) (hr : l.in_range)
    (h : lexer_skip_comment l = some r) :
    lexer_skip_comment_checked l = .ok r ∧ r.in_range := by
  rw [lexer_skip_comment] at h
  rw [lexer_skip_comment_checked]
  by_cases h1 : l.current_char = '/'
  · have h0 : l.current_char ≠ NUL := by rw [h1]; decide
    rw [if_pos h1, lexer_peek_checked_ok l hok hr h0, except_ok_bind]
    by_cases h2 : lexer_peek l = '/'
    · rw [if_pos ⟨h1, h2⟩] at h
      rw [if_pos h2]
      exact lexer_skip_line_comment_loop_checked_ok _ l r hok hr h
    · rw [if_neg (fun hc => h2 hc.2)] at h
      rw [if_neg h2, except_ok_bind]
      by_cases h3 : lexer_peek l = '*'
      · have hp : lexer_peek l ≠ NUL := by rw [h3]; decide
        rw [if_pos ⟨h1, h3⟩] at h
        obtain ⟨e, hr1⟩ := lexer_advance_checked_ok l hok hr h0
        have hok1 := lexer_advance_cursor_ok l hok h0
        obtain ⟨e2, hr2⟩ := lexer_advance_checked_ok _ hok1 hr1 hp
        rw [if_pos h3, e, except_ok_bind, e2, except_ok_bind]
        exact lexer_skip_block_comment_loop_checked_ok _ _ r
          (lexer_advance_cursor_ok _ hok1 hp) hr2 h
      · rw [if_neg (fun hc => h3 hc.2)] at h
        rw [if_neg h3]
        cases h
        exact ⟨rfl, hr⟩
  · rw [if_neg (fun hc => h1 hc.1), if_neg (fun hc => h1 hc.1)] at h
    rw [if_neg h1]
    cases h
    exact ⟨rfl, hr⟩

theorem lexer_make_number_loop_checked_ok : ∀ (fuel : Nat) (buffer : List Char) (l : Lexer)
    (r : List Char × Lexer), l.cursor_ok → l.in_range →
    lexer_make_number_loop fuel buffer l = some r →
    lexer_make_number_loop_checked fuel buffer l = .ok r ∧ r.2.in_range
  | 0, _, _, _, _, _, h => by cases h
  | fuel + 1, buffer, l, r, hok, hr, h => by
    rw [lexer_make_number_loop] at h
    rw [lexer_make_number_loop_checked]
    by_cases hc : l.current_char ≠ NUL ∧ isdigit l.current_char = true
    · rw [if_pos hc] at h ⊢
      obtain ⟨e, hr1⟩ := lexer_advance_checked_ok l hok hr hc.1
      rw [e, except_ok_bind]
      exact lexer_make_number_loop_checked_ok fuel _ _ r
        (lexer_advance_cursor_ok l hok hc.1) hr1 h
    · rw [if_neg hc] at h ⊢
      cases h
      exact ⟨rfl, hr⟩

theorem lexer_make_identifier_loop_checked_ok : ∀ (fuel : Nat) (buffer : List Char)
    (l : Lexer) (r : List Char × Lexer), l.cursor_ok → l.in_range →
    lexer_make_identifier_loop fuel buffer l = some r →
    lexer_make_identifier_loop_checked fuel buffer l = .ok r ∧ r.2.in_range
  | 0, _, _, _, _, _, h => by cases h
  | fuel + 1, buffer, l, r, hok, hr, h => by
    rw [lexer_make_identifier_loop] at h
    rw [lexer_make_identifier_loop_checked]
    by_cases hc : l.current_char ≠ NUL ∧ (isalnum l.current_char = true ∨ l.current_char = '_')
    · rw [if_pos hc] at h ⊢
      obtain ⟨e, hr1⟩ := lexer_advance_checked_ok l hok hr hc.1
      rw [e, except_ok_bind]
      exact lexer_make_identifier_loop_checked_ok fuel _ _ r
        (lexer_advance_cursor_ok l hok hc.1) hr1 h
    · rw [if_neg hc] at h ⊢
      cases h
      exact ⟨rfl, hr⟩

theorem lexer_at_comment_checked_ok (l : Lexer) (hok : l.cursor_ok) (hr : l.in_range)
    (h0 : l.current_char ≠ NUL) :
    lexer_at_comment_checked l =
      .ok (decide (l.current_char = '/' ∧ (lexer_peek l = '/' ∨ lexer_peek l = '*'))) := by
  rw [lexer_at_comment_checked]
  by_cases h1 : l.current_char = '/'
  · rw [if_pos h1, lexer_peek_checked_ok l hok hr h0, except_ok_bind]
    by_cases h2 : lexer_peek l = '/'
    · simp [h1, h2]
    · simp [h1, h2, except_ok_bind]
  · simp [h1]

theorem except_ok_map {ε α β : Type} (a : α) (f : α → β) :
    (Except.ok a : Except ε α).map f = .ok (f a) := rfl

theorem lexer_operator_checked_ok (current : Char) (line column : Nat) (l : Lexer)
    (hok : l.cursor_ok) (hr : l.in_range) :
    lexer_operator_checked current line column l =
      .ok (lexer_operator current line column l) ∧
    (lexer_operator current line column l).2.in_range := by
  constructor
  · by_cases h0 : l.current_char = NUL
    · have e1 : ¬ l.current_char = '=' := by rw [h0]; decide
      have e2 : ¬ l.current_char = '&' := by rw [h0]; decide
      have e3 : ¬ l.current_char = '|' := by rw [h0]; decide
      simp only [lexer_operator_checked, lexer_operator, e1, e2, e3, if_false, and_false,
        apply_ite (Except.ok (ε := LexFault))]
    · simp only [lexer_operator_checked, lexer_operator,
        (lexer_advance_checked_ok l hok hr h0).1, except_ok_map,
        apply_ite (Except.ok (ε := LexFault))]
  · rcases lexer_operator_state current line column l with h | ⟨h, hc⟩
    · rw [h]
      exact hr
    · rw [h]
      refine (lexer_advance_checked_ok l hok hr ?_).2
      rcases hc with h | h | h <;> rw [h] <;> decide

/-- Under the cursor invariant, with room in the counters, the checked loop of
`lexer_next_token` returns what the loop returns: no check fails. -/
theorem lexer_next_token_loop_checked_ok : ∀ (fuel : Nat) (l : Lexer) (r : Token × Lexer),
    l.cursor_ok → l.in_range → lexer_next_token_loop fuel l = some r →
    lexer_next_token_loop_checked fuel l = .ok r ∧ r.2.in_range
  | 0, _, _, _, _, h => by cases h
  | fuel + 1, l, r, hok, hr, h => by
    rw [lexer_next_token_loop] at h
    rw [lexer_next_token_loop_checked]
    by_cases h0 : l.current_char = NUL
    · rw [if_pos h0] at h ⊢
      cases h
      exact ⟨rfl, hr⟩
    rw [if_neg h0] at h ⊢
    by_cases h1 : isspace l.current_char = true
    · rw [if_pos h1] at h ⊢
      obtain ⟨l1, e1, f1, -⟩ := lexer_skip_whitespace_total l hok h0 h1
      obtain ⟨e2, hr1⟩ := lexer_skip_whitespace_loop_checked_ok _ l l1 hok hr e1
      rw [e1, Option.some_bind] at h
      rw [lexer_skip_whitespace_checked, e2, except_ok_bind]
      exact lexer_next_token_loop_checked_ok fuel l1 r f1.1 hr1 h
    rw [if_neg h1] at h ⊢
    rw [lexer_at_comment_checked_ok l hok hr h0, except_ok_bind]
    by_cases h2 : l.current_char = '/' ∧ (lexer_peek l = '/' ∨ lexer_peek l = '*')
    · rw [if_pos h2] at h
      rw [if_pos (decide_eq_true h2)]
      obtain ⟨l1, e1, f1, -⟩ := lexer_skip_comment_total l hok h2
      obtain ⟨e2, hr1⟩ := lexer_skip_comment_checked_ok l l1 hok hr e1
      rw [e1, Option.some_bind] at h
      rw [e2, except_ok_bind]
      exact lexer_next_token_loop_checked_ok fuel l1 r f1.1 hr1 h
    rw [if_neg h2] at h
    rw [if_neg (by rw [decide_eq_false h2]; exact Bool.false_ne_true)]
    by_cases h3 : isdigit l.current_char = true
    · rw [if_pos h3] at h ⊢
      rw [lexer_make_number] at h
      rw [lexer_make_number_checked]
      cases h4 : lexer_make_number_loop (lexer_fuel l) [] l with
      | none => rw [h4] at h; cases h
      | some r1 =>
        rw [h4] at h
        obtain ⟨e2, hr1⟩ := lexer_make_number_loop_checked_ok _ _ l r1 hok hr h4
        rw [e2, except_ok_map]
        cases h
        exact ⟨rfl, hr1⟩
    rw [if_neg h3] at h ⊢
    by_cases h4 : isalpha l.current_char = true ∨ l.current_char = '_'
    · rw [if_pos h4] at h ⊢
      rw [lexer_make_identifier] at h
      rw [lexer_make_identifier_checked]
      cases h5 : lexer_make_identifier_loop (lexer_fuel l) [] l with
      | none => rw [h5] at h; cases h
      | some r1 =>
        rw [h5] at h
        obtain ⟨e2, hr1⟩ := lexer_make_identifier_loop_checked_ok _ _ l r1 hok hr h5
        rw [e2, except_ok_map]
        cases h
        exact ⟨rfl, hr1⟩
    rw [if_neg h4] at h ⊢
    obtain ⟨e, hr1⟩ := lexer_advance_checked_ok l hok hr h0
    rw [e, except_ok_bind]
    cases h
    exact lexer_operator_checked_ok _ _ _ _ (lexer_advance_cursor_ok l hok h0) hr1

/-- One checked call of `lexer_next_token` from a state with the cursor
invariant and room in the counters: it returns what the call returns, in such a
state, with the same source. -/
theorem lexer_next_token_checked_ok (l : Lexer) (hok : l.cursor_ok) (hr : l.in_range) :
    ∃ t l1, lexer_next_token_checked l = .ok (t, l1) ∧ lexer_next_token l = some (t, l1) ∧
      l1.follows l ∧ l1.in_range ∧
      ((t.type = TOKEN_EOF ∧ l1.current_char = NUL) ∨
       (t.type ≠ TOKEN_EOF ∧ l.position < l1.position)) := by
  obtain ⟨t, l1, e1, f1, c1⟩ := lexer_next_token_total l hok
  obtain ⟨e2, hr1⟩ := lexer_next_token_loop_checked_ok _ l (t, l1) hok hr e1
  exact ⟨t, l1, e2, e1, f1, hr1, c1⟩

theorem lexer_next_token_checked_times_ok : ∀ (k : Nat) (l : Lexer), l.cursor_ok →
    l.in_range →
    ∃ l1, lexer_next_token_checked_times k l = .ok l1 ∧ l1.follows l ∧ l1.in_range
  | 0, l, hok, hr => ⟨l, rfl, Lexer.follows_refl l hok, hr⟩
  | k + 1, l, hok, hr => by
    obtain ⟨t, l1, e1, -, f1, hr1, -⟩ := lexer_next_token_checked_ok l hok hr
    obtain ⟨l2, e2, f2, hr2⟩ := lexer_next_token_checked_times_ok k l1 f1.1 hr1
    refine ⟨l2, ?_, f2.after f1, hr2⟩
    rw [lexer_next_token_checked_times, e1, except_ok_bind]
    exact e2

theorem lexer_next_token_checked_again_ok (l : Lexer) (hok : l.cursor_ok) (hr : l.in_range) :
    ∀ (n : Nat) (r : Token × Lexer),
      lexer_next_token_again n (lexer_next_token l) = some r →
      lexer_next_token_checked_again n (lexer_next_token_checked l) = .ok r ∧
        r.2.cursor_ok ∧ r.2.in_range ∧ r.2.source = l.source
  | 0, r, h => by
    obtain ⟨t, l1, e1, e2, f1, hr1, -⟩ := lexer_next_token_checked_ok l hok hr
    have h1 : lexer_next_token l = some r := h
    rw [e2] at h1
    cases h1
    exact ⟨e1, f1.1, hr1, f1.2.1⟩
  | n + 1, r, h => by
    rw [lexer_next_token_again, Function.iterate_succ_apply'] at h
    rw [lexer_next_token_checked_again, Function.iterate_succ_apply']
    cases h0 : Nat.iterate (fun r => r.bind fun tl => lexer_next_token tl.2) n
        (lexer_next_token l) with
    | none => rw [h0] at h; cases h
    | some r0 =>
      rw [h0] at h
      obtain ⟨e0, ok0, hr0, s0⟩ := lexer_next_token_checked_again_ok l hok hr n r0 h0
      rw [lexer_next_token_checked_again] at e0
      rw [e0, except_ok_bind]
      obtain ⟨t, l1, e1, e2, f1, hr1, -⟩ := lexer_next_token_checked_ok r0.2 ok0 hr0
      have h1 : lexer_next_token r0.2 = some r := h
      rw [e2] at h1
      cases h1
      exact ⟨e1, f1.1, hr1, f1.2.1.trans s0⟩

theorem lexer_create_in_range (source : List Char)
    (h : (source.takeWhile (fun c => c != NUL)).length < INT_MAX) :
    (lexer_create source).in_range := by
  have h1 : (lexer_create source).source = source.takeWhile (fun c => c != NUL) := rfl
  have h2 : (lexer_create source).position = 0 := rfl
  have h3 : (lexer_create source).line = 1 := rfl
  have h4 : (lexer_create source).column = 1 := rfl
  refine ⟨?_, ?_, ?_⟩
  · rw [h1]; omega
  · rw [h1, h2, h3]; omega
  · rw [h1, h2, h4]; omega

theorem lexer_tokens_checked_ok : ∀ (n : Nat) (l : Lexer), l.cursor_ok → l.in_range →
    l.source.length - l.position < n →
    lexer_tokens_checked n l = .ok (lexer_tokens n l)
  | 0, _, _, _, h => absurd h (Nat.not_lt_zero _)
  | n + 1, l, hok, hr, h => by
    obtain ⟨t, l1, e1, e2, f1, hr1, c1⟩ := lexer_next_token_checked_ok l hok hr
    rw [lexer_tokens_checked, lexer_tokens, e1, e2, except_ok_bind]
    rcases c1 with c1 | c1
    · simp only [c1.1, if_true]
    · simp only [c1.1, if_false]
      have hle := f1.1.2
      rw [f1.2.1] at hle
      rw [lexer_tokens_checked_ok n l1 f1.1 hr1 (by rw [f1.2.1]; omega), except_ok_map]

/-! ## Lexer: texts on which a counter leaves `int` -/

theorem except_error_bind {ε α β : Type} (e : ε) (f : α → Except ε β) :
    (Except.error e : Except ε α).bind f = .error e := rfl

theorem alternating_length (a : Char) (n : Nat) : (alternating a n).length = n := by
  simp [alternating]

theorem alternating_getD (a : Char) (n i : Nat) (h : i < n) :
    (alternating a n).getD i NUL = if i % 2 = 0 then a else '\n' := by
  simp [alternating, List.getD_eq_getElem?_getD, List.getElem?_map, List.getElem?_range h]

theorem alternating_mem (a : Char) (n : Nat) : ∀ c ∈ alternating a n, c = a ∨ c = '\n' := by
  intro c hc
  obtain ⟨i, -, rfl⟩ := List.mem_map.1 hc
  split_ifs
  · exact Or.inl rfl
  · exact Or.inr rfl

/-- On a text of `INT_MAX + 1` characters that alternates a blank with a
newline, the checked loop of `lexer_skip_whitespace` stops at the last character:
`position++` leaves `int` there, and no other check fails before. -/
theorem lexer_skip_whitespace_position_overflow (a : Char) (ha : isspace a = true)
    (hn : a ≠ '\n') : ∀ (fuel : Nat) (l : Lexer),
    l.source = alternating a (INT_MAX + 1) → l.position ≤ INT_MAX →
    l.current_char = l.char_at l.position → l.column = 1 + l.position % 2 →
    l.line = 1 + l.position / 2 → INT_MAX - l.position < fuel →
    lexer_skip_whitespace_loop_checked fuel l = .error .position_overflow
  | 0, _, _, _, _, _, _, h => absurd h (Nat.not_lt_zero _)
  | fuel + 1, l, hs, hp, hc, hcol, hline, hf => by
    have hlen : l.source.length = INT_MAX + 1 := by rw [hs, alternating_length]
    have hcur : l.current_char = if l.position % 2 = 0 then a else '\n' := by
      rw [hc, Lexer.char_at, hs, alternating_getD a _ _ (by omega)]
    have hsp : isspace l.current_char = true := by
      rw [hcur]
      split_ifs
      · exact ha
      · decide
    have h0 : l.current_char ≠ NUL := isspace_ne _ hsp
    have hnl : l.current_char = '\n' ↔ l.position % 2 = 1 := by
      rw [hcur]
      split_ifs with h2
      · exact ⟨fun h => absurd h hn, fun h => by omega⟩
      · exact ⟨fun _ => by omega, fun _ => rfl⟩
    have hmax : INT_MAX = 2147483647 := rfl
    rw [lexer_skip_whitespace_loop_checked, if_pos ⟨h0, hsp⟩, lexer_advance_checked, if_neg h0]
    have c1 : ¬ INT_MAX < (if l.current_char = '\n' then l.line else l.column) + 1 := by
      split_ifs <;> omega
    rw [if_neg c1]
    by_cases hlast : l.position = INT_MAX
    · rw [if_pos (by omega)]
      rfl
    · rw [if_neg (by omega), if_neg (by omega), except_ok_bind]
      refine lexer_skip_whitespace_position_overflow a ha hn fuel (lexer_advance l) hs ?_ rfl
        ?_ ?_ ?_
      · show l.position + 1 ≤ INT_MAX
        omega
      · show (if l.current_char = '\n' then 1 else l.column + 1) = 1 + (l.position + 1) % 2
        by_cases h3 : l.position % 2 = 1
        · rw [if_pos (hnl.2 h3)]
          omega
        · rw [if_neg (fun h => h3 (hnl.1 h))]
          omega
      · show (if l.current_char = '\n' then l.line + 1 else l.line) = 1 + (l.position + 1) / 2
        by_cases h3 : l.position % 2 = 1
        · rw [if_pos (hnl.2 h3)]
          omega
        · rw [if_neg (fun h => h3 (hnl.1 h))]
          omega
      · show INT_MAX - (l.position + 1) < fuel
        omega

/-- The first checked call of `lexer_next_token` on a text of `INT_MAX + 1`
characters that alternates a blank with a newline stops where `position++`
leaves `int`. -/
theorem lexer_next_token_position_overflow (a : Char) (ha : isspace a = true)
    (hn : a ≠ '\n') :
    lexer_next_token_checked (lexer_create (alternating a (INT_MAX + 1))) =
      .error .position_overflow := by
  have hnul : ∀ c ∈ alternating a (INT_MAX + 1), c ≠ NUL := by
    intro c hc
    rcases alternating_mem a _ c hc with rfl | rfl
    · exact isspace_ne _ ha
    · decide
  have hsrc : (lexer_create (alternating a (INT_MAX + 1))).source =
      alternating a (INT_MAX + 1) := by
    rw [lexer_create_at _ hnul]
    exact List.nil_append _
  have hpos : (lexer_create (alternating a (INT_MAX + 1))).position = 0 := rfl
  have hline : (lexer_create (alternating a (INT_MAX + 1))).line = 1 := rfl
  have hcolumn : (lexer_create (alternating a (INT_MAX + 1))).column = 1 := rfl
  have hok := lexer_create_cursor_ok (alternating a (INT_MAX + 1))
  have hlen : (lexer_create (alternating a (INT_MAX + 1))).source.length = INT_MAX + 1 := by
    rw [hsrc, alternating_length]
  have hcur : (lexer_create (alternating a (INT_MAX + 1))).current_char = a := by
    rw [hok.1, Lexer.char_at, hsrc, hpos, alternating_getD a _ _ (Nat.succ_pos _)]
    rfl
  have hw : lexer_skip_whitespace_checked (lexer_create (alternating a (INT_MAX + 1))) =
      .error .position_overflow :=
    lexer_skip_whitespace_position_overflow a ha hn _ _ hsrc (by rw [hpos]; exact Nat.zero_le _)
      hok.1 (by rw [hpos, hcolumn]) (by rw [hpos, hline])
      (by unfold lexer_fuel; rw [hlen, hpos]; omega)
  have hfuel : lexer_fuel (lexer_create (alternating a (INT_MAX + 1))) = INT_MAX + 2 + 1 := by
    unfold lexer_fuel
    rw [hlen, hpos]
    omega
  rw [lexer_next_token_checked, hfuel, lexer_next_token_loop_checked,
    if_neg (by rw [hcur]; exact isspace_ne _ ha), if_pos (by rw [hcur]; exact ha), hw]
  rfl

/-- On a line of `INT_MAX` blanks the checked loop of `lexer_skip_whitespace`
stops at the last blank: `column++` leaves `int` there. -/
theorem lexer_skip_whitespace_column_overflow (a : Char) (ha : isspace a = true)
    (hn : a ≠ '\n') : ∀ (fuel : Nat) (l : Lexer),
    l.source = List.replicate INT_MAX a → l.position < INT_MAX →
    l.current_char = l.char_at l.position → l.column = l.position + 1 →
    INT_MAX - l.position ≤ fuel →
    lexer_skip_whitespace_loop_checked fuel l = .error .counter_overflow
  | 0, _, _, hp, _, _, h => by omega
  | fuel + 1, l, hs, hp, hc, hcol, hf => by
    have hlen : l.source.length = INT_MAX := by rw [hs, List.length_replicate]
    have hcur : l.current_char = a := by
      rw [hc, Lexer.char_at, hs, List.getD_eq_getElem?_getD,
        List.getElem?_replicate_of_lt hp]
      rfl
    have h0 : l.current_char ≠ NUL := by rw [hcur]; exact isspace_ne _ ha
    have c0 : (if l.current_char = '\n' then l.line else l.column) = l.column :=
      if_neg (by rw [hcur]; exact hn)
    rw [lexer_skip_whitespace_loop_checked, if_pos ⟨h0, by rw [hcur]; exact ha⟩,
      lexer_advance_checked, if_neg h0, c0]
    by_cases hlast : l.position + 1 = INT_MAX
    · rw [if_pos (by omega)]
      rfl
    · rw [if_neg (by omega), if_neg (by omega), if_neg (by omega), except_ok_bind]
      refine lexer_skip_whitespace_column_overflow a ha hn fuel (lexer_advance l) hs ?_ rfl
        ?_ ?_
      · show l.position + 1 < INT_MAX
        omega
      · show (if l.current_char = '\n' then 1 else l.column + 1) = l.position + 1 + 1
        rw [if_neg (by rw [hcur]; exact hn), hcol]
      · show INT_MAX - (l.position + 1) ≤ fuel
        omega

/-- The first checked call of `lexer_next_token` on a line of `INT_MAX` blanks
stops where `column++` leaves `int`. -/
theorem lexer_next_token_column_overflow (a : Char) (ha : isspace a = true)
    (hn : a ≠ '\n') :
    lexer_next_token_checked (lexer_create (List.replicate INT_MAX a)) =
      .error .counter_overflow := by
  have ha0 := isspace_ne _ ha
  have hnul : ∀ c ∈ List.replicate INT_MAX a, c ≠ NUL := by
    intro c hc
    rw [List.eq_of_mem_replicate hc]
    exact ha0
  have hsrc : (lexer_create (List.replicate INT_MAX a)).source = List.replicate INT_MAX a := by
    rw [lexer_create_at _ hnul]
    exact List.nil_append _
  have hpos : (lexer_create (List.replicate INT_MAX a)).position = 0 := rfl
  have hcolumn : (lexer_create (List.replicate INT_MAX a)).column = 1 := rfl
  have hok := lexer_create_cursor_ok (List.replicate INT_MAX a)
  have hlen : (lexer_create (List.replicate INT_MAX a)).source.length = INT_MAX := by
    rw [hsrc, List.length_replicate]
  have hmax : 0 < INT_MAX := by decide
  have hcur : (lexer_create (List.replicate INT_MAX a)).current_char = a := by
    rw [hok.1, Lexer.char_at, hsrc, hpos, List.getD_eq_getElem?_getD,
      List.getElem?_replicate_of_lt hmax]
    rfl
  have hw : lexer_skip_whitespace_checked (lexer_create (List.replicate INT_MAX a)) =
      .error .counter_overflow :=
    lexer_skip_whitespace_column_overflow a ha hn _ _ hsrc (by rw [hpos]; exact hmax)
      hok.1 (by rw [hpos, hcolumn]) (by unfold lexer_fuel; rw [hlen, hpos]; omega)
  have hfuel : lexer_fuel (lexer_create (List.replicate INT_MAX a)) = INT_MAX + 1 + 1 := by
    unfold lexer_fuel
    rw [hlen, hpos]
    omega
  rw [lexer_next_token_checked, hfuel, lexer_next_token_loop_checked,
    if_neg (by rw [hcur]; exact ha0), if_pos (by rw [hcur]; exact ha), hw]
  rfl

theorem lexer_create_alternating (a : Char) (ha : isspace a = true) :
    (∀ c ∈ alternating a (INT_MAX + 1), c ≠ NUL) ∧
    (alternating a (INT_MAX + 1)).length = 2147483648 ∧
    (lexer_create (alternating a (INT_MAX + 1))).current_char = a := by
  have hnul : ∀ c ∈ alternating a (INT_MAX + 1), c ≠ NUL := by
    intro c hc
    rcases alternating_mem a _ c hc with rfl | rfl
    · exact isspace_ne _ ha
    · decide
  have hsrc : (lexer_create (alternating a (INT_MAX + 1))).source =
      alternating a (INT_MAX + 1) := by
    rw [lexer_create_at _ hnul]
    exact List.nil_append _
  have hpos : (lexer_create (alternating a (INT_MAX + 1))).position = 0 := rfl
  have hok := lexer_create_cursor_ok (alternating a (INT_MAX + 1))
  refine ⟨hnul, by rw [alternating_length]; rfl, ?_⟩
  rw [hok.1, Lexer.char_at, hsrc, hpos, alternating_getD a _ _ (Nat.succ_pos _)]
  rfl

/-! ## Lexer: cursor safety, progress and token positions within `int` -/

/-- C31: cursor safety of the lexer on sources shorter than `INT_MAX`. The state
that `lexer_create` makes has the cursor invariant `position ≤ n` and
`current_char = source[position]`. From a state with the invariant whose
counters have room for the rest of the source, a call of `lexer_next_token` in
which every `lexer_advance` is checked not to be at the terminating NUL, every
increment of `line`, `column` and `position` is checked to stay within `int` and
every index read by `lexer_advance` and `lexer_peek` is checked to be at most `n`
returns what the unchecked call returns, in such a state again, with the same
source. So for a source without NUL, of length `n < INT_MAX`, every number of
calls returns and leaves `position ≤ n` and `current_char = source[position]`. -/
theorem lexer_cursor_safe :
    (∀ source : List Char, (lexer_create source).position ≤ (lexer_create source).source.length ∧
      (lexer_create source).current_char =
        (lexer_create source).char_at (lexer_create source).position) ∧
    (∀ l : Lexer, l.position ≤ l.source.length → l.current_char = l.char_at l.position →
      l.source.length ≤ INT_MAX → l.line + (l.source.length - l.position) ≤ INT_MAX →
      l.column + (l.source.length - l.position) ≤ INT_MAX →
      ∃ t l1, lexer_next_token_checked l = .ok (t, l1) ∧ lexer_next_token l = some (t, l1) ∧
        l1.source = l.source ∧ l1.position ≤ l1.source.length ∧
        l1.current_char = l1.char_at l1.position ∧
        l1.line + (l1.source.length - l1.position) ≤ INT_MAX ∧
        l1.column + (l1.source.length - l1.position) ≤ INT_MAX) ∧
    (∀ source : List Char, (∀ c ∈ source, c ≠ NUL) → source.length < INT_MAX → ∀ k : Nat,
      ∃ l1, lexer_next_token_checked_times k (lexer_create source) = .ok l1 ∧
        l1.source = source ∧ l1.position ≤ source.length ∧
        l1.current_char = source.getD l1.position NUL ∧
        l1.line ≤ INT_MAX ∧ l1.column ≤ INT_MAX) ∧
    (∀ l l1 : Lexer, lexer_advance_checked l = .ok l1 →
      l.current_char ≠ NUL ∧ l.position + 1 ≤ l.source.length ∧ l.position + 1 ≤ INT_MAX ∧
        (if l.current_char = '\n' then l.line else l.column) + 1 ≤ INT_MAX ∧
        l1 = lexer_advance l) ∧
    (∀ (l : Lexer) (c : Char), lexer_peek_checked l = .ok c →
      l.position + 1 ≤ l.source.length ∧ l.position + 1 ≤ INT_MAX ∧ c = lexer_peek l) := by
  refine ⟨fun source => ?_, fun l h1 h2 r1 r2 r3 => ?_, fun source hs hlen k => ?_,
    fun l l1 h => ?_, fun l c h => ?_⟩
  · exact ⟨(lexer_create_cursor_ok source).2, (lexer_create_cursor_ok source).1⟩
  · obtain ⟨t, l1, e1, e2, f1, hr1, -⟩ := lexer_next_token_checked_ok l ⟨h2, h1⟩ ⟨r1, r2, r3⟩
    exact ⟨t, l1, e1, e2, f1.2.1, f1.1.2, f1.1.1, hr1.2.1, hr1.2.2⟩
  · have hsrc : (lexer_create source).source = source := by
      rw [lexer_create_at source hs]
      exact List.nil_append _
    have hr : (lexer_create source).in_range := by
      refine lexer_create_in_range source ?_
      have h1 : (lexer_create source).source = source.takeWhile (fun c => c != NUL) := rfl
      rw [← h1, hsrc]
      exact hlen
    obtain ⟨l1, e1, f1, hr1⟩ := lexer_next_token_checked_times_ok k (lexer_create source)
      (lexer_create_cursor_ok source) hr
    have h1 := f1.1.1
    have h2 := f1.1.2
    rw [Lexer.char_at, f1.2.1, hsrc] at h1
    rw [f1.2.1, hsrc] at h2
    have h3 := hr1.2.1
    have h4 := hr1.2.2
    exact ⟨l1, e1, f1.2.1.trans hsrc, h2, h1, by omega, by omega⟩
  · unfold lexer_advance_checked at h
    by_cases c1 : l.current_char = NUL
    · rw [if_pos c1] at h
      cases h
    rw [if_neg c1] at h
    by_cases c2 : INT_MAX < (if l.current_char = '\n' then l.line else l.column) + 1
    · rw [if_pos c2] at h
      cases h
    rw [if_neg c2] at h
    by_cases c3 : INT_MAX < l.position + 1
    · rw [if_pos c3] at h
      cases h
    rw [if_neg c3] at h
    by_cases c4 : l.source.length < l.position + 1
    · rw [if_pos c4] at h
      cases h
    rw [if_neg c4] at h
    exact ⟨c1, by omega, by omega, by omega, (Except.ok.inj h).symm⟩
  · unfold lexer_peek_checked at h
    split_ifs at h with c1 c2
    exact ⟨by omega, by omega, (Except.ok.inj h).symm⟩

theorem lexer_cursor_safe_witness :
    ∃ l1, lexer_next_token_checked_times 4 (lexer_create "a/*b*/ <= 7".data) = .ok l1 ∧
      l1.source = "a/*b*/ <= 7".data ∧ l1.position ≤ "a/*b*/ <= 7".data.length ∧
      l1.current_char = "a/*b*/ <= 7".data.getD l1.position NUL ∧
      l1.line ≤ INT_MAX ∧ l1.column ≤ INT_MAX :=
  lexer_cursor_safe.2.2.1 "a/*b*/ <= 7".data (by decide) (by decide) 4

/-- On the source of `2147483648` characters that alternates a space with a
newline, which has no NUL, the first call of `lexer_next_token` reaches the last
character with `position = INT_MAX`, and the `position++` of `lexer_advance`
leaves `int` there: the cursor does not stay within `0 ≤ position ≤ n`. -/
theorem cursor_overflow_counterexample :
    (∀ c ∈ alternating ' ' (INT_MAX + 1), c ≠ NUL) ∧
    (alternating ' ' (INT_MAX + 1)).length = 2147483648 ∧
    lexer_next_token_checked (lexer_create (alternating ' ' (INT_MAX + 1))) =
      .error .position_overflow :=
  ⟨(lexer_create_alternating ' ' (by decide)).1, (lexer_create_alternating ' ' (by decide)).2.1,
    lexer_next_token_position_overflow ' ' (by decide) (by decide)⟩

/-- C32: from a state with the cursor invariant whose current character is not
NUL and whose counters have room for the rest of the source, one call of
`lexer_next_token`, with every increment checked to stay within `int`, returns
and leaves the cursor strictly further, within the source; hence for a source
shorter than `INT_MAX` the calls collect the token stream and reach
end-of-input, and the tokens before it are at most as many as the characters. -/
theorem lexer_progress :
    (∀ l : Lexer, l.cursor_ok → l.in_range → l.current_char ≠ NUL →
      ∃ t l1, lexer_next_token_checked l = .ok (t, l1) ∧ lexer_next_token l = some (t, l1) ∧
        l.position < l1.position ∧ l1.position ≤ l1.source.length ∧ l1.source = l.source ∧
        l1.cursor_ok ∧ l1.in_range) ∧
    (∀ l : Lexer, l.cursor_ok → l.in_range →
      ∃ t l1, lexer_next_token_checked l = .ok (t, l1)) ∧
    (∀ source : List Char, source.length < INT_MAX →
      lexer_tokens_checked (source.length + 1) (lexer_create source) =
        .ok (token_stream source) ∧
      LexesTo (lexer_create source) (token_stream source) ∧
      (token_stream source).length ≤ source.length) := by
  refine ⟨?_, ?_, ?_⟩
  · intro l hok hr h0
    obtain ⟨t, l1, e1, e2, f, hr1, c⟩ := lexer_next_token_checked_ok l hok hr
    refine ⟨t, l1, e1, e2, ?_, f.1.2, f.2.1, f.1, hr1⟩
    rcases c with ⟨-, hnul⟩ | ⟨-, hlt⟩
    · rcases Nat.lt_or_ge l.position l1.position with h | h
      · exact h
      · have hp : l1.position = l.position := le_antisymm h f.2.2
        have h1 := f.1.1
        rw [hp, Lexer.char_at, f.2.1] at h1
        exact absurd (hnul.symm.trans (h1.trans hok.1.symm)).symm h0
    · exact hlt
  · intro l hok hr
    obtain ⟨t, l1, e, -, -⟩ := lexer_next_token_checked_ok l hok hr
    exact ⟨t, l1, e⟩
  · intro source hlen
    have h := (token_stream_lexes source).length_le (lexer_create_cursor_ok source)
    have h2 : (lexer_create source).source.length ≤ source.length :=
      (List.takeWhile_sublist (l := source) (fun c => c != NUL)).length_le
    have h3 : (lexer_create source).position = 0 := rfl
    have h4 : (lexer_create source).source = source.takeWhile (fun c => c != NUL) := rfl
    refine ⟨?_, token_stream_lexes source, by omega⟩
    exact lexer_tokens_checked_ok _ _ (lexer_create_cursor_ok source)
      (lexer_create_in_range source (by rw [← h4]; omega)) (by omega)

theorem lexer_progress_witness :
    ∃ t l1, lexer_next_token_checked (lexer_at ['x'] [' ', '/', '/', 'c'] 1 2) = .ok (t, l1) ∧
      lexer_next_token (lexer_at ['x'] [' ', '/', '/', 'c'] 1 2) = some (t, l1) ∧
      (lexer_at ['x'] [' ', '/', '/', 'c'] 1 2).position < l1.position ∧
      l1.position ≤ l1.source.length ∧
      l1.source = (lexer_at ['x'] [' ', '/', '/', 'c'] 1 2).source ∧ l1.cursor_ok ∧
      l1.in_range :=
  lexer_progress.1 (lexer_at ['x'] [' ', '/', '/', 'c'] 1 2) ⟨by decide, by decide⟩
    ⟨by decide, by decide, by decide⟩ (by decide)

/-- On the source of `2147483648` characters that alternates a tab with a
newline, the state that `lexer_create` makes has a current character that is not
NUL, and the call of `lexer_next_token` from it does not return with a larger
position: it reaches `position = INT_MAX`, where `position++` leaves `int`. -/
theorem progress_overflow_counterexample :
    (∀ c ∈ alternating '\t' (INT_MAX + 1), c ≠ NUL) ∧
    (alternating '\t' (INT_MAX + 1)).length = 2147483648 ∧
    (lexer_create (alternating '\t' (INT_MAX + 1))).current_char ≠ NUL ∧
    lexer_next_token_checked (lexer_create (alternating '\t' (INT_MAX + 1))) =
      .error .position_overflow := by
  obtain ⟨h1, h2, h3⟩ := lexer_create_alternating '\t' (by decide)
  refine ⟨h1, h2, ?_, lexer_next_token_position_overflow '\t' (by decide) (by decide)⟩
  rw [h3]
  decide

/-- C17: on a source shorter than `INT_MAX`, every call of the lexer, with
every increment of `line`, `column` and `position` checked to stay within `int`,
returns a token, and the token stands at an offset of the text: its line is one
plus the number of newlines before the offset and its column one plus the
number of characters between the last newline before the offset, or the start
of the text, and the offset, every character counting one; the offset of the
EOF token is the end of the text, that of another token the place of its first
character. -/
theorem token_position_invariant (source : List Char) (n : Nat)
    (hlen : source.length < INT_MAX) :
    ∃ t l1 off,
      lexer_next_token_checked_again n (lexer_next_token_checked (lexer_create source)) =
        .ok (t, l1) ∧
      lexer_next_token_again n (lexer_next_token (lexer_create source)) = some (t, l1) ∧
      Token.StandsAt (source.takeWhile (fun c => c != NUL)) t l1 off ∧
      t.line = 1 + (l1.source.take off).count '\n' ∧
      t.column = 1 + ((l1.source.take off).reverse.takeWhile (fun c => c != '\n')).length ∧
      t.line ≤ INT_MAX ∧ t.column ≤ INT_MAX := by
  obtain ⟨t, l1, off, h, hoff⟩ :=
    again_stands_at _ n [] _ rfl (takeWhile_not_nul_mem source)
  rw [← lexer_create_moved] at h
  have h2 : (source.takeWhile (fun c => c != NUL)).length ≤ source.length :=
    (List.takeWhile_sublist (l := source) (fun c => c != NUL)).length_le
  have hr : (lexer_create source).in_range := lexer_create_in_range source (by omega)
  have e := (lexer_next_token_checked_again_ok _ (lexer_create_cursor_ok source) hr n _ h).1
  have hl : t.line = 1 + (l1.source.take off).count '\n' := by
    rw [hoff.2.2.1, hoff.1, position_after_start]
  have hc : t.column =
      1 + ((l1.source.take off).reverse.takeWhile (fun c => c != '\n')).length := by
    rw [hoff.2.2.2.1, hoff.1, position_after_start]
  have b1 : (l1.source.take off).count '\n' ≤ off :=
    le_trans (List.count_le_length _ _) (List.length_take_le _ _)
  have b2 : ((l1.source.take off).reverse.takeWhile (fun c => c != '\n')).length ≤ off := by
    refine le_trans (List.takeWhile_sublist (fun c => c != '\n')).length_le ?_
    rw [List.length_reverse]
    exact List.length_take_le _ _
  have hoff1 : Token.StandsAt (source.takeWhile (fun c => c != NUL)) t l1 off := hoff
  have b3 := hoff1.2.1
  exact ⟨t, l1, off, e, h, hoff1, hl, hc, by omega, by omega⟩

theorem token_position_invariant_witness :
    ∃ t l1 off,
      lexer_next_token_checked_again 1
          (lexer_next_token_checked (lexer_create "ab\n  c".data)) = .ok (t, l1) ∧
      lexer_next_token_again 1 (lexer_next_token (lexer_create "ab\n  c".data)) =
        some (t, l1) ∧
      Token.StandsAt ("ab\n  c".data.takeWhile (fun c => c != NUL)) t l1 off ∧
      t.line = 1 + (l1.source.take off).count '\n' ∧
      t.column = 1 + ((l1.source.take off).reverse.takeWhile (fun c => c != '\n')).length ∧
      t.line ≤ INT_MAX ∧ t.column ≤ INT_MAX :=
  token_position_invariant "ab\n  c".data 1 (by decide)

/-- On the source of `2147483647` spaces, which has no NUL and no newline, the
only token is the EOF token at offset `2147483647`, and the column one plus the
number of characters before that offset is `2147483648`, which no `int` holds:
the call of `lexer_next_token` reaches the last space with `column = INT_MAX`,
and the `column++` of `lexer_advance` leaves `int` there. -/
theorem token_column_overflow_counterexample :
    (∀ c ∈ List.replicate INT_MAX ' ', c ≠ NUL) ∧
    (List.replicate INT_MAX ' ').length = 2147483647 ∧
    1 + (((List.replicate INT_MAX ' ').take INT_MAX).reverse.takeWhile
      (fun c => c != '\n')).length = 2147483648 ∧
    lexer_next_token_checked (lexer_create (List.replicate INT_MAX ' ')) =
      .error .counter_overflow := by
  refine ⟨?_, ?_, ?_, lexer_next_token_column_overflow ' ' (by decide) (by decide)⟩
  · intro c hc
    rw [List.eq_of_mem_replicate hc]
    decide
  · rw [List.length_replicate]
    rfl
  · have h1 : (List.replicate INT_MAX ' ').take INT_MAX = List.replicate INT_MAX ' ' := by
      rw [List.take_replicate, Nat.min_self]
    have h2 : (List.replicate INT_MAX ' ').takeWhile (fun c => c != '\n') =
        List.replicate INT_MAX ' ' := by
      rw [List.takeWhile_eq_self_iff]
      intro c hc
      rw [List.eq_of_mem_replicate hc]
      decide
    rw [h1, List.reverse_replicate, h2, List.length_replicate]
    rfl

end OpenCC
